import Mathlib

/-!
# Strawberry podcast feed parser (`src/podcasts/podcastparser.cpp`)

A shallow embedding of `PodcastParser` and theorems about it.

* `QString` values are Lean `String`s; substring, prefix and suffix tests are
  written over the character list `String.data`.
* `QXmlStreamReader` is a cursor (`Reader`) over a finite list of tokens: the
  current token and the tokens not read yet. Reading past the last token gives
  `Invalid`, and `Invalid` is kept once reached.
* The loops that read one token per iteration (`readElementText`,
  `ConsumeCurrentElement`, `ParseUntilElement`) are total functions by
  recursion on the unread tokens. The loops that call other parsers
  (`ParseChannel`, `ParseItem`, `ParseImage`, `ParseItunesOwner`,
  `ParseOutline`, `Load`) take a fuel argument and return `none` when it runs
  out; `Load` supplies `tokens.length + 2`.
* What belongs to Qt or to files that are not in the source tree (`QUrl`, the
  RFC 822 date helper, the wall clock) is a parameter, `Env`. The clock is read
  through a counter that is passed along with the reader.
* C++ `int` arithmetic is `Int` arithmetic reduced to 32 bits by `wrapInt`.
-/

namespace PodcastParser

/-! ## QString operations -/

/-- `QString::isEmpty`. -/
def isEmpty (s : String) : Bool :=
  s.data.isEmpty

/-- `QString::startsWith(prefix)`, case-sensitive. -/
def startsWith (s pre : String) : Bool :=
  pre.data.isPrefixOf s.data

/-- Case-sensitive search of a needle in a character list. -/
def containsChars (needle : List Char) : List Char → Bool
  | [] => needle.isPrefixOf []
  | c :: cs => needle.isPrefixOf (c :: cs) || containsChars needle cs

/-- `QString::contains(needle)`, case-sensitive. -/
def contains (s needle : String) : Bool :=
  containsChars needle.data s.data

/-- `QString::toLower`, on the ASCII letters; the constants the parser compares
lower-cased text with are ASCII and contain no letter that another character
folds to. -/
def toLower (s : String) : String :=
  ⟨s.data.map Char.toLower⟩

/-- `QString::endsWith(suffix, Qt::CaseInsensitive)`. -/
def endsWithCaseInsensitive (s suffix : String) : Bool :=
  (toLower suffix).data.reverse.isPrefixOf (toLower s).data.reverse

/-! ## Format detection -/

/-- The list built by the constructor `PodcastParser::PodcastParser`. -/
def supported_mime_types : List String :=
  ["application/rss+xml", "application/xml", "text/x-opml", "text/xml"]

/-- `PodcastParser::SupportsContentType`. -/
def SupportsContentType (content_type : String) : Bool :=
  if isEmpty content_type then true
  else supported_mime_types.any (fun mime_type => contains content_type mime_type)

/-- The class `\w` of `QRegularExpression` without the Unicode-properties
option: ASCII letters, ASCII digits and the underscore. -/
def isWordChar (c : Char) : Bool :=
  c.isAlphanum || c == '_'

/-- The assertion `\b` taken directly after a word character: the text ends
there or goes on with a character outside `\w`. -/
def wordBoundaryAfter : List Char → Bool
  | [] => true
  | c :: _ => !isWordChar c

/-- A match of the pattern `lit\b` starting at the head of the text, for a
literal `lit` that ends in a word character. -/
def matchesHere (lit : List Char) (s : List Char) : Bool :=
  lit.isPrefixOf s && wordBoundaryAfter (s.drop lit.length)

/-- `QString::contains(QRegularExpression(lit + "\\b"))`: a match at some
position of the text. -/
def containsRegex (lit : List Char) : List Char → Bool
  | [] => matchesHere lit []
  | c :: cs => matchesHere lit (c :: cs) || containsRegex lit cs

/-- `PodcastParser::TryMagic`; the decoder `QString::fromUtf8` is a parameter. -/
def TryMagic (fromUtf8 : List UInt8 → String) (data : List UInt8) : Bool :=
  let str := fromUtf8 data
  containsRegex "<rss".data str.data || containsRegex "<opml".data str.data

/-- A decoder that reads every byte as the character of that code; it agrees
with UTF-8 on ASCII input. -/
def asciiDecode (data : List UInt8) : String :=
  ⟨data.map (fun b => Char.ofNat b.toNat)⟩

/-! ## Text helpers of `QString` used by the item parser -/

/-- `QString::split(sep)` with the default `KeepEmptyParts`: the text between
consecutive separators, so a text without separator gives one part and the
empty text gives one empty part. -/
def split (sep : Char) : List Char → List (List Char)
  | [] => [[]]
  | c :: cs =>
    if c = sep then [] :: split sep cs
    else
      match split sep cs with
      | [] => [[c]]
      | part :: parts => (c :: part) :: parts

/-- `QChar::isSpace`: the ASCII white space, NEL, and the Unicode separators. -/
def isSpace (c : Char) : Bool :=
  let n := c.toNat
  n = 0x20 || (0x09 ≤ n && n ≤ 0x0d) || n = 0x85 || n = 0xa0 || n = 0x1680
    || (0x2000 ≤ n && n ≤ 0x200a) || n = 0x2028 || n = 0x2029 || n = 0x202f
    || n = 0x205f || n = 0x3000

/-- `QString::trimmed` on a character list. -/
def trimmed (s : List Char) : List Char :=
  ((s.dropWhile isSpace).reverse.dropWhile isSpace).reverse

/-- Value of a run of decimal digits read left to right from `acc`; `none` when
a character is not an ASCII digit. -/
def digitsValue (acc : Nat) : List Char → Option Nat
  | [] => some acc
  | c :: cs => if c.isDigit then digitsValue (acc * 10 + (c.toNat - 48)) cs else none

/-- The integer written by an optional sign and at least one decimal digit. -/
def parseInteger : List Char → Option Int
  | [] => none
  | '-' :: ds => if ds.isEmpty then none else (digitsValue 0 ds).map (fun n => -(n : Int))
  | '+' :: ds => if ds.isEmpty then none else (digitsValue 0 ds).map (fun n => (n : Int))
  | ds => (digitsValue 0 ds).map (fun n => (n : Int))

/-- `QString::toInt()` in base 10: surrounding white space is dropped, and the
result is 0 when the text is not an integer or the integer does not fit a
32-bit `int`. -/
def toInt (s : List Char) : Int :=
  match parseInteger (trimmed s) with
  | some z => if -2147483648 ≤ z ∧ z ≤ 2147483647 then z else 0
  | none => 0

/-- A value of C++ `int` arithmetic, reduced to the 32-bit two's-complement range. -/
def wrapInt (z : Int) : Int :=
  (z + 2147483648) % 4294967296 - 2147483648

/-! ## The token cursor (`QXmlStreamReader`) -/

/-- Tokens of `QXmlStreamReader`, with the data the parser reads from them. -/
inductive Token where
  | NoToken
  | Invalid
  | StartDocument
  | EndDocument
  | StartElement (name namespaceUri : String) (attributes : List (String × String))
  | EndElement (name : String)
  | Characters (text : String)
  | Comment
  | DTD
  | EntityReference (text : String)
  | ProcessingInstruction
deriving DecidableEq, Repr

/-- The condition `QXmlStreamReader::atEnd` tests on the current token: the
document has ended or an error was raised. -/
def Token.atEnd : Token → Bool
  | .Invalid => true
  | .EndDocument => true
  | _ => false

/-- The cursor: the current token and the tokens not read yet. -/
structure Reader where
  cur : Token
  rest : List Token
deriving DecidableEq, Repr

/-- `QXmlStreamReader::atEnd`. -/
def Reader.atEnd (r : Reader) : Bool :=
  r.cur.atEnd

/-- `QXmlStreamReader::readNext`: after an error the reader stays on `Invalid`;
reading past the last token raises the premature-end error. -/
def Reader.readNext (r : Reader) : Reader :=
  match r.cur, r.rest with
  | .Invalid, _ => r
  | _, [] => { cur := .Invalid, rest := [] }
  | _, t :: ts => { cur := t, rest := ts }

/-- `QXmlStreamAttributes::value(qualifiedName)`: the value of the first
attribute of that name, empty when there is none. -/
def attributeValue (attributes : List (String × String)) (qualifiedName : String) : String :=
  match attributes.find? (fun a => a.1 = qualifiedName) with
  | some a => a.2
  | none => ""

/-- The loop of `QXmlStreamReader::readElementText` (default behaviour
`ErrorOnUnexpectedElement`): text and entity references are appended, comments
and processing instructions are skipped, the end element returns, and any other
token (a nested start element, an error, the end of the input) raises an error
and returns the text read so far. -/
def readElementTextFrom (result : String) : List Token → String × Reader
  | [] => (result, { cur := .Invalid, rest := [] })
  | t :: ts =>
    match t with
    | .Characters text => readElementTextFrom (result ++ text) ts
    | .EntityReference text => readElementTextFrom (result ++ text) ts
    | .EndElement _ => (result, { cur := t, rest := ts })
    | .ProcessingInstruction => readElementTextFrom result ts
    | .Comment => readElementTextFrom result ts
    | _ => (result, { cur := .Invalid, rest := ts })

/-- `QXmlStreamReader::readElementText`. -/
def Reader.readElementText (r : Reader) : String × Reader :=
  match r.cur with
  | .StartElement _ _ _ => readElementTextFrom "" r.rest
  | _ => ("", r)

/-- The loop of `ConsumeCurrentElement` with the current token and the unread
tokens as separate arguments. -/
def ConsumeCurrentElementFrom : Nat → Token → List Token → Reader
  | level, cur, [] =>
    if level ≠ 0 ∧ cur.atEnd = false then { cur := .Invalid, rest := [] }
    else { cur := cur, rest := [] }
  | level, cur, t :: ts =>
    if level ≠ 0 ∧ cur.atEnd = false then
      match t with
      | .StartElement _ _ _ => ConsumeCurrentElementFrom (level + 1) t ts
      | .EndElement _ => ConsumeCurrentElementFrom (level - 1) t ts
      | _ => ConsumeCurrentElementFrom level t ts
    else { cur := cur, rest := t :: ts }

/-- Modelled from the spec: `Utilities::ConsumeCurrentElement` (declared in
`core/utilities.h`, which is not among the sources), the element skipper of
section 4.5. From a start element it reads tokens, counting nested start and
end elements, until the matching end element is the current token or the
reader is at its end. -/
def ConsumeCurrentElement (reader : Reader) : Reader :=
  ConsumeCurrentElementFrom 1 reader.cur reader.rest

/-- The loop of `ParseUntilElement` with the current token and the unread tokens
as separate arguments. -/
def ParseUntilElementFrom (name : String) : Token → List Token → Bool × Reader
  | cur, [] =>
    if cur.atEnd then (false, { cur := cur, rest := [] })
    else (false, { cur := .Invalid, rest := [] })
  | cur, t :: ts =>
    if cur.atEnd then (false, { cur := cur, rest := t :: ts })
    else
      match t with
      | .StartElement n _ _ =>
        if n = name then (true, { cur := t, rest := ts })
        else ParseUntilElementFrom name t ts
      | _ => ParseUntilElementFrom name t ts

/-- Modelled from the spec: `Utilities::ParseUntilElement` (declared in
`core/utilities.h`, which is not among the sources): skip forward until a
start element of the given name is the current token and return true; return
false when the reader reaches its end first (sections 4.3 and 4.4). -/
def ParseUntilElement (reader : Reader) (name : String) : Bool × Reader :=
  ParseUntilElementFrom name reader.cur reader.rest

/-! ## Data model -/

/-- A `QUrl` value, named by its encoded form; `QUrl()` is the one with the
empty form. What Qt reads off a URL (`isEmpty`, `path`) is in `Env`. -/
structure QUrl where
  encoded : String
deriving DecidableEq, Repr

/-- A `QDateTime`: `none` is the invalid value `QDateTime()`. -/
abbrev QDateTime := Option Int

/-- Modelled from the spec: `PodcastEpisode` (`podcastepisode.h` is not among
the sources), the fields of section 3 that the parser sets. A fresh episode
has empty texts, an invalid date, no duration and the empty URL. -/
structure PodcastEpisode where
  title : String := ""
  description : String := ""
  author : String := ""
  publication_date : QDateTime := none
  duration_secs : Option Int := none
  url : QUrl := { encoded := "" }
deriving DecidableEq, Repr

/-- Modelled from the spec: `Podcast` (`podcast.h` is not among the sources),
the fields of section 3. -/
structure Podcast where
  title : String := ""
  link : QUrl := { encoded := "" }
  description : String := ""
  copyright : String := ""
  url : QUrl := { encoded := "" }
  image_url_large : QUrl := { encoded := "" }
  owner_name : String := ""
  owner_email : String := ""
  episodes : List PodcastEpisode := []
deriving DecidableEq, Repr

/-- Modelled from the spec: `OpmlContainer` (`opmlcontainer.h` is not among the
sources), the recursive tree of section 3. -/
inductive OpmlContainer where
  | mk (name : String) (url : QUrl) (feeds : List Podcast)
      (containers : List OpmlContainer)

/-- The field `name`. -/
def OpmlContainer.name : OpmlContainer → String
  | .mk n _ _ _ => n

/-- The field `url`. -/
def OpmlContainer.url : OpmlContainer → QUrl
  | .mk _ u _ _ => u

/-- The field `feeds`. -/
def OpmlContainer.feeds : OpmlContainer → List Podcast
  | .mk _ _ f _ => f

/-- The field `containers`. -/
def OpmlContainer.containers : OpmlContainer → List OpmlContainer
  | .mk _ _ _ c => c

/-- A default-constructed `OpmlContainer`. -/
def OpmlContainer.empty : OpmlContainer :=
  .mk "" { encoded := "" } [] []

/-- The value `Load` returns: an invalid `QVariant`, a `Podcast` or an
`OpmlContainer`. -/
inductive QVariant where
  | invalid
  | podcast (p : Podcast)
  | opml (c : OpmlContainer)

/-- What the parser takes from outside: Qt's URL class, the date helper of
`core/utilities.h` and the wall clock. `currentDateTime k` is the reading of
the clock at its `k`-th use during one call of `Load`. -/
structure Env where
  fromEncoded : String → QUrl
  urlIsEmpty : QUrl → Bool
  urlPath : QUrl → String
  ParseRFC822DateTime : String → QDateTime
  currentDateTime : Nat → Int
  urlIsEmpty_default : urlIsEmpty { encoded := "" } = true

/-- Lower-case namespace constant `kAtomNamespace`. -/
def kAtomNamespace : String := "http://www.w3.org/2005/atom"

/-- Lower-case namespace constant `kItunesNamespace`. -/
def kItunesNamespace : String := "http://www.itunes.com/dtds/podcast-1.0.dtd"

/-! ## The RSS parser -/

/-- `PodcastParser::ParseImage`. -/
def ParseImage (Q : Env) : Nat → Reader → Podcast → Option (Reader × Podcast)
  | 0, _, _ => none
  | fuel + 1, reader, ret =>
    if reader.atEnd then some (reader, ret)
    else
      let reader := reader.readNext
      match reader.cur with
      | .StartElement name _ _ =>
        if name = "url" then
          let text := reader.readElementText
          ParseImage Q fuel text.2 { ret with image_url_large := Q.fromEncoded text.1 }
        else
          ParseImage Q fuel (ConsumeCurrentElement reader) ret
      | .EndElement _ => some (reader, ret)
      | _ => ParseImage Q fuel reader ret

/-- `PodcastParser::ParseItunesOwner`. -/
def ParseItunesOwner (Q : Env) : Nat → Reader → Podcast → Option (Reader × Podcast)
  | 0, _, _ => none
  | fuel + 1, reader, ret =>
    if reader.atEnd then some (reader, ret)
    else
      let reader := reader.readNext
      match reader.cur with
      | .StartElement name _ _ =>
        if name = "name" then
          let text := reader.readElementText
          ParseItunesOwner Q fuel text.2 { ret with owner_name := text.1 }
        else if name = "email" then
          let text := reader.readElementText
          ParseItunesOwner Q fuel text.2 { ret with owner_email := text.1 }
        else
          ParseItunesOwner Q fuel (ConsumeCurrentElement reader) ret
      | .EndElement _ => some (reader, ret)
      | _ => ParseItunesOwner Q fuel reader ret

/-- The duration branch of `ParseItem`: the text is split on `:`; two parts are
minutes and seconds, three or more parts are hours, minutes and seconds (the
first three), anything else leaves the episode as it is. The sums are `int`
arithmetic. -/
def setDuration (episode : PodcastEpisode) (text : String) : PodcastEpisode :=
  match split ':' text.data with
  | [m, sec] =>
    { episode with duration_secs := some (wrapInt (wrapInt (toInt m * 60) + toInt sec)) }
  | h :: m :: sec :: _ =>
    let hours := wrapInt (wrapInt (toInt h * 60) * 60)
    let minutes := wrapInt (toInt m * 60)
    { episode with duration_secs := some (wrapInt (wrapInt (hours + minutes) + toInt sec)) }
  | _ => episode

/-- The test of the enclosure branch of `ParseItem` on the `type` attribute and
the URL built from the `url` attribute. -/
def acceptsEnclosure (Q : Env) (type2 : String) (url : QUrl) : Bool :=
  if startsWith type2 "audio/" || startsWith type2 "x-audio/" then true
  else if isEmpty type2 && (endsWithCaseInsensitive (Q.urlPath url) ".mp3"
      || endsWithCaseInsensitive (Q.urlPath url) ".m4a"
      || endsWithCaseInsensitive (Q.urlPath url) ".wav") then true
  else false

/-- The enclosure branch of `ParseItem`, before the element is consumed. -/
def setEnclosure (Q : Env) (episode : PodcastEpisode) (attributes : List (String × String)) :
    PodcastEpisode :=
  let type2 := attributeValue attributes "type"
  let url := Q.fromEncoded (attributeValue attributes "url")
  if acceptsEnclosure Q type2 url then { episode with url := url } else episode

/-- The case `StartElement` of the switch in `ParseItem`: the reader and the
episode after the branch chosen by the element name and namespace. -/
def ParseItemStartElement (Q : Env) (reader : Reader) (episode : PodcastEpisode)
    (name namespaceUri : String) (attributes : List (String × String)) :
    Reader × PodcastEpisode :=
  let lower_namespace := toLower namespaceUri
  if name = "title" then
    let text := reader.readElementText
    (text.2, { episode with title := text.1 })
  else if name = "description" then
    let text := reader.readElementText
    (text.2, { episode with description := text.1 })
  else if name = "pubDate" then
    let date := reader.readElementText
    (date.2, { episode with publication_date := Q.ParseRFC822DateTime date.1 })
  else if name = "duration" ∧ lower_namespace = kItunesNamespace then
    let text := reader.readElementText
    (text.2, setDuration episode text.1)
  else if name = "enclosure" then
    (ConsumeCurrentElement reader, setEnclosure Q episode attributes)
  else if name = "author" ∧ lower_namespace = kItunesNamespace then
    let text := reader.readElementText
    (text.2, { episode with author := text.1 })
  else
    (ConsumeCurrentElement reader, episode)

/-- The case `EndElement` of the switch in `ParseItem`: an episode without
valid date gets the clock reading, and the episode is added when its URL is
not empty. -/
def ParseItemEndElement (Q : Env) (clock : Nat) (episode : PodcastEpisode) (ret : Podcast) :
    Nat × Podcast :=
  let dated :=
    if episode.publication_date.isSome then (episode, clock)
    else ({ episode with publication_date := some (Q.currentDateTime clock) }, clock + 1)
  if Q.urlIsEmpty dated.1.url then (dated.2, ret)
  else (dated.2, { ret with episodes := ret.episodes ++ [dated.1] })

/-- The loop of `PodcastParser::ParseItem`; `clock` counts the readings of the
wall clock made so far. -/
def ParseItemLoop (Q : Env) :
    Nat → Reader → Nat → PodcastEpisode → Podcast → Option (Reader × Nat × Podcast)
  | 0, _, _, _, _ => none
  | fuel + 1, reader, clock, episode, ret =>
    if reader.atEnd then some (reader, clock, ret)
    else
      let reader := reader.readNext
      match reader.cur with
      | .StartElement name namespaceUri attributes =>
        let next := ParseItemStartElement Q reader episode name namespaceUri attributes
        ParseItemLoop Q fuel next.1 clock next.2 ret
      | .EndElement _ =>
        let done := ParseItemEndElement Q clock episode ret
        some (reader, done.1, done.2)
      | _ => ParseItemLoop Q fuel reader clock episode ret

/-- `PodcastParser::ParseItem`: the loop started with a fresh episode. -/
def ParseItem (Q : Env) (fuel : Nat) (reader : Reader) (clock : Nat) (ret : Podcast) :
    Option (Reader × Nat × Podcast) :=
  ParseItemLoop Q fuel reader clock {} ret

/-- The case `StartElement` of the switch in `ParseChannel`: the reader, the
clock count and the podcast after the branch chosen by the element name and
namespace; `none` when a sub-parser runs out of fuel. -/
def ParseChannelStartElement (Q : Env) (fuel : Nat) (reader : Reader) (clock : Nat)
    (ret : Podcast) (name namespaceUri : String) (attributes : List (String × String)) :
    Option (Reader × Nat × Podcast) :=
  let lower_namespace := toLower namespaceUri
  if name = "title" then
    let text := reader.readElementText
    some (text.2, clock, { ret with title := text.1 })
  else if name = "link" ∧ isEmpty lower_namespace then
    let text := reader.readElementText
    some (text.2, clock, { ret with link := Q.fromEncoded text.1 })
  else if name = "description" then
    let text := reader.readElementText
    some (text.2, clock, { ret with description := text.1 })
  else if name = "owner" ∧ lower_namespace = kItunesNamespace then
    match ParseItunesOwner Q fuel reader ret with
    | none => none
    | some (reader, ret) => some (reader, clock, ret)
  else if name = "image" then
    match ParseImage Q fuel reader ret with
    | none => none
    | some (reader, ret) => some (reader, clock, ret)
  else if name = "copyright" then
    let text := reader.readElementText
    some (text.2, clock, { ret with copyright := text.1 })
  else if name = "link" ∧ lower_namespace = kAtomNamespace ∧ Q.urlIsEmpty ret.url
      ∧ attributeValue attributes "rel" = "self" then
    let text := reader.readElementText
    some (text.2, clock, { ret with url := Q.fromEncoded text.1 })
  else if name = "item" then
    ParseItem Q fuel reader clock ret
  else
    some (ConsumeCurrentElement reader, clock, ret)

/-- `PodcastParser::ParseChannel`. -/
def ParseChannel (Q : Env) : Nat → Reader → Nat → Podcast → Option (Reader × Nat × Podcast)
  | 0, _, _, _ => none
  | fuel + 1, reader, clock, ret =>
    if reader.atEnd then some (reader, clock, ret)
    else
      let reader := reader.readNext
      match reader.cur with
      | .StartElement name namespaceUri attributes =>
        match ParseChannelStartElement Q fuel reader clock ret name namespaceUri attributes with
        | none => none
        | some (reader, clock, ret) => ParseChannel Q fuel reader clock ret
      | .EndElement _ => some (reader, clock, ret)
      | _ => ParseChannel Q fuel reader clock ret

/-- `PodcastParser::ParseRss`: `none` when the fuel runs out, otherwise the
returned flag with the reader, the clock count and the podcast. -/
def ParseRss (Q : Env) (fuel : Nat) (reader : Reader) (clock : Nat) (ret : Podcast) :
    Option (Bool × Reader × Nat × Podcast) :=
  let found := ParseUntilElement reader "channel"
  if found.1 = false then some (false, found.2, clock, ret)
  else
    match ParseChannel Q fuel found.2 clock ret with
    | none => none
    | some (reader, clock, ret) => some (true, reader, clock, ret)

/-! ## The OPML parser -/

/-- `ret->feeds.append(podcast)`. -/
def OpmlContainer.appendFeed : OpmlContainer → Podcast → OpmlContainer
  | .mk n u f c, p => .mk n u (f ++ [p]) c

/-- `ret->containers.append(child)`. -/
def OpmlContainer.appendContainer : OpmlContainer → OpmlContainer → OpmlContainer
  | .mk n u f c, child => .mk n u f (c ++ [child])

/-- The feed stub the rss branch of `ParseOutline` builds from the attributes. -/
def outlineFeed (Q : Env) (attributes : List (String × String)) : Podcast :=
  { description := attributeValue attributes "description",
    title :=
      (if isEmpty (attributeValue attributes "title") then attributeValue attributes "text"
       else attributeValue attributes "title"),
    image_url_large := Q.fromEncoded (attributeValue attributes "imageHref"),
    url := Q.fromEncoded (attributeValue attributes "xmlUrl") }

/-- The child container the other branch of `ParseOutline` starts from. -/
def outlineChild (attributes : List (String × String)) : OpmlContainer :=
  .mk (if isEmpty (attributeValue attributes "fullname") then attributeValue attributes "text"
       else attributeValue attributes "fullname") { encoded := "" } [] []

/-- `PodcastParser::ParseOutline`. -/
def ParseOutline (Q : Env) : Nat → Reader → OpmlContainer → Option (Reader × OpmlContainer)
  | 0, _, _ => none
  | fuel + 1, reader, ret =>
    if reader.atEnd then some (reader, ret)
    else
      let reader := reader.readNext
      match reader.cur with
      | .StartElement name _ attributes =>
        if name ≠ "outline" then
          ParseOutline Q fuel (ConsumeCurrentElement reader) ret
        else if attributeValue attributes "type" = "rss" then
          ParseOutline Q fuel (ConsumeCurrentElement reader)
            (ret.appendFeed (outlineFeed Q attributes))
        else
          match ParseOutline Q fuel reader (outlineChild attributes) with
          | none => none
          | some (reader, child) => ParseOutline Q fuel reader (ret.appendContainer child)
      | .EndElement _ => some (reader, ret)
      | _ => ParseOutline Q fuel reader ret

/-- The collapsing loop of `ParseOpml` with the copy that follows it: descend
while the container has no feed and exactly one child container, and return
the container reached. -/
def collapseTop : OpmlContainer → OpmlContainer
  | .mk _ _ [] [child] => collapseTop child
  | top => top

/-- `PodcastParser::ParseOpml`. -/
def ParseOpml (Q : Env) (fuel : Nat) (reader : Reader) (ret : OpmlContainer) :
    Option (Bool × Reader × OpmlContainer) :=
  let found := ParseUntilElement reader "body"
  if found.1 = false then some (false, found.2, ret)
  else
    match ParseOutline Q fuel found.2 ret with
    | none => none
    | some (reader, ret) => some (true, reader, collapseTop ret)

/-! ## The top-level dispatcher -/

/-- `container.url = url`. -/
def OpmlContainer.setUrl : OpmlContainer → QUrl → OpmlContainer
  | .mk n _ f c, u => .mk n u f c

/-- The loop of `PodcastParser::Load`. -/
def LoadLoop (Q : Env) (url : QUrl) : Nat → Reader → Option QVariant
  | 0, _ => none
  | fuel + 1, reader =>
    if reader.atEnd then some .invalid
    else
      let reader := reader.readNext
      match reader.cur with
      | .StartElement name _ _ =>
        if name = "rss" then
          match ParseRss Q fuel reader 0 {} with
          | none => none
          | some (false, _) => some .invalid
          | some (true, _, _, podcast) => some (.podcast { podcast with url := url })
        else if name = "opml" then
          match ParseOpml Q fuel reader OpmlContainer.empty with
          | none => none
          | some (false, _) => some .invalid
          | some (true, _, container) => some (.opml (container.setUrl url))
        else some .invalid
      | _ => LoadLoop Q url fuel reader

/-- `PodcastParser::Load` on the token stream the reader produces from the
device: a fresh reader, and fuel for every token plus the two final tests. -/
def Load (Q : Env) (tokens : List Token) (url : QUrl) : Option QVariant :=
  LoadLoop Q url (tokens.length + 2) { cur := .NoToken, rest := tokens }

/-- An environment for evaluating the parser: a URL is empty when its encoded
form is, its path is the encoded form, no date text parses, and the clock
reads 1000, 1001, ... -/
def testEnv : Env where
  fromEncoded := fun s => { encoded := s }
  urlIsEmpty := fun u => isEmpty u.encoded
  urlPath := fun u => u.encoded
  ParseRFC822DateTime := fun _ => none
  currentDateTime := fun k => 1000 + k
  urlIsEmpty_default := rfl

/-! ## Vocabulary for stating properties of token streams -/

/-- `QXmlStreamReader::isStartElement` on a token. -/
def Token.isStartElement : Token → Bool
  | .StartElement _ _ _ => true
  | _ => false

/-- The token is a start element with this local name. -/
def Token.isStartNamed (name : String) : Token → Bool
  | .StartElement n _ _ => decide (n = name)
  | _ => false

/-- The tokens contain the start of an `rss` root followed by a `channel`
start element, or the start of an `opml` root followed by a `body` start
element, where the root is the first start element of the stream. -/
def reachesStructure : List Token → Bool
  | [] => false
  | .StartElement n _ _ :: ts =>
    (decide (n = "rss") && ts.any (Token.isStartNamed "channel"))
      || (decide (n = "opml") && ts.any (Token.isStartNamed "body"))
  | _ :: ts => reachesStructure ts

/-- The episodes of the podcast all have a non-empty URL. -/
def Podcast.episodesHaveUrl (Q : Env) (p : Podcast) : Prop :=
  ∀ e ∈ p.episodes, Q.urlIsEmpty e.url = false

/-- `QXmlStreamReader::isEndElement` on a token. -/
def Token.isEndElement : Token → Bool
  | .EndElement _ => true
  | _ => false

/-- The start elements of the direct children of the element whose content
starts the stream: those met at nesting depth 0 before the end element that
closes the content. `depth` is the number of child elements open so far. -/
def childStarts : Nat → List Token → List Token
  | _, [] => []
  | depth, t :: ts =>
    match t with
    | .StartElement _ _ _ =>
      if depth = 0 then t :: childStarts 1 ts else childStarts (depth + 1) ts
    | .EndElement _ => if depth = 0 then [] else childStarts (depth - 1) ts
    | _ => childStarts depth ts

/-- The attributes of an `enclosure` start element that the resolution rule
accepts; `none` for every other token. -/
def acceptedEnclosure (Q : Env) : Token → Option (List (String × String))
  | .StartElement name _ attributes =>
    if name = "enclosure" ∧ acceptsEnclosure Q (attributeValue attributes "type")
        (Q.fromEncoded (attributeValue attributes "url")) = true
    then some attributes else none
  | _ => none

/-- The attribute lists of the accepted `enclosure` children of an item, in
document order, read off the tokens that follow the item's start element. -/
def acceptedEnclosures (Q : Env) (content : List Token) : List (List (String × String)) :=
  (childStarts 0 content).filterMap (acceptedEnclosure Q)

/-- The episode URL after one child start element: an accepted enclosure
replaces it, any other element keeps it. -/
def enclosureUrlStep (Q : Env) (u : QUrl) (t : Token) : QUrl :=
  match acceptedEnclosure Q t with
  | some attributes => Q.fromEncoded (attributeValue attributes "url")
  | none => u

/-- The resolution rule for an enclosure in the words of the specification:
the type starts with `audio/` or `x-audio/`, or the type is empty and the path
of the URL ends, letter case ignored, with `.mp3`, `.m4a` or `.wav`. -/
def EnclosureRule (Q : Env) (type2 : String) (url : QUrl) : Prop :=
  (∃ s : String, type2 = "audio/" ++ s) ∨ (∃ s : String, type2 = "x-audio/" ++ s)
    ∨ (type2 = "" ∧ ∃ front ending : String, Q.urlPath url = front ++ ending
        ∧ (toLower ending = ".mp3" ∨ toLower ending = ".m4a" ∨ toLower ending = ".wav"))

/-- The number a run of decimal digits denotes, by positional value. -/
def decimalValue (ds : List Char) : Nat :=
  Nat.ofDigits 10 (ds.reverse.map (fun c => c.toNat - 48))

/-- The text is a decimal integer of value `z`: one or more decimal digits,
possibly after a minus sign. -/
def IsDecimalInteger (s : List Char) (z : Int) : Prop :=
  ∃ ds : List Char, ds ≠ [] ∧ (∀ c ∈ ds, c.isDigit = true)
    ∧ ((s = ds ∧ z = (decimalValue ds : Int)) ∨ (s = '-' :: ds ∧ z = -(decimalValue ds : Int)))

/-- The integer is a value of the 32-bit `int` type. -/
def InIntRange (z : Int) : Prop :=
  -2147483648 ≤ z ∧ z ≤ 2147483647

/-- Every value the `int` arithmetic of a two-part duration passes through is
a value of the 32-bit `int` type. -/
def FitsInt2 (m sec : Int) : Prop :=
  InIntRange m ∧ InIntRange sec ∧ InIntRange (m * 60) ∧ InIntRange (m * 60 + sec)

/-- Every value the `int` arithmetic of a three-part duration passes through is
a value of the 32-bit `int` type. -/
def FitsInt3 (h m sec : Int) : Prop :=
  InIntRange h ∧ InIntRange m ∧ InIntRange sec ∧ InIntRange (h * 60)
    ∧ InIntRange (h * 60 * 60) ∧ InIntRange (m * 60)
    ∧ InIntRange (h * 60 * 60 + m * 60) ∧ InIntRange (h * 60 * 60 + m * 60 + sec)

/-- The reader on the start element of an element that holds one run of text:
the text and the end element are the next two tokens. -/
def Reader.onTextElement (name ns : String) (attrs : List (String × String)) (text : String)
    (endName : String) (rest : List Token) : Reader :=
  { cur := Token.StartElement name ns attrs,
    rest := Token.Characters text :: Token.EndElement endName :: rest }

/-! ## Sample documents -/

/-- A feed whose channel holds an Atom self link and a title. -/
def sampleSelfLinkFeed : List Token :=
  [Token.StartDocument, Token.StartElement "rss" "" [], Token.StartElement "channel" "" [],
    Token.StartElement "link" "http://www.w3.org/2005/Atom" [("rel", "self")],
    Token.Characters "http://self/feed", Token.EndElement "link",
    Token.StartElement "title" "" [], Token.Characters "T", Token.EndElement "title",
    Token.EndElement "channel", Token.EndElement "rss", Token.EndDocument]

/-- The content of an item with a title and two audio enclosures, up to and
including the end element of the item. -/
def sampleTwoEnclosureItem : List Token :=
  [Token.StartElement "title" "" [], Token.Characters "Episode", Token.EndElement "title",
    Token.StartElement "enclosure" "" [("type", "audio/mpeg"), ("url", "http://x/first.mp3")],
    Token.EndElement "enclosure",
    Token.StartElement "enclosure" "" [("type", "audio/mpeg"), ("url", "http://x/second.mp3")],
    Token.EndElement "enclosure",
    Token.EndElement "item"]

/-- A feed with one item, the item of `sampleTwoEnclosureItem`. -/
def sampleTwoEnclosureFeed : List Token :=
  [Token.StartDocument, Token.StartElement "rss" "" [], Token.StartElement "channel" "" [],
    Token.StartElement "item" "" []] ++ sampleTwoEnclosureItem
    ++ [Token.EndElement "channel", Token.EndElement "rss", Token.EndDocument]

/-- The content of an item whose only enclosure is a video, and which holds an
audio enclosure nested in another element. -/
def sampleVideoItem : List Token :=
  [Token.StartElement "title" "" [], Token.Characters "Film", Token.EndElement "title",
    Token.StartElement "enclosure" "" [("type", "video/mp4"), ("url", "http://x/film.mp3")],
    Token.EndElement "enclosure",
    Token.StartElement "group" "" [],
    Token.StartElement "enclosure" "" [("type", "audio/mpeg"), ("url", "http://x/inner.mp3")],
    Token.EndElement "enclosure",
    Token.EndElement "group",
    Token.EndElement "item"]

/-- The episode `ParseItem` emits for `sampleTwoEnclosureItem` at clock count 0
in `testEnv`. -/
def sampleTwoEnclosureEpisode : PodcastEpisode :=
  { title := "Episode", publication_date := some 1000,
    url := { encoded := "http://x/second.mp3" } }

/-- The podcast `Load` returns for `sampleTwoEnclosureFeed` fetched from `u`. -/
def sampleTwoEnclosurePodcast : Podcast :=
  { url := { encoded := "u" }, episodes := [sampleTwoEnclosureEpisode] }

/-- A feed whose item has a duration with a minutes part beyond the `int` range. -/
def sampleLongDurationFeed : List Token :=
  [Token.StartDocument, Token.StartElement "rss" "" [], Token.StartElement "channel" "" [],
    Token.StartElement "item" "" [],
    Token.StartElement "enclosure" "" [("type", "audio/mpeg"), ("url", "http://x/a.mp3")],
    Token.EndElement "enclosure",
    Token.StartElement "duration" "http://www.itunes.com/dtds/podcast-1.0.dtd" [],
    Token.Characters "4294967296:05", Token.EndElement "duration",
    Token.EndElement "item", Token.EndElement "channel", Token.EndElement "rss",
    Token.EndDocument]

/-- The episode `Load` returns for `sampleLongDurationFeed` in `testEnv`. -/
def sampleLongDurationEpisode : PodcastEpisode :=
  { publication_date := some 1000, duration_secs := some 5,
    url := { encoded := "http://x/a.mp3" } }

/-- The container has zero feeds and exactly one child container. -/
def OpmlContainer.isWrapper (c : OpmlContainer) : Bool :=
  c.feeds.length == 0 && c.containers.length == 1

/-- The chain `root`, `root.containers[0]`, `root.containers[0].containers[0]`,
...: its element number `k`, the chain staying at a container without child. -/
def OpmlContainer.descend : Nat → OpmlContainer → OpmlContainer
  | 0, c => c
  | k + 1, c =>
    match c.containers with
    | [] => c
    | child :: _ => OpmlContainer.descend k child

/-- A feed whose item has an audio enclosure and the duration text `a:b`. -/
def sampleMalformedDurationFeed : List Token :=
  [Token.StartDocument, Token.StartElement "rss" "" [], Token.StartElement "channel" "" [],
    Token.StartElement "item" "" [],
    Token.StartElement "enclosure" "" [("type", "audio/mpeg"), ("url", "http://x/a.mp3")],
    Token.EndElement "enclosure",
    Token.StartElement "duration" "http://www.itunes.com/dtds/podcast-1.0.dtd" [],
    Token.Characters "a:b", Token.EndElement "duration",
    Token.EndElement "item", Token.EndElement "channel", Token.EndElement "rss",
    Token.EndDocument]

/-- The same feed without the duration element. -/
def sampleNoDurationFeed : List Token :=
  [Token.StartDocument, Token.StartElement "rss" "" [], Token.StartElement "channel" "" [],
    Token.StartElement "item" "" [],
    Token.StartElement "enclosure" "" [("type", "audio/mpeg"), ("url", "http://x/a.mp3")],
    Token.EndElement "enclosure",
    Token.EndElement "item", Token.EndElement "channel", Token.EndElement "rss",
    Token.EndDocument]

/-- The episode of `sampleNoDurationFeed` in `testEnv`: no duration. -/
def sampleNoDurationEpisode : PodcastEpisode :=
  { publication_date := some 1000, url := { encoded := "http://x/a.mp3" } }

/-- The episode of `sampleMalformedDurationFeed` in `testEnv`: duration 0. -/
def sampleZeroDurationEpisode : PodcastEpisode :=
  { publication_date := some 1000, duration_secs := some 0,
    url := { encoded := "http://x/a.mp3" } }

/-! ## Well-formed content as a forest -/

/-- The tokens inside an element that are neither start nor end element. -/
inductive Leaf where
  | characters (text : String)
  | entityReference (text : String)
  | comment
  | processingInstruction
deriving DecidableEq, Repr

/-- The token of a leaf. -/
def Leaf.token : Leaf → Token
  | .characters text => Token.Characters text
  | .entityReference text => Token.EntityReference text
  | .comment => Token.Comment
  | .processingInstruction => Token.ProcessingInstruction

/-- The content of an element of a well-formed document: a sequence of nodes,
each an element with its own content or a leaf. `element` and `leaf` put one
node in front of the siblings that follow it. -/
inductive Forest where
  | nil
  | element (name namespaceUri : String) (attributes : List (String × String))
      (children : Forest) (siblings : Forest)
  | leaf (l : Leaf) (siblings : Forest)
deriving DecidableEq, Repr

/-- The tokens the reader produces for the content, in document order. -/
def Forest.tokens : Forest → List Token
  | .nil => []
  | .element name ns attrs children siblings =>
    Token.StartElement name ns attrs
      :: (children.tokens ++ Token.EndElement name :: siblings.tokens)
  | .leaf l siblings => l.token :: siblings.tokens

/-- The nodes of the first forest followed by the nodes of the second. -/
def Forest.append : Forest → Forest → Forest
  | .nil, g => g
  | .element name ns attrs children siblings, g =>
    .element name ns attrs children (siblings.append g)
  | .leaf l siblings, g => .leaf l (siblings.append g)

/-- No node of the content is an element. -/
def Forest.textOnly : Forest → Bool
  | .nil => true
  | .element _ _ _ _ _ => false
  | .leaf _ siblings => siblings.textOnly

/-- The text content of an element without child elements: the texts of its
character and entity-reference leaves, joined in document order. -/
def Forest.text : Forest → String
  | .nil => ""
  | .element _ _ _ _ siblings => siblings.text
  | .leaf (.characters text) siblings => text ++ siblings.text
  | .leaf (.entityReference text) siblings => text ++ siblings.text
  | .leaf _ siblings => siblings.text

/-! ## The OPML outline rule on the element tree -/

/-- The feed stub of an `outline` element of type `rss`, in the words of the
specification. -/
def feedStub (Q : Env) (attrs : List (String × String)) : Podcast :=
  { description := attributeValue attrs "description",
    title := (if attributeValue attrs "title" = "" then attributeValue attrs "text"
              else attributeValue attrs "title"),
    image_url_large := Q.fromEncoded (attributeValue attrs "imageHref"),
    url := Q.fromEncoded (attributeValue attrs "xmlUrl") }

/-- The name of the container made for an `outline` element that is no feed. -/
def containerName (attrs : List (String × String)) : String :=
  if attributeValue attrs "fullname" = "" then attributeValue attrs "text"
  else attributeValue attrs "fullname"

/-- The stubs of the direct `outline` children of type `rss`, in document order. -/
def outlineFeeds (Q : Env) : Forest → List Podcast
  | .nil => []
  | .leaf _ siblings => outlineFeeds Q siblings
  | .element name _ attrs _ siblings =>
    if name = "outline" ∧ attributeValue attrs "type" = "rss" then
      feedStub Q attrs :: outlineFeeds Q siblings
    else outlineFeeds Q siblings

/-- One container per direct `outline` child of another type, in document
order, named after its attributes and filled from its own children by the same
rule. -/
def outlineContainers (Q : Env) : Forest → List OpmlContainer
  | .nil => []
  | .leaf _ siblings => outlineContainers Q siblings
  | .element name _ attrs children siblings =>
    if name = "outline" ∧ attributeValue attrs "type" ≠ "rss" then
      .mk (containerName attrs) { encoded := "" } (outlineFeeds Q children)
          (outlineContainers Q children) :: outlineContainers Q siblings
    else outlineContainers Q siblings

/-- The tokens of a well-formed OPML document: a prolog, the `opml` root, what
comes before `body`, the `body` element with its content, and the rest. -/
def opmlDocument (prolog : List Token) (rootNs : String) (rootAttrs : List (String × String))
    (beforeBody : List Token) (bodyNs : String) (bodyAttrs : List (String × String))
    (body : Forest) (epilog : List Token) : List Token :=
  prolog ++ Token.StartElement "opml" rootNs rootAttrs
    :: (beforeBody ++ Token.StartElement "body" bodyNs bodyAttrs
      :: (body.tokens ++ Token.EndElement "body" :: epilog))

/-- The tokens are neither an error, nor the end of the document, nor a start
element. -/
def plainTokens (ts : List Token) : Prop :=
  ∀ t ∈ ts, t.atEnd = false ∧ t.isStartElement = false

/-- The tokens are neither an error, nor the end of the document, nor a start
element of the given name. -/
def tokensBefore (name : String) (ts : List Token) : Prop :=
  ∀ t ∈ ts, t.atEnd = false ∧ t.isStartNamed name = false

/-- A small OPML document: one folder outline around two feed outlines, with
white space between the elements. -/
def sampleOpmlBody : Forest :=
  .leaf (.characters "\n")
    (.element "outline" "" [("text", "News")]
      (.element "outline" "" [("type", "rss"), ("text", "One"), ("xmlUrl", "http://x/one")]
        .nil
        (.leaf (.characters "\n")
          (.element "outline" "" [("type", "rss"), ("title", "Two"), ("xmlUrl", "http://x/two")]
            (.element "outline" "" [("type", "rss"), ("text", "Inner")] .nil .nil)
            .nil)))
      (.leaf .comment .nil))

/-- The document around `sampleOpmlBody`. -/
def sampleOpmlDocument : List Token :=
  opmlDocument [Token.StartDocument] "" [("version", "1.0")]
    [Token.StartElement "head" "" [], Token.EndElement "head"] "" [] sampleOpmlBody
    [Token.EndElement "opml", Token.EndDocument]

/-- The container `Load` returns for `sampleOpmlDocument` fetched from `u`. -/
def sampleOpmlResult : OpmlContainer :=
  .mk "News" { encoded := "u" }
    [{ title := "One", url := { encoded := "http://x/one" } },
     { title := "Two", url := { encoded := "http://x/two" } }] []

/-! ## The RSS rules on the element tree -/

/-- The children of `image` that are read as text have no child element. -/
def imageOk : Forest → Bool
  | .nil => true
  | .leaf _ siblings => imageOk siblings
  | .element name _ _ children siblings =>
    (if name = "url" then children.textOnly else true) && imageOk siblings

/-- The children of the iTunes `owner` that are read as text have no child
element. -/
def ownerOk : Forest → Bool
  | .nil => true
  | .leaf _ siblings => ownerOk siblings
  | .element name _ _ children siblings =>
    (if name = "name" ∨ name = "email" then children.textOnly else true) && ownerOk siblings

/-- The item parser reads the text of an element of this name and namespace. -/
def itemReadsText (name ns : String) : Prop :=
  name = "title" ∨ name = "description" ∨ name = "pubDate"
    ∨ (name = "duration" ∧ toLower ns = kItunesNamespace)
    ∨ (name = "author" ∧ toLower ns = kItunesNamespace)

instance (name ns : String) : Decidable (itemReadsText name ns) := by
  unfold itemReadsText
  exact inferInstance

/-- The children of an `item` that are read as text have no child element. -/
def itemOk : Forest → Bool
  | .nil => true
  | .leaf _ siblings => itemOk siblings
  | .element name ns _ children siblings =>
    (if itemReadsText name ns then children.textOnly else true) && itemOk siblings

/-- The channel parser reads the text of an element of this name and
namespace, or may do so depending on the URL found so far. -/
def channelReadsText (name ns : String) : Prop :=
  name = "title" ∨ name = "description" ∨ name = "copyright"
    ∨ (name = "link" ∧ (isEmpty (toLower ns) = true ∨ toLower ns = kAtomNamespace))

instance (name ns : String) : Decidable (channelReadsText name ns) := by
  unfold channelReadsText
  exact inferInstance

/-- The condition on one child element of a `channel`: when it is read as
text it has no child element, and when it is an iTunes `owner`, an `image` or
an `item`, the same holds for its children that are read as text. -/
def channelChildOk (n ns : String) (cs : Forest) : Bool :=
  if channelReadsText n ns then cs.textOnly
  else if n = "owner" ∧ toLower ns = kItunesNamespace then ownerOk cs
  else if n = "image" then imageOk cs
  else if n = "item" then itemOk cs
  else true

/-- The content of a `channel` in which the elements read as text have no
child element, also inside the `image`, iTunes `owner` and `item` children. -/
def channelOk : Forest → Bool
  | .nil => true
  | .leaf _ siblings => channelOk siblings
  | .element name ns _ children siblings =>
    channelChildOk name ns children && channelOk siblings

/-- The podcast after the children of an `image` element. -/
def imageOf (Q : Env) : Forest → Podcast → Podcast
  | .nil, ret => ret
  | .leaf _ siblings, ret => imageOf Q siblings ret
  | .element name _ _ children siblings, ret =>
    imageOf Q siblings
      (if name = "url" then { ret with image_url_large := Q.fromEncoded children.text }
       else ret)

/-- The podcast after the children of an iTunes `owner` element. -/
def ownerOf (Q : Env) : Forest → Podcast → Podcast
  | .nil, ret => ret
  | .leaf _ siblings, ret => ownerOf Q siblings ret
  | .element name _ _ children siblings, ret =>
    ownerOf Q siblings
      (if name = "name" then { ret with owner_name := children.text }
       else if name = "email" then { ret with owner_email := children.text }
       else ret)

/-- The episode after one child element of an `item`. -/
def itemElement (Q : Env) (episode : PodcastEpisode) (name ns : String)
    (attrs : List (String × String)) (children : Forest) : PodcastEpisode :=
  if name = "title" then { episode with title := children.text }
  else if name = "description" then { episode with description := children.text }
  else if name = "pubDate" then
    { episode with publication_date := Q.ParseRFC822DateTime children.text }
  else if name = "duration" ∧ toLower ns = kItunesNamespace then
    setDuration episode children.text
  else if name = "enclosure" then setEnclosure Q episode attrs
  else if name = "author" ∧ toLower ns = kItunesNamespace then
    { episode with author := children.text }
  else episode

/-- The episode after the children of an `item`, taken in document order. -/
def itemOf (Q : Env) : Forest → PodcastEpisode → PodcastEpisode
  | .nil, episode => episode
  | .leaf _ siblings, episode => itemOf Q siblings episode
  | .element name ns attrs children siblings, episode =>
    itemOf Q siblings (itemElement Q episode name ns attrs children)

/-- The clock count and the podcast after one child element of a `channel`. -/
def channelElement (Q : Env) (clock : Nat) (ret : Podcast) (name ns : String)
    (attrs : List (String × String)) (children : Forest) : Nat × Podcast :=
  if name = "title" then (clock, { ret with title := children.text })
  else if name = "link" ∧ isEmpty (toLower ns) then
    (clock, { ret with link := Q.fromEncoded children.text })
  else if name = "description" then (clock, { ret with description := children.text })
  else if name = "owner" ∧ toLower ns = kItunesNamespace then (clock, ownerOf Q children ret)
  else if name = "image" then (clock, imageOf Q children ret)
  else if name = "copyright" then (clock, { ret with copyright := children.text })
  else if name = "link" ∧ toLower ns = kAtomNamespace ∧ Q.urlIsEmpty ret.url
      ∧ attributeValue attrs "rel" = "self" then
    (clock, { ret with url := Q.fromEncoded children.text })
  else if name = "item" then ParseItemEndElement Q clock (itemOf Q children {}) ret
  else (clock, ret)

/-- The clock count and the podcast after the children of a `channel`, taken
in document order. -/
def channelOf (Q : Env) : Forest → Nat → Podcast → Nat × Podcast
  | .nil, clock, ret => (clock, ret)
  | .leaf _ siblings, clock, ret => channelOf Q siblings clock ret
  | .element name ns attrs children siblings, clock, ret =>
    channelOf Q siblings (channelElement Q clock ret name ns attrs children).1
      (channelElement Q clock ret name ns attrs children).2

/-- The tokens of a well-formed RSS document: a prolog, the `rss` root, what
comes before the first `channel`, the `channel` element with its content, and
the rest. -/
def rssDocument (prolog : List Token) (rootNs : String) (rootAttrs : List (String × String))
    (beforeChannel : List Token) (channelNs : String) (channelAttrs : List (String × String))
    (channel : Forest) (epilog : List Token) : List Token :=
  prolog ++ Token.StartElement "rss" rootNs rootAttrs
    :: (beforeChannel ++ Token.StartElement "channel" channelNs channelAttrs
      :: (channel.tokens ++ Token.EndElement "channel" :: epilog))

/-- The text content of the last direct child element with the given local
name, in whatever namespace; `none` when there is no such child. -/
def lastText (name : String) : Forest → Option String
  | .nil => none
  | .leaf _ siblings => lastText name siblings
  | .element n _ _ children siblings =>
    match lastText name siblings with
    | some text => some text
    | none => if n = name then some children.text else none

/-- The contents of the direct children named `item`, in document order. -/
def itemContents : Forest → List Forest
  | .nil => []
  | .leaf _ siblings => itemContents siblings
  | .element n _ _ children siblings =>
    if n = "item" then children :: itemContents siblings else itemContents siblings

/-- The URL an item resolves to, starting from `u`: the `url` attribute of the
last direct `enclosure` child that the resolution rule accepts, and `u` when
there is none. -/
def resolvedUrl (Q : Env) : Forest → QUrl → QUrl
  | .nil, u => u
  | .leaf _ siblings, u => resolvedUrl Q siblings u
  | .element n _ attrs _ siblings, u =>
    resolvedUrl Q siblings
      (if n = "enclosure" ∧ acceptsEnclosure Q (attributeValue attrs "type")
          (Q.fromEncoded (attributeValue attrs "url")) = true
       then Q.fromEncoded (attributeValue attrs "url") else u)

/-- The episodes the items of a channel give, in document order, when the
clock has been read `clock` times before: each direct `item` child gives the
episode that the end of the item emits for it, or none. -/
def channelEpisodes (Q : Env) : Forest → Nat → List PodcastEpisode
  | .nil, _ => []
  | .leaf _ siblings, clock => channelEpisodes Q siblings clock
  | .element n _ _ children siblings, clock =>
    if n = "item" then
      (ParseItemEndElement Q clock (itemOf Q children {}) {}).2.episodes
        ++ channelEpisodes Q siblings (ParseItemEndElement Q clock (itemOf Q children {}) {}).1
    else channelEpisodes Q siblings clock

/-- The publication date of the episode of an item whose end element is
reached at clock count `clock`: the parsed text of the last `pubDate` child
when there is one and it parses, and the clock reading otherwise. -/
def itemDate (Q : Env) (item : Forest) (clock : Nat) : Int :=
  match (lastText "pubDate" item).bind Q.ParseRFC822DateTime with
  | some date => date
  | none => Q.currentDateTime clock

/-- The channel parser has a branch for elements of this local name. -/
def channelRecognises (name : String) : Prop :=
  name ∈ ["title", "link", "description", "owner", "image", "copyright", "item"]

/-- The item parser has a branch for elements of this local name. -/
def itemRecognises (name : String) : Prop :=
  name ∈ ["title", "description", "pubDate", "duration", "enclosure", "author"]


/-- The episode of an item whose end element is reached when the clock has
been read `clock` times before: the fields its children set, with the date
completed from the clock. -/
def itemEpisode (Q : Env) (item : Forest) (clock : Nat) : PodcastEpisode :=
  { itemOf Q item {} with publication_date := some (itemDate Q item clock) }

/-- The items of a channel whose resolved URL is not empty, in document order. -/
def keptItems (Q : Env) (channel : Forest) : List Forest :=
  (itemContents channel).filter (fun item => !Q.urlIsEmpty (resolvedUrl Q item { encoded := "" }))

/-- The rule for the publication date of the episode `e` emitted for an item
whose end element is reached when the clock has been read `clock` times
before: the parsed value when the text of the last `pubDate` child parses,
and the clock reading when there is no `pubDate` child or its text does not
parse. -/
def dateRule (Q : Env) (item : Forest) (clock : Nat) (e : PodcastEpisode) : Prop :=
  (∀ text date, lastText "pubDate" item = some text →
      Q.ParseRFC822DateTime text = some date → e.publication_date = some date)
    ∧ (lastText "pubDate" item = none → e.publication_date = some (Q.currentDateTime clock))
    ∧ (∀ text, lastText "pubDate" item = some text →
        Q.ParseRFC822DateTime text = none →
        e.publication_date = some (Q.currentDateTime clock))

/-- The attributes of a feed outline without `title` attribute. -/
def sampleFeedOutline : List (String × String) :=
  [("type", "rss"), ("text", "One"), ("xmlUrl", "http://x/one")]

/-- An environment like `testEnv` in which one date text parses. -/
def sampleDateEnv : Env where
  fromEncoded := fun s => { encoded := s }
  urlIsEmpty := fun u => isEmpty u.encoded
  urlPath := fun u => u.encoded
  ParseRFC822DateTime := fun s => if s = "Mon, 01 Jan 2024 00:00:00 GMT" then some 1704067200
                                  else none
  currentDateTime := fun k => 1000 + k
  urlIsEmpty_default := rfl

/-- The content of a channel with a `title` child followed by a child with
the same local name in the iTunes namespace. -/
def sampleTwoTitlesChannel : Forest :=
  .element "title" "" [] (.leaf (.characters "A") .nil)
    (.element "title" "http://www.itunes.com/dtds/podcast-1.0.dtd" []
      (.leaf (.characters "B") .nil) .nil)

/-- The content of an element that no branch looks into: two more levels of
elements, among them a `title`, an `item` and an `enclosure`. -/
def sampleUnknownContent : Forest :=
  .element "title" "" [] (.leaf (.characters "inner") .nil)
    (.element "item" "" []
      (.element "enclosure" "" [("type", "audio/mpeg"), ("url", "http://x/inner.mp3")] .nil .nil)
      .nil)

/-- The first children of the sample item: an audio enclosure. -/
def sampleItemHead : Forest :=
  .element "enclosure" "" [("type", "audio/mpeg"), ("url", "http://x/a.mp3")] .nil .nil

/-- The last children of the sample item: a date that `sampleDateEnv` parses. -/
def sampleItemTail : Forest :=
  .element "pubDate" "" [] (.leaf (.characters "Mon, 01 Jan 2024 00:00:00 GMT") .nil) .nil

/-- The first children of the sample channel: its title. -/
def sampleChannelHead : Forest :=
  .element "title" "" [] (.leaf (.characters "Show") .nil) .nil

/-- The last children of the sample channel: an item without URL and the
sample item. -/
def sampleChannelTail : Forest :=
  .element "item" "" [] (.element "title" "" [] (.leaf (.characters "no audio") .nil) .nil)
    (.element "item" "" [] (sampleItemHead.append sampleItemTail) .nil)

/-! ## Comparing two runs of the parser -/

/-- The environment with another clock. -/
def Env.withClock (Q : Env) (now : Nat → Int) : Env :=
  { Q with currentDateTime := now }

/-- The start element opens a `pubDate` element or a `duration` element in the
iTunes namespace. -/
def Token.opensFieldText : Token → Bool
  | .StartElement name ns _ =>
    decide (name = "pubDate")
      || (decide (name = "duration") && decide (toLower ns = kItunesNamespace))
  | _ => false

/-- Whether the reader is, behind the token, in the text of a `pubDate` or
iTunes `duration` element before any child element: `inside` tells it for the
position in front of the token. -/
def insideAfter (inside : Bool) (t : Token) : Bool :=
  match t with
  | .StartElement _ _ _ => t.opensFieldText
  | .EndElement _ => false
  | _ => inside

/-- The two tokens are equal, or they are character data in the text of a
`pubDate` or iTunes `duration` element, or they are `enclosure` start elements
whose attributes other than `type` and `url` have the same values. -/
def tokenVaries (inside : Bool) (t1 t2 : Token) : Prop :=
  t1 = t2
    ∨ (inside = true ∧ ∃ a b, t1 = .Characters a ∧ t2 = .Characters b)
    ∨ (∃ ns a1 a2, t1 = .StartElement "enclosure" ns a1 ∧ t2 = .StartElement "enclosure" ns a2
        ∧ ∀ key, key ≠ "type" → key ≠ "url" → attributeValue a1 key = attributeValue a2 key)

/-- The two token streams differ only in the text of `pubDate` and iTunes
`duration` elements and in the values of the `type` and `url` attributes of
`enclosure` elements. -/
def differInFieldValues : Bool → List Token → List Token → Prop
  | _, [], [] => True
  | inside, t1 :: ts1, t2 :: ts2 =>
    tokenVaries inside t1 t2 ∧ differInFieldValues (insideAfter inside t1) ts1 ts2
  | _, _ :: _, [] => False
  | _, [], _ :: _ => False

/-- The relation of `differInFieldValues` between two readers: on the current
token and the unread tokens. -/
def Reader.differInFieldValues (r1 r2 : Reader) : Prop :=
  ∃ inside, tokenVaries inside r1.cur r2.cur
    ∧ PodcastParser.differInFieldValues (insideAfter inside r1.cur) r1.rest r2.rest

/-- What a relation between the readers of two runs has to keep for the two
runs to go the same way: the tests and moves of the parsers give related
readers, start elements have the same name and namespace and, unless they are
an `enclosure`, the same attributes, and the text read from an element other
than `pubDate` and `duration` is the same. -/
structure ReaderSim (RS : Reader → Reader → Prop) : Prop where
  atEnd : ∀ r1 r2, RS r1 r2 → r1.atEnd = r2.atEnd
  readNext : ∀ r1 r2, RS r1 r2 → r1.atEnd = false → RS r1.readNext r2.readNext
  start : ∀ r1 r2 n ns a, RS r1 r2 → r1.cur = .StartElement n ns a →
    ∃ a2, r2.cur = .StartElement n ns a2 ∧ (n ≠ "enclosure" → a2 = a)
  isStart : ∀ r1 r2, RS r1 r2 → r1.cur.isStartElement = r2.cur.isStartElement
  isEnd : ∀ r1 r2, RS r1 r2 → r1.cur.isEndElement = r2.cur.isEndElement
  readText : ∀ r1 r2, RS r1 r2 → RS r1.readElementText.2 r2.readElementText.2
  sameText : ∀ r1 r2 n ns a, RS r1 r2 → r1.cur = .StartElement n ns a →
    n ≠ "pubDate" → n ≠ "duration" → r1.readElementText.1 = r2.readElementText.1
  consume : ∀ r1 r2, RS r1 r2 → RS (ConsumeCurrentElement r1) (ConsumeCurrentElement r2)
  parseUntil : ∀ r1 r2 name, RS r1 r2 →
    (ParseUntilElement r1 name).1 = (ParseUntilElement r2 name).1
      ∧ RS (ParseUntilElement r1 name).2 (ParseUntilElement r2 name).2

/-- The two podcasts have the same title, link, description, copyright, URL,
image URL, owner name and owner email. -/
def sameFields (p1 p2 : Podcast) : Prop :=
  p1.title = p2.title ∧ p1.link = p2.link ∧ p1.description = p2.description
    ∧ p1.copyright = p2.copyright ∧ p1.url = p2.url
    ∧ p1.image_url_large = p2.image_url_large ∧ p1.owner_name = p2.owner_name
    ∧ p1.owner_email = p2.owner_email

/-- The two podcasts have the same fields and their lists of episodes are
related by `RE`. -/
def podcastSim (RE : List PodcastEpisode → List PodcastEpisode → Prop) (p1 p2 : Podcast) :
    Prop :=
  sameFields p1 p2 ∧ RE p1.episodes p2.episodes

/-- Both runs ran out of fuel, or both returned and the values are related. -/
def bothReturn {α β : Type} (R : α → β → Prop) : Option α → Option β → Prop
  | none, none => True
  | some a, some b => R a b
  | none, some _ => False
  | some _, none => False

/-- The two values `Load` returns are of the same kind: both the failure
value, both a podcast, related by `RP`, or both the same container. -/
def variantSim (RP : Podcast → Podcast → Prop) : QVariant → QVariant → Prop
  | .invalid, .invalid => True
  | .podcast p1, .podcast p2 => RP p1 p2
  | .opml c1, .opml c2 => c1 = c2
  | .invalid, .podcast _ => False
  | .invalid, .opml _ => False
  | .podcast _, .invalid => False
  | .podcast _, .opml _ => False
  | .opml _, .invalid => False
  | .opml _, .podcast _ => False

/-- The two episodes are equal except possibly for the publication date, and
when the dates differ they are the readings of the two clocks at the same
count. -/
def sameButClockDate (Q : Env) (now : Nat → Int) (e1 e2 : PodcastEpisode) : Prop :=
  e1.title = e2.title ∧ e1.description = e2.description ∧ e1.author = e2.author
    ∧ e1.duration_secs = e2.duration_secs ∧ e1.url = e2.url
    ∧ (e1.publication_date = e2.publication_date
      ∨ ∃ k, e1.publication_date = some (Q.currentDateTime k)
          ∧ e2.publication_date = some (now k))


/-- A feed whose item has a date, an iTunes duration and an audio enclosure. -/
def sampleFieldValuesFeed : List Token :=
  [Token.StartDocument, Token.StartElement "rss" "" [], Token.StartElement "channel" "" [],
   Token.StartElement "title" "" [], Token.Characters "Show", Token.EndElement "title",
   Token.StartElement "item" "" [],
   Token.StartElement "pubDate" "" [], Token.Characters "Mon, 01 Jan 2024 00:00:00 GMT",
   Token.EndElement "pubDate",
   Token.StartElement "duration" "http://www.itunes.com/dtds/podcast-1.0.dtd" [],
   Token.Characters "1:02", Token.EndElement "duration",
   Token.StartElement "enclosure" "" [("type", "audio/mpeg"), ("url", "http://x/a.mp3")],
   Token.EndElement "enclosure", Token.EndElement "item",
   Token.StartElement "copyright" "" [], Token.Characters "CC", Token.EndElement "copyright",
   Token.EndElement "channel", Token.EndElement "rss", Token.EndDocument]

/-- The feed `sampleFieldValuesFeed` with another date text, a malformed
duration and a video enclosure without URL. -/
def sampleOtherFieldValuesFeed : List Token :=
  [Token.StartDocument, Token.StartElement "rss" "" [], Token.StartElement "channel" "" [],
   Token.StartElement "title" "" [], Token.Characters "Show", Token.EndElement "title",
   Token.StartElement "item" "" [],
   Token.StartElement "pubDate" "" [], Token.Characters "yesterday",
   Token.EndElement "pubDate",
   Token.StartElement "duration" "http://www.itunes.com/dtds/podcast-1.0.dtd" [],
   Token.Characters "a:b", Token.EndElement "duration",
   Token.StartElement "enclosure" "" [("type", "video/mp4"), ("url", "")],
   Token.EndElement "enclosure", Token.EndElement "item",
   Token.StartElement "copyright" "" [], Token.Characters "CC", Token.EndElement "copyright",
   Token.EndElement "channel", Token.EndElement "rss", Token.EndDocument]


/-- The clock of `testEnv`, written on its own. -/
def sampleClock : Nat → Int := fun k => 1000 + k

/-- A clock that reads 2000, 2001, ... -/
def sampleLaterClock : Nat → Int := fun k => 2000 + k

/-! ## Termination measure -/

/-- The number of calls of `readNext` the reader can still answer with a token
before it is at its end: none when it is at its end, and otherwise one for
every unread token and one for the error raised behind the last. -/
def Reader.remaining (r : Reader) : Nat :=
  if r.atEnd then 0 else r.rest.length + 1


/-- A stream that ends inside the channel: an element that is never closed
around an item start, an end element without start, and a title whose text is
cut off. -/
def sampleUnbalancedFeed : List Token :=
  [Token.StartDocument, Token.StartElement "rss" "" [], Token.StartElement "channel" "" [],
   Token.StartElement "extension" "http://x/ns" [], Token.StartElement "item" "" [],
   Token.EndElement "extension", Token.EndElement "other",
   Token.StartElement "title" "" [], Token.Characters "cut"]


/-- The content of an `image` element: a title and the URL of the image. -/
def sampleImageContent : Forest :=
  .element "title" "" [] (.leaf (.characters "logo") .nil)
    (.element "url" "" [] (.leaf (.characters "http://x/logo.png") .nil) .nil)

/-- The content of an iTunes `owner` element, with white space around the
elements. -/
def sampleOwnerContent : Forest :=
  .leaf (.characters " ")
    (.element "name" "" [] (.leaf (.characters "Ann") .nil)
      (.element "email" "" [] (.leaf (.characters "ann@x") .nil)
        (.element "extension" "" [] sampleImageContent .nil)))

/-! ## Which kind of value `Load` returns -/

/-- The reader gets, before it is at its end, to a first start element, which
is named `root`, and behind it to a start element named `inner`: the tokens in
front of the root are no start element, and no token in front of the inner
element ends the reading. -/
def reachesElement (root inner : String) (tokens : List Token) : Prop :=
  ∃ (pre : List Token) (ns : String) (attrs : List (String × String)) (mid : List Token)
    (ns2 : String) (attrs2 : List (String × String)) (post : List Token),
    tokens = pre ++ Token.StartElement root ns attrs
        :: (mid ++ Token.StartElement inner ns2 attrs2 :: post)
      ∧ plainTokens pre ∧ tokensBefore inner mid

/-- The first start element of the stream is named `root` and some later
start element is named `inner`. -/
def firstStartThenLater (root inner : String) (tokens : List Token) : Prop :=
  ∃ (pre : List Token) (ns : String) (attrs : List (String × String)) (post : List Token),
    tokens = pre ++ Token.StartElement root ns attrs :: post
      ∧ (∀ t ∈ pre, t.isStartElement = false)
      ∧ post.any (Token.isStartNamed inner) = true

/-- The stream is what a tokenizer delivers: only its last token can be the
end of the document or an error. -/
def endsOnlyAtLast (tokens : List Token) : Prop :=
  ∀ t ∈ tokens.dropLast, t.atEnd = false


/-! ## The Atom self link -/

/-- The element is a `link` in the Atom namespace with `rel="self"`. -/
def isSelfLink (n ns : String) (attrs : List (String × String)) : Prop :=
  n = "link" ∧ toLower ns = kAtomNamespace ∧ attributeValue attrs "rel" = "self"

instance (n ns : String) (attrs : List (String × String)) : Decidable (isSelfLink n ns attrs) := by
  unfold isSelfLink
  exact inferInstance

/-- The value of the first direct child that is a self link whose value is a
URL that is not empty; `none` when there is no such child. -/
def firstSelfLink (Q : Env) : Forest → Option QUrl
  | .nil => none
  | .leaf _ siblings => firstSelfLink Q siblings
  | .element n ns attrs children siblings =>
    if isSelfLink n ns attrs ∧ Q.urlIsEmpty (Q.fromEncoded children.text) = false then
      some (Q.fromEncoded children.text)
    else firstSelfLink Q siblings

/-- The content of a channel with two self links: the usual empty element
that carries the address in `href`, and one with the address as text. -/
def sampleTwoSelfLinks : Forest :=
  .element "link" "http://www.w3.org/2005/Atom" [("rel", "self"), ("href", "http://x/feed")]
    .nil
    (.element "link" "http://www.w3.org/2005/Atom" [("rel", "self")]
      (.leaf (.characters "http://self/feed") .nil) .nil)

/-! ## Feeds of an OPML document -/

/-- The forest with the children of every `outline` element of type `rss`
removed, at every nesting level. -/
def Forest.pruneFeedOutlines : Forest → Forest
  | .nil => .nil
  | .leaf l siblings => .leaf l siblings.pruneFeedOutlines
  | .element name ns attrs children siblings =>
    if name = "outline" ∧ attributeValue attrs "type" = "rss" then
      .element name ns attrs .nil siblings.pruneFeedOutlines
    else .element name ns attrs children.pruneFeedOutlines siblings.pruneFeedOutlines

mutual
/-- All feed stubs of a container tree, over all nesting levels: the feeds of
the container, then those of its child containers in order. -/
def OpmlContainer.allFeeds : OpmlContainer → List Podcast
  | .mk _ _ feeds containers => feeds ++ allFeedsOf containers
/-- All feed stubs of a list of container trees. -/
def allFeedsOf : List OpmlContainer → List Podcast
  | [] => []
  | c :: cs => c.allFeeds ++ allFeedsOf cs
end

/-- The number of `outline` elements of type `rss` in the forest that are not
nested within another `outline` of type `rss`. -/
def feedOutlineCount : Forest → Nat
  | .nil => 0
  | .leaf _ siblings => feedOutlineCount siblings
  | .element name _ attrs children siblings =>
    if name = "outline" ∧ attributeValue attrs "type" = "rss" then
      1 + feedOutlineCount siblings
    else feedOutlineCount children + feedOutlineCount siblings

/-- The number of `outline` elements of type `rss` in the forest that are
nested neither within another `outline` of type `rss` nor within an element
that is not an `outline`. -/
def reachedFeedOutlineCount : Forest → Nat
  | .nil => 0
  | .leaf _ siblings => reachedFeedOutlineCount siblings
  | .element name _ attrs children siblings =>
    if name = "outline" then
      if attributeValue attrs "type" = "rss" then 1 + reachedFeedOutlineCount siblings
      else reachedFeedOutlineCount children + reachedFeedOutlineCount siblings
    else reachedFeedOutlineCount siblings

/-- A body whose only feed outline lies within an element that is not an
`outline`. -/
def sampleGroupedBody : Forest :=
  .element "group" "" []
    (.element "outline" "" [("type", "rss"), ("text", "One"), ("xmlUrl", "http://x/one")]
      .nil .nil)
    .nil

/-- The document around `sampleGroupedBody`. -/
def sampleGroupedDocument : List Token :=
  opmlDocument [Token.StartDocument] "" [] [] "" [] sampleGroupedBody
    [Token.EndElement "opml", Token.EndDocument]

/-! ## The lyrics URL template (`HtmlLyricsProvider::GetUrl`) -/

/-- `QString::replace(before, after)` for a non-empty `before`, on the
characters that are left: the text is scanned from left to right, each
occurrence of `before` that is found is replaced by `after`, and the scan goes
on behind the occurrence, so that what was put in is not scanned. `skip` is the
number of characters of the occurrence found that are still to be passed. -/
def replaceFrom (before after : List Char) : Nat → List Char → List Char
  | _, [] => []
  | skip + 1, _ :: cs => replaceFrom before after skip cs
  | 0, c :: cs =>
    if before.isPrefixOf (c :: cs) then
      after ++ replaceFrom before after (before.length - 1) cs
    else c :: replaceFrom before after 0 cs

/-- `QString::replace(before, after)`, case-sensitive, for a non-empty
`before`. -/
def replaceString (s before after : String) : String :=
  ⟨replaceFrom before.data after.data 0 s.data⟩

/-- A `QUrl` as `GetUrl` uses it: the components of the URL, the path in the
decoded form that `QUrl::path()` returns and `QUrl::setPath` takes. -/
structure QUrlParts where
  scheme : String := ""
  userName : String := ""
  password : String := ""
  host : String := ""
  port : Int := -1
  path : String := ""
  query : String := ""
  fragment : String := ""
deriving DecidableEq, Repr

/-- `QUrl::setPath`: the path is replaced, the other components stay. -/
def QUrlParts.setPath (url : QUrlParts) (path : String) : QUrlParts :=
  { url with path := path }

/-- The placeholder `${artist}`. -/
def artistPlaceholder : String := "$\x7bartist\x7d"

/-- The placeholder `${album}`. -/
def albumPlaceholder : String := "$\x7balbum\x7d"

/-- The placeholder `${title}`. -/
def titlePlaceholder : String := "$\x7btitle\x7d"

/-- The placeholder `${track}`. -/
def trackPlaceholder : String := "$\x7btrack\x7d"

/-- `HtmlLyricsProvider::GetUrl`; `url_` is the configured URL of the
provider. -/
def HtmlLyricsProvider.GetUrl (url_ : QUrlParts) (artist album title : String) : QUrlParts :=
  let url := url_
  let path := url.path
  let path := replaceString (replaceString (replaceString (replaceString path
    artistPlaceholder artist) albumPlaceholder album) titlePlaceholder title)
    trackPlaceholder title
  url.setPath path

/-- The four replacements of `GetUrl` in their order, on the characters of the
path. -/
def replacePlaceholders (artist album title path : List Char) : List Char :=
  replaceFrom trackPlaceholder.data title 0
    (replaceFrom titlePlaceholder.data title 0
      (replaceFrom albumPlaceholder.data album 0
        (replaceFrom artistPlaceholder.data artist 0 path)))

/-- The four placeholders, each with the text that stands for it. -/
def substitutions (artist album title : String) : List (List Char × List Char) :=
  [(artistPlaceholder.data, artist.data), (albumPlaceholder.data, album.data),
    (titlePlaceholder.data, title.data), (trackPlaceholder.data, title.data)]

/-- Simultaneous substitution, on the characters that are left: the template
is scanned once from left to right; where one of the texts to replace starts,
its value is put and the scan goes on behind that text; the values are not
scanned. `skip` is the number of characters still to be passed. -/
def substituteFrom (subs : List (List Char × List Char)) : Nat → List Char → List Char
  | _, [] => []
  | skip + 1, _ :: cs => substituteFrom subs skip cs
  | 0, c :: cs =>
    match subs.find? (fun p => p.1.isPrefixOf (c :: cs)) with
    | some p => p.2 ++ substituteFrom subs (p.1.length - 1) cs
    | none => c :: substituteFrom subs 0 cs

/-- The simultaneous substitution of the four placeholders in a template. -/
def substituteAll (template artist album title : String) : String :=
  ⟨substituteFrom (substitutions artist album title) 0 template.data⟩

/-- One of the four placeholders starts the text. -/
def startsWithPlaceholder (s : List Char) : Bool :=
  artistPlaceholder.data.isPrefixOf s || albumPlaceholder.data.isPrefixOf s
    || titlePlaceholder.data.isPrefixOf s || trackPlaceholder.data.isPrefixOf s

/-- Every `$` of the text is the first character of one of the four
placeholders. -/
def dollarsOpenPlaceholders : List Char → Bool
  | [] => true
  | c :: cs => (c != '$' || startsWithPlaceholder (c :: cs)) && dollarsOpenPlaceholders cs

/-- None of the four placeholders occurs in the text. -/
def withoutPlaceholder (s : String) : Bool :=
  !(containsChars artistPlaceholder.data s.data || containsChars albumPlaceholder.data s.data
    || containsChars titlePlaceholder.data s.data || containsChars trackPlaceholder.data s.data)

/-- A configured URL whose path holds each placeholder. -/
def sampleLyricsUrl : QUrlParts :=
  { scheme := "https", host := "lyrics.example",
    path := "/$\x7bartist\x7d/$\x7balbum\x7d/$\x7btitle\x7d-$\x7btrack\x7d.html",
    query := "lang=en" }

/-- A configured URL whose path holds no placeholder. -/
def sampleFixedLyricsUrl : QUrlParts :=
  { scheme := "https", host := "lyrics.example", path := "/search/$artist", query := "q=1" }

/-! ## Text elements that hold a child element -/

/-- A `description` element whose text is interrupted by a child element `b`,
in front of the given siblings. -/
def nestedDescription (siblings : Forest) : Forest :=
  .element "description" "" []
    (.leaf (.characters "Hello ") (.element "b" "" [] (.leaf (.characters "world") .nil) .nil))
    siblings

/-- The content of a channel: a `description` with a child element, then a
`title` with the text `Show`. -/
def sampleNestedThenTitle : Forest :=
  nestedDescription (.element "title" "" [] (.leaf (.characters "Show") .nil) .nil)

/-- The content of a channel: a `description` with a child element, then an
item with an audio enclosure. -/
def sampleNestedThenItem : Forest :=
  nestedDescription (.element "item" "" [] sampleItemHead .nil)

/-- The content of a channel: a `description` with a child element, then a
self link with an address as text. -/
def sampleNestedThenSelfLink : Forest :=
  nestedDescription
    (.element "link" "http://www.w3.org/2005/Atom" [("rel", "self")]
      (.leaf (.characters "http://self/feed") .nil) .nil)

/-- The content of a channel: a `title` with the text `A`, a `copyright` that
holds a child element, and a `title` in the iTunes namespace with the text
`B`. -/
def sampleTitleNestedTitle : Forest :=
  .element "title" "" [] (.leaf (.characters "A") .nil)
    (.element "copyright" "" [] (.leaf (.characters "x") (.element "b" "" [] .nil .nil))
      (.element "title" "http://www.itunes.com/dtds/podcast-1.0.dtd" []
        (.leaf (.characters "B") .nil) .nil))

/-- The content of `sampleTwoEnclosureItem` as an element tree: a title and
two audio enclosures. -/
def sampleTwoEnclosureForest : Forest :=
  .element "title" "" [] (.leaf (.characters "Episode") .nil)
    (.element "enclosure" "" [("type", "audio/mpeg"), ("url", "http://x/first.mp3")] .nil
      (.element "enclosure" "" [("type", "audio/mpeg"), ("url", "http://x/second.mp3")] .nil
        .nil))

/-! ## Theorems -/

theorem containsChars_iff (needle s : List Char) :
    containsChars needle s = true ↔ needle <:+: s := by
  induction s with
  | nil => simp [containsChars]
  | cons c cs ih =>
    simp only [containsChars, Bool.or_eq_true, ih, List.isPrefixOf_iff_prefix]
    exact List.infix_cons_iff.symm

theorem contains_iff (s needle : String) :
    contains s needle = true ↔ needle.data <:+: s.data :=
  containsChars_iff _ _

theorem isEmpty_iff (s : String) : isEmpty s = true ↔ s = "" := by
  cases s with
  | mk d => cases d <;> simp [isEmpty, String.ext_iff]

/-- C1: `SupportsContentType c` holds exactly when `c` is empty or has one of
the four MIME constants as a case-sensitive substring; the empty string and
`text/xml; charset=utf-8` are accepted, `application/json` and the upper-case
`TEXT/XML` are rejected. -/
theorem SupportsContentType_iff :
    (∀ c : String, SupportsContentType c = true ↔
      (c = "" ∨ "application/rss+xml".data <:+: c.data ∨ "application/xml".data <:+: c.data
        ∨ "text/x-opml".data <:+: c.data ∨ "text/xml".data <:+: c.data))
    ∧ SupportsContentType "" = true
    ∧ SupportsContentType "application/json" = false
    ∧ SupportsContentType "text/xml; charset=utf-8" = true
    ∧ SupportsContentType "TEXT/XML" = false := by
  refine ⟨?_, by decide, by decide, by decide, by decide⟩
  intro c
  unfold SupportsContentType
  by_cases h : isEmpty c = true
  · have e : c = "" := (isEmpty_iff c).1 h
    subst e
    simp [isEmpty]
  · have hne : c ≠ "" := fun e => h ((isEmpty_iff c).2 e)
    simp [h, hne, supported_mime_types, contains_iff]

theorem wordBoundaryAfter_iff (post : List Char) :
    wordBoundaryAfter post = true ↔
      (post = [] ∨ ∃ c t, post = c :: t ∧
        ¬ (c.isAlpha = true ∨ c.isDigit = true ∨ c = '_')) := by
  cases post with
  | nil => simp [wordBoundaryAfter]
  | cons c t =>
    simp [wordBoundaryAfter, isWordChar, Char.isAlphanum, and_assoc]

theorem matchesHere_iff (lit s : List Char) :
    matchesHere lit s = true ↔ ∃ post, s = lit ++ post ∧ wordBoundaryAfter post = true := by
  unfold matchesHere
  rw [Bool.and_eq_true, List.isPrefixOf_iff_prefix]
  constructor
  · rintro ⟨⟨post, rfl⟩, hb⟩
    exact ⟨post, rfl, by simpa using hb⟩
  · rintro ⟨post, rfl, hb⟩
    exact ⟨⟨post, rfl⟩, by simpa using hb⟩

theorem containsRegex_iff (lit s : List Char) :
    containsRegex lit s = true ↔
      ∃ pre post, s = pre ++ lit ++ post ∧ wordBoundaryAfter post = true := by
  induction s with
  | nil =>
    simp only [containsRegex, matchesHere_iff]
    constructor
    · rintro ⟨post, h, hb⟩
      exact ⟨[], post, by simpa using h, hb⟩
    · rintro ⟨pre, post, h, hb⟩
      have h1 : pre = [] := by
        cases pre with
        | nil => rfl
        | cons a as => simp at h
      subst h1
      exact ⟨post, by simpa using h, hb⟩
  | cons c cs ih =>
    simp only [containsRegex, Bool.or_eq_true, ih, matchesHere_iff]
    constructor
    · rintro (⟨post, h, hb⟩ | ⟨pre, post, h, hb⟩)
      · exact ⟨[], post, by simpa using h, hb⟩
      · exact ⟨c :: pre, post, by simp [h], hb⟩
    · rintro ⟨pre, post, h, hb⟩
      cases pre with
      | nil => exact Or.inl ⟨post, by simpa using h, hb⟩
      | cons a as =>
        simp only [List.cons_append, List.cons.injEq] at h
        exact Or.inr ⟨as, post, h.2, hb⟩

/-- C2: `TryMagic d` holds exactly when the decoded text contains `<rss` or
`<opml`, in that letter case, followed by the end of the text or by a
character that is not an (ASCII) letter, a digit or an underscore; so it
accepts the two root tags with attributes and rejects `<RSS>`, `<rssfeed>`
and text without either pattern. -/
theorem TryMagic_iff (fromUtf8 : List UInt8 → String) (d : List UInt8) :
    (TryMagic fromUtf8 d = true ↔
      ∃ pre post, ((fromUtf8 d).data = pre ++ "<rss".data ++ post
          ∨ (fromUtf8 d).data = pre ++ "<opml".data ++ post)
        ∧ (post = [] ∨ ∃ c t, post = c :: t ∧
            ¬ (c.isAlpha = true ∨ c.isDigit = true ∨ c = '_')))
    ∧ (fromUtf8 d = "<rss version=\"2.0\">" → TryMagic fromUtf8 d = true)
    ∧ (fromUtf8 d = "<opml version=\"1.0\">" → TryMagic fromUtf8 d = true)
    ∧ (fromUtf8 d = "plain text, no feed here" → TryMagic fromUtf8 d = false)
    ∧ (fromUtf8 d = "<RSS>" → TryMagic fromUtf8 d = false)
    ∧ (fromUtf8 d = "<rssfeed>" → TryMagic fromUtf8 d = false) := by
  refine ⟨?_, ?_, ?_, ?_, ?_, ?_⟩
  · simp only [TryMagic, Bool.or_eq_true, containsRegex_iff, wordBoundaryAfter_iff]
    constructor
    · rintro (⟨pre, post, h, hb⟩ | ⟨pre, post, h, hb⟩)
      · exact ⟨pre, post, Or.inl h, hb⟩
      · exact ⟨pre, post, Or.inr h, hb⟩
    · rintro ⟨pre, post, h | h, hb⟩
      · exact Or.inl ⟨pre, post, h, hb⟩
      · exact Or.inr ⟨pre, post, h, hb⟩
  all_goals
    intro h
    simp only [TryMagic, h]
    decide

/-- Witness for C2 at the bytes of `<rss>` read by the ASCII decoder. -/
theorem TryMagic_iff_witness :
    asciiDecode [60, 82, 83, 83, 62] = "<RSS>"
      ∧ TryMagic asciiDecode [60, 82, 83, 83, 62] = false :=
  ⟨by decide, (TryMagic_iff asciiDecode [60, 82, 83, 83, 62]).2.2.2.2.1 (by decide)⟩

/-! ### The cursor -/

theorem readNext_cons (cur t : Token) (ts : List Token) (h : cur.atEnd = false) :
    Reader.readNext { cur := cur, rest := t :: ts } = { cur := t, rest := ts } := by
  cases cur <;> simp_all [Reader.readNext, Token.atEnd]

theorem readNext_nil (cur : Token) :
    Reader.readNext { cur := cur, rest := [] } = { cur := .Invalid, rest := [] } := by
  cases cur <;> simp [Reader.readNext]

theorem ParseUntilElementFrom_absent (name : String) (ts : List Token) (cur : Token)
    (h : ts.any (Token.isStartNamed name) = false) :
    (ParseUntilElementFrom name cur ts).1 = false := by
  induction ts generalizing cur with
  | nil => unfold ParseUntilElementFrom; split <;> rfl
  | cons t ts ih =>
    simp only [List.any_cons, Bool.or_eq_false_iff] at h
    unfold ParseUntilElementFrom
    split
    · rfl
    · cases t <;> first | exact ih _ h.2 | skip
      rename_i n ns attrs
      have hn : ¬ n = name := by simpa [Token.isStartNamed] using h.1
      simp only [hn, if_false]
      exact ih _ h.2

theorem ParseUntilElementFrom_error (name : String) (ts post : List Token) (cur : Token)
    (h : ts.any (Token.isStartNamed name) = false) :
    (ParseUntilElementFrom name cur (ts ++ Token.Invalid :: post)).1 = false := by
  induction ts generalizing cur with
  | nil =>
    simp only [List.nil_append]
    unfold ParseUntilElementFrom
    split
    · rfl
    · cases post <;> simp [ParseUntilElementFrom, Token.atEnd]
  | cons t ts ih =>
    simp only [List.any_cons, Bool.or_eq_false_iff] at h
    simp only [List.cons_append]
    unfold ParseUntilElementFrom
    split
    · rfl
    · cases t <;> first | exact ih _ h.2 | skip
      rename_i n ns attrs
      have hn : ¬ n = name := by simpa [Token.isStartNamed] using h.1
      simp only [hn, if_false]
      exact ih _ h.2

/-! ### The dispatcher -/

theorem LoadLoop_atEnd (Q : Env) (url : QUrl) (fuel : Nat) (r : Reader)
    (h : r.cur.atEnd = true) : LoadLoop Q url (fuel + 1) r = some .invalid := by
  simp [LoadLoop, Reader.atEnd, h]

theorem LoadLoop_skip (Q : Env) (url : QUrl) (fuel : Nat) (cur x : Token) (ts : List Token)
    (hc : cur.atEnd = false) (hx : x.isStartElement = false) :
    LoadLoop Q url (fuel + 1) { cur := cur, rest := x :: ts }
      = LoadLoop Q url fuel { cur := x, rest := ts } := by
  rw [LoadLoop]
  simp only [Reader.atEnd, hc, readNext_cons _ _ _ hc]
  cases x <;> first | rfl | exact absurd hx (by simp [Token.isStartElement])

/-- Scanning a run of tokens without start element either ends the loop with
the failure value or reaches the token after the run. -/
theorem LoadLoop_scan (Q : Env) (url : QUrl) (pre : List Token) (t : Token)
    (post : List Token) (hpre : ∀ x ∈ pre, x.isStartElement = false) :
    ∀ (cur : Token) (fuel : Nat), pre.length + 2 ≤ fuel →
      LoadLoop Q url fuel { cur := cur, rest := pre ++ t :: post } = some .invalid
      ∨ ∃ cur2 fuel2, cur2.atEnd = false ∧ 1 ≤ fuel2 ∧ fuel2 + pre.length + 1 = fuel ∧
          LoadLoop Q url fuel { cur := cur, rest := pre ++ t :: post }
            = LoadLoop Q url (fuel2 + 1) { cur := cur2, rest := t :: post } := by
  induction pre with
  | nil =>
    intro cur fuel hf
    cases hc : cur.atEnd with
    | true =>
      left
      obtain ⟨f, rfl⟩ : ∃ f, fuel = f + 1 := ⟨fuel - 1, by omega⟩
      exact LoadLoop_atEnd Q url f _ hc
    | false =>
      right
      exact ⟨cur, fuel - 1, hc, by simp at hf; omega, by simp at hf ⊢; omega, by
        have : fuel - 1 + 1 = fuel := by simp at hf; omega
        rw [this]; rfl⟩
  | cons x pre ih =>
    intro cur fuel hf
    have hx : x.isStartElement = false := hpre x (List.mem_cons_self _ _)
    have hpre2 : ∀ y ∈ pre, y.isStartElement = false :=
      fun y hy => hpre y (List.mem_cons_of_mem _ hy)
    obtain ⟨f, rfl⟩ : ∃ f, fuel = f + 1 := ⟨fuel - 1, by simp at hf; omega⟩
    cases hc : cur.atEnd with
    | true => exact Or.inl (LoadLoop_atEnd Q url f _ hc)
    | false =>
      have hstep : LoadLoop Q url (f + 1) { cur := cur, rest := (x :: pre) ++ t :: post }
          = LoadLoop Q url f { cur := x, rest := pre ++ t :: post } := by
        exact LoadLoop_skip Q url f cur x _ hc hx
      rw [hstep]
      have hf2 : pre.length + 2 ≤ f := by simp at hf; omega
      rcases ih hpre2 x f hf2 with h | ⟨cur2, fuel2, h1, h2, h3, h4⟩
      · exact Or.inl h
      · exact Or.inr ⟨cur2, fuel2, h1, h2, by simp; omega, h4⟩

theorem LoadLoop_no_start (Q : Env) (url : QUrl) (pre : List Token)
    (hpre : ∀ x ∈ pre, x.isStartElement = false) :
    ∀ (cur : Token) (fuel : Nat), pre.length + 2 ≤ fuel →
      LoadLoop Q url fuel { cur := cur, rest := pre } = some .invalid := by
  induction pre with
  | nil =>
    intro cur fuel hf
    obtain ⟨f, rfl⟩ : ∃ f, fuel = f + 2 := ⟨fuel - 2, by simp at hf; omega⟩
    cases hc : cur.atEnd with
    | true => exact LoadLoop_atEnd Q url _ _ hc
    | false =>
      rw [LoadLoop]
      simp only [Reader.atEnd, hc, readNext_nil]
      exact LoadLoop_atEnd Q url f { cur := .Invalid, rest := [] } rfl
  | cons x pre ih =>
    intro cur fuel hf
    have hx : x.isStartElement = false := hpre x (List.mem_cons_self _ _)
    obtain ⟨f, rfl⟩ : ∃ f, fuel = f + 1 := ⟨fuel - 1, by simp at hf; omega⟩
    cases hc : cur.atEnd with
    | true => exact LoadLoop_atEnd Q url f _ hc
    | false =>
      have hstep : LoadLoop Q url (f + 1) { cur := cur, rest := x :: pre }
          = LoadLoop Q url f { cur := x, rest := pre } := by
        exact LoadLoop_skip Q url f cur x _ hc hx
      rw [hstep]
      exact ih (fun y hy => hpre y (List.mem_cons_of_mem _ hy)) x f (by simp at hf; omega)

/-- C3: when the first start element of the stream is named neither `rss` nor
`opml`, `Load` returns the invalid `QVariant` whatever follows it, and so it
does on a stream without any start element. -/
theorem Load_unrecognized_root (Q : Env) (url : QUrl) (pre post : List Token)
    (name namespaceUri : String) (attributes : List (String × String))
    (hpre : ∀ x ∈ pre, x.isStartElement = false)
    (hrss : name ≠ "rss") (hopml : name ≠ "opml") :
    Load Q (pre ++ Token.StartElement name namespaceUri attributes :: post) url = some .invalid
      ∧ Load Q pre url = some .invalid := by
  refine ⟨?_, LoadLoop_no_start Q url pre hpre _ _ (le_refl _)⟩
  unfold Load
  rcases LoadLoop_scan Q url pre (Token.StartElement name namespaceUri attributes) post hpre
      Token.NoToken ((pre ++ Token.StartElement name namespaceUri attributes :: post).length + 2)
      (by simp) with h | ⟨cur2, fuel2, h1, _, _, h4⟩
  · exact h
  · rw [h4, LoadLoop]
    simp [Reader.atEnd, h1, readNext_cons _ _ _ h1, hrss, hopml]

/-- Witness for C3: a document whose root is `html` and that holds an `rss`
element further in. -/
theorem Load_unrecognized_root_witness :
    Load testEnv ([Token.StartDocument] ++ Token.StartElement "html" "" []
        :: [Token.StartElement "rss" "" [], Token.StartElement "channel" "" [],
            Token.EndElement "channel", Token.EndElement "rss", Token.EndElement "html"])
        { encoded := "u" } = some .invalid
      ∧ Load testEnv [Token.StartDocument] { encoded := "u" } = some .invalid :=
  Load_unrecognized_root testEnv { encoded := "u" } [Token.StartDocument] _ "html" "" []
    (by decide) (by decide) (by decide)

theorem LoadLoop_start (Q : Env) (url : QUrl) (fuel : Nat) (cur : Token) (name ns : String)
    (attrs : List (String × String)) (post : List Token) (hc : cur.atEnd = false) :
    LoadLoop Q url (fuel + 1) { cur := cur, rest := Token.StartElement name ns attrs :: post }
      = if name = "rss" then
          match ParseRss Q fuel { cur := Token.StartElement name ns attrs, rest := post } 0 {} with
          | none => none
          | some (false, _) => some .invalid
          | some (true, _, _, podcast) => some (.podcast { podcast with url := url })
        else if name = "opml" then
          match ParseOpml Q fuel { cur := Token.StartElement name ns attrs, rest := post }
              OpmlContainer.empty with
          | none => none
          | some (false, _) => some .invalid
          | some (true, _, container) => some (.opml (container.setUrl url))
        else some .invalid := by
  rw [LoadLoop]
  simp only [Reader.atEnd, hc, readNext_cons _ _ _ hc]
  rfl

theorem ParseRss_not_found (Q : Env) (fuel : Nat) (reader : Reader) (clock : Nat) (ret : Podcast)
    (h : (ParseUntilElement reader "channel").1 = false) :
    ParseRss Q fuel reader clock ret
      = some (false, (ParseUntilElement reader "channel").2, clock, ret) := by
  simp [ParseRss, h]

theorem ParseOpml_not_found (Q : Env) (fuel : Nat) (reader : Reader) (ret : OpmlContainer)
    (h : (ParseUntilElement reader "body").1 = false) :
    ParseOpml Q fuel reader ret = some (false, (ParseUntilElement reader "body").2, ret) := by
  simp [ParseOpml, h]

/-- C5: when the first start element is `rss` and no start element named
`channel` follows it, `Load` returns the invalid `QVariant`; likewise for
`opml` without a following `body`. -/
theorem Load_missing_channel_or_body (Q : Env) (url : QUrl) (pre post : List Token)
    (namespaceUri : String) (attributes : List (String × String))
    (hpre : ∀ x ∈ pre, x.isStartElement = false) :
    (post.any (Token.isStartNamed "channel") = false →
        Load Q (pre ++ Token.StartElement "rss" namespaceUri attributes :: post) url
          = some .invalid)
      ∧ (post.any (Token.isStartNamed "body") = false →
        Load Q (pre ++ Token.StartElement "opml" namespaceUri attributes :: post) url
          = some .invalid) := by
  constructor
  · intro h
    unfold Load
    rcases LoadLoop_scan Q url pre (Token.StartElement "rss" namespaceUri attributes) post hpre
        Token.NoToken ((pre ++ Token.StartElement "rss" namespaceUri attributes :: post).length + 2)
        (by simp) with h0 | ⟨cur2, fuel2, h1, _, _, h4⟩
    · exact h0
    · rw [h4, LoadLoop_start Q url fuel2 cur2 _ _ _ _ h1, if_pos rfl,
        ParseRss_not_found Q fuel2 _ 0 {} (ParseUntilElementFrom_absent _ _ _ h)]
  · intro h
    unfold Load
    rcases LoadLoop_scan Q url pre (Token.StartElement "opml" namespaceUri attributes) post hpre
        Token.NoToken ((pre ++ Token.StartElement "opml" namespaceUri attributes :: post).length + 2)
        (by simp) with h0 | ⟨cur2, fuel2, h1, _, _, h4⟩
    · exact h0
    · rw [h4, LoadLoop_start Q url fuel2 cur2 _ _ _ _ h1, if_neg (by decide), if_pos rfl,
        ParseOpml_not_found Q fuel2 _ _ (ParseUntilElementFrom_absent _ _ _ h)]

/-- Witness for C5: an `rss` root that holds an `item` but no `channel`. -/
theorem Load_missing_channel_or_body_witness :
    Load testEnv ([Token.StartDocument] ++ Token.StartElement "rss" "" []
        :: [Token.StartElement "item" "" [], Token.EndElement "item", Token.EndElement "rss",
            Token.EndDocument]) { encoded := "u" } = some .invalid :=
  (Load_missing_channel_or_body testEnv { encoded := "u" } [Token.StartDocument] _ "" []
    (by decide)).1 (by decide)

theorem LoadLoop_error_before_structure (Q : Env) (url : QUrl) (post : List Token)
    (pre : List Token) :
    ∀ (cur : Token) (fuel : Nat), reachesStructure pre = false → pre.length + 3 ≤ fuel →
      LoadLoop Q url fuel { cur := cur, rest := pre ++ Token.Invalid :: post } = some .invalid := by
  induction pre with
  | nil =>
    intro cur fuel _ hf
    obtain ⟨f, rfl⟩ : ∃ f, fuel = f + 2 := ⟨fuel - 2, by simp at hf; omega⟩
    cases hc : cur.atEnd with
    | true => exact LoadLoop_atEnd Q url _ _ hc
    | false =>
      rw [List.nil_append, LoadLoop_skip Q url (f + 1) cur Token.Invalid post hc rfl]
      exact LoadLoop_atEnd Q url f _ rfl
  | cons x pre ih =>
    intro cur fuel hs hf
    obtain ⟨f, rfl⟩ : ∃ f, fuel = f + 1 := ⟨fuel - 1, by simp at hf; omega⟩
    cases hc : cur.atEnd with
    | true => exact LoadLoop_atEnd Q url f _ hc
    | false =>
      have hf2 : pre.length + 3 ≤ f := by simp at hf; omega
      rw [List.cons_append]
      cases x with
      | StartElement name ns attrs =>
        simp only [reachesStructure, Bool.or_eq_false_iff, Bool.and_eq_false_iff,
          decide_eq_false_iff_not] at hs
        rw [LoadLoop_start Q url f cur _ _ _ _ hc]
        by_cases h1 : name = "rss"
        · have hch : pre.any (Token.isStartNamed "channel") = false := by
            rcases hs.1 with h | h
            · exact absurd h1 h
            · exact h
          rw [if_pos h1, ParseRss_not_found Q f
            { cur := Token.StartElement name ns attrs, rest := pre ++ Token.Invalid :: post } 0 {}
            (ParseUntilElementFrom_error _ _ _ _ hch)]
        · by_cases h2 : name = "opml"
          · have hb : pre.any (Token.isStartNamed "body") = false := by
              rcases hs.2 with h | h
              · exact absurd h2 h
              · exact h
            rw [if_neg h1, if_pos h2, ParseOpml_not_found Q f
              { cur := Token.StartElement name ns attrs, rest := pre ++ Token.Invalid :: post } _
              (ParseUntilElementFrom_error _ _ _ _ hb)]
          · rw [if_neg h1, if_neg h2]
      | _ =>
        rw [LoadLoop_skip Q url f cur _ _ hc (by rfl)]
        exact ih _ f (by simpa [reachesStructure] using hs) hf2

/-- C4, counterexample: an error token after the `channel` start element, or
a nested element where element text is read, does not make `Load` fail; the
podcast filled so far is returned. -/
theorem Load_error_after_channel_counterexample :
    Load testEnv [Token.StartElement "rss" "" [], Token.StartElement "channel" "" [],
        Token.StartElement "title" "" [], Token.Characters "T", Token.EndElement "title",
        Token.Invalid] { encoded := "u" }
      = some (.podcast { title := "T", url := { encoded := "u" } })
    ∧ Load testEnv [Token.StartElement "rss" "" [], Token.StartElement "channel" "" [],
        Token.StartElement "copyright" "" [], Token.Characters "C", Token.EndElement "copyright",
        Token.StartElement "title" "" [], Token.Characters "T", Token.StartElement "b" "" [],
        Token.EndElement "b", Token.EndElement "title", Token.EndElement "channel",
        Token.EndElement "rss", Token.EndDocument] { encoded := "u" }
      = some (.podcast { title := "T", copyright := "C", url := { encoded := "u" } })
    ∧ Load testEnv [Token.StartElement "rss" "" [], Token.StartElement "channel" "" [],
        Token.StartElement "title" "" [], Token.Characters "T", Token.EndElement "title",
        Token.Invalid] { encoded := "u" } ≠ some .invalid :=
  ⟨rfl, rfl, fun h => by
    cases (show some (QVariant.podcast { title := "T", url := { encoded := "u" } })
      = some QVariant.invalid from h)⟩

/-- C4, amended: an error token that comes before the stream has shown an
`rss` root followed by a `channel` start element, or an `opml` root followed by
a `body` start element, makes `Load` return the invalid `QVariant`. -/
theorem Load_error_before_structure (Q : Env) (url : QUrl) (pre post : List Token)
    (h : reachesStructure pre = false) :
    Load Q (pre ++ Token.Invalid :: post) url = some .invalid :=
  LoadLoop_error_before_structure Q url post pre Token.NoToken _ h (by simp)

/-- Witness for C4, amended: the error comes inside `rss`, before any `channel`. -/
theorem Load_error_before_structure_witness :
    Load testEnv ([Token.StartDocument, Token.StartElement "rss" "" [], Token.Characters " "]
        ++ Token.Invalid :: [Token.StartElement "channel" "" []]) { encoded := "u" }
      = some .invalid :=
  Load_error_before_structure testEnv { encoded := "u" } _ _ (by decide)

/-! ### The URL stamped by `Load` -/

theorem setUrl_url (c : OpmlContainer) (u : QUrl) : (c.setUrl u).url = u := by
  cases c; rfl

theorem LoadLoop_url (Q : Env) (url : QUrl) :
    ∀ (fuel : Nat) (r : Reader) (v : QVariant), LoadLoop Q url fuel r = some v →
      (∀ p, v = .podcast p → p.url = url) ∧ (∀ c, v = .opml c → c.url = url) := by
  intro fuel
  induction fuel with
  | zero => intro r v h; simp [LoadLoop] at h
  | succ f ih =>
    intro r v h
    rw [LoadLoop] at h
    split at h
    · cases h
      exact ⟨fun p hp => (by cases hp), fun c hc => (by cases hc)⟩
    · simp only at h
      split at h
      · split at h
        · split at h
          · cases h
          · cases h
            exact ⟨fun p hp => (by cases hp), fun c hc => (by cases hc)⟩
          · cases h
            exact ⟨fun p hp => (by cases hp; rfl), fun c hc => (by cases hc)⟩
        · split at h
          · split at h
            · cases h
            · cases h
              exact ⟨fun p hp => (by cases hp), fun c hc => (by cases hc)⟩
            · cases h
              exact ⟨fun p hp => (by cases hp), fun c hc => (by cases hc; exact setUrl_url _ _)⟩
          · cases h
            exact ⟨fun p hp => (by cases hp), fun c hc => (by cases hc)⟩
      · exact ih _ _ h

/-- C6: whenever `Load` succeeds, the `url` of the value it returns is the URL
the caller passed: for a `Podcast`, whatever Atom self link the channel holds,
and for the `OpmlContainer` left by the collapsing step. -/
theorem Load_url (Q : Env) (tokens : List Token) (url : QUrl) :
    (∀ p, Load Q tokens url = some (.podcast p) → p.url = url)
      ∧ (∀ c, Load Q tokens url = some (.opml c) → c.url = url) :=
  ⟨fun p h => (LoadLoop_url Q url _ _ _ h).1 p rfl,
   fun c h => (LoadLoop_url Q url _ _ _ h).2 c rfl⟩

/-- Witness for C6: a channel with an Atom self link to another address. -/
theorem Load_url_witness :
    ∃ p, Load testEnv sampleSelfLinkFeed { encoded := "http://fetched/feed" }
        = some (.podcast p) ∧ p.url = { encoded := "http://fetched/feed" } :=
  ⟨_, rfl, (Load_url testEnv sampleSelfLinkFeed { encoded := "http://fetched/feed" }).1 _ rfl⟩

/-! ### What the sub-parsers change -/

theorem ParseImage_frame (Q : Env) :
    ∀ (fuel : Nat) (r : Reader) (ret : Podcast) (r2 : Reader) (ret2 : Podcast),
      ParseImage Q fuel r ret = some (r2, ret2) →
      ∃ x, ret2 = { ret with image_url_large := x } := by
  intro fuel
  induction fuel with
  | zero => intro r ret r2 ret2 h; simp [ParseImage] at h
  | succ f ih =>
    intro r ret r2 ret2 h
    rw [ParseImage] at h
    split at h
    · cases h; exact ⟨ret.image_url_large, rfl⟩
    · simp only at h
      split at h
      · split at h
        · obtain ⟨x, hx⟩ := ih _ _ _ _ h
          exact ⟨x, hx⟩
        · exact ih _ _ _ _ h
      · cases h; exact ⟨ret.image_url_large, rfl⟩
      · exact ih _ _ _ _ h

theorem ParseItunesOwner_frame (Q : Env) :
    ∀ (fuel : Nat) (r : Reader) (ret : Podcast) (r2 : Reader) (ret2 : Podcast),
      ParseItunesOwner Q fuel r ret = some (r2, ret2) →
      ∃ x y, ret2 = { ret with owner_name := x, owner_email := y } := by
  intro fuel
  induction fuel with
  | zero => intro r ret r2 ret2 h; simp [ParseItunesOwner] at h
  | succ f ih =>
    intro r ret r2 ret2 h
    rw [ParseItunesOwner] at h
    split at h
    · cases h; exact ⟨ret.owner_name, ret.owner_email, rfl⟩
    · simp only at h
      split at h
      · split_ifs at h
        · obtain ⟨x, y, hx⟩ := ih _ _ _ _ h
          exact ⟨x, y, hx⟩
        · obtain ⟨x, y, hx⟩ := ih _ _ _ _ h
          exact ⟨x, y, hx⟩
        · exact ih _ _ _ _ h
      · cases h; exact ⟨ret.owner_name, ret.owner_email, rfl⟩
      · exact ih _ _ _ _ h

theorem ParseItemEndElement_frame (Q : Env) (clock : Nat) (episode : PodcastEpisode)
    (ret : Podcast) :
    (ParseItemEndElement Q clock episode ret).2 = ret
      ∨ ∃ e, Q.urlIsEmpty e.url = false
        ∧ (ParseItemEndElement Q clock episode ret).2
            = { ret with episodes := ret.episodes ++ [e] }
        ∧ e.url = episode.url := by
  unfold ParseItemEndElement
  simp only
  split_ifs with h1 h2 h3
  · exact Or.inl rfl
  · exact Or.inr ⟨_, by simpa using h2, rfl, rfl⟩
  · exact Or.inl rfl
  · exact Or.inr ⟨_, by simpa using h3, rfl, rfl⟩

theorem ParseItemLoop_frame (Q : Env) :
    ∀ (fuel : Nat) (r : Reader) (clock : Nat) (episode : PodcastEpisode) (ret : Podcast)
      (r2 : Reader) (clock2 : Nat) (ret2 : Podcast),
      ParseItemLoop Q fuel r clock episode ret = some (r2, clock2, ret2) →
      ret2 = ret ∨ ∃ e, Q.urlIsEmpty e.url = false
        ∧ ret2 = { ret with episodes := ret.episodes ++ [e] } := by
  intro fuel
  induction fuel with
  | zero => intro r clock episode ret r2 clock2 ret2 h; simp [ParseItemLoop] at h
  | succ f ih =>
    intro r clock episode ret r2 clock2 ret2 h
    rw [ParseItemLoop] at h
    split at h
    · cases h; exact Or.inl rfl
    · simp only at h
      split at h
      · exact ih _ _ _ _ _ _ _ h
      · cases h
        rcases ParseItemEndElement_frame Q clock episode ret with h1 | ⟨e, h1, h2, _⟩
        · exact Or.inl h1
        · exact Or.inr ⟨e, h1, h2⟩
      · exact ih _ _ _ _ _ _ _ h

theorem ParseChannelStartElement_episode_urls (Q : Env) (fuel : Nat) (r : Reader) (clock : Nat)
    (ret : Podcast) (name ns : String) (attrs : List (String × String))
    (r2 : Reader) (clock2 : Nat) (ret2 : Podcast)
    (h : ParseChannelStartElement Q fuel r clock ret name ns attrs = some (r2, clock2, ret2))
    (hret : ret.episodesHaveUrl Q) : ret2.episodesHaveUrl Q := by
  unfold ParseChannelStartElement at h
  simp only at h
  split_ifs at h
  · cases h; exact hret
  · cases h; exact hret
  · cases h; exact hret
  · split at h
    · cases h
    · rename_i heq
      obtain ⟨x, y, hx⟩ := ParseItunesOwner_frame Q _ _ _ _ _ heq
      cases h
      rw [hx]; exact hret
  · split at h
    · cases h
    · rename_i heq
      obtain ⟨x, hx⟩ := ParseImage_frame Q _ _ _ _ _ heq
      cases h
      rw [hx]; exact hret
  · cases h; exact hret
  · cases h; exact hret
  · rcases ParseItemLoop_frame Q _ _ _ _ _ _ _ _ h with hx | ⟨e, he, hx⟩
    · rw [hx]; exact hret
    · rw [hx]
      intro e2 he2
      rcases List.mem_append.1 he2 with h3 | h3
      · exact hret e2 h3
      · rw [List.mem_singleton.1 h3]; exact he
  · cases h; exact hret

theorem ParseChannel_episode_urls (Q : Env) :
    ∀ (fuel : Nat) (r : Reader) (clock : Nat) (ret : Podcast)
      (r2 : Reader) (clock2 : Nat) (ret2 : Podcast),
      ParseChannel Q fuel r clock ret = some (r2, clock2, ret2) →
      ret.episodesHaveUrl Q → ret2.episodesHaveUrl Q := by
  intro fuel
  induction fuel with
  | zero => intro r clock ret r2 clock2 ret2 h; simp [ParseChannel] at h
  | succ f ih =>
    intro r clock ret r2 clock2 ret2 h hret
    rw [ParseChannel] at h
    split at h
    · cases h; exact hret
    · simp only at h
      split at h
      · split at h
        · cases h
        · rename_i heq
          exact ih _ _ _ _ _ _ h
            (ParseChannelStartElement_episode_urls Q _ _ _ _ _ _ _ _ _ _ heq hret)
      · cases h; exact hret
      · exact ih _ _ _ _ _ _ h hret

theorem ParseRss_found (Q : Env) (fuel : Nat) (r : Reader) (clock : Nat) (ret : Podcast)
    (r2 : Reader) (clock2 : Nat) (ret2 : Podcast)
    (h : ParseRss Q fuel r clock ret = some (true, r2, clock2, ret2)) :
    (ParseUntilElement r "channel").1 = true
      ∧ ParseChannel Q fuel (ParseUntilElement r "channel").2 clock ret
          = some (r2, clock2, ret2) := by
  simp only [ParseRss] at h
  split_ifs at h with h1
  · cases h
  · split at h
    · cases h
    · rename_i hch
      cases h
      exact ⟨by simpa using h1, hch⟩

theorem LoadLoop_episode_urls (Q : Env) (url : QUrl) :
    ∀ (fuel : Nat) (r : Reader) (p : Podcast), LoadLoop Q url fuel r = some (.podcast p) →
      ∀ e ∈ p.episodes, Q.urlIsEmpty e.url = false := by
  intro fuel
  induction fuel with
  | zero => intro r p h; simp [LoadLoop] at h
  | succ f ih =>
    intro r p h
    rw [LoadLoop] at h
    split at h
    · cases h
    · simp only at h
      split at h
      · split_ifs at h
        · split at h
          · cases h
          · cases h
          · rename_i heq
            cases h
            have key := ParseChannel_episode_urls Q _ _ _ _ _ _ _
              (ParseRss_found Q _ _ _ _ _ _ _ heq).2 (by simp [Podcast.episodesHaveUrl])
            exact key
        · split at h <;> cases h
        · cases h
      · exact ih _ _ h

/-! ### The helpers on the cursor never go back, and they follow the nesting -/

theorem readElementTextFrom_length (ts : List Token) :
    ∀ acc : String, (readElementTextFrom acc ts).2.rest.length ≤ ts.length := by
  induction ts with
  | nil => intro acc; simp [readElementTextFrom]
  | cons t ts ih =>
    intro acc
    cases t <;> simp only [readElementTextFrom, List.length_cons] <;>
      first | exact Nat.le_succ_of_le (ih _) | exact Nat.le_succ _

theorem readElementTextFrom_children (ts : List Token) :
    ∀ acc : String, (readElementTextFrom acc ts).2.cur.atEnd = true
      ∨ childStarts 1 ts = childStarts 0 (readElementTextFrom acc ts).2.rest := by
  induction ts with
  | nil => intro acc; left; rfl
  | cons t ts ih =>
    intro acc
    cases t <;> simp only [readElementTextFrom, childStarts] <;>
      first | exact ih _ | exact Or.inl rfl | exact Or.inr (by simp)

theorem ConsumeCurrentElementFrom_zero (cur : Token) (ts : List Token) :
    ConsumeCurrentElementFrom 0 cur ts = { cur := cur, rest := ts } := by
  cases ts <;> simp [ConsumeCurrentElementFrom]

theorem ConsumeCurrentElementFrom_atEnd (level : Nat) (cur : Token) (ts : List Token)
    (h : cur.atEnd = true) :
    ConsumeCurrentElementFrom level cur ts = { cur := cur, rest := ts } := by
  cases ts <;> simp [ConsumeCurrentElementFrom, h]

theorem ConsumeCurrentElementFrom_length (ts : List Token) :
    ∀ (level : Nat) (cur : Token),
      (ConsumeCurrentElementFrom level cur ts).rest.length ≤ ts.length := by
  induction ts with
  | nil => intro level cur; unfold ConsumeCurrentElementFrom; split <;> simp
  | cons t ts ih =>
    intro level cur
    unfold ConsumeCurrentElementFrom
    split
    · cases t <;> simp only [List.length_cons] <;> exact Nat.le_succ_of_le (ih _ _)
    · simp

theorem ConsumeCurrentElementFrom_children (ts : List Token) :
    ∀ (level : Nat) (cur : Token), level ≠ 0 → cur.atEnd = false →
      (ConsumeCurrentElementFrom level cur ts).cur.atEnd = true
        ∨ childStarts level ts = childStarts 0 (ConsumeCurrentElementFrom level cur ts).rest := by
  induction ts with
  | nil =>
    intro level cur hl hc
    left
    unfold ConsumeCurrentElementFrom
    rw [if_pos ⟨hl, hc⟩]
    rfl
  | cons t ts ih =>
    intro level cur hl hc
    have hcond : level ≠ 0 ∧ cur.atEnd = false := ⟨hl, hc⟩
    unfold ConsumeCurrentElementFrom
    rw [if_pos hcond]
    cases t with
    | StartElement n ns a =>
      simp only [childStarts, if_neg hl]
      exact ih (level + 1) _ (Nat.succ_ne_zero _) rfl
    | EndElement n =>
      simp only [childStarts, if_neg hl]
      by_cases h1 : level - 1 = 0
      · rw [h1, ConsumeCurrentElementFrom_zero]
        exact Or.inr rfl
      · exact ih (level - 1) _ h1 rfl
    | Invalid =>
      left
      show (ConsumeCurrentElementFrom level Token.Invalid ts).cur.atEnd = true
      rw [ConsumeCurrentElementFrom_atEnd level Token.Invalid ts rfl]
      rfl
    | EndDocument =>
      left
      show (ConsumeCurrentElementFrom level Token.EndDocument ts).cur.atEnd = true
      rw [ConsumeCurrentElementFrom_atEnd level Token.EndDocument ts rfl]
      rfl
    | _ =>
      simp only [childStarts]
      exact ih level _ hl rfl

/-! ### One iteration of the loop of `ParseItem` -/

theorem ParseItemLoop_atEnd (Q : Env) (fuel : Nat) (r : Reader) (clock : Nat)
    (episode : PodcastEpisode) (ret : Podcast) (h : r.cur.atEnd = true) :
    ParseItemLoop Q (fuel + 1) r clock episode ret = some (r, clock, ret) := by
  simp [ParseItemLoop, Reader.atEnd, h]

theorem ParseItemLoop_nil (Q : Env) (fuel : Nat) (cur : Token) (clock : Nat)
    (episode : PodcastEpisode) (ret : Podcast) (h : cur.atEnd = false) :
    ParseItemLoop Q (fuel + 1) { cur := cur, rest := [] } clock episode ret
      = ParseItemLoop Q fuel { cur := .Invalid, rest := [] } clock episode ret := by
  rw [ParseItemLoop]
  simp only [Reader.atEnd, h, readNext_nil]
  rfl

theorem ParseItemLoop_start (Q : Env) (fuel : Nat) (cur : Token) (name ns : String)
    (attrs : List (String × String)) (ts : List Token) (clock : Nat)
    (episode : PodcastEpisode) (ret : Podcast) (h : cur.atEnd = false) :
    ParseItemLoop Q (fuel + 1) { cur := cur, rest := Token.StartElement name ns attrs :: ts }
        clock episode ret
      = ParseItemLoop Q fuel
          (ParseItemStartElement Q { cur := Token.StartElement name ns attrs, rest := ts }
            episode name ns attrs).1 clock
          (ParseItemStartElement Q { cur := Token.StartElement name ns attrs, rest := ts }
            episode name ns attrs).2 ret := by
  rw [ParseItemLoop]
  simp only [Reader.atEnd, h, readNext_cons _ _ _ h]
  rfl

theorem ParseItemLoop_end (Q : Env) (fuel : Nat) (cur : Token) (name : String)
    (ts : List Token) (clock : Nat) (episode : PodcastEpisode) (ret : Podcast)
    (h : cur.atEnd = false) :
    ParseItemLoop Q (fuel + 1) { cur := cur, rest := Token.EndElement name :: ts }
        clock episode ret
      = some ({ cur := Token.EndElement name, rest := ts },
          (ParseItemEndElement Q clock episode ret).1,
          (ParseItemEndElement Q clock episode ret).2) := by
  rw [ParseItemLoop]
  simp only [Reader.atEnd, h, readNext_cons _ _ _ h]
  rfl

theorem ParseItemLoop_other (Q : Env) (fuel : Nat) (cur t : Token) (ts : List Token)
    (clock : Nat) (episode : PodcastEpisode) (ret : Podcast) (h : cur.atEnd = false)
    (hs : t.isStartElement = false) (he : t.isEndElement = false) :
    ParseItemLoop Q (fuel + 1) { cur := cur, rest := t :: ts } clock episode ret
      = ParseItemLoop Q fuel { cur := t, rest := ts } clock episode ret := by
  rw [ParseItemLoop]
  simp only [Reader.atEnd, h, readNext_cons _ _ _ h]
  cases t <;> first
    | rfl
    | (exact Bool.noConfusion hs)
    | (exact Bool.noConfusion he)

theorem ParseItemLoop_atEnd_result (Q : Env) (fuel : Nat) (r : Reader) (clock : Nat)
    (episode : PodcastEpisode) (ret : Podcast) (res : Reader × Nat × Podcast)
    (hc : r.cur.atEnd = true) (h : ParseItemLoop Q fuel r clock episode ret = some res) :
    res = (r, clock, ret) := by
  cases fuel with
  | zero => simp [ParseItemLoop] at h
  | succ f =>
    rw [ParseItemLoop_atEnd Q f r clock episode ret hc] at h
    exact (Option.some.inj h).symm

/-! ### The branches of `ParseItem` and the episode URL -/

theorem setDuration_url (episode : PodcastEpisode) (text : String) :
    (setDuration episode text).url = episode.url := by
  unfold setDuration
  split <;> rfl

theorem enclosureUrlStep_other (Q : Env) (u : QUrl) (name ns : String)
    (attrs : List (String × String)) (h : name ≠ "enclosure") :
    enclosureUrlStep Q u (Token.StartElement name ns attrs) = u := by
  simp [enclosureUrlStep, acceptedEnclosure, h]

theorem enclosureUrlStep_enclosure (Q : Env) (episode : PodcastEpisode) (ns : String)
    (attrs : List (String × String)) :
    (setEnclosure Q episode attrs).url
      = enclosureUrlStep Q episode.url (Token.StartElement "enclosure" ns attrs) := by
  unfold setEnclosure enclosureUrlStep acceptedEnclosure
  by_cases h : acceptsEnclosure Q (attributeValue attrs "type")
      (Q.fromEncoded (attributeValue attrs "url")) = true
  · simp [h]
  · simp [h]

theorem readElementText_start (name ns : String) (attrs : List (String × String))
    (ts : List Token) :
    Reader.readElementText { cur := Token.StartElement name ns attrs, rest := ts }
      = readElementTextFrom "" ts := rfl

theorem ParseItemStartElement_spec (Q : Env) (ts : List Token) (episode : PodcastEpisode)
    (name ns : String) (attrs : List (String × String)) :
    (ParseItemStartElement Q { cur := Token.StartElement name ns attrs, rest := ts }
        episode name ns attrs).1.rest.length ≤ ts.length
      ∧ ((ParseItemStartElement Q { cur := Token.StartElement name ns attrs, rest := ts }
          episode name ns attrs).1.cur.atEnd = true
        ∨ (childStarts 1 ts = childStarts 0
            (ParseItemStartElement Q { cur := Token.StartElement name ns attrs, rest := ts }
              episode name ns attrs).1.rest
          ∧ (ParseItemStartElement Q { cur := Token.StartElement name ns attrs, rest := ts }
              episode name ns attrs).2.url
            = enclosureUrlStep Q episode.url (Token.StartElement name ns attrs))) := by
  have text : ∀ e : PodcastEpisode, e.url = episode.url → name ≠ "enclosure" →
      (readElementTextFrom "" ts).2.rest.length ≤ ts.length
      ∧ ((readElementTextFrom "" ts).2.cur.atEnd = true
        ∨ (childStarts 1 ts = childStarts 0 (readElementTextFrom "" ts).2.rest
          ∧ e.url = enclosureUrlStep Q episode.url (Token.StartElement name ns attrs))) := by
    intro e he hn
    refine ⟨readElementTextFrom_length ts _, ?_⟩
    rcases readElementTextFrom_children ts "" with h | h
    · exact Or.inl h
    · exact Or.inr ⟨h, by rw [enclosureUrlStep_other Q _ _ _ _ hn]; exact he⟩
  have skip : ∀ e : PodcastEpisode,
      e.url = enclosureUrlStep Q episode.url (Token.StartElement name ns attrs) →
      (ConsumeCurrentElementFrom 1 (Token.StartElement name ns attrs) ts).rest.length ≤ ts.length
      ∧ ((ConsumeCurrentElementFrom 1 (Token.StartElement name ns attrs) ts).cur.atEnd = true
        ∨ (childStarts 1 ts
            = childStarts 0 (ConsumeCurrentElementFrom 1 (Token.StartElement name ns attrs) ts).rest
          ∧ e.url = enclosureUrlStep Q episode.url (Token.StartElement name ns attrs))) := by
    intro e he
    refine ⟨ConsumeCurrentElementFrom_length ts _ _, ?_⟩
    rcases ConsumeCurrentElementFrom_children ts 1 (Token.StartElement name ns attrs)
        (by decide) rfl with h | h
    · exact Or.inl h
    · exact Or.inr ⟨h, he⟩
  unfold ParseItemStartElement
  simp only [readElementText_start, ConsumeCurrentElement]
  split_ifs with h1 h2 h3 h4 h5 h6
  · exact text _ rfl (by rw [h1]; decide)
  · exact text _ rfl (by rw [h2]; decide)
  · exact text _ rfl (by rw [h3]; decide)
  · exact text _ (setDuration_url _ _) (by rw [h4.1]; decide)
  · subst h5
    exact skip _ (enclosureUrlStep_enclosure Q episode ns attrs)
  · exact text _ rfl (by rw [h6.1]; decide)
  · exact skip _ (enclosureUrlStep_other Q _ _ _ _ h5).symm

theorem childStarts_other (t : Token) (ts : List Token) (depth : Nat)
    (hs : t.isStartElement = false) (he : t.isEndElement = false) :
    childStarts depth (t :: ts) = childStarts depth ts := by
  cases t <;> first
    | rfl
    | (exact Bool.noConfusion hs)
    | (exact Bool.noConfusion he)

/-- The episode `ParseItem` emits has the URL left by the accepted enclosures
among the item's children, taken in document order. -/
theorem ParseItemLoop_url (Q : Env) :
    ∀ (fuel : Nat) (r : Reader) (clock : Nat) (episode : PodcastEpisode) (ret : Podcast)
      (r2 : Reader) (clock2 : Nat) (ret2 : Podcast),
      ParseItemLoop Q fuel r clock episode ret = some (r2, clock2, ret2) →
      ret2 = ret ∨ ∃ e, Q.urlIsEmpty e.url = false
        ∧ ret2 = { ret with episodes := ret.episodes ++ [e] }
        ∧ e.url = (childStarts 0 r.rest).foldl (enclosureUrlStep Q) episode.url := by
  intro fuel
  induction fuel with
  | zero => intro r clock episode ret r2 clock2 ret2 h; simp [ParseItemLoop] at h
  | succ f ih =>
    intro r clock episode ret r2 clock2 ret2 h
    obtain ⟨cur, rest⟩ := r
    cases hc : cur.atEnd with
    | true =>
      rw [ParseItemLoop_atEnd Q f _ clock episode ret hc] at h
      cases h
      exact Or.inl rfl
    | false =>
      cases rest with
      | nil =>
        rw [ParseItemLoop_nil Q f cur clock episode ret hc] at h
        rcases ih _ _ _ _ _ _ _ h with h1 | ⟨e, h1, h2, h3⟩
        · exact Or.inl h1
        · exact Or.inr ⟨e, h1, h2, h3⟩
      | cons t ts =>
        by_cases hs : t.isStartElement = true
        · obtain ⟨name, ns, attrs, rfl⟩ : ∃ name ns attrs, t = Token.StartElement name ns attrs := by
            cases t <;> simp [Token.isStartElement] at hs
            exact ⟨_, _, _, rfl⟩
          rw [ParseItemLoop_start Q f cur name ns attrs ts clock episode ret hc] at h
          rcases (ParseItemStartElement_spec Q ts episode name ns attrs).2 with hend | ⟨hch, hurl⟩
          · have := ParseItemLoop_atEnd_result Q f _ _ _ _ _ hend h
            cases this
            exact Or.inl rfl
          · rcases ih _ _ _ _ _ _ _ h with h1 | ⟨e, h1, h2, h3⟩
            · exact Or.inl h1
            · refine Or.inr ⟨e, h1, h2, ?_⟩
              rw [h3, ← hch, hurl]
              simp [childStarts]
        · by_cases he : t.isEndElement = true
          · obtain ⟨name, rfl⟩ : ∃ name, t = Token.EndElement name := by
              cases t <;> simp [Token.isEndElement] at he
              exact ⟨_, rfl⟩
            rw [ParseItemLoop_end Q f cur name ts clock episode ret hc] at h
            cases h
            rcases ParseItemEndElement_frame Q clock episode ret with h1 | ⟨e, h1, h2, h3⟩
            · exact Or.inl h1
            · exact Or.inr ⟨e, h1, h2, by simp [childStarts, h3]⟩
          · have hs2 : t.isStartElement = false := by simpa using hs
            have he2 : t.isEndElement = false := by simpa using he
            rw [ParseItemLoop_other Q f cur t ts clock episode ret hc hs2 he2] at h
            rcases ih _ _ _ _ _ _ _ h with h1 | ⟨e, h1, h2, h3⟩
            · exact Or.inl h1
            · exact Or.inr ⟨e, h1, h2, by rw [h3, childStarts_other t ts 0 hs2 he2]⟩

/-- With fuel for every unread token and two more, the loop of `ParseItem`
returns. -/
theorem ParseItemLoop_total (Q : Env) :
    ∀ (fuel : Nat) (r : Reader) (clock : Nat) (episode : PodcastEpisode) (ret : Podcast),
      r.rest.length + 2 ≤ fuel →
      ∃ res, ParseItemLoop Q fuel r clock episode ret = some res := by
  intro fuel
  induction fuel with
  | zero => intro r clock episode ret hf; omega
  | succ f ih =>
    intro r clock episode ret hf
    obtain ⟨cur, rest⟩ := r
    cases hc : cur.atEnd with
    | true => exact ⟨_, ParseItemLoop_atEnd Q f _ clock episode ret hc⟩
    | false =>
      cases rest with
      | nil =>
        rw [ParseItemLoop_nil Q f cur clock episode ret hc]
        obtain ⟨g, rfl⟩ : ∃ g, f = g + 1 := ⟨f - 1, by simp at hf; omega⟩
        exact ⟨_, ParseItemLoop_atEnd Q g _ clock episode ret rfl⟩
      | cons t ts =>
        simp only [List.length_cons] at hf
        by_cases hs : t.isStartElement = true
        · obtain ⟨name, ns, attrs, rfl⟩ : ∃ name ns attrs, t = Token.StartElement name ns attrs := by
            cases t <;> simp [Token.isStartElement] at hs
            exact ⟨_, _, _, rfl⟩
          rw [ParseItemLoop_start Q f cur name ns attrs ts clock episode ret hc]
          exact ih _ _ _ _
            (by have := (ParseItemStartElement_spec Q ts episode name ns attrs).1; omega)
        · by_cases he : t.isEndElement = true
          · obtain ⟨name, rfl⟩ : ∃ name, t = Token.EndElement name := by
              cases t <;> simp [Token.isEndElement] at he
              exact ⟨_, rfl⟩
            exact ⟨_, ParseItemLoop_end Q f cur name ts clock episode ret hc⟩
          · rw [ParseItemLoop_other Q f cur t ts clock episode ret hc (by simpa using hs)
              (by simpa using he)]
            exact ih _ _ _ _ (by simp; omega)

/-- Folding the URL step over the children gives the initial URL when no
enclosure is accepted, and the `url` attribute of the last accepted one
otherwise. -/
theorem foldl_enclosureUrlStep (Q : Env) (u : QUrl) (starts : List Token) :
    (starts.filterMap (acceptedEnclosure Q) = [] ∧ starts.foldl (enclosureUrlStep Q) u = u)
      ∨ ∃ earlier attrs, starts.filterMap (acceptedEnclosure Q) = earlier ++ [attrs]
          ∧ starts.foldl (enclosureUrlStep Q) u = Q.fromEncoded (attributeValue attrs "url") := by
  induction starts using List.reverseRecOn with
  | nil => exact Or.inl ⟨rfl, rfl⟩
  | append_singleton l t ih =>
    rw [List.filterMap_append, List.foldl_append]
    cases hacc : acceptedEnclosure Q t with
    | some attrs =>
      right
      refine ⟨l.filterMap (acceptedEnclosure Q), attrs, by simp [List.filterMap, hacc], ?_⟩
      simp [enclosureUrlStep, hacc]
    | none =>
      have hstep : ∀ v, enclosureUrlStep Q v t = v := by
        intro v; simp [enclosureUrlStep, hacc]
      rcases ih with ⟨h1, h2⟩ | ⟨earlier, attrs, h1, h2⟩
      · left
        exact ⟨by simp [List.filterMap, hacc, h1], by simp [hstep, h2]⟩
      · right
        exact ⟨earlier, attrs, by simp [List.filterMap, hacc, h1], by simp [hstep, h2]⟩

/-- C7: every episode of a podcast returned by `Load` has a non-empty URL,
and `ParseItem` returns the podcast unchanged for an item none of whose
`enclosure` children is accepted by the resolution rule (in particular for an
item without `enclosure` child). -/
theorem episodes_have_url (Q : Env) :
    (∀ (tokens : List Token) (url : QUrl) (p : Podcast),
        Load Q tokens url = some (.podcast p) → ∀ e ∈ p.episodes, Q.urlIsEmpty e.url = false)
      ∧ (∀ (fuel : Nat) (cur : Token) (content : List Token) (clock : Nat) (ret : Podcast),
          acceptedEnclosures Q content = [] → content.length + 2 ≤ fuel →
          ∃ r2 clock2,
            ParseItem Q fuel { cur := cur, rest := content } clock ret = some (r2, clock2, ret)) := by
  constructor
  · intro tokens url p h
    exact LoadLoop_episode_urls Q url _ _ p h
  · intro fuel cur content clock ret hacc hf
    obtain ⟨⟨r2, clock2, ret2⟩, hres⟩ :=
      ParseItemLoop_total Q fuel { cur := cur, rest := content } clock {} ret hf
    refine ⟨r2, clock2, ?_⟩
    unfold ParseItem
    rw [hres]
    rcases ParseItemLoop_url Q _ _ _ _ _ _ _ _ hres with h1 | ⟨e, h1, _, h3⟩
    · rw [h1]
    · exfalso
      rcases foldl_enclosureUrlStep Q ({} : PodcastEpisode).url (childStarts 0 content)
        with ⟨_, h5⟩ | ⟨earlier, attrs, h4, _⟩
      · rw [show ({ cur := cur, rest := content } : Reader).rest = content from rfl, h5] at h3
        rw [h3] at h1
        exact absurd Q.urlIsEmpty_default (by rw [show ({} : PodcastEpisode).url
          = { encoded := "" } from rfl] at h1; simp [h1])
      · unfold acceptedEnclosures at hacc
        rw [hacc] at h4
        simp at h4

/-- Witness for C7: a feed whose item has audio enclosures, and an item whose
only enclosure child is a video. -/
theorem episodes_have_url_witness :
    (∃ p e, Load testEnv sampleTwoEnclosureFeed { encoded := "u" } = some (.podcast p)
        ∧ e ∈ p.episodes ∧ testEnv.urlIsEmpty e.url = false)
      ∧ ∃ r2 clock2, ParseItem testEnv 12
          { cur := Token.StartElement "item" "" [], rest := sampleVideoItem } 0 {}
            = some (r2, clock2, {}) :=
  ⟨⟨sampleTwoEnclosurePodcast, sampleTwoEnclosureEpisode, rfl, List.mem_singleton.2 rfl,
      (episodes_have_url testEnv).1 sampleTwoEnclosureFeed { encoded := "u" }
        sampleTwoEnclosurePodcast rfl _ (List.mem_singleton.2 rfl)⟩,
    (episodes_have_url testEnv).2 12 _ sampleVideoItem 0 {} (by decide) (by decide)⟩

/-- C8, counterexample: an item with two accepted audio enclosures yields the
episode with the URL of the second one. -/
theorem ParseItem_first_enclosure_counterexample :
    acceptedEnclosures testEnv sampleTwoEnclosureItem
        = [[("type", "audio/mpeg"), ("url", "http://x/first.mp3")],
           [("type", "audio/mpeg"), ("url", "http://x/second.mp3")]]
      ∧ Load testEnv sampleTwoEnclosureFeed { encoded := "u" }
        = some (.podcast sampleTwoEnclosurePodcast)
      ∧ sampleTwoEnclosurePodcast.episodes = [sampleTwoEnclosureEpisode]
      ∧ sampleTwoEnclosureEpisode.url = { encoded := "http://x/second.mp3" } :=
  ⟨by decide, rfl, rfl, rfl⟩

/-! ### The enclosure rule -/

theorem startsWith_iff (s p : String) :
    startsWith s p = true ↔ ∃ r : String, s = p ++ r := by
  unfold startsWith
  rw [List.isPrefixOf_iff_prefix]
  constructor
  · rintro ⟨t, ht⟩
    exact ⟨⟨t⟩, String.ext (by simp [ht])⟩
  · rintro ⟨r, rfl⟩
    exact ⟨r.data, by simp⟩

theorem endsWithCaseInsensitive_iff (s suffix : String) :
    endsWithCaseInsensitive s suffix = true
      ↔ ∃ front ending : String, s = front ++ ending ∧ toLower ending = toLower suffix := by
  unfold endsWithCaseInsensitive
  rw [List.isPrefixOf_iff_prefix, List.reverse_prefix]
  constructor
  · rintro ⟨t, ht⟩
    have h2 : List.map Char.toLower s.data = t ++ List.map Char.toLower suffix.data := ht.symm
    rw [List.map_eq_append_iff] at h2
    obtain ⟨l1, l2, h3, _, h5⟩ := h2
    exact ⟨⟨l1⟩, ⟨l2⟩, String.ext (by simp [h3]), String.ext (by simp [toLower, h5])⟩
  · rintro ⟨front, ending, rfl, h⟩
    refine ⟨List.map Char.toLower front.data, ?_⟩
    have h2 : List.map Char.toLower ending.data = List.map Char.toLower suffix.data := by
      have := congrArg String.data h
      simpa [toLower] using this
    simp [toLower, h2]

theorem acceptsEnclosure_iff (Q : Env) (type2 : String) (url : QUrl) :
    acceptsEnclosure Q type2 url = true ↔ EnclosureRule Q type2 url := by
  have low3 : toLower ".mp3" = ".mp3" := by decide
  have lowa : toLower ".m4a" = ".m4a" := by decide
  have loww : toLower ".wav" = ".wav" := by decide
  unfold acceptsEnclosure EnclosureRule
  by_cases h1 : startsWith type2 "audio/" = true
  · simp only [h1, Bool.true_or, if_true, true_iff]
    exact Or.inl ((startsWith_iff _ _).1 h1)
  · by_cases h2 : startsWith type2 "x-audio/" = true
    · simp only [h2, Bool.or_true, if_true, true_iff]
      exact Or.inr (Or.inl ((startsWith_iff _ _).1 h2))
    · have n1 : ¬ ∃ s : String, type2 = "audio/" ++ s := fun h => h1 ((startsWith_iff _ _).2 h)
      have n2 : ¬ ∃ s : String, type2 = "x-audio/" ++ s :=
        fun h => h2 ((startsWith_iff _ _).2 h)
      simp only [h1, h2, Bool.or_self, Bool.false_eq_true, if_false, n1, n2, false_or]
      by_cases h3 : isEmpty type2 = true
      · have h4 : type2 = "" := (isEmpty_iff _).1 h3
        have e3 := endsWithCaseInsensitive_iff (Q.urlPath url) ".mp3"
        have ea := endsWithCaseInsensitive_iff (Q.urlPath url) ".m4a"
        have ew := endsWithCaseInsensitive_iff (Q.urlPath url) ".wav"
        rw [low3] at e3
        rw [lowa] at ea
        rw [loww] at ew
        have hE : isEmpty "" = true := rfl
        simp only [h4, hE, Bool.true_and, true_and]
        constructor
        · intro h
          have h5 : endsWithCaseInsensitive (Q.urlPath url) ".mp3" = true
              ∨ endsWithCaseInsensitive (Q.urlPath url) ".m4a" = true
              ∨ endsWithCaseInsensitive (Q.urlPath url) ".wav" = true := by
            split_ifs at h with h6
            · simpa [or_assoc] using h6
          rcases h5 with h5 | h5 | h5
          · obtain ⟨front, ending, hp, hl⟩ := e3.1 h5
            exact ⟨front, ending, hp, Or.inl hl⟩
          · obtain ⟨front, ending, hp, hl⟩ := ea.1 h5
            exact ⟨front, ending, hp, Or.inr (Or.inl hl)⟩
          · obtain ⟨front, ending, hp, hl⟩ := ew.1 h5
            exact ⟨front, ending, hp, Or.inr (Or.inr hl)⟩
        · rintro ⟨front, ending, hp, hl | hl | hl⟩
          · simp [e3.2 ⟨front, ending, hp, hl⟩]
          · simp [ea.2 ⟨front, ending, hp, hl⟩]
          · simp [ew.2 ⟨front, ending, hp, hl⟩]
      · have h4 : ¬ type2 = "" := fun h => h3 ((isEmpty_iff _).2 h)
        simp [h3, h4]

theorem ConsumeCurrentElementFrom_text (text : List Token) (name : String) (rest : List Token) :
    ∀ cur : Token, cur.atEnd = false → (∀ t ∈ text, ∃ s, t = Token.Characters s) →
      ConsumeCurrentElementFrom 1 cur (text ++ Token.EndElement name :: rest)
        = { cur := Token.EndElement name, rest := rest } := by
  induction text with
  | nil =>
    intro cur hc _
    rw [List.nil_append]
    unfold ConsumeCurrentElementFrom
    rw [if_pos ⟨by decide, hc⟩]
    exact ConsumeCurrentElementFrom_zero _ _
  | cons t text ih =>
    intro cur hc ht
    obtain ⟨s, rfl⟩ := ht t (List.mem_cons_self _ _)
    rw [List.cons_append]
    unfold ConsumeCurrentElementFrom
    rw [if_pos ⟨by decide, hc⟩]
    exact ih _ rfl (fun x hx => ht x (List.mem_cons_of_mem _ hx))

theorem not_EnclosureRule_video (Q : Env) (u : QUrl) : ¬ EnclosureRule Q "video/mp4" u := by
  rw [← acceptsEnclosure_iff]
  have h1 : startsWith "video/mp4" "audio/" = false := by decide
  have h2 : startsWith "video/mp4" "x-audio/" = false := by decide
  have h3 : isEmpty "video/mp4" = false := by decide
  simp [acceptsEnclosure, h1, h2, h3]

/-- C9: at an `enclosure` element with attributes `type` and `url`, the branch
of `ParseItem` sets the episode URL from the `url` attribute exactly when the
type starts with `audio/` or `x-audio/`, or is empty while the URL path ends in
`.mp3`, `.m4a` or `.wav` in any letter case, and leaves the episode unchanged
otherwise, as for the type `video/mp4`; this holds whatever the element
contains. For an element that contains text, the loop goes on behind the end
element with that episode, so the text has no effect. -/
theorem ParseItem_enclosure_rule (Q : Env) (fuel : Nat) (cur : Token) (ns : String)
    (attrs : List (String × String)) (text : List Token) (endName : String)
    (rest : List Token) (clock : Nat) (episode : PodcastEpisode) (ret : Podcast)
    (hc : cur.atEnd = false) (htext : ∀ t ∈ text, ∃ s, t = Token.Characters s) :
    (∀ content : List Token,
        (EnclosureRule Q (attributeValue attrs "type")
            (Q.fromEncoded (attributeValue attrs "url"))
          ∧ (ParseItemStartElement Q
              { cur := Token.StartElement "enclosure" ns attrs, rest := content }
              episode "enclosure" ns attrs).2
            = { episode with url := Q.fromEncoded (attributeValue attrs "url") })
        ∨ (¬ EnclosureRule Q (attributeValue attrs "type")
            (Q.fromEncoded (attributeValue attrs "url"))
          ∧ (ParseItemStartElement Q
              { cur := Token.StartElement "enclosure" ns attrs, rest := content }
              episode "enclosure" ns attrs).2 = episode))
      ∧ (EnclosureRule Q (attributeValue attrs "type")
            (Q.fromEncoded (attributeValue attrs "url")) →
        ParseItemLoop Q (fuel + 1)
            { cur := cur,
              rest := Token.StartElement "enclosure" ns attrs
                :: (text ++ Token.EndElement endName :: rest) } clock episode ret
          = ParseItemLoop Q fuel { cur := Token.EndElement endName, rest := rest } clock
              { episode with url := Q.fromEncoded (attributeValue attrs "url") } ret)
      ∧ (¬ EnclosureRule Q (attributeValue attrs "type")
            (Q.fromEncoded (attributeValue attrs "url")) →
        ParseItemLoop Q (fuel + 1)
            { cur := cur,
              rest := Token.StartElement "enclosure" ns attrs
                :: (text ++ Token.EndElement endName :: rest) } clock episode ret
          = ParseItemLoop Q fuel { cur := Token.EndElement endName, rest := rest } clock
              episode ret)
      ∧ ∀ u, ¬ EnclosureRule Q "video/mp4" u := by
  have hbranch : ∀ content : List Token,
      (ParseItemStartElement Q { cur := Token.StartElement "enclosure" ns attrs, rest := content }
        episode "enclosure" ns attrs).2 = setEnclosure Q episode attrs := by
    intro content
    simp [ParseItemStartElement]
  have hstep : ParseItemStartElement Q
      { cur := Token.StartElement "enclosure" ns attrs,
        rest := text ++ Token.EndElement endName :: rest } episode "enclosure" ns attrs
      = ({ cur := Token.EndElement endName, rest := rest }, setEnclosure Q episode attrs) := by
    have hskip := ConsumeCurrentElementFrom_text text endName rest
      (Token.StartElement "enclosure" ns attrs) rfl htext
    simp [ParseItemStartElement, ConsumeCurrentElement, hskip]
  have hyes : EnclosureRule Q (attributeValue attrs "type")
      (Q.fromEncoded (attributeValue attrs "url")) →
      setEnclosure Q episode attrs
        = { episode with url := Q.fromEncoded (attributeValue attrs "url") } := by
    intro h
    simp only [setEnclosure, (acceptsEnclosure_iff Q _ _).2 h, if_true]
  have hno : ¬ EnclosureRule Q (attributeValue attrs "type")
      (Q.fromEncoded (attributeValue attrs "url")) →
      setEnclosure Q episode attrs = episode := by
    intro h
    have h2 : acceptsEnclosure Q (attributeValue attrs "type")
        (Q.fromEncoded (attributeValue attrs "url")) = false := by
      cases hacc : acceptsEnclosure Q (attributeValue attrs "type")
        (Q.fromEncoded (attributeValue attrs "url")) with
      | false => rfl
      | true => exact absurd ((acceptsEnclosure_iff Q _ _).1 hacc) h
    simp only [setEnclosure, h2, Bool.false_eq_true, if_false]
  refine ⟨fun content => ?_, fun h => ?_, fun h => ?_, not_EnclosureRule_video Q⟩
  · by_cases h : EnclosureRule Q (attributeValue attrs "type")
        (Q.fromEncoded (attributeValue attrs "url"))
    · exact Or.inl ⟨h, by rw [hbranch content, hyes h]⟩
    · exact Or.inr ⟨h, by rw [hbranch content, hno h]⟩
  · rw [ParseItemLoop_start Q fuel cur _ ns attrs _ clock episode ret hc, hstep, hyes h]
  · rw [ParseItemLoop_start Q fuel cur _ ns attrs _ clock episode ret hc, hstep, hno h]

/-- Witness for C9: a `video/mp4` enclosure whose path ends in `.mp3`, with
text inside the element, leaves the episode as it was. -/
theorem ParseItem_enclosure_rule_witness :
    ParseItemLoop testEnv 3
        { cur := Token.StartElement "item" "" [],
          rest := Token.StartElement "enclosure" ""
              [("type", "video/mp4"), ("url", "http://x/film.mp3")]
            :: ([Token.Characters "http://x/other.mp3"] ++ Token.EndElement "enclosure"
              :: [Token.EndElement "item"]) } 0 {} {}
      = ParseItemLoop testEnv 2
          { cur := Token.EndElement "enclosure", rest := [Token.EndElement "item"] } 0 {} {} :=
  (ParseItem_enclosure_rule testEnv 2 (Token.StartElement "item" "" []) ""
    [("type", "video/mp4"), ("url", "http://x/film.mp3")] [Token.Characters "http://x/other.mp3"]
    "enclosure" [Token.EndElement "item"] 0 {} {} rfl (by simp)).2.2.1
    (not_EnclosureRule_video testEnv _)

/-! ### Duration texts -/

theorem isDigit_toNat (c : Char) (h : c.isDigit = true) : 48 ≤ c.toNat ∧ c.toNat ≤ 57 := by
  simp only [Char.isDigit, Bool.and_eq_true, decide_eq_true_eq] at h
  have h1 : (48 : UInt32).toNat ≤ c.val.toNat := h.1
  have h2 : c.val.toNat ≤ (57 : UInt32).toNat := h.2
  exact ⟨h1, h2⟩

theorem isSpace_of_isDigit (c : Char) (h : c.isDigit = true) : isSpace c = false := by
  have := isDigit_toNat c h
  simp only [isSpace, Bool.or_eq_false_iff, Bool.and_eq_false_iff, decide_eq_false_iff_not]
  omega

theorem dropWhile_isSpace_self (s : List Char) (h : ∀ c ∈ s, isSpace c = false) :
    s.dropWhile isSpace = s := by
  cases s with
  | nil => rfl
  | cons c cs => simp [List.dropWhile, h c (List.mem_cons_self _ _)]

theorem trimmed_self (s : List Char) (h : ∀ c ∈ s, isSpace c = false) : trimmed s = s := by
  unfold trimmed
  rw [dropWhile_isSpace_self s h,
    dropWhile_isSpace_self s.reverse (fun c hc => h c (List.mem_reverse.1 hc)),
    List.reverse_reverse]

theorem digitsValue_digits (ds : List Char) (h : ∀ c ∈ ds, c.isDigit = true) :
    ∀ acc : Nat, digitsValue acc ds = some (acc * 10 ^ ds.length + decimalValue ds) := by
  induction ds with
  | nil => intro acc; simp [digitsValue, decimalValue]
  | cons c cs ih =>
    intro acc
    have hc : c.isDigit = true := h c (List.mem_cons_self _ _)
    rw [digitsValue, if_pos hc, ih (fun x hx => h x (List.mem_cons_of_mem _ hx))]
    simp only [decimalValue, List.reverse_cons, List.map_append, List.map_cons, List.map_nil,
      Nat.ofDigits_append, Nat.ofDigits_singleton, List.length_map, List.length_reverse,
      List.length_cons, Option.some.injEq]
    ring

theorem parseInteger_digits (ds : List Char) (hne : ds ≠ [])
    (h : ∀ c ∈ ds, c.isDigit = true) :
    parseInteger ds = some (decimalValue ds : Int) := by
  have hv := digitsValue_digits ds h 0
  simp only [Nat.zero_mul, Nat.zero_add] at hv
  cases ds with
  | nil => exact absurd rfl hne
  | cons c cs =>
    have hc : c.isDigit = true := h c (List.mem_cons_self _ _)
    have h1 : c ≠ '-' := by rintro rfl; exact absurd hc (by decide)
    have h2 : c ≠ '+' := by rintro rfl; exact absurd hc (by decide)
    unfold parseInteger
    split
    · rename_i heq; cases heq
    · rename_i heq; cases heq; exact absurd rfl h1
    · rename_i heq; cases heq; exact absurd rfl h2
    · rw [hv]; rfl

theorem parseInteger_minus (ds : List Char) (hne : ds ≠ [])
    (h : ∀ c ∈ ds, c.isDigit = true) :
    parseInteger ('-' :: ds) = some (-(decimalValue ds : Int)) := by
  have hv := digitsValue_digits ds h 0
  simp only [Nat.zero_mul, Nat.zero_add] at hv
  have he : ds.isEmpty = false := by cases ds <;> simp_all
  simp [parseInteger, he, hv]

theorem IsDecimalInteger_chars (s : List Char) (z : Int) (h : IsDecimalInteger s z) :
    ∀ c ∈ s, c.isDigit = true ∨ c = '-' := by
  obtain ⟨ds, _, hd, ⟨rfl, _⟩ | ⟨rfl, _⟩⟩ := h
  · exact fun c hc => Or.inl (hd c hc)
  · intro c hc
    rcases List.mem_cons.1 hc with h1 | h1
    · exact Or.inr h1
    · exact Or.inl (hd c h1)

theorem toInt_decimal (s : List Char) (z : Int) (h : IsDecimalInteger s z)
    (hr : InIntRange z) : toInt s = z := by
  have hsp : ∀ c ∈ s, isSpace c = false := by
    intro c hc
    rcases IsDecimalInteger_chars s z h c hc with h1 | h1
    · exact isSpace_of_isDigit c h1
    · rw [h1]; decide
  obtain ⟨ds, hne, hd, ⟨hs, hz⟩ | ⟨hs, hz⟩⟩ := h
  · subst hz
    unfold toInt
    rw [trimmed_self _ hsp, hs, parseInteger_digits ds hne hd]
    exact if_pos hr
  · subst hz
    unfold toInt
    rw [trimmed_self _ hsp, hs, parseInteger_minus ds hne hd]
    exact if_pos hr

theorem wrapInt_of_inRange (z : Int) (h : InIntRange z) : wrapInt z = z := by
  unfold InIntRange at h
  unfold wrapInt
  omega

theorem split_no_sep (sep : Char) (s : List Char) (h : sep ∉ s) : split sep s = [s] := by
  induction s with
  | nil => rfl
  | cons c cs ih =>
    have hc : c ≠ sep := fun e => h (e ▸ List.mem_cons_self _ _)
    have hcs : sep ∉ cs := fun e => h (List.mem_cons_of_mem _ e)
    rw [split, if_neg hc, ih hcs]

theorem split_append_sep (sep : Char) (a b : List Char) (h : sep ∉ a) :
    split sep (a ++ sep :: b) = a :: split sep b := by
  induction a with
  | nil => simp [split]
  | cons c cs ih =>
    have hc : c ≠ sep := fun e => h (e ▸ List.mem_cons_self _ _)
    have hcs : sep ∉ cs := fun e => h (List.mem_cons_of_mem _ e)
    rw [List.cons_append, split, if_neg hc, ih hcs]

theorem IsDecimalInteger_no_colon (s : List Char) (z : Int) (h : IsDecimalInteger s z) :
    ':' ∉ s := by
  intro hc
  rcases IsDecimalInteger_chars s z h ':' hc with h1 | h1
  · exact absurd h1 (by decide)
  · exact absurd h1 (by decide)

theorem empty_append (text : String) : "" ++ text = text :=
  String.ext (by simp)

theorem ParseItemStartElement_duration (Q : Env) (ns : String) (attrs : List (String × String))
    (text endName : String) (rest : List Token) (episode : PodcastEpisode)
    (hns : toLower ns = kItunesNamespace) :
    ParseItemStartElement Q (Reader.onTextElement "duration" ns attrs text endName rest)
        episode "duration" ns attrs
      = ({ cur := Token.EndElement endName, rest := rest }, setDuration episode text) := by
  simp [ParseItemStartElement, Reader.onTextElement, Reader.readElementText,
    readElementTextFrom, hns, empty_append]

theorem setDuration_two (episode : PodcastEpisode) (a b : List Char) (m sec : Int)
    (ha : IsDecimalInteger a m) (hb : IsDecimalInteger b sec) (hfit : FitsInt2 m sec) :
    setDuration episode ⟨a ++ ':' :: b⟩ = { episode with duration_secs := some (m * 60 + sec) } := by
  obtain ⟨h1, h2, h3, h4⟩ := hfit
  unfold setDuration
  simp only
  rw [split_append_sep ':' a b (IsDecimalInteger_no_colon a m ha),
    split_no_sep ':' b (IsDecimalInteger_no_colon b sec hb)]
  simp only
  rw [toInt_decimal a m ha h1, toInt_decimal b sec hb h2, wrapInt_of_inRange _ h3,
    wrapInt_of_inRange _ h4]

theorem setDuration_three (episode : PodcastEpisode) (a b c tail : List Char) (h m sec : Int)
    (ha : IsDecimalInteger a h) (hb : IsDecimalInteger b m) (hc : IsDecimalInteger c sec)
    (htail : tail = [] ∨ ∃ more, tail = ':' :: more) (hfit : FitsInt3 h m sec) :
    setDuration episode ⟨a ++ ':' :: (b ++ ':' :: (c ++ tail))⟩
      = { episode with duration_secs := some (h * 60 * 60 + m * 60 + sec) } := by
  obtain ⟨h1, h2, h3, h4, h5, h6, h7, h8⟩ := hfit
  have hsplit : ∃ others, split ':' (a ++ ':' :: (b ++ ':' :: (c ++ tail)))
      = a :: b :: c :: others := by
    rw [split_append_sep ':' a _ (IsDecimalInteger_no_colon a h ha),
      split_append_sep ':' b _ (IsDecimalInteger_no_colon b m hb)]
    rcases htail with rfl | ⟨more, rfl⟩
    · rw [List.append_nil, split_no_sep ':' c (IsDecimalInteger_no_colon c sec hc)]
      exact ⟨[], rfl⟩
    · rw [split_append_sep ':' c _ (IsDecimalInteger_no_colon c sec hc)]
      exact ⟨_, rfl⟩
  obtain ⟨others, hs⟩ := hsplit
  unfold setDuration
  simp only
  rw [hs]
  cases others with
  | nil =>
    simp only
    rw [toInt_decimal a h ha h1, toInt_decimal b m hb h2, toInt_decimal c sec hc h3,
      wrapInt_of_inRange _ h4, wrapInt_of_inRange _ h5, wrapInt_of_inRange _ h6,
      wrapInt_of_inRange _ h7, wrapInt_of_inRange _ h8]
  | cons o os =>
    simp only
    rw [toInt_decimal a h ha h1, toInt_decimal b m hb h2, toInt_decimal c sec hc h3,
      wrapInt_of_inRange _ h4, wrapInt_of_inRange _ h5, wrapInt_of_inRange _ h6,
      wrapInt_of_inRange _ h7, wrapInt_of_inRange _ h8]

theorem setDuration_no_colon (episode : PodcastEpisode) (text : String)
    (h : ':' ∉ text.data) : setDuration episode text = episode := by
  unfold setDuration
  rw [split_no_sep ':' _ h]

/-- C10, counterexample: the parts `4294967296` and `05` are decimal integers,
but `toInt` gives 0 for the first, which is no `int`, so the episode gets the
duration 5 and not 4294967296 * 60 + 5. -/
theorem duration_parts_counterexample :
    Load testEnv sampleLongDurationFeed { encoded := "u" }
        = some (.podcast { url := { encoded := "u" }, episodes := [sampleLongDurationEpisode] })
      ∧ sampleLongDurationEpisode.duration_secs = some 5
      ∧ IsDecimalInteger "4294967296".data 4294967296
      ∧ IsDecimalInteger "05".data 5
      ∧ (4294967296 : Int) * 60 + 5 ≠ 5 :=
  ⟨rfl, rfl, ⟨"4294967296".data, by decide, by decide, Or.inl ⟨rfl, rfl⟩⟩,
    ⟨"05".data, by decide, by decide, Or.inl ⟨rfl, rfl⟩⟩, by decide⟩

/-- C10, amended: at a `duration` element in the iTunes namespace, `ParseItem`
goes on behind the element with `duration_secs` set to `M*60+S` for a text of
two decimal integers `M:S`, and to `H*3600+M*60+S` for a text that starts with
three decimal integers `H:M:S` and ends there or goes on with `:`, provided the
values the `int` arithmetic passes through fit 32 bits; a text without `:`
leaves the episode unchanged. So `1:30` gives 90, `1:02:03` and `1:02:03:04`
give 3723, and `abc` and the empty text leave the duration unset. -/
theorem duration_seconds (Q : Env) (ns : String) (attrs : List (String × String))
    (endName : String) (rest : List Token) (episode : PodcastEpisode)
    (hns : toLower ns = kItunesNamespace) :
    (∀ (a b : List Char) (m sec : Int), IsDecimalInteger a m → IsDecimalInteger b sec →
        FitsInt2 m sec →
        ParseItemStartElement Q
            (Reader.onTextElement "duration" ns attrs ⟨a ++ ':' :: b⟩ endName rest)
            episode "duration" ns attrs
          = ({ cur := Token.EndElement endName, rest := rest },
              { episode with duration_secs := some (m * 60 + sec) }))
      ∧ (∀ (a b c tail : List Char) (h m sec : Int), IsDecimalInteger a h →
        IsDecimalInteger b m → IsDecimalInteger c sec →
        (tail = [] ∨ ∃ more, tail = ':' :: more) → FitsInt3 h m sec →
        ParseItemStartElement Q
            (Reader.onTextElement "duration" ns attrs ⟨a ++ ':' :: (b ++ ':' :: (c ++ tail))⟩
              endName rest)
            episode "duration" ns attrs
          = ({ cur := Token.EndElement endName, rest := rest },
              { episode with duration_secs := some (h * 3600 + m * 60 + sec) }))
      ∧ (∀ text : String, ':' ∉ text.data →
        ParseItemStartElement Q (Reader.onTextElement "duration" ns attrs text endName rest)
            episode "duration" ns attrs
          = ({ cur := Token.EndElement endName, rest := rest }, episode))
      ∧ (setDuration {} "1:30").duration_secs = some 90
      ∧ (setDuration {} "1:02:03").duration_secs = some 3723
      ∧ (setDuration {} "1:02:03:04").duration_secs = some 3723
      ∧ (setDuration {} "abc").duration_secs = none
      ∧ (setDuration {} "").duration_secs = none := by
  refine ⟨?_, ?_, ?_, rfl, rfl, rfl, rfl, rfl⟩
  · intro a b m sec ha hb hfit
    rw [ParseItemStartElement_duration Q ns attrs _ endName rest episode hns,
      setDuration_two episode a b m sec ha hb hfit]
  · intro a b c tail h m sec ha hb hc htail hfit
    rw [ParseItemStartElement_duration Q ns attrs _ endName rest episode hns,
      setDuration_three episode a b c tail h m sec ha hb hc htail hfit]
    have e : h * 60 * 60 = h * 3600 := by ring
    rw [e]
  · intro text htext
    rw [ParseItemStartElement_duration Q ns attrs _ endName rest episode hns,
      setDuration_no_colon episode text htext]

/-- Witness for C10, amended: the text `1:02:03:04` in an iTunes `duration`
element. -/
theorem duration_seconds_witness :
    ParseItemStartElement testEnv
        (Reader.onTextElement "duration" "http://www.itunes.com/DTDs/Podcast-1.0.dtd" []
          "1:02:03:04" "duration" [Token.EndElement "item"]) {} "duration"
          "http://www.itunes.com/DTDs/Podcast-1.0.dtd" []
      = ({ cur := Token.EndElement "duration", rest := [Token.EndElement "item"] },
          { duration_secs := some (1 * 3600 + 2 * 60 + 3) }) :=
  (duration_seconds testEnv "http://www.itunes.com/DTDs/Podcast-1.0.dtd" [] "duration"
      [Token.EndElement "item"] {} (by decide)).2.1
    "1".data "02".data "03".data ":04".data 1 2 3
    ⟨"1".data, by decide, by decide, Or.inl ⟨rfl, rfl⟩⟩
    ⟨"02".data, by decide, by decide, Or.inl ⟨rfl, rfl⟩⟩
    ⟨"03".data, by decide, by decide, Or.inl ⟨rfl, rfl⟩⟩
    (Or.inr ⟨"04".data, rfl⟩)
    (by unfold FitsInt3 InIntRange; decide)

/-! ### Malformed duration texts -/

theorem toInt_not_integer (s : List Char) (h : parseInteger (trimmed s) = none) :
    toInt s = 0 := by
  simp [toInt, h]

theorem setDuration_two_parts (episode : PodcastEpisode) (a b : List Char)
    (ha : ':' ∉ a) (hb : ':' ∉ b) :
    setDuration episode ⟨a ++ ':' :: b⟩
      = { episode with
          duration_secs := some (wrapInt (wrapInt (toInt a * 60) + toInt b)) } := by
  unfold setDuration
  simp only
  rw [split_append_sep ':' a b ha, split_no_sep ':' b hb]

theorem setDuration_three_parts (episode : PodcastEpisode) (a b c tail : List Char)
    (ha : ':' ∉ a) (hb : ':' ∉ b) (hc : ':' ∉ c)
    (htail : tail = [] ∨ ∃ more, tail = ':' :: more) :
    setDuration episode ⟨a ++ ':' :: (b ++ ':' :: (c ++ tail))⟩
      = { episode with
          duration_secs := some (wrapInt (wrapInt (wrapInt (wrapInt (toInt a * 60) * 60)
            + wrapInt (toInt b * 60)) + toInt c)) } := by
  have hsplit : ∃ others, split ':' (a ++ ':' :: (b ++ ':' :: (c ++ tail)))
      = a :: b :: c :: others := by
    rw [split_append_sep ':' a _ ha, split_append_sep ':' b _ hb]
    rcases htail with rfl | ⟨more, rfl⟩
    · rw [List.append_nil, split_no_sep ':' c hc]
      exact ⟨[], rfl⟩
    · rw [split_append_sep ':' c _ hc]
      exact ⟨_, rfl⟩
  obtain ⟨others, hs⟩ := hsplit
  unfold setDuration
  simp only
  rw [hs]

/-- C11, counterexample: the duration text `a:b` is not two decimal integers,
yet the episode gets the duration 0, while the same item without duration
element has none. -/
theorem malformed_duration_counterexample :
    Load testEnv sampleMalformedDurationFeed { encoded := "u" }
        = some (.podcast { url := { encoded := "u" }, episodes := [sampleZeroDurationEpisode] })
      ∧ sampleZeroDurationEpisode.duration_secs = some 0
      ∧ Load testEnv sampleNoDurationFeed { encoded := "u" }
        = some (.podcast { url := { encoded := "u" }, episodes := [sampleNoDurationEpisode] })
      ∧ sampleNoDurationEpisode.duration_secs = none
      ∧ ¬ ∃ z, IsDecimalInteger "a".data z :=
  ⟨rfl, rfl, rfl, rfl, by
    rintro ⟨z, h⟩
    have := IsDecimalInteger_chars _ _ h 'a' (by decide)
    revert this
    decide⟩

/-- C11, amended: at a `duration` element in the iTunes namespace, a text
without `:` leaves `duration_secs` unset, as if the element were absent; a
text with one `:` sets it to `M*60+S` and a text with two or more to
`H*3600+M*60+S` in `int` arithmetic, where a part that `toInt` cannot read
counts as 0. So `a:b` and `:` give 0 and `1:xx:03` gives 3603. -/
theorem malformed_duration (Q : Env) (ns : String) (attrs : List (String × String))
    (endName : String) (rest : List Token) (episode : PodcastEpisode)
    (hns : toLower ns = kItunesNamespace) :
    (∀ text : String, ':' ∉ text.data →
        ParseItemStartElement Q (Reader.onTextElement "duration" ns attrs text endName rest)
            episode "duration" ns attrs
          = ({ cur := Token.EndElement endName, rest := rest }, episode))
      ∧ (∀ a b : List Char, ':' ∉ a → ':' ∉ b →
        ParseItemStartElement Q
            (Reader.onTextElement "duration" ns attrs ⟨a ++ ':' :: b⟩ endName rest)
            episode "duration" ns attrs
          = ({ cur := Token.EndElement endName, rest := rest },
              { episode with
                duration_secs := some (wrapInt (wrapInt (toInt a * 60) + toInt b)) }))
      ∧ (∀ a b c tail : List Char, ':' ∉ a → ':' ∉ b → ':' ∉ c →
        (tail = [] ∨ ∃ more, tail = ':' :: more) →
        ParseItemStartElement Q
            (Reader.onTextElement "duration" ns attrs ⟨a ++ ':' :: (b ++ ':' :: (c ++ tail))⟩
              endName rest)
            episode "duration" ns attrs
          = ({ cur := Token.EndElement endName, rest := rest },
              { episode with
                duration_secs := some (wrapInt (wrapInt (wrapInt (wrapInt (toInt a * 60) * 60)
                  + wrapInt (toInt b * 60)) + toInt c)) }))
      ∧ (∀ s : List Char, parseInteger (trimmed s) = none → toInt s = 0)
      ∧ (setDuration {} "a:b").duration_secs = some 0
      ∧ (setDuration {} ":").duration_secs = some 0
      ∧ (setDuration {} "1:xx:03").duration_secs = some 3603 := by
  refine ⟨?_, ?_, ?_, toInt_not_integer, rfl, rfl, rfl⟩
  · intro text htext
    rw [ParseItemStartElement_duration Q ns attrs _ endName rest episode hns,
      setDuration_no_colon episode text htext]
  · intro a b ha hb
    rw [ParseItemStartElement_duration Q ns attrs _ endName rest episode hns,
      setDuration_two_parts episode a b ha hb]
  · intro a b c tail ha hb hc htail
    rw [ParseItemStartElement_duration Q ns attrs _ endName rest episode hns,
      setDuration_three_parts episode a b c tail ha hb hc htail]

/-- Witness for C11, amended: the text `1:xx:03` in an iTunes `duration` element. -/
theorem malformed_duration_witness :
    ParseItemStartElement testEnv
        (Reader.onTextElement "duration" "http://www.itunes.com/dtds/podcast-1.0.dtd" []
          ⟨"1".data ++ ':' :: ("xx".data ++ ':' :: ("03".data ++ []))⟩ "duration" [])
        {} "duration" "http://www.itunes.com/dtds/podcast-1.0.dtd" []
      = ({ cur := Token.EndElement "duration", rest := [] },
          { duration_secs := some (wrapInt (wrapInt (wrapInt (wrapInt (toInt "1".data * 60) * 60)
              + wrapInt (toInt "xx".data * 60)) + toInt "03".data)) }) :=
  (malformed_duration testEnv "http://www.itunes.com/dtds/podcast-1.0.dtd" [] "duration" [] {}
    (by decide)).2.2.1 "1".data "xx".data "03".data [] (by decide) (by decide) (by decide)
    (Or.inl rfl)

/-! ### The rss branch of `ParseOutline` -/

theorem ParseOutline_atEnd (Q : Env) (fuel : Nat) (r : Reader) (ret : OpmlContainer)
    (h : r.cur.atEnd = true) : ParseOutline Q (fuel + 1) r ret = some (r, ret) := by
  simp [ParseOutline, Reader.atEnd, h]

theorem ParseOutline_nil (Q : Env) (fuel : Nat) (cur : Token) (ret : OpmlContainer)
    (h : cur.atEnd = false) :
    ParseOutline Q (fuel + 1) { cur := cur, rest := [] } ret
      = ParseOutline Q fuel { cur := .Invalid, rest := [] } ret := by
  rw [ParseOutline]
  simp only [Reader.atEnd, h, readNext_nil]
  rfl

theorem ParseOutline_start (Q : Env) (fuel : Nat) (cur : Token) (name ns : String)
    (attrs : List (String × String)) (ts : List Token) (ret : OpmlContainer)
    (h : cur.atEnd = false) :
    ParseOutline Q (fuel + 1) { cur := cur, rest := Token.StartElement name ns attrs :: ts } ret
      = if name ≠ "outline" then
          ParseOutline Q fuel
            (ConsumeCurrentElement { cur := Token.StartElement name ns attrs, rest := ts }) ret
        else if attributeValue attrs "type" = "rss" then
          ParseOutline Q fuel
            (ConsumeCurrentElement { cur := Token.StartElement name ns attrs, rest := ts })
            (ret.appendFeed (outlineFeed Q attrs))
        else
          match ParseOutline Q fuel { cur := Token.StartElement name ns attrs, rest := ts }
              (outlineChild attrs) with
          | none => none
          | some (reader, child) => ParseOutline Q fuel reader (ret.appendContainer child) := by
  rw [ParseOutline]
  simp only [Reader.atEnd, h, readNext_cons _ _ _ h]
  rfl

theorem ParseOutline_end (Q : Env) (fuel : Nat) (cur : Token) (name : String)
    (ts : List Token) (ret : OpmlContainer) (h : cur.atEnd = false) :
    ParseOutline Q (fuel + 1) { cur := cur, rest := Token.EndElement name :: ts } ret
      = some ({ cur := Token.EndElement name, rest := ts }, ret) := by
  rw [ParseOutline]
  simp only [Reader.atEnd, h, readNext_cons _ _ _ h]
  rfl

theorem ParseOutline_other (Q : Env) (fuel : Nat) (cur t : Token) (ts : List Token)
    (ret : OpmlContainer) (h : cur.atEnd = false)
    (hs : t.isStartElement = false) (he : t.isEndElement = false) :
    ParseOutline Q (fuel + 1) { cur := cur, rest := t :: ts } ret
      = ParseOutline Q fuel { cur := t, rest := ts } ret := by
  rw [ParseOutline]
  simp only [Reader.atEnd, h, readNext_cons _ _ _ h]
  cases t <;> first
    | rfl
    | (exact Bool.noConfusion hs)
    | (exact Bool.noConfusion he)

theorem attributeValue_missing (attrs : List (String × String)) (key : String)
    (h : ∀ a ∈ attrs, a.1 ≠ key) : attributeValue attrs key = "" := by
  unfold attributeValue
  have : attrs.find? (fun a => decide (a.1 = key)) = none := by
    rw [List.find?_eq_none]
    intro a ha
    simpa using h a ha
  rw [this]

/-- C15: at an `outline` start element whose `type` attribute is `rss`,
`ParseOutline` goes on behind the element's subtree with one stub appended to
the feeds of the current container and nothing else changed. The stub has the
`description` attribute as description, the `title` attribute as title, or
the `text` attribute when `title` is empty, the URLs built from `imageHref`
and `xmlUrl`, and every other field at its default, so no episodes. A missing
attribute reads as the empty text. -/
theorem ParseOutline_rss_outline (Q : Env) (fuel : Nat) (cur : Token) (ns : String)
    (attrs : List (String × String)) (rest : List Token) (name : String) (url : QUrl)
    (feeds : List Podcast) (containers : List OpmlContainer)
    (hc : cur.atEnd = false) (htype : attributeValue attrs "type" = "rss") :
    ParseOutline Q (fuel + 1)
        { cur := cur, rest := Token.StartElement "outline" ns attrs :: rest }
        (.mk name url feeds containers)
      = ParseOutline Q fuel
          (ConsumeCurrentElement { cur := Token.StartElement "outline" ns attrs, rest := rest })
          (.mk name url
            (feeds ++ [{ description := attributeValue attrs "description",
                         title := (if attributeValue attrs "title" = ""
                                   then attributeValue attrs "text"
                                   else attributeValue attrs "title"),
                         image_url_large := Q.fromEncoded (attributeValue attrs "imageHref"),
                         url := Q.fromEncoded (attributeValue attrs "xmlUrl"),
                         episodes := [] }])
            containers)
      ∧ ∀ key : String, (∀ a ∈ attrs, a.1 ≠ key) → attributeValue attrs key = "" := by
  refine ⟨?_, attributeValue_missing attrs⟩
  rw [ParseOutline_start Q fuel cur "outline" ns attrs rest _ hc, if_neg (by simp),
    if_pos htype]
  have htitle : (isEmpty (attributeValue attrs "title") = true)
      ↔ attributeValue attrs "title" = "" := isEmpty_iff _
  simp only [OpmlContainer.appendFeed, outlineFeed, htitle]

/-! ### The cursor on well-formed content -/

theorem Leaf.token_atEnd (l : Leaf) : l.token.atEnd = false := by cases l <;> rfl

theorem Leaf.token_isStartElement (l : Leaf) : l.token.isStartElement = false := by
  cases l <;> rfl

theorem Leaf.token_isEndElement (l : Leaf) : l.token.isEndElement = false := by
  cases l <;> rfl

theorem Forest.tokens_append (f g : Forest) : (f.append g).tokens = f.tokens ++ g.tokens := by
  induction f with
  | nil => rfl
  | element name ns attrs children siblings _ ih2 =>
    simp [Forest.append, Forest.tokens, ih2]
  | leaf l siblings ih => simp [Forest.append, Forest.tokens, ih]

theorem append_assoc_string (a b c : String) : a ++ b ++ c = a ++ (b ++ c) :=
  String.ext (by simp [List.append_assoc])

theorem readElementTextFrom_forest (cs : Forest) (name : String) (rest : List Token)
    (h : cs.textOnly = true) :
    ∀ acc : String, readElementTextFrom acc (cs.tokens ++ Token.EndElement name :: rest)
      = (acc ++ cs.text, { cur := Token.EndElement name, rest := rest }) := by
  induction cs with
  | nil =>
    intro acc
    have : acc ++ "" = acc := String.ext (by simp)
    simp [Forest.tokens, Forest.text, readElementTextFrom, this]
  | element n ns attrs children siblings _ _ => simp [Forest.textOnly] at h
  | leaf l siblings ih =>
    intro acc
    have ih2 := ih (by simpa [Forest.textOnly] using h)
    cases l <;>
      simp [Forest.tokens, Forest.text, Leaf.token, readElementTextFrom, ih2,
        append_assoc_string]

theorem ConsumeCurrentElementFrom_start (level : Nat) (cur : Token) (n ns : String)
    (attrs : List (String × String)) (ts : List Token) (hc : cur.atEnd = false) :
    ConsumeCurrentElementFrom (level + 1) cur (Token.StartElement n ns attrs :: ts)
      = ConsumeCurrentElementFrom (level + 2) (Token.StartElement n ns attrs) ts := by
  conv_lhs => unfold ConsumeCurrentElementFrom
  rw [if_pos ⟨Nat.succ_ne_zero _, hc⟩]

theorem ConsumeCurrentElementFrom_end (level : Nat) (cur : Token) (n : String)
    (ts : List Token) (hc : cur.atEnd = false) :
    ConsumeCurrentElementFrom (level + 1) cur (Token.EndElement n :: ts)
      = ConsumeCurrentElementFrom level (Token.EndElement n) ts := by
  conv_lhs => unfold ConsumeCurrentElementFrom
  rw [if_pos ⟨Nat.succ_ne_zero _, hc⟩]
  rfl

theorem ConsumeCurrentElementFrom_other (level : Nat) (cur t : Token) (ts : List Token)
    (hc : cur.atEnd = false) (hs : t.isStartElement = false) (he : t.isEndElement = false) :
    ConsumeCurrentElementFrom (level + 1) cur (t :: ts)
      = ConsumeCurrentElementFrom (level + 1) t ts := by
  conv_lhs => unfold ConsumeCurrentElementFrom
  rw [if_pos ⟨Nat.succ_ne_zero _, hc⟩]
  cases t <;> first
    | rfl
    | (exact Bool.noConfusion hs)
    | (exact Bool.noConfusion he)

theorem ConsumeCurrentElementFrom_forest (cs : Forest) (name : String) (rest : List Token) :
    ∀ (level : Nat) (cur : Token), cur.atEnd = false →
      ConsumeCurrentElementFrom (level + 1) cur (cs.tokens ++ Token.EndElement name :: rest)
        = ConsumeCurrentElementFrom level (Token.EndElement name) rest := by
  induction cs generalizing name rest with
  | nil =>
    intro level cur hc
    simp only [Forest.tokens, List.nil_append]
    exact ConsumeCurrentElementFrom_end level cur name rest hc
  | element n ns attrs children siblings ih1 ih2 =>
    intro level cur hc
    simp only [Forest.tokens, List.cons_append, List.append_assoc]
    rw [ConsumeCurrentElementFrom_start level cur n ns attrs _ hc,
      ih1 n (siblings.tokens ++ Token.EndElement name :: rest) (level + 1)
        (Token.StartElement n ns attrs) rfl]
    exact ih2 name rest level (Token.EndElement n) rfl
  | leaf l siblings ih =>
    intro level cur hc
    simp only [Forest.tokens, List.cons_append]
    rw [ConsumeCurrentElementFrom_other level cur l.token _ hc (Leaf.token_isStartElement l)
      (Leaf.token_isEndElement l)]
    exact ih name rest level l.token (Leaf.token_atEnd l)

theorem ConsumeCurrentElement_forest (n ns : String) (attrs : List (String × String))
    (cs : Forest) (name : String) (rest : List Token) :
    ConsumeCurrentElement
        { cur := Token.StartElement n ns attrs,
          rest := cs.tokens ++ Token.EndElement name :: rest }
      = { cur := Token.EndElement name, rest := rest } := by
  unfold ConsumeCurrentElement
  simp only
  rw [ConsumeCurrentElementFrom_forest cs name rest 0 (Token.StartElement n ns attrs) rfl,
    ConsumeCurrentElementFrom_zero]

theorem readElementText_forest (n ns : String) (attrs : List (String × String))
    (cs : Forest) (name : String) (rest : List Token) (h : cs.textOnly = true) :
    Reader.readElementText
        { cur := Token.StartElement n ns attrs,
          rest := cs.tokens ++ Token.EndElement name :: rest }
      = (cs.text, { cur := Token.EndElement name, rest := rest }) := by
  rw [readElementText_start, readElementTextFrom_forest cs name rest h "", empty_append]


/-! ### `ParseOutline` on well-formed content -/

theorem feedStub_eq (Q : Env) (attrs : List (String × String)) :
    outlineFeed Q attrs = feedStub Q attrs := by
  have htitle : (isEmpty (attributeValue attrs "title") = true)
      ↔ attributeValue attrs "title" = "" := isEmpty_iff _
  simp only [outlineFeed, feedStub, htitle]

theorem outlineChild_eq (attrs : List (String × String)) :
    outlineChild attrs = .mk (containerName attrs) { encoded := "" } [] [] := by
  have hname : (isEmpty (attributeValue attrs "fullname") = true)
      ↔ attributeValue attrs "fullname" = "" := isEmpty_iff _
  simp only [outlineChild, containerName, hname]

theorem ParseOutline_forest (Q : Env) (cs : Forest) :
    ∀ (fuel : Nat) (cur : Token) (endName : String) (rest : List Token) (name : String)
      (url : QUrl) (feeds : List Podcast) (containers : List OpmlContainer),
      cur.atEnd = false → cs.tokens.length < fuel →
      ParseOutline Q fuel { cur := cur, rest := cs.tokens ++ Token.EndElement endName :: rest }
          (.mk name url feeds containers)
        = some ({ cur := Token.EndElement endName, rest := rest },
            .mk name url (feeds ++ outlineFeeds Q cs) (containers ++ outlineContainers Q cs)) := by
  induction cs with
  | nil =>
    intro fuel cur endName rest name url feeds containers hc hf
    obtain ⟨f, rfl⟩ : ∃ f, fuel = f + 1 := ⟨fuel - 1, by omega⟩
    simp only [Forest.tokens, List.nil_append, outlineFeeds, outlineContainers,
      List.append_nil]
    exact ParseOutline_end Q f cur endName rest _ hc
  | element n ns attrs children siblings ih1 ih2 =>
    intro fuel cur endName rest name url feeds containers hc hf
    obtain ⟨f, rfl⟩ : ∃ f, fuel = f + 1 := ⟨fuel - 1, by omega⟩
    simp only [Forest.tokens, List.length_cons, List.length_append] at hf
    simp only [Forest.tokens, List.cons_append, List.append_assoc]
    rw [ParseOutline_start Q f cur n ns attrs _ _ hc]
    by_cases h1 : n = "outline"
    · rw [if_neg (by simpa using h1)]
      by_cases h2 : attributeValue attrs "type" = "rss"
      · rw [if_pos h2, ConsumeCurrentElement_forest, feedStub_eq]
        simp only [OpmlContainer.appendFeed]
        rw [ih2 f (Token.EndElement n) endName rest name url _ containers rfl (by omega)]
        simp [outlineFeeds, outlineContainers, h1, h2]
      · rw [if_neg h2, outlineChild_eq,
          ih1 f (Token.StartElement n ns attrs) n
            (siblings.tokens ++ Token.EndElement endName :: rest) _ _ [] [] rfl
            (by omega)]
        simp only [OpmlContainer.appendContainer, List.nil_append]
        rw [ih2 f (Token.EndElement n) endName rest name url feeds _ rfl (by omega)]
        simp [outlineFeeds, outlineContainers, h1, h2]
    · rw [if_pos (by simpa using h1), ConsumeCurrentElement_forest,
        ih2 f (Token.EndElement n) endName rest name url feeds containers rfl (by omega)]
      simp [outlineFeeds, outlineContainers, h1]
  | leaf l siblings ih =>
    intro fuel cur endName rest name url feeds containers hc hf
    obtain ⟨f, rfl⟩ : ∃ f, fuel = f + 1 := ⟨fuel - 1, by omega⟩
    simp only [Forest.tokens, List.length_cons] at hf
    simp only [Forest.tokens, List.cons_append]
    rw [ParseOutline_other Q f cur l.token _ _ hc (Leaf.token_isStartElement l)
      (Leaf.token_isEndElement l),
      ih f l.token endName rest name url feeds containers (Leaf.token_atEnd l) (by omega)]
    simp [outlineFeeds, outlineContainers]


/-! ### `Load` on a well-formed OPML document -/

theorem ParseUntilElementFrom_found (name ns : String) (attrs : List (String × String))
    (rest : List Token) (mid : List Token) (hmid : tokensBefore name mid) :
    ∀ cur : Token, cur.atEnd = false →
      ParseUntilElementFrom name cur (mid ++ Token.StartElement name ns attrs :: rest)
        = (true, { cur := Token.StartElement name ns attrs, rest := rest }) := by
  induction mid with
  | nil =>
    intro cur hc
    simp [ParseUntilElementFrom, hc]
  | cons t mid ih =>
    intro cur hc
    have ht := hmid t (List.mem_cons_self _ _)
    have ih2 := ih (fun x hx => hmid x (List.mem_cons_of_mem _ hx)) t ht.1
    rw [List.cons_append]
    conv_lhs => unfold ParseUntilElementFrom
    rw [if_neg (by simp [hc])]
    cases t <;> first
      | exact ih2
      | skip
    rename_i n ns2 attrs2
    have hn : ¬ n = name := by simpa [Token.isStartNamed] using ht.2
    simp only [hn, if_false]
    exact ih2

theorem LoadLoop_scan_plain (Q : Env) (url : QUrl) (t : Token) (post : List Token)
    (pre : List Token) (hpre : plainTokens pre) :
    ∀ (cur : Token) (fuel : Nat), cur.atEnd = false →
      ∃ cur2, cur2.atEnd = false ∧
        LoadLoop Q url (pre.length + fuel) { cur := cur, rest := pre ++ t :: post }
          = LoadLoop Q url fuel { cur := cur2, rest := t :: post } := by
  induction pre with
  | nil =>
    intro cur fuel hc
    exact ⟨cur, hc, by simp⟩
  | cons x pre ih =>
    intro cur fuel hc
    have hx := hpre x (List.mem_cons_self _ _)
    obtain ⟨cur2, h1, h2⟩ := ih (fun y hy => hpre y (List.mem_cons_of_mem _ hy)) x fuel hx.1
    refine ⟨cur2, h1, ?_⟩
    rw [← h2, List.cons_append, List.length_cons,
      show pre.length + 1 + fuel = (pre.length + fuel) + 1 by omega,
      LoadLoop_skip Q url _ cur x _ hc hx.2]

theorem Load_opmlDocument (Q : Env) (url : QUrl) (prolog : List Token) (rootNs : String)
    (rootAttrs : List (String × String)) (beforeBody : List Token) (bodyNs : String)
    (bodyAttrs : List (String × String)) (body : Forest) (epilog : List Token)
    (hpro : plainTokens prolog) (hbefore : tokensBefore "body" beforeBody) :
    Load Q (opmlDocument prolog rootNs rootAttrs beforeBody bodyNs bodyAttrs body epilog) url
      = some (.opml ((collapseTop (.mk "" { encoded := "" } (outlineFeeds Q body)
          (outlineContainers Q body))).setUrl url)) := by
  unfold Load opmlDocument
  obtain ⟨cur2, h1, h2⟩ := LoadLoop_scan_plain Q url (Token.StartElement "opml" rootNs rootAttrs)
    (beforeBody ++ Token.StartElement "body" bodyNs bodyAttrs
      :: (body.tokens ++ Token.EndElement "body" :: epilog)) prolog hpro Token.NoToken
    (beforeBody.length + body.tokens.length + epilog.length + 5) rfl
  have hlen : (prolog ++ Token.StartElement "opml" rootNs rootAttrs
      :: (beforeBody ++ Token.StartElement "body" bodyNs bodyAttrs
        :: (body.tokens ++ Token.EndElement "body" :: epilog))).length + 2
      = prolog.length + (beforeBody.length + body.tokens.length + epilog.length + 5) := by
    simp only [List.length_append, List.length_cons]
    omega
  rw [hlen, h2, LoadLoop_start Q url _ cur2 _ _ _ _ h1, if_neg (by decide), if_pos rfl]
  have hfound : ParseUntilElement
      { cur := Token.StartElement "opml" rootNs rootAttrs,
        rest := beforeBody ++ Token.StartElement "body" bodyNs bodyAttrs
          :: (body.tokens ++ Token.EndElement "body" :: epilog) } "body"
      = (true, { cur := Token.StartElement "body" bodyNs bodyAttrs,
                 rest := body.tokens ++ Token.EndElement "body" :: epilog }) :=
    ParseUntilElementFrom_found "body" bodyNs bodyAttrs _ beforeBody hbefore _ rfl
  have hparse : ParseOpml Q (beforeBody.length + body.tokens.length + epilog.length + 4)
      { cur := Token.StartElement "opml" rootNs rootAttrs,
        rest := beforeBody ++ Token.StartElement "body" bodyNs bodyAttrs
          :: (body.tokens ++ Token.EndElement "body" :: epilog) } OpmlContainer.empty
      = some (true, { cur := Token.EndElement "body", rest := epilog },
          collapseTop (.mk "" { encoded := "" } (outlineFeeds Q body)
            (outlineContainers Q body))) := by
    unfold ParseOpml
    simp only [hfound]
    rw [if_neg (by decide)]
    have := ParseOutline_forest Q body
      (beforeBody.length + body.tokens.length + epilog.length + 4)
      (Token.StartElement "body" bodyNs bodyAttrs) "body" epilog "" { encoded := "" } [] []
      rfl (by omega)
    simp only [List.nil_append] at this
    unfold OpmlContainer.empty
    rw [this]
  rw [hparse]

/-! ### The collapsing step -/

theorem isWrapper_iff (n : String) (u : QUrl) (f : List Podcast) (c : List OpmlContainer) :
    (OpmlContainer.mk n u f c).isWrapper = true ↔ f = [] ∧ ∃ child, c = [child] := by
  simp only [OpmlContainer.isWrapper, OpmlContainer.feeds, OpmlContainer.containers,
    Bool.and_eq_true, beq_iff_eq, List.length_eq_zero, List.length_eq_one]

theorem collapseTop_wrapper (n : String) (u : QUrl) (child : OpmlContainer) :
    collapseTop (.mk n u [] [child]) = collapseTop child := by
  rw [collapseTop]

theorem collapseTop_other (c : OpmlContainer) (h : c.isWrapper = false) :
    collapseTop c = c := by
  obtain ⟨n, u, f, cs⟩ := c
  unfold collapseTop
  split
  · rename_i heq
    cases heq
    simp [OpmlContainer.isWrapper, OpmlContainer.feeds, OpmlContainer.containers] at h
  · rfl

theorem collapseTop_chain :
    ∀ (size : Nat) (root : OpmlContainer), sizeOf root ≤ size →
      ∃ k, collapseTop root = root.descend k
        ∧ (∀ j, j < k → (root.descend j).isWrapper = true)
        ∧ (collapseTop root).isWrapper = false := by
  intro size
  induction size with
  | zero =>
    intro root h
    obtain ⟨n, u, f, cs⟩ := root
    simp at h
  | succ m ih =>
    intro root h
    cases hw : root.isWrapper with
    | false =>
      refine ⟨0, ?_, ?_, ?_⟩
      · rw [collapseTop_other root hw]; rfl
      · intro j hj; omega
      · rw [collapseTop_other root hw]; exact hw
    | true =>
      obtain ⟨n, u, f, cs⟩ := root
      obtain ⟨rfl, child, rfl⟩ := (isWrapper_iff n u f cs).1 hw
      have hsize : sizeOf child ≤ m := by
        simp at h
        omega
      obtain ⟨k, h1, h2, h3⟩ := ih child hsize
      refine ⟨k + 1, ?_, ?_, ?_⟩
      · rw [collapseTop_wrapper, h1]; rfl
      · intro j hj
        cases j with
        | zero => exact hw
        | succ i => exact h2 i (by omega)
      · rw [collapseTop_wrapper]; exact h3

theorem setUrl_isWrapper (c : OpmlContainer) (u : QUrl) :
    (c.setUrl u).isWrapper = c.isWrapper := by
  cases c; rfl

theorem LoadLoop_opml (Q : Env) (url : QUrl) :
    ∀ (fuel : Nat) (r : Reader) (c : OpmlContainer), LoadLoop Q url fuel r = some (.opml c) →
      ∃ fuel2 reader r2 root,
        ParseOutline Q fuel2 reader OpmlContainer.empty = some (r2, root)
          ∧ c = (collapseTop root).setUrl url := by
  intro fuel
  induction fuel with
  | zero => intro r c h; simp [LoadLoop] at h
  | succ f ih =>
    intro r c h
    rw [LoadLoop] at h
    split at h
    · cases h
    · simp only at h
      split at h
      · split_ifs at h
        · split at h <;> cases h
        · split at h
          · cases h
          · cases h
          · rename_i heq
            cases h
            simp only [ParseOpml] at heq
            split_ifs at heq
            · cases heq
            · split at heq
              · cases heq
              · rename_i hout
                cases heq
                exact ⟨_, _, _, _, hout, rfl⟩
        · cases h
      · exact ih _ _ h


/-- C16: on the tokens of a well-formed outline forest followed by the end
element of the enclosing element, `ParseOutline` returns on that end element
with the container extended by what the outline rule gives on the element
tree: the feed stubs of the direct `outline` children of type `rss` are
appended to the feeds, and one container per direct `outline` child of any
other type, named after its `fullname` or `text` attribute and filled by the
same rule from its children, is appended to the containers, both in document
order; other children contribute nothing. -/
theorem ParseOutline_refines_outline_rule (Q : Env) (cs : Forest) (fuel : Nat) (cur : Token)
    (endName : String) (rest : List Token) (name : String) (url : QUrl)
    (feeds : List Podcast) (containers : List OpmlContainer)
    (hc : cur.atEnd = false) (hf : cs.tokens.length < fuel) :
    ParseOutline Q fuel { cur := cur, rest := cs.tokens ++ Token.EndElement endName :: rest }
        (.mk name url feeds containers)
      = some ({ cur := Token.EndElement endName, rest := rest },
          .mk name url (feeds ++ outlineFeeds Q cs) (containers ++ outlineContainers Q cs)) :=
  ParseOutline_forest Q cs fuel cur endName rest name url feeds containers hc hf

/-- Witness for C16: the sample body, parsed into an empty container. -/
theorem ParseOutline_refines_outline_rule_witness :
    ParseOutline testEnv 20
        { cur := Token.StartElement "body" "" [],
          rest := sampleOpmlBody.tokens ++ Token.EndElement "body" :: [Token.EndElement "opml"] }
        (.mk "" { encoded := "" } [] [])
      = some ({ cur := Token.EndElement "body", rest := [Token.EndElement "opml"] },
          .mk "" { encoded := "" } ([] ++ outlineFeeds testEnv sampleOpmlBody)
            ([] ++ outlineContainers testEnv sampleOpmlBody)) :=
  ParseOutline_refines_outline_rule testEnv sampleOpmlBody 20 (Token.StartElement "body" "" [])
    "body" [Token.EndElement "opml"] "" { encoded := "" } [] [] rfl (by decide)

/-! ### The sub-parsers of the channel on well-formed content -/

theorem ParseImage_end (Q : Env) (fuel : Nat) (cur : Token) (name : String)
    (ts : List Token) (ret : Podcast) (h : cur.atEnd = false) :
    ParseImage Q (fuel + 1) { cur := cur, rest := Token.EndElement name :: ts } ret
      = some ({ cur := Token.EndElement name, rest := ts }, ret) := by
  rw [ParseImage]
  simp only [Reader.atEnd, h, readNext_cons _ _ _ h]
  rfl

theorem ParseImage_start (Q : Env) (fuel : Nat) (cur : Token) (name ns : String)
    (attrs : List (String × String)) (ts : List Token) (ret : Podcast)
    (h : cur.atEnd = false) :
    ParseImage Q (fuel + 1) { cur := cur, rest := Token.StartElement name ns attrs :: ts } ret
      = if name = "url" then
          ParseImage Q fuel
            (Reader.readElementText { cur := Token.StartElement name ns attrs, rest := ts }).2
            { ret with image_url_large := (Q.fromEncoded
                (Reader.readElementText
                  { cur := Token.StartElement name ns attrs, rest := ts }).1) }
        else
          ParseImage Q fuel
            (ConsumeCurrentElement { cur := Token.StartElement name ns attrs, rest := ts })
            ret := by
  rw [ParseImage]
  simp only [Reader.atEnd, h, readNext_cons _ _ _ h]
  rfl

theorem ParseImage_other (Q : Env) (fuel : Nat) (cur t : Token) (ts : List Token)
    (ret : Podcast) (h : cur.atEnd = false)
    (hs : t.isStartElement = false) (he : t.isEndElement = false) :
    ParseImage Q (fuel + 1) { cur := cur, rest := t :: ts } ret
      = ParseImage Q fuel { cur := t, rest := ts } ret := by
  rw [ParseImage]
  simp only [Reader.atEnd, h, readNext_cons _ _ _ h]
  cases t <;> first
    | rfl
    | (exact Bool.noConfusion hs)
    | (exact Bool.noConfusion he)

theorem ParseImage_forest (Q : Env) (cs : Forest) :
    ∀ (fuel : Nat) (cur : Token) (endName : String) (rest : List Token) (ret : Podcast),
      cur.atEnd = false → cs.tokens.length < fuel → imageOk cs = true →
      ParseImage Q fuel { cur := cur, rest := cs.tokens ++ Token.EndElement endName :: rest } ret
        = some ({ cur := Token.EndElement endName, rest := rest }, imageOf Q cs ret) := by
  induction cs with
  | nil =>
    intro fuel cur endName rest ret hc hf _
    obtain ⟨f, rfl⟩ : ∃ f, fuel = f + 1 := ⟨fuel - 1, by omega⟩
    exact ParseImage_end Q f cur endName rest ret hc
  | element n ns attrs children siblings _ ih2 =>
    intro fuel cur endName rest ret hc hf hok
    obtain ⟨f, rfl⟩ : ∃ f, fuel = f + 1 := ⟨fuel - 1, by omega⟩
    simp only [Forest.tokens, List.length_cons, List.length_append] at hf
    simp only [imageOk, Bool.and_eq_true] at hok
    simp only [Forest.tokens, List.cons_append, List.append_assoc]
    rw [ParseImage_start Q f cur n ns attrs _ ret hc]
    by_cases h1 : n = "url"
    · rw [if_pos h1, readElementText_forest n ns attrs children n _ (by simpa [h1] using hok.1)]
      simp only [imageOf, if_pos h1]
      exact ih2 f (Token.EndElement n) endName rest _ rfl (by omega) hok.2
    · rw [if_neg h1, ConsumeCurrentElement_forest]
      simp only [imageOf, if_neg h1]
      exact ih2 f (Token.EndElement n) endName rest _ rfl (by omega) hok.2
  | leaf l siblings ih =>
    intro fuel cur endName rest ret hc hf hok
    obtain ⟨f, rfl⟩ : ∃ f, fuel = f + 1 := ⟨fuel - 1, by omega⟩
    simp only [Forest.tokens, List.length_cons] at hf
    simp only [Forest.tokens, List.cons_append]
    rw [ParseImage_other Q f cur l.token _ _ hc (Leaf.token_isStartElement l)
      (Leaf.token_isEndElement l)]
    exact ih f l.token endName rest ret (Leaf.token_atEnd l) (by omega)
      (by simpa [imageOk] using hok)

theorem ParseItunesOwner_end (Q : Env) (fuel : Nat) (cur : Token) (name : String)
    (ts : List Token) (ret : Podcast) (h : cur.atEnd = false) :
    ParseItunesOwner Q (fuel + 1) { cur := cur, rest := Token.EndElement name :: ts } ret
      = some ({ cur := Token.EndElement name, rest := ts }, ret) := by
  rw [ParseItunesOwner]
  simp only [Reader.atEnd, h, readNext_cons _ _ _ h]
  rfl

theorem ParseItunesOwner_start (Q : Env) (fuel : Nat) (cur : Token) (name ns : String)
    (attrs : List (String × String)) (ts : List Token) (ret : Podcast)
    (h : cur.atEnd = false) :
    ParseItunesOwner Q (fuel + 1)
        { cur := cur, rest := Token.StartElement name ns attrs :: ts } ret
      = if name = "name" then
          ParseItunesOwner Q fuel
            (Reader.readElementText { cur := Token.StartElement name ns attrs, rest := ts }).2
            { ret with owner_name := (Reader.readElementText
                  { cur := Token.StartElement name ns attrs, rest := ts }).1 }
        else if name = "email" then
          ParseItunesOwner Q fuel
            (Reader.readElementText { cur := Token.StartElement name ns attrs, rest := ts }).2
            { ret with owner_email := (Reader.readElementText
                  { cur := Token.StartElement name ns attrs, rest := ts }).1 }
        else
          ParseItunesOwner Q fuel
            (ConsumeCurrentElement { cur := Token.StartElement name ns attrs, rest := ts })
            ret := by
  rw [ParseItunesOwner]
  simp only [Reader.atEnd, h, readNext_cons _ _ _ h]
  rfl

theorem ParseItunesOwner_other (Q : Env) (fuel : Nat) (cur t : Token) (ts : List Token)
    (ret : Podcast) (h : cur.atEnd = false)
    (hs : t.isStartElement = false) (he : t.isEndElement = false) :
    ParseItunesOwner Q (fuel + 1) { cur := cur, rest := t :: ts } ret
      = ParseItunesOwner Q fuel { cur := t, rest := ts } ret := by
  rw [ParseItunesOwner]
  simp only [Reader.atEnd, h, readNext_cons _ _ _ h]
  cases t <;> first
    | rfl
    | (exact Bool.noConfusion hs)
    | (exact Bool.noConfusion he)

theorem ParseItunesOwner_forest (Q : Env) (cs : Forest) :
    ∀ (fuel : Nat) (cur : Token) (endName : String) (rest : List Token) (ret : Podcast),
      cur.atEnd = false → cs.tokens.length < fuel → ownerOk cs = true →
      ParseItunesOwner Q fuel
          { cur := cur, rest := cs.tokens ++ Token.EndElement endName :: rest } ret
        = some ({ cur := Token.EndElement endName, rest := rest }, ownerOf Q cs ret) := by
  induction cs with
  | nil =>
    intro fuel cur endName rest ret hc hf _
    obtain ⟨f, rfl⟩ : ∃ f, fuel = f + 1 := ⟨fuel - 1, by omega⟩
    exact ParseItunesOwner_end Q f cur endName rest ret hc
  | element n ns attrs children siblings _ ih2 =>
    intro fuel cur endName rest ret hc hf hok
    obtain ⟨f, rfl⟩ : ∃ f, fuel = f + 1 := ⟨fuel - 1, by omega⟩
    simp only [Forest.tokens, List.length_cons, List.length_append] at hf
    simp only [ownerOk, Bool.and_eq_true] at hok
    simp only [Forest.tokens, List.cons_append, List.append_assoc]
    rw [ParseItunesOwner_start Q f cur n ns attrs _ ret hc]
    by_cases h1 : n = "name"
    · rw [if_pos h1, readElementText_forest n ns attrs children n _ (by simpa [h1] using hok.1)]
      simp only [ownerOf, if_pos h1]
      exact ih2 f (Token.EndElement n) endName rest _ rfl (by omega) hok.2
    · by_cases h2 : n = "email"
      · rw [if_neg h1, if_pos h2,
          readElementText_forest n ns attrs children n _ (by simpa [h2] using hok.1)]
        simp only [ownerOf, if_neg h1, if_pos h2]
        exact ih2 f (Token.EndElement n) endName rest _ rfl (by omega) hok.2
      · rw [if_neg h1, if_neg h2, ConsumeCurrentElement_forest]
        simp only [ownerOf, if_neg h1, if_neg h2]
        exact ih2 f (Token.EndElement n) endName rest _ rfl (by omega) hok.2
  | leaf l siblings ih =>
    intro fuel cur endName rest ret hc hf hok
    obtain ⟨f, rfl⟩ : ∃ f, fuel = f + 1 := ⟨fuel - 1, by omega⟩
    simp only [Forest.tokens, List.length_cons] at hf
    simp only [Forest.tokens, List.cons_append]
    rw [ParseItunesOwner_other Q f cur l.token _ _ hc (Leaf.token_isStartElement l)
      (Leaf.token_isEndElement l)]
    exact ih f l.token endName rest ret (Leaf.token_atEnd l) (by omega)
      (by simpa [ownerOk] using hok)


/-! ### `ParseItem` on well-formed content -/

theorem ParseItemStartElement_forest (Q : Env) (n ns : String) (attrs : List (String × String))
    (cs : Forest) (rest : List Token) (episode : PodcastEpisode)
    (hok : itemReadsText n ns → cs.textOnly = true) :
    ParseItemStartElement Q
        { cur := Token.StartElement n ns attrs, rest := cs.tokens ++ Token.EndElement n :: rest }
        episode n ns attrs
      = ({ cur := Token.EndElement n, rest := rest }, itemElement Q episode n ns attrs cs) := by
  unfold ParseItemStartElement itemElement
  simp only [ConsumeCurrentElement_forest]
  split_ifs with h1 h2 h3 h4 h5 h6
  · rw [readElementText_forest n ns attrs cs n rest (hok (Or.inl h1))]
  · rw [readElementText_forest n ns attrs cs n rest (hok (Or.inr (Or.inl h2)))]
  · rw [readElementText_forest n ns attrs cs n rest (hok (Or.inr (Or.inr (Or.inl h3))))]
  · rw [readElementText_forest n ns attrs cs n rest
      (hok (Or.inr (Or.inr (Or.inr (Or.inl h4)))))]
  · rfl
  · rw [readElementText_forest n ns attrs cs n rest
      (hok (Or.inr (Or.inr (Or.inr (Or.inr h6)))))]
  · rfl

theorem ParseItemLoop_forest (Q : Env) (cs : Forest) :
    ∀ (fuel : Nat) (cur : Token) (endName : String) (rest : List Token) (clock : Nat)
      (episode : PodcastEpisode) (ret : Podcast),
      cur.atEnd = false → cs.tokens.length < fuel → itemOk cs = true →
      ParseItemLoop Q fuel { cur := cur, rest := cs.tokens ++ Token.EndElement endName :: rest }
          clock episode ret
        = some ({ cur := Token.EndElement endName, rest := rest },
            (ParseItemEndElement Q clock (itemOf Q cs episode) ret).1,
            (ParseItemEndElement Q clock (itemOf Q cs episode) ret).2) := by
  induction cs with
  | nil =>
    intro fuel cur endName rest clock episode ret hc hf _
    obtain ⟨f, rfl⟩ : ∃ f, fuel = f + 1 := ⟨fuel - 1, by omega⟩
    exact ParseItemLoop_end Q f cur endName rest clock episode ret hc
  | element n ns attrs children siblings _ ih2 =>
    intro fuel cur endName rest clock episode ret hc hf hok
    obtain ⟨f, rfl⟩ : ∃ f, fuel = f + 1 := ⟨fuel - 1, by omega⟩
    simp only [Forest.tokens, List.length_cons, List.length_append] at hf
    simp only [itemOk, Bool.and_eq_true] at hok
    simp only [Forest.tokens, List.cons_append, List.append_assoc]
    rw [ParseItemLoop_start Q f cur n ns attrs _ clock episode ret hc,
      ParseItemStartElement_forest Q n ns attrs children _ episode
        (fun hr => by simpa [hr] using hok.1)]
    exact ih2 f (Token.EndElement n) endName rest clock _ ret rfl (by omega) hok.2
  | leaf l siblings ih =>
    intro fuel cur endName rest clock episode ret hc hf hok
    obtain ⟨f, rfl⟩ : ∃ f, fuel = f + 1 := ⟨fuel - 1, by omega⟩
    simp only [Forest.tokens, List.length_cons] at hf
    simp only [Forest.tokens, List.cons_append]
    rw [ParseItemLoop_other Q f cur l.token _ clock episode ret hc
      (Leaf.token_isStartElement l) (Leaf.token_isEndElement l)]
    exact ih f l.token endName rest clock episode ret (Leaf.token_atEnd l) (by omega)
      (by simpa [itemOk] using hok)

/-! ### `ParseChannel` on well-formed content -/

theorem ParseChannel_end (Q : Env) (fuel : Nat) (cur : Token) (name : String)
    (ts : List Token) (clock : Nat) (ret : Podcast) (h : cur.atEnd = false) :
    ParseChannel Q (fuel + 1) { cur := cur, rest := Token.EndElement name :: ts } clock ret
      = some ({ cur := Token.EndElement name, rest := ts }, clock, ret) := by
  rw [ParseChannel]
  simp only [Reader.atEnd, h, readNext_cons _ _ _ h]
  rfl

theorem ParseChannel_start (Q : Env) (fuel : Nat) (cur : Token) (name ns : String)
    (attrs : List (String × String)) (ts : List Token) (clock : Nat) (ret : Podcast)
    (h : cur.atEnd = false) :
    ParseChannel Q (fuel + 1) { cur := cur, rest := Token.StartElement name ns attrs :: ts }
        clock ret
      = match ParseChannelStartElement Q fuel
            { cur := Token.StartElement name ns attrs, rest := ts } clock ret name ns attrs with
        | none => none
        | some (reader, clock, ret) => ParseChannel Q fuel reader clock ret := by
  rw [ParseChannel]
  simp only [Reader.atEnd, h, readNext_cons _ _ _ h]
  rfl

theorem ParseChannel_other (Q : Env) (fuel : Nat) (cur t : Token) (ts : List Token)
    (clock : Nat) (ret : Podcast) (h : cur.atEnd = false)
    (hs : t.isStartElement = false) (he : t.isEndElement = false) :
    ParseChannel Q (fuel + 1) { cur := cur, rest := t :: ts } clock ret
      = ParseChannel Q fuel { cur := t, rest := ts } clock ret := by
  rw [ParseChannel]
  simp only [Reader.atEnd, h, readNext_cons _ _ _ h]
  cases t <;> first
    | rfl
    | (exact Bool.noConfusion hs)
    | (exact Bool.noConfusion he)

theorem ParseChannel_atEnd (Q : Env) (fuel : Nat) (r : Reader) (clock : Nat) (ret : Podcast)
    (h : r.cur.atEnd = true) :
    ParseChannel Q (fuel + 1) r clock ret = some (r, clock, ret) := by
  simp [ParseChannel, Reader.atEnd, h]

theorem ParseChannel_nil (Q : Env) (fuel : Nat) (cur : Token) (clock : Nat) (ret : Podcast)
    (h : cur.atEnd = false) :
    ParseChannel Q (fuel + 1) { cur := cur, rest := [] } clock ret
      = ParseChannel Q fuel { cur := .Invalid, rest := [] } clock ret := by
  rw [ParseChannel]
  simp only [Reader.atEnd, h, readNext_nil]
  rfl

theorem ParseChannelStartElement_forest (Q : Env) (fuel : Nat) (n ns : String)
    (attrs : List (String × String)) (cs : Forest) (rest : List Token) (clock : Nat)
    (ret : Podcast) (hf : cs.tokens.length < fuel) (hok : channelChildOk n ns cs = true) :
    ParseChannelStartElement Q fuel
        { cur := Token.StartElement n ns attrs, rest := cs.tokens ++ Token.EndElement n :: rest }
        clock ret n ns attrs
      = some ({ cur := Token.EndElement n, rest := rest },
          (channelElement Q clock ret n ns attrs cs).1,
          (channelElement Q clock ret n ns attrs cs).2) := by
  unfold channelChildOk at hok
  unfold ParseChannelStartElement channelElement
  simp only [ConsumeCurrentElement_forest]
  split_ifs with h1 h2 h3 h4 h5 h6 h7 h8
  · have hr : channelReadsText n ns := Or.inl h1
    rw [if_pos hr] at hok
    rw [readElementText_forest n ns attrs cs n rest hok]
  · have hr : channelReadsText n ns := Or.inr (Or.inr (Or.inr ⟨h2.1, Or.inl h2.2⟩))
    rw [if_pos hr] at hok
    rw [readElementText_forest n ns attrs cs n rest hok]
  · have hr : channelReadsText n ns := Or.inr (Or.inl h3)
    rw [if_pos hr] at hok
    rw [readElementText_forest n ns attrs cs n rest hok]
  · have hr : ¬ channelReadsText n ns := by
      simp [channelReadsText, h4.1]
    rw [if_neg hr, if_pos h4] at hok
    rw [ParseItunesOwner_forest Q cs fuel (Token.StartElement n ns attrs) n rest ret rfl hf hok]
  · have hr : ¬ channelReadsText n ns := by
      simp [channelReadsText, h5]
    rw [if_neg hr, if_neg h4, if_pos h5] at hok
    rw [ParseImage_forest Q cs fuel (Token.StartElement n ns attrs) n rest ret rfl hf hok]
  · have hr : channelReadsText n ns := Or.inr (Or.inr (Or.inl h6))
    rw [if_pos hr] at hok
    rw [readElementText_forest n ns attrs cs n rest hok]
  · have hr : channelReadsText n ns := Or.inr (Or.inr (Or.inr ⟨h7.1, Or.inr h7.2.1⟩))
    rw [if_pos hr] at hok
    rw [readElementText_forest n ns attrs cs n rest hok]
  · have hr : ¬ channelReadsText n ns := by
      simp [channelReadsText, h8]
    rw [if_neg hr, if_neg h4, if_neg h5, if_pos h8] at hok
    unfold ParseItem
    rw [ParseItemLoop_forest Q cs fuel (Token.StartElement n ns attrs) n rest clock {} ret rfl hf
      hok]
  · rfl

theorem ParseChannel_forest (Q : Env) (cs : Forest) :
    ∀ (fuel : Nat) (cur : Token) (endName : String) (rest : List Token) (clock : Nat)
      (ret : Podcast),
      cur.atEnd = false → cs.tokens.length < fuel → channelOk cs = true →
      ParseChannel Q fuel { cur := cur, rest := cs.tokens ++ Token.EndElement endName :: rest }
          clock ret
        = some ({ cur := Token.EndElement endName, rest := rest },
            (channelOf Q cs clock ret).1, (channelOf Q cs clock ret).2) := by
  induction cs with
  | nil =>
    intro fuel cur endName rest clock ret hc hf _
    obtain ⟨f, rfl⟩ : ∃ f, fuel = f + 1 := ⟨fuel - 1, by omega⟩
    exact ParseChannel_end Q f cur endName rest clock ret hc
  | element n ns attrs children siblings _ ih2 =>
    intro fuel cur endName rest clock ret hc hf hok
    obtain ⟨f, rfl⟩ : ∃ f, fuel = f + 1 := ⟨fuel - 1, by omega⟩
    simp only [Forest.tokens, List.length_cons, List.length_append] at hf
    simp only [channelOk, Bool.and_eq_true] at hok
    simp only [Forest.tokens, List.cons_append, List.append_assoc]
    rw [ParseChannel_start Q f cur n ns attrs _ clock ret hc,
      ParseChannelStartElement_forest Q f n ns attrs children _ clock ret (by omega) hok.1]
    exact ih2 f (Token.EndElement n) endName rest _ _ rfl (by omega) hok.2
  | leaf l siblings ih =>
    intro fuel cur endName rest clock ret hc hf hok
    obtain ⟨f, rfl⟩ : ∃ f, fuel = f + 1 := ⟨fuel - 1, by omega⟩
    simp only [Forest.tokens, List.length_cons] at hf
    simp only [Forest.tokens, List.cons_append]
    rw [ParseChannel_other Q f cur l.token _ clock ret hc (Leaf.token_isStartElement l)
      (Leaf.token_isEndElement l)]
    exact ih f l.token endName rest clock ret (Leaf.token_atEnd l) (by omega)
      (by simpa [channelOk] using hok)

/-! ### `Load` on a well-formed RSS document -/

theorem Load_rssDocument (Q : Env) (url : QUrl) (prolog : List Token) (rootNs : String)
    (rootAttrs : List (String × String)) (beforeChannel : List Token) (channelNs : String)
    (channelAttrs : List (String × String)) (channel : Forest) (epilog : List Token)
    (hpro : plainTokens prolog) (hbefore : tokensBefore "channel" beforeChannel)
    (hok : channelOk channel = true) :
    Load Q (rssDocument prolog rootNs rootAttrs beforeChannel channelNs channelAttrs channel
        epilog) url
      = some (.podcast { (channelOf Q channel 0 {}).2 with url := url }) := by
  unfold Load rssDocument
  obtain ⟨cur2, h1, h2⟩ := LoadLoop_scan_plain Q url (Token.StartElement "rss" rootNs rootAttrs)
    (beforeChannel ++ Token.StartElement "channel" channelNs channelAttrs
      :: (channel.tokens ++ Token.EndElement "channel" :: epilog)) prolog hpro Token.NoToken
    (beforeChannel.length + channel.tokens.length + epilog.length + 5) rfl
  have hlen : (prolog ++ Token.StartElement "rss" rootNs rootAttrs
      :: (beforeChannel ++ Token.StartElement "channel" channelNs channelAttrs
        :: (channel.tokens ++ Token.EndElement "channel" :: epilog))).length + 2
      = prolog.length + (beforeChannel.length + channel.tokens.length + epilog.length + 5) := by
    simp only [List.length_append, List.length_cons]
    omega
  rw [hlen, h2, LoadLoop_start Q url _ cur2 _ _ _ _ h1, if_pos rfl]
  have hfound : ParseUntilElement
      { cur := Token.StartElement "rss" rootNs rootAttrs,
        rest := beforeChannel ++ Token.StartElement "channel" channelNs channelAttrs
          :: (channel.tokens ++ Token.EndElement "channel" :: epilog) } "channel"
      = (true, { cur := Token.StartElement "channel" channelNs channelAttrs,
                 rest := channel.tokens ++ Token.EndElement "channel" :: epilog }) :=
    ParseUntilElementFrom_found "channel" channelNs channelAttrs _ beforeChannel hbefore _ rfl
  have hparse : ParseRss Q (beforeChannel.length + channel.tokens.length + epilog.length + 4)
      { cur := Token.StartElement "rss" rootNs rootAttrs,
        rest := beforeChannel ++ Token.StartElement "channel" channelNs channelAttrs
          :: (channel.tokens ++ Token.EndElement "channel" :: epilog) } 0 {}
      = some (true, { cur := Token.EndElement "channel", rest := epilog },
          (channelOf Q channel 0 {}).1, (channelOf Q channel 0 {}).2) := by
    unfold ParseRss
    simp only [hfound]
    rw [if_neg (by decide),
      ParseChannel_forest Q channel _ (Token.StartElement "channel" channelNs channelAttrs)
        "channel" epilog 0 {} rfl (by omega) hok]
  rw [hparse]


/-! ### What the rules on the tree change -/

theorem imageOf_fields (Q : Env) (cs : Forest) :
    ∀ ret : Podcast,
      imageOf Q cs ret = { ret with image_url_large := (imageOf Q cs ret).image_url_large } := by
  induction cs with
  | nil => intro ret; rfl
  | element n ns attrs children siblings _ ih2 =>
    intro ret
    simp only [imageOf]
    split_ifs
    · rw [ih2]
    · exact ih2 ret
  | leaf l siblings ih => intro ret; exact ih ret

theorem ownerOf_fields (Q : Env) (cs : Forest) :
    ∀ ret : Podcast,
      ownerOf Q cs ret = { ret with owner_name := (ownerOf Q cs ret).owner_name,
                                    owner_email := (ownerOf Q cs ret).owner_email } := by
  induction cs with
  | nil => intro ret; rfl
  | element n ns attrs children siblings _ ih2 =>
    intro ret
    simp only [ownerOf]
    split_ifs
    · rw [ih2]
    · rw [ih2]
    · exact ih2 ret
  | leaf l siblings ih => intro ret; exact ih ret

theorem ParseItemEndElement_fields (Q : Env) (clock : Nat) (episode : PodcastEpisode)
    (ret : Podcast) :
    (ParseItemEndElement Q clock episode ret).1 = (ParseItemEndElement Q clock episode {}).1
      ∧ (ParseItemEndElement Q clock episode ret).2
        = { ret with episodes :=
              ret.episodes ++ (ParseItemEndElement Q clock episode {}).2.episodes } := by
  unfold ParseItemEndElement
  simp only
  split_ifs <;> simp

theorem channelElement_title (Q : Env) (clock : Nat) (ret : Podcast) (n ns : String)
    (attrs : List (String × String)) (cs : Forest) :
    (channelElement Q clock ret n ns attrs cs).2.title
      = if n = "title" then cs.text else ret.title := by
  unfold channelElement
  split_ifs with h1 h2 h3 h4 h5 h6 h7 h8
  · rfl
  · rfl
  · rfl
  · simp only; rw [ownerOf_fields]
  · simp only; rw [imageOf_fields]
  · rfl
  · rfl
  · rw [(ParseItemEndElement_fields Q clock _ ret).2]
  · rfl

theorem channelElement_episodes (Q : Env) (clock : Nat) (ret : Podcast) (n ns : String)
    (attrs : List (String × String)) (cs : Forest) :
    (channelElement Q clock ret n ns attrs cs).1
        = (if n = "item" then (ParseItemEndElement Q clock (itemOf Q cs {}) {}).1 else clock)
      ∧ (channelElement Q clock ret n ns attrs cs).2.episodes
        = ret.episodes ++ (if n = "item"
            then (ParseItemEndElement Q clock (itemOf Q cs {}) {}).2.episodes else []) := by
  by_cases h : n = "item"
  · subst h
    have hce : channelElement Q clock ret "item" ns attrs cs
        = ParseItemEndElement Q clock (itemOf Q cs {}) ret := by
      simp [channelElement]
    rw [hce, if_pos rfl, if_pos rfl]
    exact ⟨(ParseItemEndElement_fields Q clock _ ret).1,
      by rw [(ParseItemEndElement_fields Q clock _ ret).2]⟩
  · rw [if_neg h, if_neg h, List.append_nil]
    unfold channelElement
    split_ifs with h1 h2 h3 h4 h5 h6 h7
    · exact ⟨rfl, rfl⟩
    · exact ⟨rfl, rfl⟩
    · exact ⟨rfl, rfl⟩
    · exact ⟨rfl, by simp only; rw [ownerOf_fields]⟩
    · exact ⟨rfl, by simp only; rw [imageOf_fields]⟩
    · exact ⟨rfl, rfl⟩
    · exact ⟨rfl, rfl⟩
    · exact ⟨rfl, rfl⟩

theorem channelOf_title (Q : Env) (cs : Forest) :
    ∀ (clock : Nat) (ret : Podcast),
      (channelOf Q cs clock ret).2.title = (lastText "title" cs).getD ret.title := by
  induction cs with
  | nil => intro clock ret; rfl
  | element n ns attrs children siblings _ ih2 =>
    intro clock ret
    simp only [channelOf, lastText]
    rw [ih2, channelElement_title]
    cases lastText "title" siblings with
    | some t => rfl
    | none =>
      by_cases h : n = "title"
      · simp [h]
      · simp [h]
  | leaf l siblings ih => intro clock ret; exact ih clock ret

theorem channelOf_episodes (Q : Env) (cs : Forest) :
    ∀ (clock : Nat) (ret : Podcast),
      (channelOf Q cs clock ret).2.episodes = ret.episodes ++ channelEpisodes Q cs clock := by
  induction cs with
  | nil => intro clock ret; simp [channelOf, channelEpisodes]
  | element n ns attrs children siblings _ ih2 =>
    intro clock ret
    simp only [channelOf, channelEpisodes]
    rw [ih2, (channelElement_episodes Q clock ret n ns attrs children).1,
      (channelElement_episodes Q clock ret n ns attrs children).2]
    by_cases h : n = "item"
    · simp [h]
    · simp [h]
  | leaf l siblings ih => intro clock ret; exact ih clock ret


/-! ### What the children of an item give -/

theorem setDuration_publication_date (episode : PodcastEpisode) (text : String) :
    (setDuration episode text).publication_date = episode.publication_date := by
  unfold setDuration
  split <;> rfl

theorem setEnclosure_publication_date (Q : Env) (episode : PodcastEpisode)
    (attrs : List (String × String)) :
    (setEnclosure Q episode attrs).publication_date = episode.publication_date := by
  unfold setEnclosure
  simp only
  split_ifs <;> rfl

theorem setEnclosure_url (Q : Env) (episode : PodcastEpisode) (attrs : List (String × String)) :
    (setEnclosure Q episode attrs).url
      = if acceptsEnclosure Q (attributeValue attrs "type")
            (Q.fromEncoded (attributeValue attrs "url")) = true
        then Q.fromEncoded (attributeValue attrs "url") else episode.url := by
  unfold setEnclosure
  simp only
  split_ifs <;> rfl

theorem itemElement_url (Q : Env) (episode : PodcastEpisode) (n ns : String)
    (attrs : List (String × String)) (cs : Forest) :
    (itemElement Q episode n ns attrs cs).url
      = if n = "enclosure" ∧ acceptsEnclosure Q (attributeValue attrs "type")
            (Q.fromEncoded (attributeValue attrs "url")) = true
        then Q.fromEncoded (attributeValue attrs "url") else episode.url := by
  by_cases h : n = "enclosure"
  · subst h
    have he : itemElement Q episode "enclosure" ns attrs cs = setEnclosure Q episode attrs := by
      simp [itemElement]
    rw [he, setEnclosure_url]
    simp
  · have hn : ¬ (n = "enclosure" ∧ acceptsEnclosure Q (attributeValue attrs "type")
        (Q.fromEncoded (attributeValue attrs "url")) = true) := fun hx => h hx.1
    rw [if_neg hn]
    unfold itemElement
    split_ifs
    · rfl
    · rfl
    · rfl
    · exact setDuration_url _ _
    · rfl
    · rfl

theorem itemOf_url (Q : Env) (cs : Forest) :
    ∀ episode : PodcastEpisode, (itemOf Q cs episode).url = resolvedUrl Q cs episode.url := by
  induction cs with
  | nil => intro episode; rfl
  | element n ns attrs children siblings _ ih2 =>
    intro episode
    simp only [itemOf, resolvedUrl]
    rw [ih2, itemElement_url]
  | leaf l siblings ih => intro episode; exact ih episode

theorem itemElement_publication_date (Q : Env) (episode : PodcastEpisode) (n ns : String)
    (attrs : List (String × String)) (cs : Forest) :
    (itemElement Q episode n ns attrs cs).publication_date
      = if n = "pubDate" then Q.ParseRFC822DateTime cs.text else episode.publication_date := by
  by_cases h : n = "pubDate"
  · subst h
    simp [itemElement]
  · rw [if_neg h]
    unfold itemElement
    split_ifs
    · rfl
    · rfl
    · exact setDuration_publication_date _ _
    · exact setEnclosure_publication_date _ _ _
    · rfl
    · rfl

theorem itemOf_publication_date (Q : Env) (cs : Forest) :
    ∀ episode : PodcastEpisode,
      (itemOf Q cs episode).publication_date
        = match lastText "pubDate" cs with
          | some text => Q.ParseRFC822DateTime text
          | none => episode.publication_date := by
  induction cs with
  | nil => intro episode; rfl
  | element n ns attrs children siblings _ ih2 =>
    intro episode
    simp only [itemOf, lastText]
    rw [ih2, itemElement_publication_date]
    cases lastText "pubDate" siblings with
    | some t => rfl
    | none =>
      by_cases h : n = "pubDate"
      · simp [h]
      · simp [h]
  | leaf l siblings ih => intro episode; exact ih episode

theorem itemOf_date_bind (Q : Env) (item : Forest) :
    (itemOf Q item {}).publication_date
      = (lastText "pubDate" item).bind Q.ParseRFC822DateTime := by
  rw [itemOf_publication_date]
  cases lastText "pubDate" item <;> rfl

theorem ParseItemEndElement_item (Q : Env) (clock : Nat) (item : Forest) :
    (ParseItemEndElement Q clock (itemOf Q item {}) {}).2.episodes
        = (if Q.urlIsEmpty (resolvedUrl Q item { encoded := "" }) then []
           else [itemEpisode Q item clock])
      ∧ (ParseItemEndElement Q clock (itemOf Q item {}) {}).1
        = (if ((lastText "pubDate" item).bind Q.ParseRFC822DateTime).isSome then clock
           else clock + 1) := by
  have hu : (itemOf Q item {}).url = resolvedUrl Q item { encoded := "" } := itemOf_url Q item {}
  have hd := itemOf_date_bind Q item
  unfold ParseItemEndElement itemEpisode itemDate
  rw [← hd, ← hu]
  generalize itemOf Q item {} = ep
  cases ep with
  | mk title description author publication_date duration_secs url =>
    cases publication_date with
    | none => simp only [Option.isSome_none, Bool.false_eq_true, if_false]; split_ifs <;> simp
    | some d => simp only [Option.isSome_some, if_true]; split_ifs <;> simp

theorem channelEpisodes_items (Q : Env) (cs : Forest) :
    ∀ clock : Nat,
      List.Forall₂ (fun e item => ∃ k, e = itemEpisode Q item k)
        (channelEpisodes Q cs clock) (keptItems Q cs) := by
  induction cs with
  | nil => intro clock; exact List.Forall₂.nil
  | element n ns attrs children siblings _ ih2 =>
    intro clock
    by_cases h : n = "item"
    · simp only [channelEpisodes, keptItems, itemContents, if_pos h, List.filter_cons]
      rw [(ParseItemEndElement_item Q clock children).1]
      by_cases hu : Q.urlIsEmpty (resolvedUrl Q children { encoded := "" }) = true
      · simp only [hu, if_true, List.nil_append, Bool.not_true, Bool.false_eq_true, if_false]
        exact ih2 _
      · simp only [hu, if_false, Bool.not_eq_true] at hu ⊢
        simp only [hu, Bool.not_false, if_true, List.singleton_append, Bool.false_eq_true,
          if_false]
        exact List.Forall₂.cons ⟨clock, rfl⟩ (ih2 _)
    · simp only [channelEpisodes, keptItems, itemContents, if_neg h]
      exact ih2 clock
  | leaf l siblings ih => intro clock; exact ih clock

theorem keptItems_sublist (Q : Env) (cs : Forest) :
    List.Sublist (keptItems Q cs) (itemContents cs) :=
  List.filter_sublist _

/-! ### Appending content -/

theorem channelOf_append (Q : Env) (a b : Forest) :
    ∀ (clock : Nat) (ret : Podcast),
      channelOf Q (a.append b) clock ret
        = channelOf Q b (channelOf Q a clock ret).1 (channelOf Q a clock ret).2 := by
  induction a with
  | nil => intro clock ret; rfl
  | element n ns attrs children siblings _ ih2 =>
    intro clock ret
    simp only [Forest.append, channelOf]
    exact ih2 _ _
  | leaf l siblings ih => intro clock ret; exact ih clock ret

theorem itemOf_append (Q : Env) (a b : Forest) :
    ∀ episode : PodcastEpisode,
      itemOf Q (a.append b) episode = itemOf Q b (itemOf Q a episode) := by
  induction a with
  | nil => intro episode; rfl
  | element n ns attrs children siblings _ ih2 =>
    intro episode
    simp only [Forest.append, itemOf]
    exact ih2 _
  | leaf l siblings ih => intro episode; exact ih episode

theorem channelOk_append (a b : Forest) :
    channelOk (a.append b) = (channelOk a && channelOk b) := by
  induction a with
  | nil => simp [Forest.append, channelOk]
  | element n ns attrs children siblings _ ih2 =>
    simp only [Forest.append, channelOk, ih2, Bool.and_assoc]
  | leaf l siblings ih => simpa [Forest.append, channelOk] using ih

theorem itemOk_append (a b : Forest) : itemOk (a.append b) = (itemOk a && itemOk b) := by
  induction a with
  | nil => simp [Forest.append, itemOk]
  | element n ns attrs children siblings _ ih2 =>
    simp only [Forest.append, itemOk, ih2, Bool.and_assoc]
  | leaf l siblings ih => simpa [Forest.append, itemOk] using ih

theorem lastText_append (name : String) (a b : Forest) :
    lastText name (a.append b)
      = match lastText name b with
        | some text => some text
        | none => lastText name a := by
  induction a with
  | nil => simp only [Forest.append, lastText]; cases lastText name b <;> rfl
  | element n ns attrs children siblings _ ih2 =>
    simp only [Forest.append, lastText, ih2]
    cases lastText name b <;> rfl
  | leaf l siblings ih => simpa [Forest.append, lastText] using ih

theorem channelElement_other (Q : Env) (clock : Nat) (ret : Podcast) (n ns : String)
    (attrs : List (String × String)) (cs : Forest) (h : ¬ channelRecognises n) :
    channelElement Q clock ret n ns attrs cs = (clock, ret) := by
  simp only [channelRecognises, List.mem_cons, List.mem_singleton, List.not_mem_nil, or_false,
    not_or] at h
  obtain ⟨h1, h2, h3, h4, h5, h6, h7⟩ := h
  simp [channelElement, h1, h2, h3, h4, h5, h6, h7]

theorem channelChildOk_other (n ns : String) (cs : Forest) (h : ¬ channelRecognises n) :
    channelChildOk n ns cs = true := by
  simp only [channelRecognises, List.mem_cons, List.mem_singleton, List.not_mem_nil, or_false,
    not_or] at h
  obtain ⟨h1, h2, h3, h4, h5, h6, h7⟩ := h
  simp [channelChildOk, channelReadsText, h1, h2, h3, h4, h5, h6, h7]

theorem channelElement_item (Q : Env) (clock : Nat) (ret : Podcast) (ns : String)
    (attrs : List (String × String)) (cs : Forest) :
    channelElement Q clock ret "item" ns attrs cs
      = ParseItemEndElement Q clock (itemOf Q cs {}) ret := by
  simp [channelElement]

theorem channelChildOk_item (ns : String) (cs : Forest) :
    channelChildOk "item" ns cs = itemOk cs := by
  simp [channelChildOk, channelReadsText]

theorem itemElement_other (Q : Env) (episode : PodcastEpisode) (n ns : String)
    (attrs : List (String × String)) (cs : Forest) (h : ¬ itemRecognises n) :
    itemElement Q episode n ns attrs cs = episode := by
  simp only [itemRecognises, List.mem_cons, List.mem_singleton, List.not_mem_nil, or_false,
    not_or] at h
  obtain ⟨h1, h2, h3, h4, h5, h6⟩ := h
  simp [itemElement, h1, h2, h3, h4, h5, h6]

theorem itemReadsText_other (n ns : String) (h : ¬ itemRecognises n) : ¬ itemReadsText n ns := by
  simp only [itemRecognises, List.mem_cons, List.mem_singleton, List.not_mem_nil, or_false,
    not_or] at h
  obtain ⟨h1, h2, h3, h4, h5, h6⟩ := h
  simp [itemReadsText, h1, h2, h3, h4, h5, h6]


/-- Witness for C15: a feed outline without `title` attribute at the start of
a body. -/
theorem ParseOutline_rss_outline_witness :
    ParseOutline testEnv 3
        { cur := Token.StartElement "body" "" [],
          rest := Token.StartElement "outline" "" sampleFeedOutline
            :: [Token.EndElement "outline", Token.EndElement "body"] }
        (.mk "" { encoded := "" } [] [])
      = some ({ cur := Token.EndElement "body", rest := [] },
          .mk "" { encoded := "" }
            [{ title := "One", url := { encoded := "http://x/one" } }] [])
      ∧ attributeValue sampleFeedOutline "title" = "" :=
  ⟨(ParseOutline_rss_outline testEnv 2 (Token.StartElement "body" "" []) "" sampleFeedOutline
      [Token.EndElement "outline", Token.EndElement "body"] "" { encoded := "" } [] []
      rfl rfl).1.trans rfl,
    (ParseOutline_rss_outline testEnv 2 (Token.StartElement "body" "" []) "" sampleFeedOutline
      [Token.EndElement "outline", Token.EndElement "body"] "" { encoded := "" } [] []
      rfl rfl).2 "title" (by decide)⟩

/-- C17, amended: on a well-formed RSS document in which the elements the
parser reads as text hold no child element, `Load` returns a podcast whose
episodes are, in document order, one episode for each direct `item` child of
the first `channel` whose resolved URL is not empty: each episode is the
episode of its item and carries the item's resolved URL, the items that have
one form a sub-sequence of the items of the channel, and there are no more
episodes than items. -/
theorem Load_episodes_in_document_order (Q : Env) (url : QUrl) (prolog : List Token)
    (rootNs : String) (rootAttrs : List (String × String)) (beforeChannel : List Token)
    (channelNs : String) (channelAttrs : List (String × String)) (channel : Forest)
    (epilog : List Token)
    (hpro : plainTokens prolog) (hbefore : tokensBefore "channel" beforeChannel)
    (hok : channelOk channel = true) :
    ∃ p, Load Q (rssDocument prolog rootNs rootAttrs beforeChannel channelNs channelAttrs
            channel epilog) url = some (.podcast p)
      ∧ List.Forall₂
          (fun e item => e.url = resolvedUrl Q item { encoded := "" }
            ∧ Q.urlIsEmpty e.url = false ∧ ∃ clock, e = itemEpisode Q item clock)
          p.episodes (keptItems Q channel)
      ∧ keptItems Q channel
          = (itemContents channel).filter
              (fun item => !Q.urlIsEmpty (resolvedUrl Q item { encoded := "" }))
      ∧ List.Sublist (keptItems Q channel) (itemContents channel)
      ∧ p.episodes.length ≤ (itemContents channel).length := by
  refine ⟨_, Load_rssDocument Q url prolog rootNs rootAttrs beforeChannel channelNs channelAttrs
    channel epilog hpro hbefore hok, ?_, rfl, keptItems_sublist Q channel, ?_⟩
  · have h := channelEpisodes_items Q channel 0
    have hmem : ∀ item ∈ keptItems Q channel,
        Q.urlIsEmpty (resolvedUrl Q item { encoded := "" }) = false := by
      intro item hi
      have := (List.mem_filter.1 hi).2
      simpa using this
    simp only [channelOf_episodes, List.nil_append]
    generalize channelEpisodes Q channel 0 = es at h
    generalize keptItems Q channel = items at h hmem
    induction h with
    | nil => exact List.Forall₂.nil
    | @cons e item es2 items2 hx _ ih =>
      obtain ⟨k, hk⟩ := hx
      have hu : e.url = resolvedUrl Q item { encoded := "" } := by
        rw [hk]; exact itemOf_url Q item {}
      refine List.Forall₂.cons ⟨hu, ?_, k, hk⟩ (ih (fun i hi => hmem i (List.mem_cons_of_mem _ hi)))
      rw [hu]
      exact hmem item (List.mem_cons_self _ _)
  · have h := (channelEpisodes_items Q channel 0).length_eq
    simp only [channelOf_episodes, List.nil_append]
    rw [h]
    exact (keptItems_sublist Q channel).length_le

/-- Witness for C17: a channel with a title, an item without enclosure and an
item with an audio enclosure. -/
theorem Load_episodes_in_document_order_witness :
    ∃ p, Load testEnv (rssDocument [Token.StartDocument] "" [] [] "" []
            (sampleChannelHead.append sampleChannelTail) [Token.EndElement "rss"])
          { encoded := "u" } = some (.podcast p)
      ∧ List.Forall₂
          (fun e item => e.url = resolvedUrl testEnv item { encoded := "" }
            ∧ testEnv.urlIsEmpty e.url = false ∧ ∃ clock, e = itemEpisode testEnv item clock)
          p.episodes (keptItems testEnv (sampleChannelHead.append sampleChannelTail))
      ∧ keptItems testEnv (sampleChannelHead.append sampleChannelTail)
          = (itemContents (sampleChannelHead.append sampleChannelTail)).filter
              (fun item => !testEnv.urlIsEmpty (resolvedUrl testEnv item { encoded := "" }))
      ∧ List.Sublist (keptItems testEnv (sampleChannelHead.append sampleChannelTail))
          (itemContents (sampleChannelHead.append sampleChannelTail))
      ∧ p.episodes.length ≤ (itemContents (sampleChannelHead.append sampleChannelTail)).length :=
  Load_episodes_in_document_order testEnv { encoded := "u" } [Token.StartDocument] "" [] [] ""
    [] (sampleChannelHead.append sampleChannelTail) [Token.EndElement "rss"]
    (by intro t ht; simp at ht; subst ht; exact ⟨rfl, rfl⟩)
    (by intro t ht; simp at ht)
    rfl

/-- C13 as amended: on a well-formed RSS document in which the elements the
parser reads as text hold no child element, and whose channel has a direct
child with the local name `title`, without nested element and with the text
`T`, and no later direct child of the channel with that local name, `Load`
returns a podcast whose title is `T`. -/
theorem Load_channel_title (Q : Env) (url : QUrl) (prolog : List Token)
    (rootNs : String) (rootAttrs : List (String × String)) (beforeChannel : List Token)
    (channelNs : String) (channelAttrs : List (String × String)) (epilog : List Token)
    (before after : Forest) (ns : String) (attrs : List (String × String)) (content : Forest)
    (hpro : plainTokens prolog) (hbefore : tokensBefore "channel" beforeChannel)
    (hok : channelOk (before.append (.element "title" ns attrs content after)) = true)
    (hlast : lastText "title" after = none) :
    content.textOnly = true
      ∧ ∃ p, Load Q (rssDocument prolog rootNs rootAttrs beforeChannel channelNs channelAttrs
              (before.append (.element "title" ns attrs content after)) epilog) url
            = some (.podcast p)
          ∧ p.title = content.text := by
  refine ⟨?_, _, Load_rssDocument Q url prolog rootNs rootAttrs beforeChannel channelNs
    channelAttrs _ epilog hpro hbefore hok, ?_⟩
  · rw [channelOk_append] at hok
    simp only [channelOk, Bool.and_eq_true] at hok
    have h := hok.2.1
    simpa [channelChildOk, channelReadsText] using h
  · show (channelOf Q _ 0 {}).2.title = content.text
    rw [channelOf_title, lastText_append]
    simp [lastText, hlast]

/-- Witness for C13 as amended: the title of the sample channel, with two
items behind it. -/
theorem Load_channel_title_witness :
    (Forest.leaf (.characters "Show") .nil).textOnly = true
      ∧ ∃ p, Load testEnv (rssDocument [Token.StartDocument] "" [] [] "" []
              (Forest.nil.append (.element "title" "" [] (.leaf (.characters "Show") .nil)
                sampleChannelTail)) [Token.EndElement "rss"]) { encoded := "u" }
            = some (.podcast p)
          ∧ p.title = (Forest.leaf (.characters "Show") .nil).text :=
  Load_channel_title testEnv { encoded := "u" } [Token.StartDocument] "" [] [] "" []
    [Token.EndElement "rss"] .nil sampleChannelTail "" [] (.leaf (.characters "Show") .nil)
    (by intro t ht; simp at ht; subst ht; exact ⟨rfl, rfl⟩)
    (by intro t ht; simp at ht)
    rfl rfl


/-- C18: take a well-formed RSS document and an element with any content
whose name is not one the parser at that level has a branch for. Inserting the
element anywhere among the direct children of the channel, or among the direct
children of an item of the channel, gives a document on which `Load` returns
what it returns on the original document, and that is a podcast. -/
theorem Load_insert_unrecognised (Q : Env) (url : QUrl) (prolog : List Token)
    (rootNs : String) (rootAttrs : List (String × String)) (beforeChannel : List Token)
    (channelNs : String) (channelAttrs : List (String × String)) (epilog : List Token)
    (name ns : String) (attrs : List (String × String)) (content : Forest)
    (hpro : plainTokens prolog) (hbefore : tokensBefore "channel" beforeChannel) :
    (∀ before after : Forest, ¬ channelRecognises name →
        channelOk (before.append after) = true →
        Load Q (rssDocument prolog rootNs rootAttrs beforeChannel channelNs channelAttrs
            (before.append (.element name ns attrs content after)) epilog) url
          = Load Q (rssDocument prolog rootNs rootAttrs beforeChannel channelNs channelAttrs
              (before.append after) epilog) url
        ∧ ∃ p, Load Q (rssDocument prolog rootNs rootAttrs beforeChannel channelNs channelAttrs
              (before.append after) epilog) url = some (.podcast p))
      ∧ (∀ (before after : Forest) (itemNs : String) (itemAttrs : List (String × String))
          (itemBefore itemAfter : Forest), ¬ itemRecognises name →
          channelOk (before.append
            (.element "item" itemNs itemAttrs (itemBefore.append itemAfter) after)) = true →
          Load Q (rssDocument prolog rootNs rootAttrs beforeChannel channelNs channelAttrs
              (before.append (.element "item" itemNs itemAttrs
                (itemBefore.append (.element name ns attrs content itemAfter)) after))
              epilog) url
            = Load Q (rssDocument prolog rootNs rootAttrs beforeChannel channelNs channelAttrs
                (before.append
                  (.element "item" itemNs itemAttrs (itemBefore.append itemAfter) after))
                epilog) url
          ∧ ∃ p, Load Q (rssDocument prolog rootNs rootAttrs beforeChannel channelNs
                channelAttrs (before.append
                  (.element "item" itemNs itemAttrs (itemBefore.append itemAfter) after))
                epilog) url = some (.podcast p)) := by
  constructor
  · intro before after hname hok
    have hok2 : channelOk (before.append (.element name ns attrs content after)) = true := by
      rw [channelOk_append] at hok ⊢
      simp only [channelOk, Bool.and_eq_true] at hok ⊢
      exact ⟨hok.1, channelChildOk_other name ns content hname, hok.2⟩
    rw [Load_rssDocument Q url prolog rootNs rootAttrs beforeChannel channelNs channelAttrs _
        epilog hpro hbefore hok,
      Load_rssDocument Q url prolog rootNs rootAttrs beforeChannel channelNs channelAttrs _
        epilog hpro hbefore hok2]
    refine ⟨?_, _, rfl⟩
    rw [channelOf_append, channelOf_append]
    simp only [channelOf]
    rw [channelElement_other Q _ _ name ns attrs content hname]
  · intro before after itemNs itemAttrs itemBefore itemAfter hname hok
    have hok2 : channelOk (before.append (.element "item" itemNs itemAttrs
        (itemBefore.append (.element name ns attrs content itemAfter)) after)) = true := by
      rw [channelOk_append] at hok ⊢
      simp only [channelOk, Bool.and_eq_true, channelChildOk_item] at hok ⊢
      refine ⟨hok.1, ?_, hok.2.2⟩
      have hi := hok.2.1
      rw [itemOk_append] at hi ⊢
      simp only [itemOk, Bool.and_eq_true] at hi ⊢
      refine ⟨hi.1, ?_, hi.2⟩
      rw [if_neg (itemReadsText_other name ns hname)]
    rw [Load_rssDocument Q url prolog rootNs rootAttrs beforeChannel channelNs channelAttrs _
        epilog hpro hbefore hok,
      Load_rssDocument Q url prolog rootNs rootAttrs beforeChannel channelNs channelAttrs _
        epilog hpro hbefore hok2]
    refine ⟨?_, _, rfl⟩
    have hitem : itemOf Q (itemBefore.append (.element name ns attrs content itemAfter)) {}
        = itemOf Q (itemBefore.append itemAfter) {} := by
      rw [itemOf_append, itemOf_append]
      simp only [itemOf]
      rw [itemElement_other Q _ name ns attrs content hname]
    rw [channelOf_append, channelOf_append]
    simp only [channelOf, channelElement_item, hitem]

/-- Witness for C18: an element with two more levels of content, among it a
`title`, an `item` and an `enclosure`, put behind the title of the sample
channel and behind the enclosure of its second item. -/
theorem Load_insert_unrecognised_witness :
    (Load testEnv (rssDocument [Token.StartDocument] "" [] [] "" []
          (sampleChannelHead.append
            (.element "extension" "http://x/ns" [] sampleUnknownContent sampleChannelTail))
          [Token.EndElement "rss"]) { encoded := "u" }
        = Load testEnv (rssDocument [Token.StartDocument] "" [] [] "" []
            (sampleChannelHead.append sampleChannelTail) [Token.EndElement "rss"])
            { encoded := "u" }
      ∧ ∃ p, Load testEnv (rssDocument [Token.StartDocument] "" [] [] "" []
            (sampleChannelHead.append sampleChannelTail) [Token.EndElement "rss"])
            { encoded := "u" } = some (.podcast p))
      ∧ (Load testEnv (rssDocument [Token.StartDocument] "" [] [] "" []
            (sampleChannelHead.append (.element "item" "" []
              (sampleItemHead.append
                (.element "extension" "http://x/ns" [] sampleUnknownContent sampleItemTail))
              .nil))
            [Token.EndElement "rss"]) { encoded := "u" }
          = Load testEnv (rssDocument [Token.StartDocument] "" [] [] "" []
              (sampleChannelHead.append (.element "item" "" []
                (sampleItemHead.append sampleItemTail) .nil))
              [Token.EndElement "rss"]) { encoded := "u" }
        ∧ ∃ p, Load testEnv (rssDocument [Token.StartDocument] "" [] [] "" []
              (sampleChannelHead.append (.element "item" "" []
                (sampleItemHead.append sampleItemTail) .nil))
              [Token.EndElement "rss"]) { encoded := "u" } = some (.podcast p)) :=
  ⟨(Load_insert_unrecognised testEnv { encoded := "u" } [Token.StartDocument] "" [] [] "" []
      [Token.EndElement "rss"] "extension" "http://x/ns" [] sampleUnknownContent
      (by intro t ht; simp at ht; subst ht; exact ⟨rfl, rfl⟩)
      (by intro t ht; simp at ht)).1 sampleChannelHead sampleChannelTail
      (by simp [channelRecognises]) rfl,
    (Load_insert_unrecognised testEnv { encoded := "u" } [Token.StartDocument] "" [] [] "" []
      [Token.EndElement "rss"] "extension" "http://x/ns" [] sampleUnknownContent
      (by intro t ht; simp at ht; subst ht; exact ⟨rfl, rfl⟩)
      (by intro t ht; simp at ht)).2 sampleChannelHead .nil "" [] sampleItemHead sampleItemTail
      (by simp [itemRecognises]) rfl⟩


/-! ### Every emitted episode is dated -/

theorem ParseItemEndElement_dated (Q : Env) (clock : Nat) (episode : PodcastEpisode)
    (ret : Podcast) :
    (ParseItemEndElement Q clock episode ret).2 = ret
      ∨ ∃ e, e.publication_date.isSome = true
        ∧ (ParseItemEndElement Q clock episode ret).2
            = { ret with episodes := ret.episodes ++ [e] } := by
  unfold ParseItemEndElement
  simp only
  split_ifs with h1 h2 h3
  · exact Or.inl rfl
  · exact Or.inr ⟨_, h1, rfl⟩
  · exact Or.inl rfl
  · exact Or.inr ⟨{ episode with publication_date := some (Q.currentDateTime clock) }, rfl, rfl⟩

theorem ParseItemLoop_dated (Q : Env) :
    ∀ (fuel : Nat) (r : Reader) (clock : Nat) (episode : PodcastEpisode) (ret : Podcast)
      (r2 : Reader) (clock2 : Nat) (ret2 : Podcast),
      ParseItemLoop Q fuel r clock episode ret = some (r2, clock2, ret2) →
      ret2 = ret ∨ ∃ e, e.publication_date.isSome = true
        ∧ ret2 = { ret with episodes := ret.episodes ++ [e] } := by
  intro fuel
  induction fuel with
  | zero => intro r clock episode ret r2 clock2 ret2 h; simp [ParseItemLoop] at h
  | succ f ih =>
    intro r clock episode ret r2 clock2 ret2 h
    rw [ParseItemLoop] at h
    split at h
    · cases h; exact Or.inl rfl
    · simp only at h
      split at h
      · exact ih _ _ _ _ _ _ _ h
      · cases h
        exact ParseItemEndElement_dated Q clock episode ret
      · exact ih _ _ _ _ _ _ _ h

theorem ParseChannelStartElement_dated (Q : Env) (fuel : Nat) (r : Reader) (clock : Nat)
    (ret : Podcast) (name ns : String) (attrs : List (String × String))
    (r2 : Reader) (clock2 : Nat) (ret2 : Podcast)
    (h : ParseChannelStartElement Q fuel r clock ret name ns attrs = some (r2, clock2, ret2))
    (hret : ∀ e ∈ ret.episodes, e.publication_date.isSome = true) :
    ∀ e ∈ ret2.episodes, e.publication_date.isSome = true := by
  unfold ParseChannelStartElement at h
  simp only at h
  split_ifs at h
  · cases h; exact hret
  · cases h; exact hret
  · cases h; exact hret
  · split at h
    · cases h
    · rename_i heq
      obtain ⟨x, y, hx⟩ := ParseItunesOwner_frame Q _ _ _ _ _ heq
      cases h
      rw [hx]; exact hret
  · split at h
    · cases h
    · rename_i heq
      obtain ⟨x, hx⟩ := ParseImage_frame Q _ _ _ _ _ heq
      cases h
      rw [hx]; exact hret
  · cases h; exact hret
  · cases h; exact hret
  · rcases ParseItemLoop_dated Q _ _ _ _ _ _ _ _ h with hx | ⟨e, he, hx⟩
    · rw [hx]; exact hret
    · rw [hx]
      intro e2 he2
      rcases List.mem_append.1 he2 with h3 | h3
      · exact hret e2 h3
      · rw [List.mem_singleton.1 h3]; exact he
  · cases h; exact hret

theorem ParseChannel_dated (Q : Env) :
    ∀ (fuel : Nat) (r : Reader) (clock : Nat) (ret : Podcast)
      (r2 : Reader) (clock2 : Nat) (ret2 : Podcast),
      ParseChannel Q fuel r clock ret = some (r2, clock2, ret2) →
      (∀ e ∈ ret.episodes, e.publication_date.isSome = true) →
      ∀ e ∈ ret2.episodes, e.publication_date.isSome = true := by
  intro fuel
  induction fuel with
  | zero => intro r clock ret r2 clock2 ret2 h; simp [ParseChannel] at h
  | succ f ih =>
    intro r clock ret r2 clock2 ret2 h hret
    rw [ParseChannel] at h
    split at h
    · cases h; exact hret
    · simp only at h
      split at h
      · split at h
        · cases h
        · rename_i heq
          exact ih _ _ _ _ _ _ h
            (ParseChannelStartElement_dated Q _ _ _ _ _ _ _ _ _ _ heq hret)
      · cases h; exact hret
      · exact ih _ _ _ _ _ _ h hret

theorem LoadLoop_dated (Q : Env) (url : QUrl) :
    ∀ (fuel : Nat) (r : Reader) (p : Podcast), LoadLoop Q url fuel r = some (.podcast p) →
      ∀ e ∈ p.episodes, e.publication_date.isSome = true := by
  intro fuel
  induction fuel with
  | zero => intro r p h; simp [LoadLoop] at h
  | succ f ih =>
    intro r p h
    rw [LoadLoop] at h
    split at h
    · cases h
    · simp only at h
      split at h
      · split_ifs at h
        · split at h
          · cases h
          · cases h
          · rename_i heq
            cases h
            have key := ParseChannel_dated Q _ _ _ _ _ _ _
              (ParseRss_found Q _ _ _ _ _ _ _ heq).2 (by simp)
            exact key
        · split at h <;> cases h
        · cases h
      · exact ih _ _ h

theorem itemEpisode_dateRule (Q : Env) (item : Forest) (clock : Nat) :
    dateRule Q item clock (itemEpisode Q item clock) := by
  unfold dateRule itemEpisode itemDate
  refine ⟨?_, ?_, ?_⟩
  · intro text date h1 h2
    simp [h1, h2]
  · intro h1
    simp [h1]
  · intro text h1 h2
    simp [h1, h2]

theorem ParseItem_forest (Q : Env) (item : Forest) (fuel : Nat) (cur : Token)
    (endName : String) (rest : List Token) (clock : Nat) (ret : Podcast)
    (hc : cur.atEnd = false) (hf : item.tokens.length < fuel) (hok : itemOk item = true) :
    ∃ clock2,
      ParseItem Q fuel { cur := cur, rest := item.tokens ++ Token.EndElement endName :: rest }
          clock ret
        = some ({ cur := Token.EndElement endName, rest := rest }, clock2,
            if Q.urlIsEmpty (resolvedUrl Q item { encoded := "" }) then ret
            else { ret with episodes := ret.episodes ++ [itemEpisode Q item clock] }) := by
  refine ⟨(ParseItemEndElement Q clock (itemOf Q item {}) ret).1, ?_⟩
  unfold ParseItem
  rw [ParseItemLoop_forest Q item fuel cur endName rest clock {} ret hc hf hok,
    (ParseItemEndElement_fields Q clock _ ret).2, (ParseItemEndElement_item Q clock item).1]
  split_ifs <;> simp

/-- C12: every episode of a podcast that `Load` returns has a valid
publication date. On the content of a well-formed item, `ParseItem` returns on
the end element of the item, having added no episode when the resolved URL is
empty and otherwise one episode whose date follows the rule: the parsed value
when the text of the item's last `pubDate` child parses, and the reading of
the clock made at the end element when the item has no `pubDate` child or the
text does not parse. On a well-formed RSS document the episodes of the result
follow that rule for their items, in document order. -/
theorem publication_date_valid (Q : Env) :
    (∀ (tokens : List Token) (url : QUrl) (p : Podcast),
        Load Q tokens url = some (.podcast p) →
        ∀ e ∈ p.episodes, e.publication_date.isSome = true)
      ∧ (∀ (item : Forest) (fuel : Nat) (cur : Token) (endName : String) (rest : List Token)
          (clock : Nat) (ret : Podcast),
          cur.atEnd = false → item.tokens.length < fuel → itemOk item = true →
          ∃ clock2 ret2,
            ParseItem Q fuel
                { cur := cur, rest := item.tokens ++ Token.EndElement endName :: rest }
                clock ret
              = some ({ cur := Token.EndElement endName, rest := rest }, clock2, ret2)
            ∧ ((Q.urlIsEmpty (resolvedUrl Q item { encoded := "" }) = true ∧ ret2 = ret)
              ∨ (Q.urlIsEmpty (resolvedUrl Q item { encoded := "" }) = false
                ∧ ∃ e, ret2 = { ret with episodes := ret.episodes ++ [e] }
                  ∧ dateRule Q item clock e)))
      ∧ (∀ (url : QUrl) (prolog : List Token) (rootNs : String)
          (rootAttrs : List (String × String)) (beforeChannel : List Token)
          (channelNs : String) (channelAttrs : List (String × String)) (channel : Forest)
          (epilog : List Token),
          plainTokens prolog → tokensBefore "channel" beforeChannel →
          channelOk channel = true →
          ∃ p, Load Q (rssDocument prolog rootNs rootAttrs beforeChannel channelNs
                  channelAttrs channel epilog) url = some (.podcast p)
            ∧ List.Forall₂ (fun e item => ∃ clock, dateRule Q item clock e)
                p.episodes (keptItems Q channel)) := by
  refine ⟨fun tokens url p h => LoadLoop_dated Q url _ _ p h, ?_, ?_⟩
  · intro item fuel cur endName rest clock ret hc hf hok
    obtain ⟨clock2, h⟩ := ParseItem_forest Q item fuel cur endName rest clock ret hc hf hok
    refine ⟨clock2, _, h, ?_⟩
    by_cases hu : Q.urlIsEmpty (resolvedUrl Q item { encoded := "" }) = true
    · exact Or.inl ⟨hu, by rw [if_pos hu]⟩
    · refine Or.inr ⟨by simpa using hu, itemEpisode Q item clock, by rw [if_neg hu],
        itemEpisode_dateRule Q item clock⟩
  · intro url prolog rootNs rootAttrs beforeChannel channelNs channelAttrs channel epilog
      hpro hbefore hok
    refine ⟨_, Load_rssDocument Q url prolog rootNs rootAttrs beforeChannel channelNs
      channelAttrs channel epilog hpro hbefore hok, ?_⟩
    simp only [channelOf_episodes, List.nil_append]
    refine (channelEpisodes_items Q channel 0).imp ?_
    rintro e item ⟨k, rfl⟩
    exact ⟨k, itemEpisode_dateRule Q item k⟩

/-- Witness for C12: the sample channel, whose second item has an audio
enclosure and a date that parses, read with an environment that parses it. -/
theorem publication_date_valid_witness :
    (∀ e ∈ ({ title := "Show", url := { encoded := "u" },
              episodes := [{ publication_date := some 1704067200,
                             url := { encoded := "http://x/a.mp3" } }] } : Podcast).episodes,
        e.publication_date.isSome = true)
      ∧ (∃ clock2 ret2,
          ParseItem sampleDateEnv 9
              { cur := Token.StartElement "item" "" [],
                rest := (sampleItemHead.append sampleItemTail).tokens
                  ++ Token.EndElement "item" :: [] }
              0 {}
            = some ({ cur := Token.EndElement "item", rest := [] }, clock2, ret2)
          ∧ ((sampleDateEnv.urlIsEmpty
                (resolvedUrl sampleDateEnv (sampleItemHead.append sampleItemTail)
                  { encoded := "" }) = true ∧ ret2 = {})
            ∨ (sampleDateEnv.urlIsEmpty
                (resolvedUrl sampleDateEnv (sampleItemHead.append sampleItemTail)
                  { encoded := "" }) = false
              ∧ ∃ e, ret2 = { ({} : Podcast) with episodes := ({} : Podcast).episodes ++ [e] }
                ∧ dateRule sampleDateEnv (sampleItemHead.append sampleItemTail) 0 e)))
      ∧ (∃ p, Load sampleDateEnv (rssDocument [Token.StartDocument] "" [] [] "" []
                (sampleChannelHead.append sampleChannelTail) [Token.EndElement "rss"])
              { encoded := "u" } = some (.podcast p)
          ∧ List.Forall₂ (fun e item => ∃ clock, dateRule sampleDateEnv item clock e)
              p.episodes (keptItems sampleDateEnv (sampleChannelHead.append sampleChannelTail))) :=
  ⟨(publication_date_valid sampleDateEnv).1
      (rssDocument [Token.StartDocument] "" [] [] "" []
        (sampleChannelHead.append sampleChannelTail) [Token.EndElement "rss"])
      { encoded := "u" } _ rfl,
    (publication_date_valid sampleDateEnv).2.1 (sampleItemHead.append sampleItemTail) 9
      (Token.StartElement "item" "" []) "item" [] 0 {} rfl (by decide) rfl,
    (publication_date_valid sampleDateEnv).2.2 { encoded := "u" } [Token.StartDocument] "" []
      [] "" [] (sampleChannelHead.append sampleChannelTail) [Token.EndElement "rss"]
      (by intro t ht; simp at ht; subst ht; exact ⟨rfl, rfl⟩)
      (by intro t ht; simp at ht)
      rfl⟩

/-! ### Two token streams that differ in field values -/

theorem Token.three_cases (t : Token) :
    (∃ n ns a, t = .StartElement n ns a) ∨ (∃ n, t = .EndElement n)
      ∨ (t.isStartElement = false ∧ t.isEndElement = false) := by
  cases t <;> first
    | exact Or.inl ⟨_, _, _, rfl⟩
    | exact Or.inr (Or.inl ⟨_, rfl⟩)
    | exact Or.inr (Or.inr ⟨rfl, rfl⟩)

theorem tokenVaries_cases (inside : Bool) (t1 t2 : Token) (h : tokenVaries inside t1 t2) :
    (∃ n ns a a2, t1 = .StartElement n ns a ∧ t2 = .StartElement n ns a2
        ∧ (n ≠ "enclosure" → a2 = a))
      ∨ (∃ n, t1 = .EndElement n ∧ t2 = .EndElement n)
      ∨ (∃ a b, t1 = .Characters a ∧ t2 = .Characters b ∧ (inside = false → a = b))
      ∨ (t1 = t2 ∧ t1.isStartElement = false ∧ t1.isEndElement = false
          ∧ ∀ a, t1 ≠ .Characters a) := by
  rcases h with rfl | ⟨hi, a, b, rfl, rfl⟩ | ⟨ns, a1, a2, rfl, rfl, _⟩
  · cases t1 <;> first
      | exact Or.inl ⟨_, _, _, _, rfl, rfl, fun _ => rfl⟩
      | exact Or.inr (Or.inl ⟨_, rfl, rfl⟩)
      | exact Or.inr (Or.inr (Or.inl ⟨_, _, rfl, rfl, fun _ => rfl⟩))
      | exact Or.inr (Or.inr (Or.inr ⟨rfl, rfl, rfl, fun a h => by cases h⟩))
  · exact Or.inr (Or.inr (Or.inl ⟨a, b, rfl, rfl, fun h => by rw [hi] at h; cases h⟩))
  · exact Or.inl ⟨_, ns, a1, a2, rfl, rfl, fun h => absurd rfl h⟩

theorem tokenVaries_atEnd (inside : Bool) (t1 t2 : Token) (h : tokenVaries inside t1 t2) :
    t1.atEnd = t2.atEnd := by
  rcases tokenVaries_cases inside t1 t2 h with
    ⟨n, ns, a, a2, rfl, rfl, _⟩ | ⟨n, rfl, rfl⟩ | ⟨a, b, rfl, rfl, _⟩ | ⟨rfl, _⟩ <;> rfl

theorem tokenVaries_insideAfter (inside : Bool) (t1 t2 : Token)
    (h : tokenVaries inside t1 t2) : insideAfter inside t2 = insideAfter inside t1 := by
  rcases tokenVaries_cases inside t1 t2 h with
    ⟨n, ns, a, a2, rfl, rfl, _⟩ | ⟨n, rfl, rfl⟩ | ⟨a, b, rfl, rfl, _⟩ | ⟨rfl, _⟩ <;> rfl

theorem tokenVaries_refl (inside : Bool) (t : Token) : tokenVaries inside t t := Or.inl rfl

theorem differInFieldValues_refl (ts : List Token) :
    ∀ inside, differInFieldValues inside ts ts := by
  induction ts with
  | nil => intro inside; trivial
  | cons t ts ih => intro inside; exact ⟨tokenVaries_refl _ _, ih _⟩

theorem differInFieldValues_length (ts1 : List Token) :
    ∀ inside ts2, differInFieldValues inside ts1 ts2 → ts1.length = ts2.length := by
  induction ts1 with
  | nil =>
    intro inside ts2 h
    cases ts2 with
    | nil => rfl
    | cons t ts => exact h.elim
  | cons t1 ts1 ih =>
    intro inside ts2 h
    cases ts2 with
    | nil => exact h.elim
    | cons t2 ts2 =>
      simp only [List.length_cons]
      rw [ih _ _ h.2]

theorem Reader.differInFieldValues_error (inside : Bool) (ts1 ts2 : List Token)
    (h : PodcastParser.differInFieldValues inside ts1 ts2) :
    Reader.differInFieldValues { cur := .Invalid, rest := ts1 } { cur := .Invalid, rest := ts2 } :=
  ⟨inside, tokenVaries_refl _ _, h⟩


theorem readElementTextFrom_differ (ts1 : List Token) :
    ∀ (inside : Bool) (ts2 : List Token) (acc1 acc2 : String),
      differInFieldValues inside ts1 ts2 →
      Reader.differInFieldValues (readElementTextFrom acc1 ts1).2
        (readElementTextFrom acc2 ts2).2 := by
  induction ts1 with
  | nil =>
    intro inside ts2 acc1 acc2 h
    cases ts2 with
    | nil => exact ⟨false, tokenVaries_refl _ _, trivial⟩
    | cons t ts => exact h.elim
  | cons t1 ts1 ih =>
    intro inside ts2 acc1 acc2 h
    cases ts2 with
    | nil => exact h.elim
    | cons t2 ts2 =>
      obtain ⟨hv, hd⟩ := h
      rcases tokenVaries_cases inside t1 t2 hv with
        ⟨n, ns, a, a2, rfl, rfl, _⟩ | ⟨n, rfl, rfl⟩ | ⟨a, b, rfl, rfl, _⟩ | ⟨rfl, hs, he, hch⟩
      · exact Reader.differInFieldValues_error _ _ _ hd
      · exact ⟨inside, tokenVaries_refl _ _, hd⟩
      · simp only [readElementTextFrom]
        exact ih _ _ _ _ hd
      · cases t1 with
        | StartElement n ns a => exact Bool.noConfusion hs
        | EndElement n => exact Bool.noConfusion he
        | Characters a => exact absurd rfl (hch a)
        | EntityReference a => simp only [readElementTextFrom]; exact ih _ _ _ _ hd
        | ProcessingInstruction => simp only [readElementTextFrom]; exact ih _ _ _ _ hd
        | Comment => simp only [readElementTextFrom]; exact ih _ _ _ _ hd
        | NoToken => exact Reader.differInFieldValues_error _ _ _ hd
        | Invalid => exact Reader.differInFieldValues_error _ _ _ hd
        | StartDocument => exact Reader.differInFieldValues_error _ _ _ hd
        | EndDocument => exact Reader.differInFieldValues_error _ _ _ hd
        | DTD => exact Reader.differInFieldValues_error _ _ _ hd

theorem readElementTextFrom_differ_text (ts1 : List Token) :
    ∀ (ts2 : List Token) (acc : String),
      differInFieldValues false ts1 ts2 →
      (readElementTextFrom acc ts1).1 = (readElementTextFrom acc ts2).1 := by
  induction ts1 with
  | nil =>
    intro ts2 acc h
    cases ts2 with
    | nil => rfl
    | cons t ts => exact h.elim
  | cons t1 ts1 ih =>
    intro ts2 acc h
    cases ts2 with
    | nil => exact h.elim
    | cons t2 ts2 =>
      obtain ⟨hv, hd⟩ := h
      rcases tokenVaries_cases false t1 t2 hv with
        ⟨n, ns, a, a2, rfl, rfl, _⟩ | ⟨n, rfl, rfl⟩ | ⟨a, b, rfl, rfl, hab⟩ | ⟨rfl, hs, he, hch⟩
      · rfl
      · rfl
      · rw [hab rfl]
        simp only [readElementTextFrom]
        exact ih _ _ hd
      · cases t1 with
        | StartElement n ns a => exact Bool.noConfusion hs
        | EndElement n => exact Bool.noConfusion he
        | Characters a => exact absurd rfl (hch a)
        | EntityReference a => simp only [readElementTextFrom]; exact ih _ _ hd
        | ProcessingInstruction => simp only [readElementTextFrom]; exact ih _ _ hd
        | Comment => simp only [readElementTextFrom]; exact ih _ _ hd
        | NoToken => rfl
        | Invalid => rfl
        | StartDocument => rfl
        | EndDocument => rfl
        | DTD => rfl

theorem ConsumeCurrentElementFrom_differ (ts1 : List Token) :
    ∀ (inside : Bool) (ts2 : List Token) (level : Nat) (cur1 cur2 : Token),
      tokenVaries inside cur1 cur2 →
      differInFieldValues (insideAfter inside cur1) ts1 ts2 →
      Reader.differInFieldValues (ConsumeCurrentElementFrom level cur1 ts1)
        (ConsumeCurrentElementFrom level cur2 ts2) := by
  induction ts1 with
  | nil =>
    intro inside ts2 level cur1 cur2 hv hd
    cases ts2 with
    | cons t ts => exact hd.elim
    | nil =>
      have ha := tokenVaries_atEnd _ _ _ hv
      unfold ConsumeCurrentElementFrom
      rw [← ha]
      split_ifs
      · exact ⟨false, tokenVaries_refl _ _, trivial⟩
      · exact ⟨inside, hv, trivial⟩
  | cons t1 ts1 ih =>
    intro inside ts2 level cur1 cur2 hv hd
    cases ts2 with
    | nil => exact hd.elim
    | cons t2 ts2 =>
      have ha := tokenVaries_atEnd _ _ _ hv
      cases level with
      | zero =>
        rw [ConsumeCurrentElementFrom_zero, ConsumeCurrentElementFrom_zero]
        exact ⟨inside, hv, hd⟩
      | succ l =>
        cases hc : cur1.atEnd with
        | true =>
          rw [ConsumeCurrentElementFrom_atEnd _ _ _ hc,
            ConsumeCurrentElementFrom_atEnd _ _ _ (ha ▸ hc)]
          exact ⟨inside, hv, hd⟩
        | false =>
          have hc2 : cur2.atEnd = false := ha ▸ hc
          obtain ⟨hv2, hd2⟩ := hd
          rcases tokenVaries_cases _ t1 t2 hv2 with
            ⟨n, ns, a, a2, rfl, rfl, _⟩ | ⟨n, rfl, rfl⟩ | ⟨a, b, rfl, rfl, _⟩
              | ⟨rfl, hs, he, _⟩
          · rw [ConsumeCurrentElementFrom_start _ _ _ _ _ _ hc,
              ConsumeCurrentElementFrom_start _ _ _ _ _ _ hc2]
            exact ih _ _ _ _ _ hv2 hd2
          · rw [ConsumeCurrentElementFrom_end _ _ _ _ hc,
              ConsumeCurrentElementFrom_end _ _ _ _ hc2]
            exact ih _ _ _ _ _ hv2 hd2
          · rw [ConsumeCurrentElementFrom_other _ _ (Token.Characters a) _ hc rfl rfl,
              ConsumeCurrentElementFrom_other _ _ (Token.Characters b) _ hc2 rfl rfl]
            exact ih _ _ _ _ _ hv2 hd2
          · rw [ConsumeCurrentElementFrom_other _ _ _ _ hc hs he,
              ConsumeCurrentElementFrom_other _ _ _ _ hc2 hs he]
            exact ih _ _ _ _ _ hv2 hd2

theorem ParseUntilElementFrom_atEnd (name : String) (cur : Token) (ts : List Token)
    (h : cur.atEnd = true) :
    ParseUntilElementFrom name cur ts = (false, { cur := cur, rest := ts }) := by
  cases ts <;> simp [ParseUntilElementFrom, h]

theorem ParseUntilElementFrom_start (name : String) (cur : Token) (n ns : String)
    (attrs : List (String × String)) (ts : List Token) (h : cur.atEnd = false) :
    ParseUntilElementFrom name cur (Token.StartElement n ns attrs :: ts)
      = if n = name then (true, { cur := Token.StartElement n ns attrs, rest := ts })
        else ParseUntilElementFrom name (Token.StartElement n ns attrs) ts := by
  conv_lhs => unfold ParseUntilElementFrom
  simp [h]

theorem ParseUntilElementFrom_other (name : String) (cur t : Token) (ts : List Token)
    (h : cur.atEnd = false) (hs : t.isStartElement = false) :
    ParseUntilElementFrom name cur (t :: ts) = ParseUntilElementFrom name t ts := by
  conv_lhs => unfold ParseUntilElementFrom
  rw [if_neg (by simp [h])]
  cases t <;> first
    | rfl
    | (exact Bool.noConfusion hs)

theorem ParseUntilElementFrom_differ (name : String) (ts1 : List Token) :
    ∀ (inside : Bool) (ts2 : List Token) (cur1 cur2 : Token),
      tokenVaries inside cur1 cur2 →
      differInFieldValues (insideAfter inside cur1) ts1 ts2 →
      (ParseUntilElementFrom name cur1 ts1).1 = (ParseUntilElementFrom name cur2 ts2).1
        ∧ Reader.differInFieldValues (ParseUntilElementFrom name cur1 ts1).2
            (ParseUntilElementFrom name cur2 ts2).2 := by
  induction ts1 with
  | nil =>
    intro inside ts2 cur1 cur2 hv hd
    cases ts2 with
    | cons t ts => exact hd.elim
    | nil =>
      have ha := tokenVaries_atEnd _ _ _ hv
      unfold ParseUntilElementFrom
      rw [← ha]
      split_ifs
      · exact ⟨rfl, inside, hv, trivial⟩
      · exact ⟨rfl, false, tokenVaries_refl _ _, trivial⟩
  | cons t1 ts1 ih =>
    intro inside ts2 cur1 cur2 hv hd
    cases ts2 with
    | nil => exact hd.elim
    | cons t2 ts2 =>
      have ha := tokenVaries_atEnd _ _ _ hv
      cases hc : cur1.atEnd with
      | true =>
        rw [ParseUntilElementFrom_atEnd _ _ _ hc, ParseUntilElementFrom_atEnd _ _ _ (ha ▸ hc)]
        exact ⟨rfl, inside, hv, hd⟩
      | false =>
        have hc2 : cur2.atEnd = false := ha ▸ hc
        obtain ⟨hv2, hd2⟩ := hd
        rcases tokenVaries_cases _ t1 t2 hv2 with
          ⟨n, ns, a, a2, rfl, rfl, _⟩ | ⟨n, rfl, rfl⟩ | ⟨a, b, rfl, rfl, _⟩
            | ⟨rfl, hs, he, _⟩
        · rw [ParseUntilElementFrom_start _ _ _ _ _ _ hc,
            ParseUntilElementFrom_start _ _ _ _ _ _ hc2]
          split_ifs
          · exact ⟨rfl, _, hv2, hd2⟩
          · exact ih _ _ _ _ hv2 hd2
        · rw [ParseUntilElementFrom_other _ _ (Token.EndElement n) _ hc rfl,
            ParseUntilElementFrom_other _ _ (Token.EndElement n) _ hc2 rfl]
          exact ih _ _ _ _ hv2 hd2
        · rw [ParseUntilElementFrom_other _ _ (Token.Characters a) _ hc rfl,
            ParseUntilElementFrom_other _ _ (Token.Characters b) _ hc2 rfl]
          exact ih _ _ _ _ hv2 hd2
        · rw [ParseUntilElementFrom_other _ _ _ _ hc hs,
            ParseUntilElementFrom_other _ _ _ _ hc2 hs]
          exact ih _ _ _ _ hv2 hd2

theorem differInFieldValues_readerSim : ReaderSim Reader.differInFieldValues where
  atEnd := fun r1 r2 ⟨inside, hv, _⟩ => tokenVaries_atEnd inside _ _ hv
  readNext := by
    rintro ⟨cur1, rest1⟩ ⟨cur2, rest2⟩ ⟨inside, hv, hd⟩ hc
    have hc1 : cur1.atEnd = false := hc
    have hc2 : cur2.atEnd = false := (tokenVaries_atEnd _ _ _ hv) ▸ hc1
    cases rest1 with
    | nil =>
      cases rest2 with
      | cons t ts => exact hd.elim
      | nil =>
        rw [readNext_nil, readNext_nil]
        exact ⟨false, tokenVaries_refl _ _, trivial⟩
    | cons t1 ts1 =>
      cases rest2 with
      | nil => exact hd.elim
      | cons t2 ts2 =>
        rw [readNext_cons _ _ _ hc1, readNext_cons _ _ _ hc2]
        exact ⟨_, hd.1, hd.2⟩
  start := by
    rintro ⟨cur1, rest1⟩ ⟨cur2, rest2⟩ n ns a ⟨inside, hv, hd⟩ h
    simp only at h
    subst h
    rcases tokenVaries_cases _ _ _ hv with
      ⟨n2, ns2, a1, a2, h1, rfl, ha⟩ | ⟨n2, h1, _⟩ | ⟨x, y, h1, _⟩ | ⟨_, hs, _⟩
    · cases h1
      exact ⟨a2, rfl, ha⟩
    · cases h1
    · cases h1
    · exact Bool.noConfusion hs
  isStart := by
    rintro ⟨cur1, rest1⟩ ⟨cur2, rest2⟩ ⟨inside, hv, hd⟩
    rcases tokenVaries_cases _ _ _ hv with
      ⟨n, ns, a, a2, rfl, rfl, _⟩ | ⟨n, rfl, rfl⟩ | ⟨a, b, rfl, rfl, _⟩ | ⟨rfl, _⟩ <;> rfl
  isEnd := by
    rintro ⟨cur1, rest1⟩ ⟨cur2, rest2⟩ ⟨inside, hv, hd⟩
    rcases tokenVaries_cases _ _ _ hv with
      ⟨n, ns, a, a2, rfl, rfl, _⟩ | ⟨n, rfl, rfl⟩ | ⟨a, b, rfl, rfl, _⟩ | ⟨rfl, _⟩ <;> rfl
  readText := by
    rintro ⟨cur1, rest1⟩ ⟨cur2, rest2⟩ ⟨inside, hv, hd⟩
    rcases tokenVaries_cases _ _ _ hv with
      ⟨n, ns, a, a2, rfl, rfl, _⟩ | ⟨n, rfl, rfl⟩ | ⟨a, b, rfl, rfl, _⟩ | ⟨rfl, hs, he, hch⟩
    · exact readElementTextFrom_differ _ _ _ _ _ hd
    · exact ⟨inside, hv, hd⟩
    · exact ⟨inside, hv, hd⟩
    · cases cur1 <;> first
        | exact ⟨inside, hv, hd⟩
        | exact Bool.noConfusion hs
  sameText := by
    rintro ⟨cur1, rest1⟩ ⟨cur2, rest2⟩ n ns a ⟨inside, hv, hd⟩ h hn1 hn2
    simp only at h
    subst h
    rcases tokenVaries_cases _ _ _ hv with
      ⟨n2, ns2, a1, a2, h1, rfl, ha⟩ | ⟨n2, h1, _⟩ | ⟨x, y, h1, _⟩ | ⟨_, hs, _⟩
    · cases h1
      have hf : insideAfter inside (Token.StartElement n ns a) = false := by
        simp [insideAfter, Token.opensFieldText, hn1, hn2]
      rw [hf] at hd
      exact readElementTextFrom_differ_text _ _ _ hd
    · cases h1
    · cases h1
    · exact Bool.noConfusion hs
  consume := fun r1 r2 ⟨inside, hv, hd⟩ =>
    ConsumeCurrentElementFrom_differ _ _ _ _ _ _ hv hd
  parseUntil := fun r1 r2 name ⟨inside, hv, hd⟩ =>
    ParseUntilElementFrom_differ name _ _ _ _ _ hv hd

theorem eq_readerSim : ReaderSim (fun r1 r2 : Reader => r1 = r2) where
  atEnd := fun r1 r2 h => by rw [h]
  readNext := fun r1 r2 h _ => by rw [h]
  start := fun r1 r2 n ns a h hc => ⟨a, by rw [← h]; exact hc, fun _ => rfl⟩
  isStart := fun r1 r2 h => by rw [h]
  isEnd := fun r1 r2 h => by rw [h]
  readText := fun r1 r2 h => by rw [h]
  sameText := fun r1 r2 n ns a h _ _ _ => by rw [h]
  consume := fun r1 r2 h => by rw [h]
  parseUntil := fun r1 r2 name h => by rw [h]; exact ⟨rfl, rfl⟩

/-! ### The parsers on two related readers -/

theorem Token.isEndElement_iff (t : Token) : t.isEndElement = true ↔ ∃ n, t = .EndElement n := by
  cases t <;> simp [Token.isEndElement]

theorem bothReturn_some {α β : Type} (R : α → β → Prop) (a : α) (b : β) (h : R a b) :
    bothReturn R (some a) (some b) := h

theorem bothReturn_none {α β : Type} (R : α → β → Prop) :
    bothReturn R (none : Option α) (none : Option β) := trivial

theorem podcastSim_title (RE : List PodcastEpisode → List PodcastEpisode → Prop)
    (p1 p2 : Podcast) (h : podcastSim RE p1 p2) (x : String) :
    podcastSim RE { p1 with title := x } { p2 with title := x } := by
  obtain ⟨⟨h1, h2, h3, h4, h5, h6, h7, h8⟩, he⟩ := h
  exact ⟨⟨rfl, h2, h3, h4, h5, h6, h7, h8⟩, he⟩

theorem podcastSim_link (RE : List PodcastEpisode → List PodcastEpisode → Prop)
    (p1 p2 : Podcast) (h : podcastSim RE p1 p2) (x : QUrl) :
    podcastSim RE { p1 with link := x } { p2 with link := x } := by
  obtain ⟨⟨h1, h2, h3, h4, h5, h6, h7, h8⟩, he⟩ := h
  exact ⟨⟨h1, rfl, h3, h4, h5, h6, h7, h8⟩, he⟩

theorem podcastSim_description (RE : List PodcastEpisode → List PodcastEpisode → Prop)
    (p1 p2 : Podcast) (h : podcastSim RE p1 p2) (x : String) :
    podcastSim RE { p1 with description := x } { p2 with description := x } := by
  obtain ⟨⟨h1, h2, h3, h4, h5, h6, h7, h8⟩, he⟩ := h
  exact ⟨⟨h1, h2, rfl, h4, h5, h6, h7, h8⟩, he⟩

theorem podcastSim_copyright (RE : List PodcastEpisode → List PodcastEpisode → Prop)
    (p1 p2 : Podcast) (h : podcastSim RE p1 p2) (x : String) :
    podcastSim RE { p1 with copyright := x } { p2 with copyright := x } := by
  obtain ⟨⟨h1, h2, h3, h4, h5, h6, h7, h8⟩, he⟩ := h
  exact ⟨⟨h1, h2, h3, rfl, h5, h6, h7, h8⟩, he⟩

theorem podcastSim_url (RE : List PodcastEpisode → List PodcastEpisode → Prop)
    (p1 p2 : Podcast) (h : podcastSim RE p1 p2) (x : QUrl) :
    podcastSim RE { p1 with url := x } { p2 with url := x } := by
  obtain ⟨⟨h1, h2, h3, h4, h5, h6, h7, h8⟩, he⟩ := h
  exact ⟨⟨h1, h2, h3, h4, rfl, h6, h7, h8⟩, he⟩

theorem podcastSim_image (RE : List PodcastEpisode → List PodcastEpisode → Prop)
    (p1 p2 : Podcast) (h : podcastSim RE p1 p2) (x : QUrl) :
    podcastSim RE { p1 with image_url_large := x } { p2 with image_url_large := x } := by
  obtain ⟨⟨h1, h2, h3, h4, h5, h6, h7, h8⟩, he⟩ := h
  exact ⟨⟨h1, h2, h3, h4, h5, rfl, h7, h8⟩, he⟩

theorem podcastSim_owner_name (RE : List PodcastEpisode → List PodcastEpisode → Prop)
    (p1 p2 : Podcast) (h : podcastSim RE p1 p2) (x : String) :
    podcastSim RE { p1 with owner_name := x } { p2 with owner_name := x } := by
  obtain ⟨⟨h1, h2, h3, h4, h5, h6, h7, h8⟩, he⟩ := h
  exact ⟨⟨h1, h2, h3, h4, h5, h6, rfl, h8⟩, he⟩

theorem podcastSim_owner_email (RE : List PodcastEpisode → List PodcastEpisode → Prop)
    (p1 p2 : Podcast) (h : podcastSim RE p1 p2) (x : String) :
    podcastSim RE { p1 with owner_email := x } { p2 with owner_email := x } := by
  obtain ⟨⟨h1, h2, h3, h4, h5, h6, h7, h8⟩, he⟩ := h
  exact ⟨⟨h1, h2, h3, h4, h5, h6, h7, rfl⟩, he⟩

theorem ParseImage_next_atEnd (Q : Env) (fuel : Nat) (r : Reader) (ret : Podcast)
    (h : r.atEnd = true) : ParseImage Q (fuel + 1) r ret = some (r, ret) := by
  rw [ParseImage, if_pos h]

theorem ParseImage_next_start (Q : Env) (fuel : Nat) (r : Reader) (ret : Podcast)
    (n ns : String) (a : List (String × String))
    (h : r.atEnd = false) (hc : r.readNext.cur = .StartElement n ns a) :
    ParseImage Q (fuel + 1) r ret
      = if n = "url" then
          ParseImage Q fuel r.readNext.readElementText.2
            { ret with image_url_large := Q.fromEncoded r.readNext.readElementText.1 }
        else ParseImage Q fuel (ConsumeCurrentElement r.readNext) ret := by
  rw [ParseImage, if_neg (by simp [h])]
  simp only [hc]

theorem ParseImage_next_end (Q : Env) (fuel : Nat) (r : Reader) (ret : Podcast)
    (h : r.atEnd = false) (he : r.readNext.cur.isEndElement = true) :
    ParseImage Q (fuel + 1) r ret = some (r.readNext, ret) := by
  obtain ⟨n, hn⟩ := (Token.isEndElement_iff _).1 he
  rw [ParseImage, if_neg (by simp [h])]
  simp only [hn]

theorem ParseImage_next_other (Q : Env) (fuel : Nat) (r : Reader) (ret : Podcast)
    (h : r.atEnd = false) (hs : r.readNext.cur.isStartElement = false)
    (he : r.readNext.cur.isEndElement = false) :
    ParseImage Q (fuel + 1) r ret = ParseImage Q fuel r.readNext ret := by
  rw [ParseImage, if_neg (by simp [h])]
  simp only
  generalize r.readNext = r2 at hs he ⊢
  obtain ⟨cur, rest⟩ := r2
  cases cur <;> first
    | rfl
    | (exact Bool.noConfusion hs)
    | (exact Bool.noConfusion he)

theorem ParseImage_sim (Q : Env) (now : Nat → Int) (RS : Reader → Reader → Prop)
    (hRS : ReaderSim RS) (RE : List PodcastEpisode → List PodcastEpisode → Prop) :
    ∀ (fuel : Nat) (r1 r2 : Reader) (p1 p2 : Podcast), RS r1 r2 → podcastSim RE p1 p2 →
      bothReturn (fun x y => RS x.1 y.1 ∧ podcastSim RE x.2 y.2)
        (ParseImage Q fuel r1 p1) (ParseImage (Q.withClock now) fuel r2 p2) := by
  intro fuel
  induction fuel with
  | zero => intro r1 r2 p1 p2 _ _; exact bothReturn_none _
  | succ f ih =>
    intro r1 r2 p1 p2 hr hp
    have ha := hRS.atEnd _ _ hr
    cases h1 : r1.atEnd with
    | true =>
      rw [ParseImage_next_atEnd _ _ _ _ h1, ParseImage_next_atEnd _ _ _ _ (ha ▸ h1)]
      exact ⟨hr, hp⟩
    | false =>
      have h2 : r2.atEnd = false := ha ▸ h1
      have hn := hRS.readNext _ _ hr h1
      rcases Token.three_cases r1.readNext.cur with ⟨n, ns, a, hc⟩ | ⟨n, hc⟩ | ⟨hs, he⟩
      · obtain ⟨a2, hc2, _⟩ := hRS.start _ _ n ns a hn hc
        rw [ParseImage_next_start _ _ _ _ n ns a h1 hc,
          ParseImage_next_start _ _ _ _ n ns a2 h2 hc2]
        by_cases hu : n = "url"
        · rw [if_pos hu, if_pos hu,
            ← hRS.sameText _ _ n ns a hn hc (by rw [hu]; decide) (by rw [hu]; decide)]
          exact ih _ _ _ _ (hRS.readText _ _ hn) (podcastSim_image RE _ _ hp _)
        · rw [if_neg hu, if_neg hu]
          exact ih _ _ _ _ (hRS.consume _ _ hn) hp
      · have he1 : r1.readNext.cur.isEndElement = true := by rw [hc]; rfl
        have he2 : r2.readNext.cur.isEndElement = true := by rw [← hRS.isEnd _ _ hn]; exact he1
        rw [ParseImage_next_end _ _ _ _ h1 he1, ParseImage_next_end _ _ _ _ h2 he2]
        exact ⟨hn, hp⟩
      · have hs2 : r2.readNext.cur.isStartElement = false := by
          rw [← hRS.isStart _ _ hn]; exact hs
        have he2 : r2.readNext.cur.isEndElement = false := by
          rw [← hRS.isEnd _ _ hn]; exact he
        rw [ParseImage_next_other _ _ _ _ h1 hs he, ParseImage_next_other _ _ _ _ h2 hs2 he2]
        exact ih _ _ _ _ hn hp


theorem ParseItunesOwner_next_atEnd (Q : Env) (fuel : Nat) (r : Reader) (ret : Podcast)
    (h : r.atEnd = true) : ParseItunesOwner Q (fuel + 1) r ret = some (r, ret) := by
  rw [ParseItunesOwner, if_pos h]

theorem ParseItunesOwner_next_start (Q : Env) (fuel : Nat) (r : Reader) (ret : Podcast)
    (n ns : String) (a : List (String × String))
    (h : r.atEnd = false) (hc : r.readNext.cur = .StartElement n ns a) :
    ParseItunesOwner Q (fuel + 1) r ret
      = if n = "name" then
          ParseItunesOwner Q fuel r.readNext.readElementText.2
            { ret with owner_name := r.readNext.readElementText.1 }
        else if n = "email" then
          ParseItunesOwner Q fuel r.readNext.readElementText.2
            { ret with owner_email := r.readNext.readElementText.1 }
        else ParseItunesOwner Q fuel (ConsumeCurrentElement r.readNext) ret := by
  rw [ParseItunesOwner, if_neg (by simp [h])]
  simp only [hc]

theorem ParseItunesOwner_next_end (Q : Env) (fuel : Nat) (r : Reader) (ret : Podcast)
    (h : r.atEnd = false) (he : r.readNext.cur.isEndElement = true) :
    ParseItunesOwner Q (fuel + 1) r ret = some (r.readNext, ret) := by
  obtain ⟨n, hn⟩ := (Token.isEndElement_iff _).1 he
  rw [ParseItunesOwner, if_neg (by simp [h])]
  simp only [hn]

theorem ParseItunesOwner_next_other (Q : Env) (fuel : Nat) (r : Reader) (ret : Podcast)
    (h : r.atEnd = false) (hs : r.readNext.cur.isStartElement = false)
    (he : r.readNext.cur.isEndElement = false) :
    ParseItunesOwner Q (fuel + 1) r ret = ParseItunesOwner Q fuel r.readNext ret := by
  rw [ParseItunesOwner, if_neg (by simp [h])]
  simp only
  generalize r.readNext = r2 at hs he ⊢
  obtain ⟨cur, rest⟩ := r2
  cases cur <;> first
    | rfl
    | (exact Bool.noConfusion hs)
    | (exact Bool.noConfusion he)

theorem ParseItunesOwner_sim (Q : Env) (now : Nat → Int) (RS : Reader → Reader → Prop)
    (hRS : ReaderSim RS) (RE : List PodcastEpisode → List PodcastEpisode → Prop) :
    ∀ (fuel : Nat) (r1 r2 : Reader) (p1 p2 : Podcast), RS r1 r2 → podcastSim RE p1 p2 →
      bothReturn (fun x y => RS x.1 y.1 ∧ podcastSim RE x.2 y.2)
        (ParseItunesOwner Q fuel r1 p1) (ParseItunesOwner (Q.withClock now) fuel r2 p2) := by
  intro fuel
  induction fuel with
  | zero => intro r1 r2 p1 p2 _ _; exact bothReturn_none _
  | succ f ih =>
    intro r1 r2 p1 p2 hr hp
    have ha := hRS.atEnd _ _ hr
    cases h1 : r1.atEnd with
    | true =>
      rw [ParseItunesOwner_next_atEnd _ _ _ _ h1,
        ParseItunesOwner_next_atEnd _ _ _ _ (ha ▸ h1)]
      exact ⟨hr, hp⟩
    | false =>
      have h2 : r2.atEnd = false := ha ▸ h1
      have hn := hRS.readNext _ _ hr h1
      rcases Token.three_cases r1.readNext.cur with ⟨n, ns, a, hc⟩ | ⟨n, hc⟩ | ⟨hs, he⟩
      · obtain ⟨a2, hc2, _⟩ := hRS.start _ _ n ns a hn hc
        rw [ParseItunesOwner_next_start _ _ _ _ n ns a h1 hc,
          ParseItunesOwner_next_start _ _ _ _ n ns a2 h2 hc2]
        by_cases hu : n = "name"
        · rw [if_pos hu, if_pos hu,
            ← hRS.sameText _ _ n ns a hn hc (by rw [hu]; decide) (by rw [hu]; decide)]
          exact ih _ _ _ _ (hRS.readText _ _ hn) (podcastSim_owner_name RE _ _ hp _)
        · rw [if_neg hu, if_neg hu]
          by_cases hm : n = "email"
          · rw [if_pos hm, if_pos hm,
              ← hRS.sameText _ _ n ns a hn hc (by rw [hm]; decide) (by rw [hm]; decide)]
            exact ih _ _ _ _ (hRS.readText _ _ hn) (podcastSim_owner_email RE _ _ hp _)
          · rw [if_neg hm, if_neg hm]
            exact ih _ _ _ _ (hRS.consume _ _ hn) hp
      · have he1 : r1.readNext.cur.isEndElement = true := by rw [hc]; rfl
        have he2 : r2.readNext.cur.isEndElement = true := by rw [← hRS.isEnd _ _ hn]; exact he1
        rw [ParseItunesOwner_next_end _ _ _ _ h1 he1, ParseItunesOwner_next_end _ _ _ _ h2 he2]
        exact ⟨hn, hp⟩
      · have hs2 : r2.readNext.cur.isStartElement = false := by
          rw [← hRS.isStart _ _ hn]; exact hs
        have he2 : r2.readNext.cur.isEndElement = false := by
          rw [← hRS.isEnd _ _ hn]; exact he
        rw [ParseItunesOwner_next_other _ _ _ _ h1 hs he,
          ParseItunesOwner_next_other _ _ _ _ h2 hs2 he2]
        exact ih _ _ _ _ hn hp

theorem ParseItemLoop_next_atEnd (Q : Env) (fuel : Nat) (r : Reader) (clock : Nat)
    (episode : PodcastEpisode) (ret : Podcast) (h : r.atEnd = true) :
    ParseItemLoop Q (fuel + 1) r clock episode ret = some (r, clock, ret) := by
  rw [ParseItemLoop, if_pos h]

theorem ParseItemLoop_next_start (Q : Env) (fuel : Nat) (r : Reader) (clock : Nat)
    (episode : PodcastEpisode) (ret : Podcast) (n ns : String) (a : List (String × String))
    (h : r.atEnd = false) (hc : r.readNext.cur = .StartElement n ns a) :
    ParseItemLoop Q (fuel + 1) r clock episode ret
      = ParseItemLoop Q fuel (ParseItemStartElement Q r.readNext episode n ns a).1 clock
          (ParseItemStartElement Q r.readNext episode n ns a).2 ret := by
  rw [ParseItemLoop, if_neg (by simp [h])]
  simp only [hc]

theorem ParseItemLoop_next_end (Q : Env) (fuel : Nat) (r : Reader) (clock : Nat)
    (episode : PodcastEpisode) (ret : Podcast)
    (h : r.atEnd = false) (he : r.readNext.cur.isEndElement = true) :
    ParseItemLoop Q (fuel + 1) r clock episode ret
      = some (r.readNext, (ParseItemEndElement Q clock episode ret).1,
          (ParseItemEndElement Q clock episode ret).2) := by
  obtain ⟨n, hn⟩ := (Token.isEndElement_iff _).1 he
  rw [ParseItemLoop, if_neg (by simp [h])]
  simp only [hn]

theorem ParseItemLoop_next_other (Q : Env) (fuel : Nat) (r : Reader) (clock : Nat)
    (episode : PodcastEpisode) (ret : Podcast)
    (h : r.atEnd = false) (hs : r.readNext.cur.isStartElement = false)
    (he : r.readNext.cur.isEndElement = false) :
    ParseItemLoop Q (fuel + 1) r clock episode ret
      = ParseItemLoop Q fuel r.readNext clock episode ret := by
  rw [ParseItemLoop, if_neg (by simp [h])]
  simp only
  generalize r.readNext = r2 at hs he ⊢
  obtain ⟨cur, rest⟩ := r2
  cases cur <;> first
    | rfl
    | (exact Bool.noConfusion hs)
    | (exact Bool.noConfusion he)

theorem ParseChannel_next_atEnd (Q : Env) (fuel : Nat) (r : Reader) (clock : Nat)
    (ret : Podcast) (h : r.atEnd = true) :
    ParseChannel Q (fuel + 1) r clock ret = some (r, clock, ret) := by
  rw [ParseChannel, if_pos h]

theorem ParseChannel_next_start (Q : Env) (fuel : Nat) (r : Reader) (clock : Nat)
    (ret : Podcast) (n ns : String) (a : List (String × String))
    (h : r.atEnd = false) (hc : r.readNext.cur = .StartElement n ns a) :
    ParseChannel Q (fuel + 1) r clock ret
      = match ParseChannelStartElement Q fuel r.readNext clock ret n ns a with
        | none => none
        | some (reader, clock, ret) => ParseChannel Q fuel reader clock ret := by
  rw [ParseChannel, if_neg (by simp [h])]
  simp only [hc]

theorem ParseChannel_next_end (Q : Env) (fuel : Nat) (r : Reader) (clock : Nat)
    (ret : Podcast) (h : r.atEnd = false) (he : r.readNext.cur.isEndElement = true) :
    ParseChannel Q (fuel + 1) r clock ret = some (r.readNext, clock, ret) := by
  obtain ⟨n, hn⟩ := (Token.isEndElement_iff _).1 he
  rw [ParseChannel, if_neg (by simp [h])]
  simp only [hn]

theorem ParseChannel_next_other (Q : Env) (fuel : Nat) (r : Reader) (clock : Nat)
    (ret : Podcast) (h : r.atEnd = false) (hs : r.readNext.cur.isStartElement = false)
    (he : r.readNext.cur.isEndElement = false) :
    ParseChannel Q (fuel + 1) r clock ret = ParseChannel Q fuel r.readNext clock ret := by
  rw [ParseChannel, if_neg (by simp [h])]
  simp only
  generalize r.readNext = r2 at hs he ⊢
  obtain ⟨cur, rest⟩ := r2
  cases cur <;> first
    | rfl
    | (exact Bool.noConfusion hs)
    | (exact Bool.noConfusion he)

theorem ParseOutline_next_atEnd (Q : Env) (fuel : Nat) (r : Reader) (ret : OpmlContainer)
    (h : r.atEnd = true) : ParseOutline Q (fuel + 1) r ret = some (r, ret) := by
  rw [ParseOutline, if_pos h]

theorem ParseOutline_next_start (Q : Env) (fuel : Nat) (r : Reader) (ret : OpmlContainer)
    (n ns : String) (a : List (String × String))
    (h : r.atEnd = false) (hc : r.readNext.cur = .StartElement n ns a) :
    ParseOutline Q (fuel + 1) r ret
      = if n ≠ "outline" then ParseOutline Q fuel (ConsumeCurrentElement r.readNext) ret
        else if attributeValue a "type" = "rss" then
          ParseOutline Q fuel (ConsumeCurrentElement r.readNext)
            (ret.appendFeed (outlineFeed Q a))
        else
          match ParseOutline Q fuel r.readNext (outlineChild a) with
          | none => none
          | some (reader, child) => ParseOutline Q fuel reader (ret.appendContainer child) := by
  rw [ParseOutline, if_neg (by simp [h])]
  simp only [hc]

theorem ParseOutline_next_end (Q : Env) (fuel : Nat) (r : Reader) (ret : OpmlContainer)
    (h : r.atEnd = false) (he : r.readNext.cur.isEndElement = true) :
    ParseOutline Q (fuel + 1) r ret = some (r.readNext, ret) := by
  obtain ⟨n, hn⟩ := (Token.isEndElement_iff _).1 he
  rw [ParseOutline, if_neg (by simp [h])]
  simp only [hn]

theorem ParseOutline_next_other (Q : Env) (fuel : Nat) (r : Reader) (ret : OpmlContainer)
    (h : r.atEnd = false) (hs : r.readNext.cur.isStartElement = false)
    (he : r.readNext.cur.isEndElement = false) :
    ParseOutline Q (fuel + 1) r ret = ParseOutline Q fuel r.readNext ret := by
  rw [ParseOutline, if_neg (by simp [h])]
  simp only
  generalize r.readNext = r2 at hs he ⊢
  obtain ⟨cur, rest⟩ := r2
  cases cur <;> first
    | rfl
    | (exact Bool.noConfusion hs)
    | (exact Bool.noConfusion he)

theorem LoadLoop_next_atEnd (Q : Env) (url : QUrl) (fuel : Nat) (r : Reader)
    (h : r.atEnd = true) : LoadLoop Q url (fuel + 1) r = some .invalid := by
  rw [LoadLoop, if_pos h]

theorem LoadLoop_next_start (Q : Env) (url : QUrl) (fuel : Nat) (r : Reader)
    (n ns : String) (a : List (String × String))
    (h : r.atEnd = false) (hc : r.readNext.cur = .StartElement n ns a) :
    LoadLoop Q url (fuel + 1) r
      = if n = "rss" then
          match ParseRss Q fuel r.readNext 0 {} with
          | none => none
          | some (false, _) => some .invalid
          | some (true, _, _, podcast) => some (.podcast { podcast with url := url })
        else if n = "opml" then
          match ParseOpml Q fuel r.readNext OpmlContainer.empty with
          | none => none
          | some (false, _) => some .invalid
          | some (true, _, container) => some (.opml (container.setUrl url))
        else some .invalid := by
  rw [LoadLoop, if_neg (by simp [h])]
  simp only [hc]

theorem LoadLoop_next_other (Q : Env) (url : QUrl) (fuel : Nat) (r : Reader)
    (h : r.atEnd = false) (hs : r.readNext.cur.isStartElement = false) :
    LoadLoop Q url (fuel + 1) r = LoadLoop Q url fuel r.readNext := by
  rw [LoadLoop, if_neg (by simp [h])]
  simp only
  generalize r.readNext = r2 at hs ⊢
  obtain ⟨cur, rest⟩ := r2
  cases cur <;> first
    | rfl
    | (exact Bool.noConfusion hs)


theorem withClock_urlIsEmpty (Q : Env) (now : Nat → Int) :
    (Q.withClock now).urlIsEmpty = Q.urlIsEmpty := rfl

theorem withClock_fromEncoded (Q : Env) (now : Nat → Int) :
    (Q.withClock now).fromEncoded = Q.fromEncoded := rfl

theorem bothReturn_map {α β γ δ : Type} (R : α → β → Prop) (S : γ → δ → Prop)
    (f : α → γ) (g : β → δ) (x : Option α) (y : Option β)
    (h : bothReturn R x y) (hfg : ∀ a b, R a b → S (f a) (g b)) :
    bothReturn S (x.map f) (y.map g) := by
  cases x <;> cases y <;> first
    | exact h
    | exact hfg _ _ h

theorem ParseChannelStartElement_sim (Q : Env) (now : Nat → Int)
    (RS : Reader → Reader → Prop) (hRS : ReaderSim RS)
    (RE : List PodcastEpisode → List PodcastEpisode → Prop) (RC : Nat → Nat → Prop)
    (hitem : ∀ (fuel : Nat) (r1 r2 : Reader) (c1 c2 : Nat) (p1 p2 : Podcast),
      RS r1 r2 → RC c1 c2 → podcastSim RE p1 p2 →
      bothReturn (fun x y => RS x.1 y.1 ∧ RC x.2.1 y.2.1 ∧ podcastSim RE x.2.2 y.2.2)
        (ParseItem Q fuel r1 c1 p1) (ParseItem (Q.withClock now) fuel r2 c2 p2))
    (fuel : Nat) (r1 r2 : Reader) (c1 c2 : Nat) (p1 p2 : Podcast) (n ns : String)
    (a a2 : List (String × String))
    (hr : RS r1 r2) (hc1 : r1.cur = .StartElement n ns a) (ha : n ≠ "enclosure" → a2 = a)
    (hc : RC c1 c2) (hp : podcastSim RE p1 p2) :
    bothReturn (fun x y => RS x.1 y.1 ∧ RC x.2.1 y.2.1 ∧ podcastSim RE x.2.2 y.2.2)
      (ParseChannelStartElement Q fuel r1 c1 p1 n ns a)
      (ParseChannelStartElement (Q.withClock now) fuel r2 c2 p2 n ns a2) := by
  have htext : ∀ x : String, n = x → x ≠ "pubDate" → x ≠ "duration" →
      r2.readElementText.1 = r1.readElementText.1 := by
    intro x hx h1 h2
    exact (hRS.sameText _ _ n ns a hr hc1 (hx ▸ h1) (hx ▸ h2)).symm
  have hurl : Q.urlIsEmpty p2.url = Q.urlIsEmpty p1.url := by rw [hp.1.2.2.2.2.1]
  by_cases hn : n = "enclosure"
  · subst hn
    have e1 : ∀ (Q2 : Env) (r : Reader) (c : Nat) (p : Podcast) (b : List (String × String)),
        ParseChannelStartElement Q2 fuel r c p "enclosure" ns b
          = some (ConsumeCurrentElement r, c, p) := by
      intro Q2 r c p b
      simp [ParseChannelStartElement]
    rw [e1, e1]
    exact ⟨hRS.consume _ _ hr, hc, hp⟩
  · rw [ha hn]
    unfold ParseChannelStartElement
    simp only [withClock_urlIsEmpty, withClock_fromEncoded, hurl]
    split_ifs with h1 h2 h3 h4 h5 h6 h7 h8
    · rw [htext "title" h1 (by decide) (by decide)]
      exact ⟨hRS.readText _ _ hr, hc, podcastSim_title RE _ _ hp _⟩
    · rw [htext "link" h2.1 (by decide) (by decide)]
      exact ⟨hRS.readText _ _ hr, hc, podcastSim_link RE _ _ hp _⟩
    · rw [htext "description" h3 (by decide) (by decide)]
      exact ⟨hRS.readText _ _ hr, hc, podcastSim_description RE _ _ hp _⟩
    · have := ParseItunesOwner_sim Q now RS hRS RE fuel r1 r2 p1 p2 hr hp
      revert this
      cases ParseItunesOwner Q fuel r1 p1 <;>
        cases ParseItunesOwner (Q.withClock now) fuel r2 p2 <;> intro this <;>
        first
        | exact this
        | exact ⟨this.1, hc, this.2⟩
    · have := ParseImage_sim Q now RS hRS RE fuel r1 r2 p1 p2 hr hp
      revert this
      cases ParseImage Q fuel r1 p1 <;>
        cases ParseImage (Q.withClock now) fuel r2 p2 <;> intro this <;>
        first
        | exact this
        | exact ⟨this.1, hc, this.2⟩
    · rw [htext "copyright" h6 (by decide) (by decide)]
      exact ⟨hRS.readText _ _ hr, hc, podcastSim_copyright RE _ _ hp _⟩
    · rw [htext "link" h7.1 (by decide) (by decide)]
      exact ⟨hRS.readText _ _ hr, hc, podcastSim_url RE _ _ hp _⟩
    · exact hitem fuel r1 r2 c1 c2 p1 p2 hr hc hp
    · exact ⟨hRS.consume _ _ hr, hc, hp⟩

theorem ParseChannel_sim (Q : Env) (now : Nat → Int)
    (RS : Reader → Reader → Prop) (hRS : ReaderSim RS)
    (RE : List PodcastEpisode → List PodcastEpisode → Prop) (RC : Nat → Nat → Prop)
    (hitem : ∀ (fuel : Nat) (r1 r2 : Reader) (c1 c2 : Nat) (p1 p2 : Podcast),
      RS r1 r2 → RC c1 c2 → podcastSim RE p1 p2 →
      bothReturn (fun x y => RS x.1 y.1 ∧ RC x.2.1 y.2.1 ∧ podcastSim RE x.2.2 y.2.2)
        (ParseItem Q fuel r1 c1 p1) (ParseItem (Q.withClock now) fuel r2 c2 p2)) :
    ∀ (fuel : Nat) (r1 r2 : Reader) (c1 c2 : Nat) (p1 p2 : Podcast),
      RS r1 r2 → RC c1 c2 → podcastSim RE p1 p2 →
      bothReturn (fun x y => RS x.1 y.1 ∧ RC x.2.1 y.2.1 ∧ podcastSim RE x.2.2 y.2.2)
        (ParseChannel Q fuel r1 c1 p1) (ParseChannel (Q.withClock now) fuel r2 c2 p2) := by
  intro fuel
  induction fuel with
  | zero => intro r1 r2 c1 c2 p1 p2 _ _ _; exact bothReturn_none _
  | succ f ih =>
    intro r1 r2 c1 c2 p1 p2 hr hc hp
    have ha := hRS.atEnd _ _ hr
    cases h1 : r1.atEnd with
    | true =>
      rw [ParseChannel_next_atEnd _ _ _ _ _ h1, ParseChannel_next_atEnd _ _ _ _ _ (ha ▸ h1)]
      exact ⟨hr, hc, hp⟩
    | false =>
      have h2 : r2.atEnd = false := ha ▸ h1
      have hn := hRS.readNext _ _ hr h1
      rcases Token.three_cases r1.readNext.cur with ⟨n, ns, a, hcur⟩ | ⟨n, hcur⟩ | ⟨hs, he⟩
      · obtain ⟨a2, hcur2, ha2⟩ := hRS.start _ _ n ns a hn hcur
        rw [ParseChannel_next_start _ _ _ _ _ n ns a h1 hcur,
          ParseChannel_next_start _ _ _ _ _ n ns a2 h2 hcur2]
        have key := ParseChannelStartElement_sim Q now RS hRS RE RC hitem f r1.readNext
          r2.readNext c1 c2 p1 p2 n ns a a2 hn hcur ha2 hc hp
        revert key
        cases ParseChannelStartElement Q f r1.readNext c1 p1 n ns a with
        | none =>
          cases ParseChannelStartElement (Q.withClock now) f r2.readNext c2 p2 n ns a2 with
          | none => intro _; exact bothReturn_none _
          | some y => intro key; exact key.elim
        | some x =>
          cases ParseChannelStartElement (Q.withClock now) f r2.readNext c2 p2 n ns a2 with
          | none => intro key; exact key.elim
          | some y =>
            intro key
            obtain ⟨x1, x2, x3⟩ := x
            obtain ⟨y1, y2, y3⟩ := y
            exact ih _ _ _ _ _ _ key.1 key.2.1 key.2.2
      · have he1 : r1.readNext.cur.isEndElement = true := by rw [hcur]; rfl
        have he2 : r2.readNext.cur.isEndElement = true := by rw [← hRS.isEnd _ _ hn]; exact he1
        rw [ParseChannel_next_end _ _ _ _ _ h1 he1, ParseChannel_next_end _ _ _ _ _ h2 he2]
        exact ⟨hn, hc, hp⟩
      · have hs2 : r2.readNext.cur.isStartElement = false := by
          rw [← hRS.isStart _ _ hn]; exact hs
        have he2 : r2.readNext.cur.isEndElement = false := by
          rw [← hRS.isEnd _ _ hn]; exact he
        rw [ParseChannel_next_other _ _ _ _ _ h1 hs he,
          ParseChannel_next_other _ _ _ _ _ h2 hs2 he2]
        exact ih _ _ _ _ _ _ hn hc hp

theorem ParseOutline_sim (Q : Env) (now : Nat → Int)
    (RS : Reader → Reader → Prop) (hRS : ReaderSim RS) :
    ∀ (fuel : Nat) (r1 r2 : Reader) (ret : OpmlContainer), RS r1 r2 →
      bothReturn (fun x y => RS x.1 y.1 ∧ x.2 = y.2)
        (ParseOutline Q fuel r1 ret) (ParseOutline (Q.withClock now) fuel r2 ret) := by
  intro fuel
  induction fuel with
  | zero => intro r1 r2 ret _; exact bothReturn_none _
  | succ f ih =>
    intro r1 r2 ret hr
    have ha := hRS.atEnd _ _ hr
    cases h1 : r1.atEnd with
    | true =>
      rw [ParseOutline_next_atEnd _ _ _ _ h1, ParseOutline_next_atEnd _ _ _ _ (ha ▸ h1)]
      exact ⟨hr, rfl⟩
    | false =>
      have h2 : r2.atEnd = false := ha ▸ h1
      have hn := hRS.readNext _ _ hr h1
      rcases Token.three_cases r1.readNext.cur with ⟨n, ns, a, hcur⟩ | ⟨n, hcur⟩ | ⟨hs, he⟩
      · obtain ⟨a2, hcur2, ha2⟩ := hRS.start _ _ n ns a hn hcur
        rw [ParseOutline_next_start _ _ _ _ n ns a h1 hcur,
          ParseOutline_next_start _ _ _ _ n ns a2 h2 hcur2]
        by_cases ho : n = "outline"
        · have hne : n ≠ "enclosure" := by rw [ho]; decide
          rw [ha2 hne, if_neg (not_not.2 ho), if_neg (not_not.2 ho)]
          by_cases ht : attributeValue a "type" = "rss"
          · rw [if_pos ht, if_pos ht]
            exact ih _ _ _ (hRS.consume _ _ hn)
          · rw [if_neg ht, if_neg ht]
            have key := ih r1.readNext r2.readNext (outlineChild a) hn
            revert key
            cases ParseOutline Q f r1.readNext (outlineChild a) with
            | none =>
              cases ParseOutline (Q.withClock now) f r2.readNext (outlineChild a) with
              | none => intro _; exact bothReturn_none _
              | some y => intro key; exact key.elim
            | some x =>
              cases ParseOutline (Q.withClock now) f r2.readNext (outlineChild a) with
              | none => intro key; exact key.elim
              | some y =>
                intro key
                obtain ⟨x1, x2⟩ := x
                obtain ⟨y1, y2⟩ := y
                have hxy : x2 = y2 := key.2
                subst hxy
                exact ih _ _ _ key.1
        · rw [if_pos ho, if_pos ho]
          exact ih _ _ _ (hRS.consume _ _ hn)
      · have he1 : r1.readNext.cur.isEndElement = true := by rw [hcur]; rfl
        have he2 : r2.readNext.cur.isEndElement = true := by rw [← hRS.isEnd _ _ hn]; exact he1
        rw [ParseOutline_next_end _ _ _ _ h1 he1, ParseOutline_next_end _ _ _ _ h2 he2]
        exact ⟨hn, rfl⟩
      · have hs2 : r2.readNext.cur.isStartElement = false := by
          rw [← hRS.isStart _ _ hn]; exact hs
        have he2 : r2.readNext.cur.isEndElement = false := by
          rw [← hRS.isEnd _ _ hn]; exact he
        rw [ParseOutline_next_other _ _ _ _ h1 hs he,
          ParseOutline_next_other _ _ _ _ h2 hs2 he2]
        exact ih _ _ _ hn


theorem ParseRss_sim (Q : Env) (now : Nat → Int)
    (RS : Reader → Reader → Prop) (hRS : ReaderSim RS)
    (RE : List PodcastEpisode → List PodcastEpisode → Prop) (RC : Nat → Nat → Prop)
    (hitem : ∀ (fuel : Nat) (r1 r2 : Reader) (c1 c2 : Nat) (p1 p2 : Podcast),
      RS r1 r2 → RC c1 c2 → podcastSim RE p1 p2 →
      bothReturn (fun x y => RS x.1 y.1 ∧ RC x.2.1 y.2.1 ∧ podcastSim RE x.2.2 y.2.2)
        (ParseItem Q fuel r1 c1 p1) (ParseItem (Q.withClock now) fuel r2 c2 p2))
    (fuel : Nat) (r1 r2 : Reader) (c1 c2 : Nat) (p1 p2 : Podcast)
    (hr : RS r1 r2) (hc : RC c1 c2) (hp : podcastSim RE p1 p2) :
    bothReturn (fun x y => x.1 = y.1 ∧ podcastSim RE x.2.2.2 y.2.2.2)
      (ParseRss Q fuel r1 c1 p1) (ParseRss (Q.withClock now) fuel r2 c2 p2) := by
  obtain ⟨hf, hr2⟩ := hRS.parseUntil r1 r2 "channel" hr
  unfold ParseRss
  simp only [← hf]
  split_ifs with h
  · exact ⟨rfl, hp⟩
  · have key := ParseChannel_sim Q now RS hRS RE RC hitem fuel _ _ c1 c2 p1 p2 hr2 hc hp
    revert key
    cases ParseChannel Q fuel (ParseUntilElement r1 "channel").2 c1 p1 with
    | none =>
      cases ParseChannel (Q.withClock now) fuel (ParseUntilElement r2 "channel").2 c2 p2 with
      | none => intro _; exact bothReturn_none _
      | some y => intro key; exact key.elim
    | some x =>
      cases ParseChannel (Q.withClock now) fuel (ParseUntilElement r2 "channel").2 c2 p2 with
      | none => intro key; exact key.elim
      | some y =>
        intro key
        obtain ⟨x1, x2, x3⟩ := x
        obtain ⟨y1, y2, y3⟩ := y
        exact ⟨rfl, key.2.2⟩

theorem ParseOpml_sim (Q : Env) (now : Nat → Int)
    (RS : Reader → Reader → Prop) (hRS : ReaderSim RS)
    (fuel : Nat) (r1 r2 : Reader) (ret : OpmlContainer) (hr : RS r1 r2) :
    bothReturn (fun x y => x.1 = y.1 ∧ x.2.2 = y.2.2)
      (ParseOpml Q fuel r1 ret) (ParseOpml (Q.withClock now) fuel r2 ret) := by
  obtain ⟨hf, hr2⟩ := hRS.parseUntil r1 r2 "body" hr
  unfold ParseOpml
  simp only [← hf]
  split_ifs with h
  · exact ⟨rfl, rfl⟩
  · have key := ParseOutline_sim Q now RS hRS fuel _ _ ret hr2
    revert key
    cases ParseOutline Q fuel (ParseUntilElement r1 "body").2 ret with
    | none =>
      cases ParseOutline (Q.withClock now) fuel (ParseUntilElement r2 "body").2 ret with
      | none => intro _; exact bothReturn_none _
      | some y => intro key; exact key.elim
    | some x =>
      cases ParseOutline (Q.withClock now) fuel (ParseUntilElement r2 "body").2 ret with
      | none => intro key; exact key.elim
      | some y =>
        intro key
        obtain ⟨x1, x2⟩ := x
        obtain ⟨y1, y2⟩ := y
        have hxy : x2 = y2 := key.2
        subst hxy
        exact ⟨rfl, rfl⟩

theorem LoadLoop_sim (Q : Env) (now : Nat → Int)
    (RS : Reader → Reader → Prop) (hRS : ReaderSim RS)
    (RE : List PodcastEpisode → List PodcastEpisode → Prop) (RC : Nat → Nat → Prop)
    (hitem : ∀ (fuel : Nat) (r1 r2 : Reader) (c1 c2 : Nat) (p1 p2 : Podcast),
      RS r1 r2 → RC c1 c2 → podcastSim RE p1 p2 →
      bothReturn (fun x y => RS x.1 y.1 ∧ RC x.2.1 y.2.1 ∧ podcastSim RE x.2.2 y.2.2)
        (ParseItem Q fuel r1 c1 p1) (ParseItem (Q.withClock now) fuel r2 c2 p2))
    (hRC : RC 0 0) (hRE : RE [] []) (url : QUrl) :
    ∀ (fuel : Nat) (r1 r2 : Reader), RS r1 r2 →
      bothReturn (variantSim (podcastSim RE))
        (LoadLoop Q url fuel r1) (LoadLoop (Q.withClock now) url fuel r2) := by
  intro fuel
  induction fuel with
  | zero => intro r1 r2 _; exact bothReturn_none _
  | succ f ih =>
    intro r1 r2 hr
    have ha := hRS.atEnd _ _ hr
    cases h1 : r1.atEnd with
    | true =>
      rw [LoadLoop_next_atEnd _ _ _ _ h1, LoadLoop_next_atEnd _ _ _ _ (ha ▸ h1)]
      exact trivial
    | false =>
      have h2 : r2.atEnd = false := ha ▸ h1
      have hn := hRS.readNext _ _ hr h1
      cases hs : r1.readNext.cur.isStartElement with
      | false =>
        have hs2 : r2.readNext.cur.isStartElement = false := by
          rw [← hRS.isStart _ _ hn]; exact hs
        rw [LoadLoop_next_other _ _ _ _ h1 hs, LoadLoop_next_other _ _ _ _ h2 hs2]
        exact ih _ _ hn
      | true =>
        rcases Token.three_cases r1.readNext.cur with ⟨n, ns, a, hcur⟩ | ⟨n, hcur⟩ | ⟨hs3, _⟩
        · obtain ⟨a2, hcur2, _⟩ := hRS.start _ _ n ns a hn hcur
          rw [LoadLoop_next_start _ _ _ _ n ns a h1 hcur,
            LoadLoop_next_start _ _ _ _ n ns a2 h2 hcur2]
          split_ifs with hrss hopml
          · have key := ParseRss_sim Q now RS hRS RE RC hitem f r1.readNext r2.readNext 0 0
              {} {} hn hRC ⟨⟨rfl, rfl, rfl, rfl, rfl, rfl, rfl, rfl⟩, hRE⟩
            revert key
            cases ParseRss Q f r1.readNext 0 {} with
            | none =>
              cases ParseRss (Q.withClock now) f r2.readNext 0 {} with
              | none => intro _; exact bothReturn_none _
              | some y => intro key; exact key.elim
            | some x =>
              cases ParseRss (Q.withClock now) f r2.readNext 0 {} with
              | none => intro key; exact key.elim
              | some y =>
                intro key
                obtain ⟨x0, x1, x2, x3⟩ := x
                obtain ⟨y0, y1, y2, y3⟩ := y
                have h0 : x0 = y0 := key.1
                subst h0
                cases x0 with
                | false => exact trivial
                | true => exact podcastSim_url RE _ _ key.2 url
          · have key := ParseOpml_sim Q now RS hRS f r1.readNext r2.readNext
              OpmlContainer.empty hn
            revert key
            cases ParseOpml Q f r1.readNext OpmlContainer.empty with
            | none =>
              cases ParseOpml (Q.withClock now) f r2.readNext OpmlContainer.empty with
              | none => intro _; exact bothReturn_none _
              | some y => intro key; exact key.elim
            | some x =>
              cases ParseOpml (Q.withClock now) f r2.readNext OpmlContainer.empty with
              | none => intro key; exact key.elim
              | some y =>
                intro key
                obtain ⟨x0, x1, x2⟩ := x
                obtain ⟨y0, y1, y2⟩ := y
                have h0 : x0 = y0 := key.1
                have h2 : x2 = y2 := key.2
                subst h0
                subst h2
                cases x0 with
                | false => exact trivial
                | true => exact rfl
          · exact trivial
        · rw [hcur] at hs; exact Bool.noConfusion hs
        · rw [hs3] at hs; exact Bool.noConfusion hs

/-! ### The item parser in two runs -/

theorem ParseItemStartElement_reader (Q : Env) (r : Reader) (e : PodcastEpisode)
    (n ns : String) (a : List (String × String)) :
    (ParseItemStartElement Q r e n ns a).1
      = if itemReadsText n ns then r.readElementText.2 else ConsumeCurrentElement r := by
  unfold ParseItemStartElement itemReadsText
  simp only
  split_ifs <;> first
    | rfl
    | (exfalso; simp_all <;> tauto)

theorem podcastSim_episodes_any (p1 p2 : Podcast) (h : podcastSim (fun _ _ => True) p1 p2)
    (x y : List PodcastEpisode) :
    podcastSim (fun _ _ => True) { p1 with episodes := x } { p2 with episodes := y } :=
  ⟨h.1, trivial⟩

theorem ParseItemLoop_sim_fields (Q : Env) (now : Nat → Int)
    (RS : Reader → Reader → Prop) (hRS : ReaderSim RS) :
    ∀ (fuel : Nat) (r1 r2 : Reader) (c1 c2 : Nat) (e1 e2 : PodcastEpisode) (p1 p2 : Podcast),
      RS r1 r2 → podcastSim (fun _ _ => True) p1 p2 →
      bothReturn
        (fun x y => RS x.1 y.1 ∧ True ∧ podcastSim (fun _ _ => True) x.2.2 y.2.2)
        (ParseItemLoop Q fuel r1 c1 e1 p1)
        (ParseItemLoop (Q.withClock now) fuel r2 c2 e2 p2) := by
  intro fuel
  induction fuel with
  | zero => intro r1 r2 c1 c2 e1 e2 p1 p2 _ _; exact bothReturn_none _
  | succ f ih =>
    intro r1 r2 c1 c2 e1 e2 p1 p2 hr hp
    have ha := hRS.atEnd _ _ hr
    cases h1 : r1.atEnd with
    | true =>
      rw [ParseItemLoop_next_atEnd _ _ _ _ _ _ h1,
        ParseItemLoop_next_atEnd _ _ _ _ _ _ (ha ▸ h1)]
      exact ⟨hr, trivial, hp⟩
    | false =>
      have h2 : r2.atEnd = false := ha ▸ h1
      have hn := hRS.readNext _ _ hr h1
      rcases Token.three_cases r1.readNext.cur with ⟨n, ns, a, hcur⟩ | ⟨n, hcur⟩ | ⟨hs, he⟩
      · obtain ⟨a2, hcur2, _⟩ := hRS.start _ _ n ns a hn hcur
        rw [ParseItemLoop_next_start _ _ _ _ _ _ n ns a h1 hcur,
          ParseItemLoop_next_start _ _ _ _ _ _ n ns a2 h2 hcur2]
        refine ih _ _ _ _ _ _ _ _ ?_ hp
        rw [ParseItemStartElement_reader, ParseItemStartElement_reader]
        split_ifs
        · exact hRS.readText _ _ hn
        · exact hRS.consume _ _ hn
      · have he1 : r1.readNext.cur.isEndElement = true := by rw [hcur]; rfl
        have he2 : r2.readNext.cur.isEndElement = true := by rw [← hRS.isEnd _ _ hn]; exact he1
        rw [ParseItemLoop_next_end _ _ _ _ _ _ h1 he1,
          ParseItemLoop_next_end _ _ _ _ _ _ h2 he2,
          (ParseItemEndElement_fields Q c1 e1 p1).2,
          (ParseItemEndElement_fields (Q.withClock now) c2 e2 p2).2]
        exact ⟨hn, trivial, podcastSim_episodes_any _ _ hp _ _⟩
      · have hs2 : r2.readNext.cur.isStartElement = false := by
          rw [← hRS.isStart _ _ hn]; exact hs
        have he2 : r2.readNext.cur.isEndElement = false := by
          rw [← hRS.isEnd _ _ hn]; exact he
        rw [ParseItemLoop_next_other _ _ _ _ _ _ h1 hs he,
          ParseItemLoop_next_other _ _ _ _ _ _ h2 hs2 he2]
        exact ih _ _ _ _ _ _ _ _ hn hp

theorem sameButClockDate_refl (Q : Env) (now : Nat → Int) (e : PodcastEpisode) :
    sameButClockDate Q now e e :=
  ⟨rfl, rfl, rfl, rfl, rfl, Or.inl rfl⟩

theorem ParseItemEndElement_sim_clock (Q : Env) (now : Nat → Int) (clock : Nat)
    (e : PodcastEpisode) (p1 p2 : Podcast)
    (hp : podcastSim (List.Forall₂ (sameButClockDate Q now)) p1 p2) :
    (ParseItemEndElement Q clock e p1).1 = (ParseItemEndElement (Q.withClock now) clock e p2).1
      ∧ podcastSim (List.Forall₂ (sameButClockDate Q now))
          (ParseItemEndElement Q clock e p1).2
          (ParseItemEndElement (Q.withClock now) clock e p2).2 := by
  unfold ParseItemEndElement
  simp only [withClock_urlIsEmpty]
  split_ifs with h1 h2 h3
  · exact ⟨rfl, hp⟩
  · exact ⟨rfl, hp.1, List.rel_append hp.2
      (List.Forall₂.cons (sameButClockDate_refl Q now e) List.Forall₂.nil)⟩
  · exact ⟨rfl, hp⟩
  · exact ⟨rfl, hp.1, List.rel_append hp.2
      (List.Forall₂.cons ⟨rfl, rfl, rfl, rfl, rfl, Or.inr ⟨clock, rfl, rfl⟩⟩ List.Forall₂.nil)⟩

theorem ParseItemLoop_sim_clock (Q : Env) (now : Nat → Int) :
    ∀ (fuel : Nat) (r : Reader) (c : Nat) (e : PodcastEpisode) (p1 p2 : Podcast),
      podcastSim (List.Forall₂ (sameButClockDate Q now)) p1 p2 →
      bothReturn
        (fun x y => x.1 = y.1 ∧ x.2.1 = y.2.1
          ∧ podcastSim (List.Forall₂ (sameButClockDate Q now)) x.2.2 y.2.2)
        (ParseItemLoop Q fuel r c e p1)
        (ParseItemLoop (Q.withClock now) fuel r c e p2) := by
  intro fuel
  induction fuel with
  | zero => intro r c e p1 p2 _; exact bothReturn_none _
  | succ f ih =>
    intro r c e p1 p2 hp
    cases h1 : r.atEnd with
    | true =>
      rw [ParseItemLoop_next_atEnd _ _ _ _ _ _ h1, ParseItemLoop_next_atEnd _ _ _ _ _ _ h1]
      exact ⟨rfl, rfl, hp⟩
    | false =>
      rcases Token.three_cases r.readNext.cur with ⟨n, ns, a, hcur⟩ | ⟨n, hcur⟩ | ⟨hs, he⟩
      · rw [ParseItemLoop_next_start _ _ _ _ _ _ n ns a h1 hcur,
          ParseItemLoop_next_start _ _ _ _ _ _ n ns a h1 hcur]
        exact ih _ _ _ _ _ hp
      · have he1 : r.readNext.cur.isEndElement = true := by rw [hcur]; rfl
        rw [ParseItemLoop_next_end _ _ _ _ _ _ h1 he1,
          ParseItemLoop_next_end _ _ _ _ _ _ h1 he1]
        exact ⟨rfl, ParseItemEndElement_sim_clock Q now c e p1 p2 hp⟩
      · rw [ParseItemLoop_next_other _ _ _ _ _ _ h1 hs he,
          ParseItemLoop_next_other _ _ _ _ _ _ h1 hs he]
        exact ih _ _ _ _ _ hp

theorem bothReturn_variantSim (RP : Podcast → Podcast → Prop) (x y : Option QVariant)
    (h : bothReturn (variantSim RP) x y) :
    (x = none ↔ y = none)
      ∧ (x = some .invalid ↔ y = some .invalid)
      ∧ (∀ c, x = some (.opml c) ↔ y = some (.opml c))
      ∧ (∀ p1, x = some (.podcast p1) → ∃ p2, y = some (.podcast p2) ∧ RP p1 p2)
      ∧ (∀ p2, y = some (.podcast p2) → ∃ p1, x = some (.podcast p1) ∧ RP p1 p2) := by
  cases x with
  | none =>
    cases y with
    | none => simp
    | some b => exact h.elim
  | some a =>
    cases y with
    | none => exact h.elim
    | some b =>
      cases a with
      | invalid =>
        cases b with
        | invalid => simp
        | podcast q => exact h.elim
        | opml d => exact h.elim
      | podcast p =>
        cases b with
        | invalid => exact h.elim
        | podcast q =>
          refine ⟨by simp, by simp, by simp, ?_, ?_⟩
          · intro p1 hp1
            cases hp1
            exact ⟨q, rfl, h⟩
          · intro p2 hp2
            cases hp2
            exact ⟨p, rfl, h⟩
        | opml d => exact h.elim
      | opml c =>
        cases b with
        | invalid => exact h.elim
        | podcast q => exact h.elim
        | opml d =>
          have hcd : c = d := h
          subst hcd
          simp


theorem Load_sim_fields (Q : Env) (url : QUrl) (ts1 ts2 : List Token)
    (h : differInFieldValues false ts1 ts2) :
    bothReturn (variantSim (podcastSim (fun _ _ => True)))
      (Load Q ts1 url) (Load Q ts2 url) := by
  unfold Load
  rw [← differInFieldValues_length ts1 false ts2 h]
  exact LoadLoop_sim Q Q.currentDateTime Reader.differInFieldValues
    differInFieldValues_readerSim (fun _ _ => True) (fun _ _ => True)
    (fun fuel r1 r2 c1 c2 p1 p2 hr _ hp =>
      ParseItemLoop_sim_fields Q Q.currentDateTime Reader.differInFieldValues
        differInFieldValues_readerSim fuel r1 r2 c1 c2 {} {} p1 p2 hr hp)
    trivial trivial url _ _ _ ⟨false, Or.inl rfl, h⟩

/-- C19: take two token streams that differ only in the character data of
`pubDate` and iTunes `duration` elements and in the values of the `type` and
`url` attributes of `enclosure` elements. Then `Load` gives the same kind of
result on both: the failure value on both or on neither, the same container on
both or on neither, and a podcast on both or on neither; and two podcasts
agree on title, link, description, copyright, image URL, owner name and owner
email. -/
theorem Load_independent_of_field_values (Q : Env) (url : QUrl) (ts1 ts2 : List Token)
    (h : differInFieldValues false ts1 ts2) :
    (Load Q ts1 url = none ↔ Load Q ts2 url = none)
      ∧ (Load Q ts1 url = some .invalid ↔ Load Q ts2 url = some .invalid)
      ∧ (∀ c, Load Q ts1 url = some (.opml c) ↔ Load Q ts2 url = some (.opml c))
      ∧ (∀ p1, Load Q ts1 url = some (.podcast p1) →
          ∃ p2, Load Q ts2 url = some (.podcast p2)
            ∧ p1.title = p2.title ∧ p1.link = p2.link ∧ p1.description = p2.description
            ∧ p1.copyright = p2.copyright ∧ p1.image_url_large = p2.image_url_large
            ∧ p1.owner_name = p2.owner_name ∧ p1.owner_email = p2.owner_email)
      ∧ (∀ p2, Load Q ts2 url = some (.podcast p2) →
          ∃ p1, Load Q ts1 url = some (.podcast p1)
            ∧ p1.title = p2.title ∧ p1.link = p2.link ∧ p1.description = p2.description
            ∧ p1.copyright = p2.copyright ∧ p1.image_url_large = p2.image_url_large
            ∧ p1.owner_name = p2.owner_name ∧ p1.owner_email = p2.owner_email) := by
  obtain ⟨h1, h2, h3, h4, h5⟩ := bothReturn_variantSim _ _ _ (Load_sim_fields Q url ts1 ts2 h)
  refine ⟨h1, h2, h3, ?_, ?_⟩
  · intro p1 hp1
    obtain ⟨p2, hp2, ⟨t1, t2, t3, t4, _, t6, t7, t8⟩, _⟩ := h4 p1 hp1
    exact ⟨p2, hp2, t1, t2, t3, t4, t6, t7, t8⟩
  · intro p2 hp2
    obtain ⟨p1, hp1, ⟨t1, t2, t3, t4, _, t6, t7, t8⟩, _⟩ := h5 p2 hp2
    exact ⟨p1, hp1, t1, t2, t3, t4, t6, t7, t8⟩


theorem differInFieldValues_cons (inside : Bool) (t1 t2 : Token) (ts1 ts2 : List Token)
    (h1 : tokenVaries inside t1 t2)
    (h2 : differInFieldValues (insideAfter inside t1) ts1 ts2) :
    differInFieldValues inside (t1 :: ts1) (t2 :: ts2) := ⟨h1, h2⟩

theorem sampleEnclosures_agree (key : String) (h1 : key ≠ "type") (h2 : key ≠ "url") :
    attributeValue [("type", "audio/mpeg"), ("url", "http://x/a.mp3")] key
      = attributeValue [("type", "video/mp4"), ("url", "")] key := by
  simp [attributeValue, List.find?, Ne.symm h1, Ne.symm h2]

theorem sampleFeeds_differInFieldValues :
    differInFieldValues false sampleFieldValuesFeed sampleOtherFieldValuesFeed :=
  differInFieldValues_cons _ _ _ _ _ (Or.inl rfl)
  (differInFieldValues_cons _ _ _ _ _ (Or.inl rfl)
  (differInFieldValues_cons _ _ _ _ _ (Or.inl rfl)
  (differInFieldValues_cons _ _ _ _ _ (Or.inl rfl)
  (differInFieldValues_cons _ _ _ _ _ (Or.inl rfl)
  (differInFieldValues_cons _ _ _ _ _ (Or.inl rfl)
  (differInFieldValues_cons _ _ _ _ _ (Or.inl rfl)
  (differInFieldValues_cons _ _ _ _ _ (Or.inl rfl)
  (differInFieldValues_cons _ _ _ _ _ (Or.inr (Or.inl ⟨rfl, _, _, rfl, rfl⟩))
  (differInFieldValues_cons _ _ _ _ _ (Or.inl rfl)
  (differInFieldValues_cons _ _ _ _ _ (Or.inl rfl)
  (differInFieldValues_cons _ _ _ _ _ (Or.inr (Or.inl ⟨by decide, _, _, rfl, rfl⟩))
  (differInFieldValues_cons _ _ _ _ _ (Or.inl rfl)
  (differInFieldValues_cons _ _ _ _ _
    (Or.inr (Or.inr ⟨"", _, _, rfl, rfl, sampleEnclosures_agree⟩))
  (differInFieldValues_refl _ _))))))))))))))

/-- Witness for C19: the sample feed and the same feed with a date text that
does not parse, a malformed duration and a video enclosure without URL; the
first gives a podcast with one episode and the second one without episode. -/
theorem Load_independent_of_field_values_witness :
    (Load testEnv sampleFieldValuesFeed { encoded := "u" } = none
        ↔ Load testEnv sampleOtherFieldValuesFeed { encoded := "u" } = none)
      ∧ (Load testEnv sampleFieldValuesFeed { encoded := "u" } = some .invalid
        ↔ Load testEnv sampleOtherFieldValuesFeed { encoded := "u" } = some .invalid)
      ∧ (∀ c, Load testEnv sampleFieldValuesFeed { encoded := "u" } = some (.opml c)
        ↔ Load testEnv sampleOtherFieldValuesFeed { encoded := "u" } = some (.opml c))
      ∧ (∀ p1, Load testEnv sampleFieldValuesFeed { encoded := "u" } = some (.podcast p1) →
          ∃ p2, Load testEnv sampleOtherFieldValuesFeed { encoded := "u" } = some (.podcast p2)
            ∧ p1.title = p2.title ∧ p1.link = p2.link ∧ p1.description = p2.description
            ∧ p1.copyright = p2.copyright ∧ p1.image_url_large = p2.image_url_large
            ∧ p1.owner_name = p2.owner_name ∧ p1.owner_email = p2.owner_email)
      ∧ (∀ p2, Load testEnv sampleOtherFieldValuesFeed { encoded := "u" } = some (.podcast p2) →
          ∃ p1, Load testEnv sampleFieldValuesFeed { encoded := "u" } = some (.podcast p1)
            ∧ p1.title = p2.title ∧ p1.link = p2.link ∧ p1.description = p2.description
            ∧ p1.copyright = p2.copyright ∧ p1.image_url_large = p2.image_url_large
            ∧ p1.owner_name = p2.owner_name ∧ p1.owner_email = p2.owner_email) :=
  Load_independent_of_field_values testEnv { encoded := "u" } sampleFieldValuesFeed
    sampleOtherFieldValuesFeed sampleFeeds_differInFieldValues

/-! ### Two runs with different clocks -/

theorem Env.eq_of_fields (Q1 Q2 : Env)
    (h1 : ∀ s, Q1.fromEncoded s = Q2.fromEncoded s)
    (h2 : ∀ u, Q1.urlIsEmpty u = Q2.urlIsEmpty u)
    (h3 : ∀ u, Q1.urlPath u = Q2.urlPath u)
    (h4 : ∀ s, Q1.ParseRFC822DateTime s = Q2.ParseRFC822DateTime s)
    (h5 : ∀ k, Q1.currentDateTime k = Q2.currentDateTime k) : Q1 = Q2 := by
  cases Q1
  cases Q2
  simp only at h1 h2 h3 h4 h5
  obtain rfl := funext h1
  obtain rfl := funext h2
  obtain rfl := funext h3
  obtain rfl := funext h4
  obtain rfl := funext h5
  rfl

theorem Load_sim_clock (Q : Env) (now : Nat → Int) (url : QUrl) (tokens : List Token) :
    bothReturn (variantSim (podcastSim (List.Forall₂ (sameButClockDate Q now))))
      (Load Q tokens url) (Load (Q.withClock now) tokens url) := by
  unfold Load
  exact LoadLoop_sim Q now (fun r1 r2 => r1 = r2) eq_readerSim
    (List.Forall₂ (sameButClockDate Q now)) (fun c1 c2 => c1 = c2)
    (fun fuel r1 r2 c1 c2 p1 p2 hr hc hp => by
      subst hr
      subst hc
      exact ParseItemLoop_sim_clock Q now fuel r1 c1 {} p1 p2 hp)
    rfl List.Forall₂.nil url _ _ _ rfl

theorem resolvedUrl_withClock (Q : Env) (now : Nat → Int) (cs : Forest) :
    ∀ u : QUrl, resolvedUrl (Q.withClock now) cs u = resolvedUrl Q cs u := by
  induction cs with
  | nil => intro u; rfl
  | element n ns attrs children siblings _ ih2 =>
    intro u
    simp only [resolvedUrl]
    rw [ih2]
    rfl
  | leaf l siblings ih => intro u; exact ih u

theorem itemOf_withClock (Q : Env) (now : Nat → Int) (cs : Forest) :
    ∀ e : PodcastEpisode, itemOf (Q.withClock now) cs e = itemOf Q cs e := by
  induction cs with
  | nil => intro e; rfl
  | element n ns attrs children siblings _ ih2 =>
    intro e
    simp only [itemOf]
    rw [ih2]
    rfl
  | leaf l siblings ih => intro e; exact ih e

theorem itemEpisode_withClock (Q : Env) (now : Nat → Int) (item : Forest) (k : Nat) :
    (((lastText "pubDate" item).bind Q.ParseRFC822DateTime).isSome = true →
        itemEpisode (Q.withClock now) item k = itemEpisode Q item k)
      ∧ ((lastText "pubDate" item).bind Q.ParseRFC822DateTime = none →
        (itemEpisode Q item k).publication_date = some (Q.currentDateTime k)
          ∧ (itemEpisode (Q.withClock now) item k).publication_date = some (now k)) := by
  unfold itemEpisode itemDate
  rw [itemOf_withClock]
  have hp : (Q.withClock now).ParseRFC822DateTime = Q.ParseRFC822DateTime := rfl
  rw [hp]
  cases (lastText "pubDate" item).bind Q.ParseRFC822DateTime with
  | none => exact ⟨fun h => Bool.noConfusion h, fun _ => ⟨rfl, rfl⟩⟩
  | some d => exact ⟨fun _ => rfl, fun h => Option.noConfusion h⟩

theorem channelEpisodes_withClock (Q : Env) (now : Nat → Int) (cs : Forest) :
    ∀ clock : Nat,
      List.Forall₂
        (fun (e : PodcastEpisode × PodcastEpisode) item =>
          ∃ k, e.1 = itemEpisode Q item k ∧ e.2 = itemEpisode (Q.withClock now) item k)
        ((channelEpisodes Q cs clock).zip (channelEpisodes (Q.withClock now) cs clock))
        (keptItems Q cs)
      ∧ (channelEpisodes Q cs clock).length
          = (channelEpisodes (Q.withClock now) cs clock).length := by
  induction cs with
  | nil => intro clock; exact ⟨List.Forall₂.nil, rfl⟩
  | element n ns attrs children siblings _ ih2 =>
    intro clock
    by_cases h : n = "item"
    · simp only [channelEpisodes, keptItems, itemContents, if_pos h, List.filter_cons]
      rw [(ParseItemEndElement_item Q clock children).1,
        (ParseItemEndElement_item (Q.withClock now) clock children).1,
        (ParseItemEndElement_item Q clock children).2,
        (ParseItemEndElement_item (Q.withClock now) clock children).2,
        resolvedUrl_withClock]
      have hp : (Q.withClock now).ParseRFC822DateTime = Q.ParseRFC822DateTime := rfl
      have hu : (Q.withClock now).urlIsEmpty = Q.urlIsEmpty := rfl
      rw [hp, hu]
      by_cases hurl : Q.urlIsEmpty (resolvedUrl Q children { encoded := "" }) = true
      · simp only [hurl, if_true, List.nil_append, Bool.not_true, Bool.false_eq_true, if_false]
        exact ih2 _
      · simp only [Bool.not_eq_true] at hurl
        simp only [hurl, Bool.false_eq_true, if_false, List.singleton_append, Bool.not_false,
          if_true, List.zip_cons_cons, List.length_cons]
        exact ⟨List.Forall₂.cons ⟨clock, rfl, rfl⟩ (ih2 _).1, by rw [(ih2 _).2]⟩
    · simp only [channelEpisodes, keptItems, itemContents, if_neg h]
      exact ih2 clock
  | leaf l siblings ih => intro clock; exact ih clock


theorem sameFields_eq (p1 p2 : Podcast) (h : sameFields p1 p2) :
    p2 = { p1 with episodes := p2.episodes } := by
  obtain ⟨h1, h2, h3, h4, h5, h6, h7, h8⟩ := h
  cases p1
  cases p2
  simp only at h1 h2 h3 h4 h5 h6 h7 h8
  simp [h1, h2, h3, h4, h5, h6, h7, h8]

/-- C20: `Load` is a function of the token stream, the URL and the
environment, so two runs in environments that agree at every argument, clock
included, return the same. Two runs that differ only in the clock return the
same kind of result: both run out of fuel, both fail, both return the same
container, or both return a podcast; the two podcasts are equal except for
their episodes, the episodes correspond one to one and are equal except
possibly for the publication date, and where the dates differ they are the
readings of the two clocks at the same count. On a well-formed RSS document
the episode of an item whose last `pubDate` parses is the same in both runs,
and the episode of any other item carries the readings of the two clocks. -/
theorem Load_deterministic_up_to_clock (Q : Env) (now : Nat → Int) (url : QUrl) :
    (∀ (Q2 : Env) (tokens : List Token),
        (∀ s, Q2.fromEncoded s = Q.fromEncoded s) →
        (∀ u, Q2.urlIsEmpty u = Q.urlIsEmpty u) →
        (∀ u, Q2.urlPath u = Q.urlPath u) →
        (∀ s, Q2.ParseRFC822DateTime s = Q.ParseRFC822DateTime s) →
        (∀ k, Q2.currentDateTime k = Q.currentDateTime k) →
        Load Q2 tokens url = Load Q tokens url)
      ∧ (∀ tokens : List Token,
          (Load Q tokens url = none ↔ Load (Q.withClock now) tokens url = none)
          ∧ (Load Q tokens url = some .invalid
              ↔ Load (Q.withClock now) tokens url = some .invalid)
          ∧ (∀ c, Load Q tokens url = some (.opml c)
              ↔ Load (Q.withClock now) tokens url = some (.opml c))
          ∧ (∀ p1, Load Q tokens url = some (.podcast p1) →
              ∃ p2, Load (Q.withClock now) tokens url = some (.podcast p2)
                ∧ p2 = { p1 with episodes := p2.episodes }
                ∧ List.Forall₂ (sameButClockDate Q now) p1.episodes p2.episodes)
          ∧ (∀ p2, Load (Q.withClock now) tokens url = some (.podcast p2) →
              ∃ p1, Load Q tokens url = some (.podcast p1)
                ∧ p2 = { p1 with episodes := p2.episodes }
                ∧ List.Forall₂ (sameButClockDate Q now) p1.episodes p2.episodes))
      ∧ (∀ (prolog : List Token) (rootNs : String) (rootAttrs : List (String × String))
          (beforeChannel : List Token) (channelNs : String)
          (channelAttrs : List (String × String)) (channel : Forest) (epilog : List Token),
          plainTokens prolog → tokensBefore "channel" beforeChannel →
          channelOk channel = true →
          ∃ p1 p2,
            Load Q (rssDocument prolog rootNs rootAttrs beforeChannel channelNs channelAttrs
              channel epilog) url = some (.podcast p1)
            ∧ Load (Q.withClock now) (rssDocument prolog rootNs rootAttrs beforeChannel
                channelNs channelAttrs channel epilog) url = some (.podcast p2)
            ∧ p1.episodes.length = p2.episodes.length
            ∧ List.Forall₂
                (fun (e : PodcastEpisode × PodcastEpisode) item =>
                  (((lastText "pubDate" item).bind Q.ParseRFC822DateTime).isSome = true →
                      e.1 = e.2)
                    ∧ ((lastText "pubDate" item).bind Q.ParseRFC822DateTime = none →
                      ∃ k, e.1.publication_date = some (Q.currentDateTime k)
                        ∧ e.2.publication_date = some (now k)))
                (p1.episodes.zip p2.episodes) (keptItems Q channel)) := by
  refine ⟨?_, ?_, ?_⟩
  · intro Q2 tokens h1 h2 h3 h4 h5
    rw [Env.eq_of_fields Q2 Q h1 h2 h3 h4 h5]
  · intro tokens
    obtain ⟨h1, h2, h3, h4, h5⟩ :=
      bothReturn_variantSim _ _ _ (Load_sim_clock Q now url tokens)
    refine ⟨h1, h2, h3, ?_, ?_⟩
    · intro p1 hp1
      obtain ⟨p2, hp2, hf, he⟩ := h4 p1 hp1
      exact ⟨p2, hp2, sameFields_eq p1 p2 hf, he⟩
    · intro p2 hp2
      obtain ⟨p1, hp1, hf, he⟩ := h5 p2 hp2
      exact ⟨p1, hp1, sameFields_eq p1 p2 hf, he⟩
  · intro prolog rootNs rootAttrs beforeChannel channelNs channelAttrs channel epilog
      hpro hbefore hok
    refine ⟨_, _, Load_rssDocument Q url prolog rootNs rootAttrs beforeChannel channelNs
      channelAttrs channel epilog hpro hbefore hok,
      Load_rssDocument (Q.withClock now) url prolog rootNs rootAttrs beforeChannel channelNs
        channelAttrs channel epilog hpro hbefore hok, ?_, ?_⟩
    · simp only [channelOf_episodes, List.nil_append]
      exact (channelEpisodes_withClock Q now channel 0).2
    · simp only [channelOf_episodes, List.nil_append]
      refine (channelEpisodes_withClock Q now channel 0).1.imp ?_
      rintro ⟨e1, e2⟩ item ⟨k, hk1, hk2⟩
      simp only at hk1 hk2
      subst hk1
      subst hk2
      exact ⟨fun h => ((itemEpisode_withClock Q now item k).1 h).symm,
        fun h => ⟨k, (itemEpisode_withClock Q now item k).2 h⟩⟩

/-- Witness for C20: the sample channel, whose second item has a date, read
with a clock that starts at 1000 and one that starts at 2000 by an environment
that parses the date and by `testEnv`, which does not. -/
theorem Load_deterministic_up_to_clock_witness :
    Load testEnv sampleFieldValuesFeed { encoded := "u" }
        = Load (testEnv.withClock sampleClock) sampleFieldValuesFeed { encoded := "u" }
      ∧ (∃ p1 p2,
          Load sampleDateEnv (rssDocument [Token.StartDocument] "" [] [] "" []
              (sampleChannelHead.append sampleChannelTail) [Token.EndElement "rss"])
              { encoded := "u" } = some (.podcast p1)
            ∧ Load (sampleDateEnv.withClock sampleLaterClock)
                (rssDocument [Token.StartDocument] "" [] [] "" []
                  (sampleChannelHead.append sampleChannelTail) [Token.EndElement "rss"])
                { encoded := "u" } = some (.podcast p2)
            ∧ p1.episodes.length = p2.episodes.length
            ∧ List.Forall₂
                (fun (e : PodcastEpisode × PodcastEpisode) item =>
                  (((lastText "pubDate" item).bind sampleDateEnv.ParseRFC822DateTime).isSome
                      = true → e.1 = e.2)
                    ∧ ((lastText "pubDate" item).bind sampleDateEnv.ParseRFC822DateTime = none →
                      ∃ k, e.1.publication_date = some (sampleDateEnv.currentDateTime k)
                        ∧ e.2.publication_date = some (sampleLaterClock k)))
                (p1.episodes.zip p2.episodes)
                (keptItems sampleDateEnv (sampleChannelHead.append sampleChannelTail)))
      ∧ (∀ p1, Load testEnv sampleFieldValuesFeed { encoded := "u" } = some (.podcast p1) →
          ∃ p2, Load (testEnv.withClock sampleLaterClock) sampleFieldValuesFeed
                { encoded := "u" } = some (.podcast p2)
            ∧ p2 = { p1 with episodes := p2.episodes }
            ∧ List.Forall₂ (sameButClockDate testEnv sampleLaterClock)
                p1.episodes p2.episodes) :=
  ⟨(Load_deterministic_up_to_clock (testEnv.withClock sampleClock) sampleLaterClock
      { encoded := "u" }).1 testEnv sampleFieldValuesFeed
      (fun _ => rfl) (fun _ => rfl) (fun _ => rfl) (fun _ => rfl) (fun _ => rfl),
    (Load_deterministic_up_to_clock sampleDateEnv sampleLaterClock { encoded := "u" }).2.2
      [Token.StartDocument] "" [] [] "" [] (sampleChannelHead.append sampleChannelTail)
      [Token.EndElement "rss"]
      (by intro t ht; simp at ht; subst ht; exact ⟨rfl, rfl⟩)
      (by intro t ht; simp at ht)
      rfl,
    ((Load_deterministic_up_to_clock testEnv sampleLaterClock { encoded := "u" }).2.1
      sampleFieldValuesFeed).2.2.2.1⟩

/-! ### Every loop iteration consumes a token -/

theorem remaining_le (r : Reader) : r.remaining ≤ r.rest.length + 1 := by
  unfold Reader.remaining
  split_ifs <;> omega

theorem remaining_of_not_atEnd (r : Reader) (h : r.atEnd = false) :
    r.remaining = r.rest.length + 1 := by
  unfold Reader.remaining
  rw [if_neg (by simp [h])]

theorem remaining_of_atEnd (r : Reader) (h : r.atEnd = true) : r.remaining = 0 := by
  unfold Reader.remaining
  rw [if_pos h]

theorem readNext_remaining (r : Reader) (h : r.atEnd = false) :
    r.readNext.remaining < r.remaining := by
  obtain ⟨cur, rest⟩ := r
  have hc : cur.atEnd = false := h
  rw [remaining_of_not_atEnd _ h]
  cases rest with
  | nil =>
    rw [readNext_nil, remaining_of_atEnd { cur := Token.Invalid, rest := [] } rfl]
    simp
  | cons t ts =>
    rw [readNext_cons _ _ _ hc]
    have := remaining_le { cur := t, rest := ts }
    simp only [List.length_cons] at this ⊢
    omega

theorem readElementText_remaining (r : Reader) :
    r.readElementText.2.remaining ≤ r.remaining := by
  obtain ⟨cur, rest⟩ := r
  cases cur <;> first
    | exact le_refl _
    | (rw [remaining_of_not_atEnd { cur := Token.StartElement _ _ _, rest := rest } rfl]
       exact le_trans (remaining_le _)
         (Nat.succ_le_succ (readElementTextFrom_length rest "")))

theorem ConsumeCurrentElement_remaining (r : Reader) :
    (ConsumeCurrentElement r).remaining ≤ r.remaining := by
  obtain ⟨cur, rest⟩ := r
  cases hc : cur.atEnd with
  | true =>
    unfold ConsumeCurrentElement
    rw [ConsumeCurrentElementFrom_atEnd _ _ _ hc]
  | false =>
    rw [remaining_of_not_atEnd { cur := cur, rest := rest } hc]
    exact le_trans (remaining_le _)
      (Nat.succ_le_succ (ConsumeCurrentElementFrom_length rest 1 cur))

theorem ParseUntilElementFrom_length (name : String) (ts : List Token) :
    ∀ cur : Token, (ParseUntilElementFrom name cur ts).2.rest.length ≤ ts.length := by
  induction ts with
  | nil => intro cur; unfold ParseUntilElementFrom; split <;> simp
  | cons t ts ih =>
    intro cur
    cases hc : cur.atEnd with
    | true => rw [ParseUntilElementFrom_atEnd _ _ _ hc]
    | false =>
      cases hs : t.isStartElement with
      | false =>
        rw [ParseUntilElementFrom_other _ _ _ _ hc hs]
        exact Nat.le_succ_of_le (ih t)
      | true =>
        cases t <;> first
          | exact Bool.noConfusion hs
          | (rw [ParseUntilElementFrom_start _ _ _ _ _ _ hc]
             split_ifs
             · exact Nat.le_succ _
             · exact Nat.le_succ_of_le (ih _))

theorem ParseUntilElement_remaining (r : Reader) (name : String) :
    (ParseUntilElement r name).2.remaining ≤ r.remaining := by
  obtain ⟨cur, rest⟩ := r
  cases hc : cur.atEnd with
  | true =>
    unfold ParseUntilElement
    rw [ParseUntilElementFrom_atEnd _ _ _ hc]
  | false =>
    rw [remaining_of_not_atEnd { cur := cur, rest := rest } hc]
    exact le_trans (remaining_le _)
      (Nat.succ_le_succ (ParseUntilElementFrom_length name rest cur))


/-! ### The parsers return, whatever the tokens -/

theorem ParseImage_total (Q : Env) :
    ∀ (fuel : Nat) (r : Reader) (ret : Podcast), r.remaining < fuel →
      ∃ r2 ret2, ParseImage Q fuel r ret = some (r2, ret2) ∧ r2.remaining ≤ r.remaining := by
  intro fuel
  induction fuel with
  | zero => intro r ret h; omega
  | succ f ih =>
    intro r ret h
    cases h1 : r.atEnd with
    | true => exact ⟨r, ret, ParseImage_next_atEnd Q f r ret h1, le_refl _⟩
    | false =>
      have hn := readNext_remaining r h1
      rcases Token.three_cases r.readNext.cur with ⟨n, ns, a, hc⟩ | ⟨n, hc⟩ | ⟨hs, he⟩
      · rw [ParseImage_next_start Q f r ret n ns a h1 hc]
        split_ifs
        · have ht := readElementText_remaining r.readNext
          obtain ⟨r2, ret2, h2, h3⟩ := ih r.readNext.readElementText.2
            { ret with image_url_large := Q.fromEncoded r.readNext.readElementText.1 }
            (by omega)
          exact ⟨r2, ret2, h2, by omega⟩
        · have ht := ConsumeCurrentElement_remaining r.readNext
          obtain ⟨r2, ret2, h2, h3⟩ := ih (ConsumeCurrentElement r.readNext) ret (by omega)
          exact ⟨r2, ret2, h2, by omega⟩
      · rw [ParseImage_next_end Q f r ret h1 (by rw [hc]; rfl)]
        exact ⟨_, _, rfl, by omega⟩
      · rw [ParseImage_next_other Q f r ret h1 hs he]
        obtain ⟨r2, ret2, h2, h3⟩ := ih r.readNext ret (by omega)
        exact ⟨r2, ret2, h2, by omega⟩

theorem ParseItunesOwner_total (Q : Env) :
    ∀ (fuel : Nat) (r : Reader) (ret : Podcast), r.remaining < fuel →
      ∃ r2 ret2, ParseItunesOwner Q fuel r ret = some (r2, ret2)
        ∧ r2.remaining ≤ r.remaining := by
  intro fuel
  induction fuel with
  | zero => intro r ret h; omega
  | succ f ih =>
    intro r ret h
    cases h1 : r.atEnd with
    | true => exact ⟨r, ret, ParseItunesOwner_next_atEnd Q f r ret h1, le_refl _⟩
    | false =>
      have hn := readNext_remaining r h1
      have ht := readElementText_remaining r.readNext
      have hk := ConsumeCurrentElement_remaining r.readNext
      rcases Token.three_cases r.readNext.cur with ⟨n, ns, a, hc⟩ | ⟨n, hc⟩ | ⟨hs, he⟩
      · rw [ParseItunesOwner_next_start Q f r ret n ns a h1 hc]
        split_ifs
        · obtain ⟨r2, ret2, h2, h3⟩ := ih r.readNext.readElementText.2
            { ret with owner_name := r.readNext.readElementText.1 } (by omega)
          exact ⟨r2, ret2, h2, by omega⟩
        · obtain ⟨r2, ret2, h2, h3⟩ := ih r.readNext.readElementText.2
            { ret with owner_email := r.readNext.readElementText.1 } (by omega)
          exact ⟨r2, ret2, h2, by omega⟩
        · obtain ⟨r2, ret2, h2, h3⟩ := ih (ConsumeCurrentElement r.readNext) ret (by omega)
          exact ⟨r2, ret2, h2, by omega⟩
      · rw [ParseItunesOwner_next_end Q f r ret h1 (by rw [hc]; rfl)]
        exact ⟨_, _, rfl, by omega⟩
      · rw [ParseItunesOwner_next_other Q f r ret h1 hs he]
        obtain ⟨r2, ret2, h2, h3⟩ := ih r.readNext ret (by omega)
        exact ⟨r2, ret2, h2, by omega⟩

theorem ParseItemStartElement_remaining (Q : Env) (r : Reader) (e : PodcastEpisode)
    (n ns : String) (a : List (String × String)) :
    (ParseItemStartElement Q r e n ns a).1.remaining ≤ r.remaining := by
  rw [ParseItemStartElement_reader]
  split_ifs
  · exact readElementText_remaining r
  · exact ConsumeCurrentElement_remaining r

theorem ParseItemLoop_returns (Q : Env) :
    ∀ (fuel : Nat) (r : Reader) (clock : Nat) (episode : PodcastEpisode) (ret : Podcast),
      r.remaining < fuel →
      ∃ r2 clock2 ret2, ParseItemLoop Q fuel r clock episode ret = some (r2, clock2, ret2)
        ∧ r2.remaining ≤ r.remaining := by
  intro fuel
  induction fuel with
  | zero => intro r clock episode ret h; omega
  | succ f ih =>
    intro r clock episode ret h
    cases h1 : r.atEnd with
    | true => exact ⟨r, clock, ret, ParseItemLoop_next_atEnd Q f r clock episode ret h1, le_refl _⟩
    | false =>
      have hn := readNext_remaining r h1
      rcases Token.three_cases r.readNext.cur with ⟨n, ns, a, hc⟩ | ⟨n, hc⟩ | ⟨hs, he⟩
      · rw [ParseItemLoop_next_start Q f r clock episode ret n ns a h1 hc]
        have ht := ParseItemStartElement_remaining Q r.readNext episode n ns a
        obtain ⟨r2, c2, ret2, h2, h3⟩ := ih (ParseItemStartElement Q r.readNext episode n ns a).1
          clock (ParseItemStartElement Q r.readNext episode n ns a).2 ret (by omega)
        exact ⟨r2, c2, ret2, h2, by omega⟩
      · rw [ParseItemLoop_next_end Q f r clock episode ret h1 (by rw [hc]; rfl)]
        exact ⟨_, _, _, rfl, by omega⟩
      · rw [ParseItemLoop_next_other Q f r clock episode ret h1 hs he]
        obtain ⟨r2, c2, ret2, h2, h3⟩ := ih r.readNext clock episode ret (by omega)
        exact ⟨r2, c2, ret2, h2, by omega⟩

theorem ParseChannelStartElement_total (Q : Env) (fuel : Nat) (r : Reader) (clock : Nat)
    (ret : Podcast) (n ns : String) (a : List (String × String)) (h : r.remaining < fuel) :
    ∃ r2 clock2 ret2,
      ParseChannelStartElement Q fuel r clock ret n ns a = some (r2, clock2, ret2)
        ∧ r2.remaining ≤ r.remaining := by
  have ht := readElementText_remaining r
  have hk := ConsumeCurrentElement_remaining r
  unfold ParseChannelStartElement
  simp only
  split_ifs
  · exact ⟨_, _, _, rfl, ht⟩
  · exact ⟨_, _, _, rfl, ht⟩
  · exact ⟨_, _, _, rfl, ht⟩
  · obtain ⟨r2, ret2, h2, h3⟩ := ParseItunesOwner_total Q fuel r ret h
    rw [h2]
    exact ⟨_, _, _, rfl, h3⟩
  · obtain ⟨r2, ret2, h2, h3⟩ := ParseImage_total Q fuel r ret h
    rw [h2]
    exact ⟨_, _, _, rfl, h3⟩
  · exact ⟨_, _, _, rfl, ht⟩
  · exact ⟨_, _, _, rfl, ht⟩
  · exact ParseItemLoop_returns Q fuel r clock {} ret h
  · exact ⟨_, _, _, rfl, hk⟩

theorem ParseChannel_total (Q : Env) :
    ∀ (fuel : Nat) (r : Reader) (clock : Nat) (ret : Podcast), r.remaining < fuel →
      ∃ r2 clock2 ret2, ParseChannel Q fuel r clock ret = some (r2, clock2, ret2)
        ∧ r2.remaining ≤ r.remaining := by
  intro fuel
  induction fuel with
  | zero => intro r clock ret h; omega
  | succ f ih =>
    intro r clock ret h
    cases h1 : r.atEnd with
    | true => exact ⟨r, clock, ret, ParseChannel_next_atEnd Q f r clock ret h1, le_refl _⟩
    | false =>
      have hn := readNext_remaining r h1
      rcases Token.three_cases r.readNext.cur with ⟨n, ns, a, hc⟩ | ⟨n, hc⟩ | ⟨hs, he⟩
      · rw [ParseChannel_next_start Q f r clock ret n ns a h1 hc]
        obtain ⟨r1, c1, ret1, h2, h3⟩ :=
          ParseChannelStartElement_total Q f r.readNext clock ret n ns a (by omega)
        rw [h2]
        obtain ⟨r2, c2, ret2, h4, h5⟩ := ih r1 c1 ret1 (by omega)
        exact ⟨r2, c2, ret2, h4, by omega⟩
      · rw [ParseChannel_next_end Q f r clock ret h1 (by rw [hc]; rfl)]
        exact ⟨_, _, _, rfl, by omega⟩
      · rw [ParseChannel_next_other Q f r clock ret h1 hs he]
        obtain ⟨r2, c2, ret2, h2, h3⟩ := ih r.readNext clock ret (by omega)
        exact ⟨r2, c2, ret2, h2, by omega⟩

theorem ParseOutline_total (Q : Env) :
    ∀ (fuel : Nat) (r : Reader) (ret : OpmlContainer), r.remaining < fuel →
      ∃ r2 ret2, ParseOutline Q fuel r ret = some (r2, ret2) ∧ r2.remaining ≤ r.remaining := by
  intro fuel
  induction fuel with
  | zero => intro r ret h; omega
  | succ f ih =>
    intro r ret h
    cases h1 : r.atEnd with
    | true => exact ⟨r, ret, ParseOutline_next_atEnd Q f r ret h1, le_refl _⟩
    | false =>
      have hn := readNext_remaining r h1
      have hk := ConsumeCurrentElement_remaining r.readNext
      rcases Token.three_cases r.readNext.cur with ⟨n, ns, a, hc⟩ | ⟨n, hc⟩ | ⟨hs, he⟩
      · rw [ParseOutline_next_start Q f r ret n ns a h1 hc]
        split_ifs
        · obtain ⟨r2, ret2, h2, h3⟩ := ih (ConsumeCurrentElement r.readNext) ret (by omega)
          exact ⟨r2, ret2, h2, by omega⟩
        · obtain ⟨r2, ret2, h2, h3⟩ := ih (ConsumeCurrentElement r.readNext)
            (ret.appendFeed (outlineFeed Q a)) (by omega)
          exact ⟨r2, ret2, h2, by omega⟩
        · obtain ⟨r1, child, h2, h3⟩ := ih r.readNext (outlineChild a) (by omega)
          rw [h2]
          obtain ⟨r2, ret2, h4, h5⟩ := ih r1 (ret.appendContainer child) (by omega)
          exact ⟨r2, ret2, h4, by omega⟩
      · rw [ParseOutline_next_end Q f r ret h1 (by rw [hc]; rfl)]
        exact ⟨_, _, rfl, by omega⟩
      · rw [ParseOutline_next_other Q f r ret h1 hs he]
        obtain ⟨r2, ret2, h2, h3⟩ := ih r.readNext ret (by omega)
        exact ⟨r2, ret2, h2, by omega⟩

theorem ParseRss_total (Q : Env) (fuel : Nat) (r : Reader) (clock : Nat) (ret : Podcast)
    (h : r.remaining < fuel) :
    ∃ res, ParseRss Q fuel r clock ret = some res := by
  unfold ParseRss
  simp only
  split_ifs
  · exact ⟨_, rfl⟩
  · have hu := ParseUntilElement_remaining r "channel"
    obtain ⟨r2, c2, ret2, h2, _⟩ :=
      ParseChannel_total Q fuel (ParseUntilElement r "channel").2 clock ret (by omega)
    rw [h2]
    exact ⟨_, rfl⟩

theorem ParseOpml_total (Q : Env) (fuel : Nat) (r : Reader) (ret : OpmlContainer)
    (h : r.remaining < fuel) :
    ∃ res, ParseOpml Q fuel r ret = some res := by
  unfold ParseOpml
  simp only
  split_ifs
  · exact ⟨_, rfl⟩
  · have hu := ParseUntilElement_remaining r "body"
    obtain ⟨r2, ret2, h2, _⟩ :=
      ParseOutline_total Q fuel (ParseUntilElement r "body").2 ret (by omega)
    rw [h2]
    exact ⟨_, rfl⟩

theorem LoadLoop_total (Q : Env) (url : QUrl) :
    ∀ (fuel : Nat) (r : Reader), r.remaining < fuel → ∃ v, LoadLoop Q url fuel r = some v := by
  intro fuel
  induction fuel with
  | zero => intro r h; omega
  | succ f ih =>
    intro r h
    cases h1 : r.atEnd with
    | true => exact ⟨_, LoadLoop_next_atEnd Q url f r h1⟩
    | false =>
      have hn := readNext_remaining r h1
      cases hs : r.readNext.cur.isStartElement with
      | false =>
        rw [LoadLoop_next_other Q url f r h1 hs]
        exact ih r.readNext (by omega)
      | true =>
        rcases Token.three_cases r.readNext.cur with ⟨n, ns, a, hc⟩ | ⟨n, hc⟩ | ⟨hs3, _⟩
        · rw [LoadLoop_next_start Q url f r n ns a h1 hc]
          split_ifs
          · obtain ⟨res, h2⟩ := ParseRss_total Q f r.readNext 0 {} (by omega)
            rw [h2]
            obtain ⟨b, r2, c2, p⟩ := res
            cases b
            · exact ⟨_, rfl⟩
            · exact ⟨_, rfl⟩
          · obtain ⟨res, h2⟩ := ParseOpml_total Q f r.readNext OpmlContainer.empty (by omega)
            rw [h2]
            obtain ⟨b, r2, c⟩ := res
            cases b
            · exact ⟨_, rfl⟩
            · exact ⟨_, rfl⟩
          · exact ⟨_, rfl⟩
        · rw [hc] at hs; exact Bool.noConfusion hs
        · rw [hs3] at hs; exact Bool.noConfusion hs

theorem Load_total (Q : Env) (tokens : List Token) (url : QUrl) :
    ∃ v, Load Q tokens url = some v := by
  unfold Load
  exact LoadLoop_total Q url _ _
    (by rw [remaining_of_not_atEnd { cur := Token.NoToken, rest := tokens } rfl]; simp)


/-- C22: `Load` returns on every token stream, with the fuel it supplies. The
measure is the number of tokens the reader can still deliver: every call of
`readNext` made when the reader is not at its end lowers it, so every
iteration of every parser loop and every recursive call of `ParseOutline`
starts from a strictly smaller value; reading an element text, skipping an
element and searching for an element never raise it; and each parser,
given more fuel than the measure, returns with a reader whose measure is not
larger. The collapsing loop of `ParseOpml` stops after finitely many steps
down the chain of first child containers. -/
theorem Load_terminates (Q : Env) :
    (∀ (tokens : List Token) (url : QUrl), ∃ v, Load Q tokens url = some v)
      ∧ (∀ r : Reader, r.atEnd = false → r.readNext.remaining < r.remaining)
      ∧ (∀ r : Reader, r.readElementText.2.remaining ≤ r.remaining
          ∧ (ConsumeCurrentElement r).remaining ≤ r.remaining
          ∧ ∀ name, (ParseUntilElement r name).2.remaining ≤ r.remaining)
      ∧ (∀ (fuel : Nat) (r : Reader) (clock : Nat) (ret : Podcast), r.remaining < fuel →
          ∃ r2 clock2 ret2, ParseChannel Q fuel r clock ret = some (r2, clock2, ret2)
            ∧ r2.remaining ≤ r.remaining)
      ∧ (∀ (fuel : Nat) (r : Reader) (ret : Podcast), r.remaining < fuel →
          ∃ r2 ret2, ParseImage Q fuel r ret = some (r2, ret2) ∧ r2.remaining ≤ r.remaining)
      ∧ (∀ (fuel : Nat) (r : Reader) (ret : Podcast), r.remaining < fuel →
          ∃ r2 ret2, ParseItunesOwner Q fuel r ret = some (r2, ret2)
            ∧ r2.remaining ≤ r.remaining)
      ∧ (∀ (fuel : Nat) (r : Reader) (clock : Nat) (ret : Podcast), r.remaining < fuel →
          ∃ r2 clock2 ret2, ParseItem Q fuel r clock ret = some (r2, clock2, ret2)
            ∧ r2.remaining ≤ r.remaining)
      ∧ (∀ (fuel : Nat) (r : Reader) (ret : OpmlContainer), r.remaining < fuel →
          ∃ r2 ret2, ParseOutline Q fuel r ret = some (r2, ret2)
            ∧ r2.remaining ≤ r.remaining)
      ∧ (∀ root : OpmlContainer, ∃ k, collapseTop root = root.descend k) :=
  ⟨Load_total Q, readNext_remaining,
    fun r => ⟨readElementText_remaining r, ConsumeCurrentElement_remaining r,
      ParseUntilElement_remaining r⟩,
    ParseChannel_total Q, ParseImage_total Q, ParseItunesOwner_total Q,
    fun fuel r clock ret h => ParseItemLoop_returns Q fuel r clock {} ret h,
    ParseOutline_total Q,
    fun root => (collapseTop_chain (sizeOf root) root (le_refl _)).imp (fun _ h => h.1)⟩

/-- Witness for C22: a stream with an element that is never closed, an end
element without start and a title that is cut off by the end of the input. -/
theorem Load_terminates_witness :
    Load testEnv sampleUnbalancedFeed { encoded := "u" }
        = some (.podcast { title := "cut", url := { encoded := "u" } })
      ∧ (∃ r2 clock2 ret2,
          ParseChannel testEnv 8
              { cur := Token.StartElement "channel" "" [], rest := sampleUnbalancedFeed.drop 3 }
              0 {}
            = some (r2, clock2, ret2)
          ∧ r2.remaining
            ≤ Reader.remaining
                { cur := Token.StartElement "channel" "" [],
                  rest := sampleUnbalancedFeed.drop 3 })
      ∧ Reader.remaining
            (Reader.readNext { cur := Token.StartElement "channel" "" [],
                               rest := sampleUnbalancedFeed.drop 3 })
          < Reader.remaining
              { cur := Token.StartElement "channel" "" [], rest := sampleUnbalancedFeed.drop 3 } :=
  ⟨rfl,
    (Load_terminates testEnv).2.2.2.1 8
      { cur := Token.StartElement "channel" "" [], rest := sampleUnbalancedFeed.drop 3 } 0 {}
      (by decide),
    (Load_terminates testEnv).2.1
      { cur := Token.StartElement "channel" "" [], rest := sampleUnbalancedFeed.drop 3 } rfl⟩

/-- C28: what the sub-parsers of the channel do to the podcast they are
given. Whenever `ParseItem` returns, the podcast is the given one or the given
one with one episode appended to its episodes; whenever `ParseImage` returns,
only `image_url_large` can differ; whenever `ParseItunesOwner` returns, only
`owner_name` and `owner_email` can differ. With more fuel than the reader has
tokens to deliver each of them does return. -/
theorem sub_parsers_frame (Q : Env) :
    (∀ (fuel : Nat) (r : Reader) (clock : Nat) (ret : Podcast) (r2 : Reader) (clock2 : Nat)
        (ret2 : Podcast), ParseItem Q fuel r clock ret = some (r2, clock2, ret2) →
        ret2 = ret ∨ ∃ e, ret2 = { ret with episodes := ret.episodes ++ [e] })
      ∧ (∀ (fuel : Nat) (r : Reader) (ret : Podcast) (r2 : Reader) (ret2 : Podcast),
          ParseImage Q fuel r ret = some (r2, ret2) →
          ∃ x, ret2 = { ret with image_url_large := x })
      ∧ (∀ (fuel : Nat) (r : Reader) (ret : Podcast) (r2 : Reader) (ret2 : Podcast),
          ParseItunesOwner Q fuel r ret = some (r2, ret2) →
          ∃ x y, ret2 = { ret with owner_name := x, owner_email := y })
      ∧ (∀ (fuel : Nat) (r : Reader) (clock : Nat) (ret : Podcast), r.remaining < fuel →
          (∃ res, ParseItem Q fuel r clock ret = some res)
            ∧ (∃ res, ParseImage Q fuel r ret = some res)
            ∧ (∃ res, ParseItunesOwner Q fuel r ret = some res)) := by
  refine ⟨?_, ParseImage_frame Q, ParseItunesOwner_frame Q, ?_⟩
  · intro fuel r clock ret r2 clock2 ret2 h
    rcases ParseItemLoop_frame Q fuel r clock {} ret r2 clock2 ret2 h with h1 | ⟨e, _, h1⟩
    · exact Or.inl h1
    · exact Or.inr ⟨e, h1⟩
  · intro fuel r clock ret h
    obtain ⟨r1, c1, p1, h1, _⟩ := ParseItemLoop_returns Q fuel r clock {} ret h
    obtain ⟨r2, p2, h2, _⟩ := ParseImage_total Q fuel r ret h
    obtain ⟨r3, p3, h3, _⟩ := ParseItunesOwner_total Q fuel r ret h
    exact ⟨⟨_, h1⟩, ⟨_, h2⟩, ⟨_, h3⟩⟩


/-- Witness for C28: `ParseImage` on the content of an image element with a
podcast that has a title, and the three parsers on the content of the sample
item. -/
theorem sub_parsers_frame_witness :
    (∃ x, ({ title := "Show", image_url_large := { encoded := "http://x/logo.png" } } : Podcast)
        = { ({ title := "Show" } : Podcast) with image_url_large := x })
      ∧ ((∃ res, ParseItem testEnv 9
            { cur := Token.StartElement "item" "" [],
              rest := (sampleItemHead.append sampleItemTail).tokens
                ++ [Token.EndElement "item"] } 0 {} = some res)
        ∧ (∃ res, ParseImage testEnv 9
            { cur := Token.StartElement "item" "" [],
              rest := (sampleItemHead.append sampleItemTail).tokens
                ++ [Token.EndElement "item"] } {} = some res)
        ∧ (∃ res, ParseItunesOwner testEnv 9
            { cur := Token.StartElement "item" "" [],
              rest := (sampleItemHead.append sampleItemTail).tokens
                ++ [Token.EndElement "item"] } {} = some res)) :=
  ⟨(sub_parsers_frame testEnv).2.1 8
      { cur := Token.StartElement "image" "" [],
        rest := sampleImageContent.tokens ++ [Token.EndElement "image"] }
      { title := "Show" } { cur := Token.EndElement "image", rest := [] }
      { title := "Show", image_url_large := { encoded := "http://x/logo.png" } } rfl,
    (sub_parsers_frame testEnv).2.2.2 9
      { cur := Token.StartElement "item" "" [],
        rest := (sampleItemHead.append sampleItemTail).tokens ++ [Token.EndElement "item"] }
      0 {} (by decide)⟩

/-- C21: enter a parser with the cursor on the start element of an element
whose content is well formed, the elements that the parser reads as text
holding no child element. Then `ParseChannel`, `ParseImage`,
`ParseItunesOwner`, `ParseItem` and `ParseOutline` each return, with the cursor
on the end element of that same element and the tokens behind it unread. The
same holds for one child: the branch `ParseChannel` takes at the start element
of a child, and the branch `ParseItem` takes, leave the cursor on the end
element of that child. -/
theorem parsers_stop_at_matching_end (Q : Env) (n ns : String)
    (attrs : List (String × String)) (cs : Forest) (rest : List Token) (fuel : Nat)
    (hf : cs.tokens.length < fuel) :
    (∀ (clock : Nat) (ret : Podcast), channelOk cs = true →
        (ParseChannel Q fuel
            { cur := Token.StartElement n ns attrs,
              rest := cs.tokens ++ Token.EndElement n :: rest } clock ret).map (fun x => x.1)
          = some { cur := Token.EndElement n, rest := rest })
      ∧ (∀ ret : Podcast, imageOk cs = true →
        (ParseImage Q fuel
            { cur := Token.StartElement n ns attrs,
              rest := cs.tokens ++ Token.EndElement n :: rest } ret).map (fun x => x.1)
          = some { cur := Token.EndElement n, rest := rest })
      ∧ (∀ ret : Podcast, ownerOk cs = true →
        (ParseItunesOwner Q fuel
            { cur := Token.StartElement n ns attrs,
              rest := cs.tokens ++ Token.EndElement n :: rest } ret).map (fun x => x.1)
          = some { cur := Token.EndElement n, rest := rest })
      ∧ (∀ (clock : Nat) (ret : Podcast), itemOk cs = true →
        (ParseItem Q fuel
            { cur := Token.StartElement n ns attrs,
              rest := cs.tokens ++ Token.EndElement n :: rest } clock ret).map (fun x => x.1)
          = some { cur := Token.EndElement n, rest := rest })
      ∧ (∀ ret : OpmlContainer,
        (ParseOutline Q fuel
            { cur := Token.StartElement n ns attrs,
              rest := cs.tokens ++ Token.EndElement n :: rest } ret).map (fun x => x.1)
          = some { cur := Token.EndElement n, rest := rest })
      ∧ (∀ (clock : Nat) (ret : Podcast), channelChildOk n ns cs = true →
        (ParseChannelStartElement Q fuel
            { cur := Token.StartElement n ns attrs,
              rest := cs.tokens ++ Token.EndElement n :: rest }
            clock ret n ns attrs).map (fun x => x.1)
          = some { cur := Token.EndElement n, rest := rest })
      ∧ (∀ episode : PodcastEpisode, (itemReadsText n ns → cs.textOnly = true) →
        (ParseItemStartElement Q
            { cur := Token.StartElement n ns attrs,
              rest := cs.tokens ++ Token.EndElement n :: rest } episode n ns attrs).1
          = { cur := Token.EndElement n, rest := rest }) := by
  refine ⟨?_, ?_, ?_, ?_, ?_, ?_, ?_⟩
  · intro clock ret hok
    rw [ParseChannel_forest Q cs fuel (Token.StartElement n ns attrs) n rest clock ret rfl hf hok]
    rfl
  · intro ret hok
    rw [ParseImage_forest Q cs fuel (Token.StartElement n ns attrs) n rest ret rfl hf hok]
    rfl
  · intro ret hok
    rw [ParseItunesOwner_forest Q cs fuel (Token.StartElement n ns attrs) n rest ret rfl hf hok]
    rfl
  · intro clock ret hok
    obtain ⟨c2, h⟩ := ParseItem_forest Q cs fuel (Token.StartElement n ns attrs) n rest clock ret
      rfl hf hok
    rw [h]
    rfl
  · intro ret
    obtain ⟨name, url, feeds, containers⟩ := ret
    rw [ParseOutline_forest Q cs fuel (Token.StartElement n ns attrs) n rest name url feeds containers rfl hf]
    rfl
  · intro clock ret hok
    rw [ParseChannelStartElement_forest Q fuel n ns attrs cs rest clock ret hf hok]
    rfl
  · intro episode hok
    rw [ParseItemStartElement_forest Q n ns attrs cs rest episode hok]

/-- Witness for C21: the sample channel with an element of three levels that
no branch looks into, and the content of an iTunes owner element. -/
theorem parsers_stop_at_matching_end_witness :
    (ParseChannel testEnv 40
          { cur := Token.StartElement "channel" "" [],
            rest := (sampleChannelHead.append
                (.element "extension" "http://x/ns" [] sampleUnknownContent
                  sampleChannelTail)).tokens
              ++ Token.EndElement "channel" :: [Token.EndElement "rss"] }
          0 {}).map (fun x => x.1)
        = some { cur := Token.EndElement "channel", rest := [Token.EndElement "rss"] }
      ∧ (ParseItunesOwner testEnv 40
          { cur := Token.StartElement "owner" "" [],
            rest := sampleOwnerContent.tokens
              ++ Token.EndElement "owner" :: [Token.EndElement "channel"] }
          {}).map (fun x => x.1)
        = some { cur := Token.EndElement "owner", rest := [Token.EndElement "channel"] } :=
  ⟨(parsers_stop_at_matching_end testEnv "channel" "" []
      (sampleChannelHead.append
        (.element "extension" "http://x/ns" [] sampleUnknownContent sampleChannelTail))
      [Token.EndElement "rss"] 40 (by decide)).1 0 {} rfl,
    (parsers_stop_at_matching_end testEnv "owner" "" [] sampleOwnerContent
      [Token.EndElement "channel"] 40 (by decide)).2.2.1 {} rfl⟩

/-! ### Reaching `channel` and `body` -/

theorem plainTokens_nil : plainTokens [] := fun t ht => by cases ht

theorem tokensBefore_nil (name : String) : tokensBefore name [] := fun t ht => by cases ht

theorem ParseUntilElementFrom_true (name : String) (ts : List Token) :
    ∀ cur : Token, (ParseUntilElementFrom name cur ts).1 = true →
      cur.atEnd = false
        ∧ ∃ mid ns attrs post, ts = mid ++ Token.StartElement name ns attrs :: post
          ∧ tokensBefore name mid
          ∧ ParseUntilElementFrom name cur ts
            = (true, { cur := Token.StartElement name ns attrs, rest := post }) := by
  induction ts with
  | nil =>
    intro cur h
    unfold ParseUntilElementFrom at h
    split_ifs at h
  | cons t ts ih =>
    intro cur h
    cases hc : cur.atEnd with
    | true =>
      rw [ParseUntilElementFrom_atEnd _ _ _ hc] at h
      exact Bool.noConfusion h
    | false =>
      refine ⟨rfl, ?_⟩
      rcases Token.three_cases t with ⟨n, ns, a, rfl⟩ | ⟨n, rfl⟩ | ⟨hs, he⟩
      · rw [ParseUntilElementFrom_start _ _ _ _ _ _ hc] at h ⊢
        by_cases hn : n = name
        · subst hn
          rw [if_pos rfl]
          exact ⟨[], ns, a, ts, rfl, tokensBefore_nil _, rfl⟩
        · rw [if_neg hn] at h ⊢
          obtain ⟨_, mid, ns2, a2, post, h1, h2, h3⟩ := ih _ h
          refine ⟨Token.StartElement n ns a :: mid, ns2, a2, post, by rw [h1]; rfl, ?_, h3⟩
          intro x hx
          rcases List.mem_cons.1 hx with rfl | hx
          · exact ⟨rfl, by simp [Token.isStartNamed, hn]⟩
          · exact h2 x hx
      · rw [ParseUntilElementFrom_other _ _ (Token.EndElement n) _ hc rfl] at h ⊢
        obtain ⟨_, mid, ns2, a2, post, h1, h2, h3⟩ := ih _ h
        refine ⟨Token.EndElement n :: mid, ns2, a2, post, by rw [h1]; rfl, ?_, h3⟩
        intro x hx
        rcases List.mem_cons.1 hx with rfl | hx
        · exact ⟨rfl, rfl⟩
        · exact h2 x hx
      · rw [ParseUntilElementFrom_other _ _ t _ hc hs] at h ⊢
        obtain ⟨hta, mid, ns2, a2, post, h1, h2, h3⟩ := ih _ h
        refine ⟨t :: mid, ns2, a2, post, by rw [h1]; rfl, ?_, h3⟩
        intro x hx
        rcases List.mem_cons.1 hx with rfl | hx
        · refine ⟨hta, ?_⟩
          cases x <;> first
            | rfl
            | exact Bool.noConfusion hs
        · exact h2 x hx

theorem ParseOpml_found (Q : Env) (fuel : Nat) (r : Reader) (ret : OpmlContainer)
    (r2 : Reader) (ret2 : OpmlContainer)
    (h : ParseOpml Q fuel r ret = some (true, r2, ret2)) :
    (ParseUntilElement r "body").1 = true
      ∧ ∃ root, ParseOutline Q fuel (ParseUntilElement r "body").2 ret = some (r2, root)
          ∧ ret2 = collapseTop root := by
  simp only [ParseOpml] at h
  split_ifs at h with h1
  · cases h
  · split at h
    · cases h
    · rename_i hch
      cases h
      exact ⟨by simpa using h1, _, hch, rfl⟩

theorem reachesElement_cons (root inner : String) (t : Token) (ts : List Token)
    (ha : t.atEnd = false) (hs : t.isStartElement = false)
    (h : reachesElement root inner ts) : reachesElement root inner (t :: ts) := by
  obtain ⟨pre, ns, attrs, mid, ns2, attrs2, post, h1, h2, h3⟩ := h
  refine ⟨t :: pre, ns, attrs, mid, ns2, attrs2, post, by rw [h1]; rfl, ?_, h3⟩
  intro x hx
  rcases List.mem_cons.1 hx with rfl | hx
  · exact ⟨ha, hs⟩
  · exact h2 x hx

theorem LoadLoop_result_reaches (Q : Env) (url : QUrl) :
    ∀ (fuel : Nat) (r : Reader) (v : QVariant), LoadLoop Q url fuel r = some v →
      ((∃ p, v = .podcast p) → r.atEnd = false ∧ reachesElement "rss" "channel" r.rest)
        ∧ ((∃ c, v = .opml c) → r.atEnd = false ∧ reachesElement "opml" "body" r.rest) := by
  intro fuel
  induction fuel with
  | zero => intro r v h; simp [LoadLoop] at h
  | succ f ih =>
    intro r v h
    obtain ⟨cur, rest⟩ := r
    cases hc : cur.atEnd with
    | true =>
      rw [LoadLoop_atEnd Q url f _ hc] at h
      cases h
      exact ⟨fun ⟨p, hp⟩ => (by cases hp), fun ⟨c, hc⟩ => (by cases hc)⟩
    | false =>
      have hr : Reader.atEnd { cur := cur, rest := rest } = false := hc
      cases rest with
      | nil =>
        rw [LoadLoop_next_other Q url f _ hr (by rw [readNext_nil]; rfl), readNext_nil] at h
        have h2 := ih _ _ h
        constructor
        · intro hp
          exact Bool.noConfusion (h2.1 hp).1
        · intro hp
          exact Bool.noConfusion (h2.2 hp).1
      | cons t ts =>
        rcases Token.three_cases t with ⟨n, ns, a, rfl⟩ | ⟨n, rfl⟩ | ⟨hs, he⟩
        · rw [LoadLoop_start Q url f cur n ns a ts hc] at h
          split_ifs at h with hrss hopml
          · subst hrss
            split at h
            · cases h
            · cases h
              exact ⟨fun ⟨p, hp⟩ => (by cases hp), fun ⟨c, hc⟩ => (by cases hc)⟩
            · rename_i heq
              cases h
              refine ⟨fun _ => ⟨hr, ?_⟩, fun ⟨c, hc⟩ => (by cases hc)⟩
              have hf := (ParseRss_found Q _ _ _ _ _ _ _ heq).1
              obtain ⟨_, mid, ns2, a2, post, h1, h2, _⟩ :=
                ParseUntilElementFrom_true "channel" ts _ hf
              exact ⟨[], ns, a, mid, ns2, a2, post, by rw [h1]; rfl,
                plainTokens_nil, h2⟩
          · subst hopml
            split at h
            · cases h
            · cases h
              exact ⟨fun ⟨p, hp⟩ => (by cases hp), fun ⟨c, hc⟩ => (by cases hc)⟩
            · rename_i heq
              cases h
              refine ⟨fun ⟨p, hp⟩ => (by cases hp), fun _ => ⟨hr, ?_⟩⟩
              have hf := (ParseOpml_found Q _ _ _ _ _ heq).1
              obtain ⟨_, mid, ns2, a2, post, h1, h2, _⟩ :=
                ParseUntilElementFrom_true "body" ts _ hf
              exact ⟨[], ns, a, mid, ns2, a2, post, by rw [h1]; rfl,
                plainTokens_nil, h2⟩
          · cases h
            exact ⟨fun ⟨p, hp⟩ => (by cases hp), fun ⟨c, hc⟩ => (by cases hc)⟩
        · rw [LoadLoop_skip Q url f cur (Token.EndElement n) ts hc rfl] at h
          have h2 := ih _ _ h
          exact ⟨fun hp => ⟨hr, reachesElement_cons _ _ _ _ (h2.1 hp).1 rfl (h2.1 hp).2⟩,
            fun hp => ⟨hr, reachesElement_cons _ _ _ _ (h2.2 hp).1 rfl (h2.2 hp).2⟩⟩
        · rw [LoadLoop_skip Q url f cur t ts hc hs] at h
          have h2 := ih _ _ h
          exact ⟨fun hp => ⟨hr, reachesElement_cons _ _ _ _ (h2.1 hp).1 hs (h2.1 hp).2⟩,
            fun hp => ⟨hr, reachesElement_cons _ _ _ _ (h2.2 hp).1 hs (h2.2 hp).2⟩⟩


theorem Load_reaches_channel (Q : Env) (url : QUrl) (pre : List Token) (ns : String)
    (attrs : List (String × String)) (mid : List Token) (ns2 : String)
    (attrs2 : List (String × String)) (post : List Token)
    (hpre : plainTokens pre) (hmid : tokensBefore "channel" mid)
    (r2 : Reader) (clock2 : Nat) (ret : Podcast)
    (hparse : ParseChannel Q (mid.length + post.length + 3)
      { cur := Token.StartElement "channel" ns2 attrs2, rest := post } 0 {}
        = some (r2, clock2, ret)) :
    Load Q (pre ++ Token.StartElement "rss" ns attrs
        :: (mid ++ Token.StartElement "channel" ns2 attrs2 :: post)) url
      = some (.podcast { ret with url := url }) := by
  unfold Load
  obtain ⟨cur2, h1, h2⟩ := LoadLoop_scan_plain Q url (Token.StartElement "rss" ns attrs)
    (mid ++ Token.StartElement "channel" ns2 attrs2 :: post) pre hpre Token.NoToken
    (mid.length + post.length + 4) rfl
  have hlen : (pre ++ Token.StartElement "rss" ns attrs
      :: (mid ++ Token.StartElement "channel" ns2 attrs2 :: post)).length + 2
      = pre.length + (mid.length + post.length + 4) := by
    simp only [List.length_append, List.length_cons]
    omega
  rw [hlen, h2, LoadLoop_start Q url _ cur2 _ _ _ _ h1, if_pos rfl]
  have hfound : ParseUntilElement
      { cur := Token.StartElement "rss" ns attrs,
        rest := mid ++ Token.StartElement "channel" ns2 attrs2 :: post } "channel"
      = (true, { cur := Token.StartElement "channel" ns2 attrs2, rest := post }) :=
    ParseUntilElementFrom_found "channel" ns2 attrs2 _ mid hmid _ rfl
  have hrss : ParseRss Q (mid.length + post.length + 3)
      { cur := Token.StartElement "rss" ns attrs,
        rest := mid ++ Token.StartElement "channel" ns2 attrs2 :: post } 0 {}
      = some (true, r2, clock2, ret) := by
    unfold ParseRss
    simp only [hfound]
    rw [if_neg (by decide), hparse]
  rw [hrss]

theorem Load_reaches_body (Q : Env) (url : QUrl) (pre : List Token) (ns : String)
    (attrs : List (String × String)) (mid : List Token) (ns2 : String)
    (attrs2 : List (String × String)) (post : List Token)
    (hpre : plainTokens pre) (hmid : tokensBefore "body" mid)
    (r2 : Reader) (root : OpmlContainer)
    (hparse : ParseOutline Q (mid.length + post.length + 3)
      { cur := Token.StartElement "body" ns2 attrs2, rest := post } OpmlContainer.empty
        = some (r2, root)) :
    Load Q (pre ++ Token.StartElement "opml" ns attrs
        :: (mid ++ Token.StartElement "body" ns2 attrs2 :: post)) url
      = some (.opml ((collapseTop root).setUrl url)) := by
  unfold Load
  obtain ⟨cur2, h1, h2⟩ := LoadLoop_scan_plain Q url (Token.StartElement "opml" ns attrs)
    (mid ++ Token.StartElement "body" ns2 attrs2 :: post) pre hpre Token.NoToken
    (mid.length + post.length + 4) rfl
  have hlen : (pre ++ Token.StartElement "opml" ns attrs
      :: (mid ++ Token.StartElement "body" ns2 attrs2 :: post)).length + 2
      = pre.length + (mid.length + post.length + 4) := by
    simp only [List.length_append, List.length_cons]
    omega
  rw [hlen, h2, LoadLoop_start Q url _ cur2 _ _ _ _ h1, if_neg (by decide), if_pos rfl]
  have hfound : ParseUntilElement
      { cur := Token.StartElement "opml" ns attrs,
        rest := mid ++ Token.StartElement "body" ns2 attrs2 :: post } "body"
      = (true, { cur := Token.StartElement "body" ns2 attrs2, rest := post }) :=
    ParseUntilElementFrom_found "body" ns2 attrs2 _ mid hmid _ rfl
  have hopml : ParseOpml Q (mid.length + post.length + 3)
      { cur := Token.StartElement "opml" ns attrs,
        rest := mid ++ Token.StartElement "body" ns2 attrs2 :: post } OpmlContainer.empty
      = some (true, r2, collapseTop root) := by
    unfold ParseOpml
    simp only [hfound]
    rw [if_neg (by decide), hparse]
  rw [hopml]

theorem Load_podcast_iff (Q : Env) (url : QUrl) (tokens : List Token) :
    (∃ p, Load Q tokens url = some (.podcast p)) ↔ reachesElement "rss" "channel" tokens := by
  constructor
  · rintro ⟨p, hp⟩
    exact ((LoadLoop_result_reaches Q url _ _ _ hp).1 ⟨p, rfl⟩).2
  · rintro ⟨pre, ns, attrs, mid, ns2, attrs2, post, rfl, hpre, hmid⟩
    obtain ⟨r2, c2, ret, h, _⟩ := ParseChannel_total Q (mid.length + post.length + 3)
      { cur := Token.StartElement "channel" ns2 attrs2, rest := post } 0 {}
      (by
        rw [remaining_of_not_atEnd
          { cur := Token.StartElement "channel" ns2 attrs2, rest := post } rfl]
        simp only
        omega)
    exact ⟨_, Load_reaches_channel Q url pre ns attrs mid ns2 attrs2 post hpre hmid r2 c2 ret h⟩

theorem Load_opml_iff (Q : Env) (url : QUrl) (tokens : List Token) :
    (∃ c, Load Q tokens url = some (.opml c)) ↔ reachesElement "opml" "body" tokens := by
  constructor
  · rintro ⟨c, hc⟩
    exact ((LoadLoop_result_reaches Q url _ _ _ hc).2 ⟨c, rfl⟩).2
  · rintro ⟨pre, ns, attrs, mid, ns2, attrs2, post, rfl, hpre, hmid⟩
    obtain ⟨r2, root, h, _⟩ := ParseOutline_total Q (mid.length + post.length + 3)
      { cur := Token.StartElement "body" ns2 attrs2, rest := post } OpmlContainer.empty
      (by
        rw [remaining_of_not_atEnd
          { cur := Token.StartElement "body" ns2 attrs2, rest := post } rfl]
        simp only
        omega)
    exact ⟨_, Load_reaches_body Q url pre ns attrs mid ns2 attrs2 post hpre hmid r2 root h⟩

theorem any_split (p : Token → Bool) (ts : List Token) (h : ts.any p = true) :
    ∃ mid x post, ts = mid ++ x :: post ∧ p x = true ∧ ∀ y ∈ mid, p y = false := by
  induction ts with
  | nil => simp at h
  | cons t ts ih =>
    cases hp : p t with
    | true => exact ⟨[], t, ts, rfl, hp, fun y hy => by cases hy⟩
    | false =>
      rw [List.any_cons, hp, Bool.false_or] at h
      obtain ⟨mid, x, post, h1, h2, h3⟩ := ih h
      refine ⟨t :: mid, x, post, by rw [h1]; rfl, h2, ?_⟩
      intro y hy
      rcases List.mem_cons.1 hy with rfl | hy
      · exact hp
      · exact h3 y hy

theorem mem_dropLast_of_append (xs : List Token) (y : Token) (ys : List Token) (t : Token)
    (h : t ∈ xs) : t ∈ (xs ++ y :: ys).dropLast := by
  rw [List.dropLast_append_of_ne_nil _ (List.cons_ne_nil y ys)]
  exact List.mem_append_left _ h

theorem reachesElement_iff (root inner : String) (tokens : List Token)
    (hend : endsOnlyAtLast tokens) :
    reachesElement root inner tokens ↔ firstStartThenLater root inner tokens := by
  constructor
  · rintro ⟨pre, ns, attrs, mid, ns2, attrs2, post, rfl, hpre, hmid⟩
    refine ⟨pre, ns, attrs, _, rfl, fun t ht => (hpre t ht).2, ?_⟩
    simp [Token.isStartNamed]
  · rintro ⟨pre, ns, attrs, post, rfl, hpre, hany⟩
    obtain ⟨mid, x, post2, rfl, hx, hmid⟩ := any_split _ _ hany
    cases x with
    | StartElement n ns2 attrs2 =>
      have hn : n = inner := by simpa [Token.isStartNamed] using hx
      subst hn
      refine ⟨pre, ns, attrs, mid, ns2, attrs2, post2, rfl, ?_, ?_⟩
      · intro t ht
        exact ⟨hend t (mem_dropLast_of_append pre _ _ t ht), hpre t ht⟩
      · intro t ht
        refine ⟨hend t ?_, hmid t ht⟩
        have : pre ++ Token.StartElement root ns attrs
            :: (mid ++ Token.StartElement n ns2 attrs2 :: post2)
            = (pre ++ Token.StartElement root ns attrs :: mid)
              ++ Token.StartElement n ns2 attrs2 :: post2 := by simp
        rw [this]
        exact mem_dropLast_of_append _ _ _ t
          (List.mem_append_right _ (List.mem_cons_of_mem _ ht))
    | _ => exact Bool.noConfusion hx

theorem ParseChannel_forest_cut (Q : Env) (cs : Forest) :
    ∀ (fuel : Nat) (cur : Token) (tail : List Token) (clock : Nat) (ret : Podcast),
      cur.atEnd = false → cs.tokens.length + 2 ≤ fuel → channelOk cs = true →
      (tail = [] ∨ ∃ t junk, tail = t :: junk ∧ t.atEnd = true) →
      ∃ r2, ParseChannel Q fuel { cur := cur, rest := cs.tokens ++ tail } clock ret
        = some (r2, (channelOf Q cs clock ret).1, (channelOf Q cs clock ret).2) := by
  induction cs with
  | nil =>
    intro fuel cur tail clock ret hc hf _ htail
    obtain ⟨f, rfl⟩ : ∃ f, fuel = f + 2 := ⟨fuel - 2, by omega⟩
    simp only [Forest.tokens, List.nil_append]
    rcases htail with rfl | ⟨t, junk, rfl, ht⟩
    · rw [ParseChannel_nil Q (f + 1) cur clock ret hc,
        ParseChannel_atEnd Q f { cur := Token.Invalid, rest := [] } clock ret rfl]
      exact ⟨_, rfl⟩
    · have hs : t.isStartElement = false := by
        cases t <;> first | rfl | exact Bool.noConfusion ht
      have he : t.isEndElement = false := by
        cases t <;> first | rfl | exact Bool.noConfusion ht
      rw [ParseChannel_other Q (f + 1) cur t junk clock ret hc hs he,
        ParseChannel_atEnd Q f _ clock ret ht]
      exact ⟨_, rfl⟩
  | element n ns attrs children siblings _ ih2 =>
    intro fuel cur tail clock ret hc hf hok htail
    obtain ⟨f, rfl⟩ : ∃ f, fuel = f + 1 := ⟨fuel - 1, by omega⟩
    simp only [Forest.tokens, List.length_cons, List.length_append] at hf
    simp only [channelOk, Bool.and_eq_true] at hok
    simp only [Forest.tokens, List.cons_append, List.append_assoc]
    rw [ParseChannel_start Q f cur n ns attrs _ clock ret hc,
      ParseChannelStartElement_forest Q f n ns attrs children _ clock ret (by omega) hok.1]
    exact ih2 f (Token.EndElement n) tail _ _ rfl (by omega) hok.2 htail
  | leaf l siblings ih =>
    intro fuel cur tail clock ret hc hf hok htail
    obtain ⟨f, rfl⟩ : ∃ f, fuel = f + 1 := ⟨fuel - 1, by omega⟩
    simp only [Forest.tokens, List.length_cons] at hf
    simp only [Forest.tokens, List.cons_append]
    rw [ParseChannel_other Q f cur l.token _ clock ret hc (Leaf.token_isStartElement l)
      (Leaf.token_isEndElement l)]
    exact ih f l.token tail clock ret (Leaf.token_atEnd l) (by omega)
      (by simpa [channelOk] using hok) htail


/-- C25: `Load` returns a podcast exactly when the reader gets to a first
start element named `rss` and behind it to a start element named `channel`,
and a container exactly when it gets to a first start element named `opml` and
behind it to one named `body`. For a stream in which only the last token can
be the end of the document or an error, that is: the first start element is
`rss` (`opml`) and some later start element is named `channel` (`body`). Once
the channel is found a podcast is returned whatever follows: when the stream
ends or an error comes behind some complete children of the channel, the
podcast holds what those children give. -/
theorem Load_result_kind (Q : Env) (url : QUrl) :
    (∀ tokens : List Token,
        ((∃ p, Load Q tokens url = some (.podcast p))
            ↔ reachesElement "rss" "channel" tokens)
          ∧ ((∃ c, Load Q tokens url = some (.opml c))
            ↔ reachesElement "opml" "body" tokens))
      ∧ (∀ tokens : List Token, endsOnlyAtLast tokens →
          ((∃ p, Load Q tokens url = some (.podcast p))
              ↔ firstStartThenLater "rss" "channel" tokens)
            ∧ ((∃ c, Load Q tokens url = some (.opml c))
              ↔ firstStartThenLater "opml" "body" tokens))
      ∧ (∀ (pre : List Token) (ns : String) (attrs : List (String × String))
          (mid : List Token) (ns2 : String) (attrs2 : List (String × String))
          (cs : Forest) (tail : List Token),
          plainTokens pre → tokensBefore "channel" mid → channelOk cs = true →
          (tail = [] ∨ ∃ t junk, tail = t :: junk ∧ t.atEnd = true) →
          Load Q (pre ++ Token.StartElement "rss" ns attrs
              :: (mid ++ Token.StartElement "channel" ns2 attrs2 :: (cs.tokens ++ tail))) url
            = some (.podcast { (channelOf Q cs 0 {}).2 with url := url })) := by
  refine ⟨fun tokens => ⟨Load_podcast_iff Q url tokens, Load_opml_iff Q url tokens⟩, ?_, ?_⟩
  · intro tokens hend
    exact ⟨(Load_podcast_iff Q url tokens).trans (reachesElement_iff _ _ tokens hend),
      (Load_opml_iff Q url tokens).trans (reachesElement_iff _ _ tokens hend)⟩
  · intro pre ns attrs mid ns2 attrs2 cs tail hpre hmid hok htail
    obtain ⟨r2, h⟩ := ParseChannel_forest_cut Q cs (mid.length + (cs.tokens ++ tail).length + 3)
      (Token.StartElement "channel" ns2 attrs2) tail 0 {} rfl
      (by simp only [List.length_append]; omega) hok htail
    exact Load_reaches_channel Q url pre ns attrs mid ns2 attrs2 _ hpre hmid r2 _ _ h

/-- Witness for C25: the stream that ends inside the channel, and the sample
channel cut off behind its children, before the end element of the channel. -/
theorem Load_result_kind_witness :
    (((∃ p, Load testEnv sampleUnbalancedFeed { encoded := "u" } = some (.podcast p))
          ↔ firstStartThenLater "rss" "channel" sampleUnbalancedFeed)
        ∧ ((∃ c, Load testEnv sampleUnbalancedFeed { encoded := "u" } = some (.opml c))
          ↔ firstStartThenLater "opml" "body" sampleUnbalancedFeed))
      ∧ Load testEnv ([Token.StartDocument] ++ Token.StartElement "rss" "" []
            :: ([] ++ Token.StartElement "channel" "" []
              :: ((sampleChannelHead.append sampleChannelTail).tokens ++ []))) { encoded := "u" }
          = some (.podcast
              { (channelOf testEnv (sampleChannelHead.append sampleChannelTail) 0 {}).2 with
                url := { encoded := "u" } }) :=
  ⟨(Load_result_kind testEnv { encoded := "u" }).2.1 sampleUnbalancedFeed
      (by unfold endsOnlyAtLast; decide),
    (Load_result_kind testEnv { encoded := "u" }).2.2 [Token.StartDocument] "" [] [] "" []
      (sampleChannelHead.append sampleChannelTail) []
      (by intro t ht; simp at ht; subst ht; exact ⟨rfl, rfl⟩)
      (by intro t ht; simp at ht)
      rfl (Or.inl rfl)⟩


/-! ### Title and description: the last child of that local name -/

theorem channelElement_description (Q : Env) (clock : Nat) (ret : Podcast) (n ns : String)
    (attrs : List (String × String)) (cs : Forest) :
    (channelElement Q clock ret n ns attrs cs).2.description
      = if n = "description" then cs.text else ret.description := by
  by_cases h : n = "description"
  · subst h
    simp [channelElement]
  · rw [if_neg h]
    unfold channelElement
    split_ifs with h1 h2 h4 h5 h6 h7 h8
    · rfl
    · rfl
    · simp only; rw [ownerOf_fields]
    · simp only; rw [imageOf_fields]
    · rfl
    · rfl
    · rw [(ParseItemEndElement_fields Q clock _ ret).2]
    · rfl

theorem channelOf_description (Q : Env) (cs : Forest) :
    ∀ (clock : Nat) (ret : Podcast),
      (channelOf Q cs clock ret).2.description
        = (lastText "description" cs).getD ret.description := by
  induction cs with
  | nil => intro clock ret; rfl
  | element n ns attrs children siblings _ ih2 =>
    intro clock ret
    simp only [channelOf, lastText]
    rw [ih2, channelElement_description]
    cases lastText "description" siblings with
    | some t => rfl
    | none =>
      by_cases h : n = "description"
      · simp [h]
      · simp [h]
  | leaf l siblings ih => intro clock ret; exact ih clock ret

theorem setDuration_title (episode : PodcastEpisode) (text : String) :
    (setDuration episode text).title = episode.title
      ∧ (setDuration episode text).description = episode.description := by
  unfold setDuration
  split <;> exact ⟨rfl, rfl⟩

theorem setEnclosure_title (Q : Env) (episode : PodcastEpisode)
    (attrs : List (String × String)) :
    (setEnclosure Q episode attrs).title = episode.title
      ∧ (setEnclosure Q episode attrs).description = episode.description := by
  unfold setEnclosure
  simp only
  split_ifs <;> exact ⟨rfl, rfl⟩

theorem itemElement_title (Q : Env) (episode : PodcastEpisode) (n ns : String)
    (attrs : List (String × String)) (cs : Forest) :
    (itemElement Q episode n ns attrs cs).title
      = if n = "title" then cs.text else episode.title := by
  by_cases h : n = "title"
  · subst h
    simp [itemElement]
  · rw [if_neg h]
    unfold itemElement
    rw [if_neg h]
    split_ifs
    · rfl
    · rfl
    · exact (setDuration_title _ _).1
    · exact (setEnclosure_title _ _ _).1
    · rfl
    · rfl

theorem itemElement_description (Q : Env) (episode : PodcastEpisode) (n ns : String)
    (attrs : List (String × String)) (cs : Forest) :
    (itemElement Q episode n ns attrs cs).description
      = if n = "description" then cs.text else episode.description := by
  by_cases h : n = "description"
  · subst h
    simp [itemElement]
  · rw [if_neg h]
    unfold itemElement
    split_ifs
    · rfl
    · rfl
    · exact (setDuration_title _ _).2
    · exact (setEnclosure_title _ _ _).2
    · rfl
    · rfl

theorem itemOf_title (Q : Env) (cs : Forest) :
    ∀ episode : PodcastEpisode,
      (itemOf Q cs episode).title = (lastText "title" cs).getD episode.title := by
  induction cs with
  | nil => intro episode; rfl
  | element n ns attrs children siblings _ ih2 =>
    intro episode
    simp only [itemOf, lastText]
    rw [ih2, itemElement_title]
    cases lastText "title" siblings with
    | some t => rfl
    | none =>
      by_cases h : n = "title"
      · simp [h]
      · simp [h]
  | leaf l siblings ih => intro episode; exact ih episode

theorem itemOf_description (Q : Env) (cs : Forest) :
    ∀ episode : PodcastEpisode,
      (itemOf Q cs episode).description
        = (lastText "description" cs).getD episode.description := by
  induction cs with
  | nil => intro episode; rfl
  | element n ns attrs children siblings _ ih2 =>
    intro episode
    simp only [itemOf, lastText]
    rw [ih2, itemElement_description]
    cases lastText "description" siblings with
    | some t => rfl
    | none =>
      by_cases h : n = "description"
      · simp [h]
      · simp [h]
  | leaf l siblings ih => intro episode; exact ih episode

theorem lastText_last (name : String) (before after : Forest) (ns : String)
    (attrs : List (String × String)) (content : Forest) (h : lastText name after = none) :
    lastText name (before.append (.element name ns attrs content after))
      = some content.text := by
  rw [lastText_append]
  simp [lastText, h]

/-! ### The URL of the podcast in `ParseChannel` -/

theorem kAtomNamespace_not_empty (ns : String) (h : toLower ns = kAtomNamespace) :
    isEmpty (toLower ns) = false := by
  rw [h]
  rfl

theorem ParseChannelStartElement_selfLink_skipped (Q : Env) (fuel : Nat) (r : Reader)
    (clock : Nat) (ret : Podcast) (n ns : String) (attrs : List (String × String))
    (hl : isSelfLink n ns attrs) (hu : Q.urlIsEmpty ret.url = false) :
    ParseChannelStartElement Q fuel r clock ret n ns attrs
      = some (ConsumeCurrentElement r, clock, ret) := by
  obtain ⟨h1, h2, h3⟩ := hl
  subst h1
  have he : isEmpty kAtomNamespace = false := rfl
  have hk : kAtomNamespace ≠ kItunesNamespace := by decide
  simp [ParseChannelStartElement, h2, he, hu, hk]

theorem ParseChannelStartElement_url (Q : Env) (fuel : Nat) (r : Reader) (clock : Nat)
    (ret : Podcast) (name ns : String) (attrs : List (String × String))
    (r2 : Reader) (clock2 : Nat) (ret2 : Podcast)
    (h : ParseChannelStartElement Q fuel r clock ret name ns attrs = some (r2, clock2, ret2))
    (hu : Q.urlIsEmpty ret.url = false) : ret2.url = ret.url := by
  unfold ParseChannelStartElement at h
  simp only at h
  split_ifs at h with h1 h2 h3 h4 h5 h6 h7 h8
  · cases h; rfl
  · cases h; rfl
  · cases h; rfl
  · split at h
    · cases h
    · rename_i heq
      obtain ⟨x, y, hx⟩ := ParseItunesOwner_frame Q _ _ _ _ _ heq
      cases h
      rw [hx]
  · split at h
    · cases h
    · rename_i heq
      obtain ⟨x, hx⟩ := ParseImage_frame Q _ _ _ _ _ heq
      cases h
      rw [hx]
  · cases h; rfl
  · rw [h7.2.2.1] at hu
    exact Bool.noConfusion hu
  · rcases ParseItemLoop_frame Q _ _ _ _ _ _ _ _ h with hx | ⟨e, _, hx⟩
    · rw [hx]
    · rw [hx]
  · cases h; rfl

theorem ParseChannel_url (Q : Env) :
    ∀ (fuel : Nat) (r : Reader) (clock : Nat) (ret : Podcast)
      (r2 : Reader) (clock2 : Nat) (ret2 : Podcast),
      ParseChannel Q fuel r clock ret = some (r2, clock2, ret2) →
      Q.urlIsEmpty ret.url = false → ret2.url = ret.url := by
  intro fuel
  induction fuel with
  | zero => intro r clock ret r2 clock2 ret2 h; simp [ParseChannel] at h
  | succ f ih =>
    intro r clock ret r2 clock2 ret2 h hu
    cases h1 : r.atEnd with
    | true =>
      rw [ParseChannel_next_atEnd Q f r clock ret h1] at h
      cases h
      rfl
    | false =>
      rcases Token.three_cases r.readNext.cur with ⟨n, ns, a, hc⟩ | ⟨n, hc⟩ | ⟨hs, he⟩
      · rw [ParseChannel_next_start Q f r clock ret n ns a h1 hc] at h
        cases hstart : ParseChannelStartElement Q f r.readNext clock ret n ns a with
        | none => rw [hstart] at h; cases h
        | some res =>
          obtain ⟨r1, c1, ret1⟩ := res
          rw [hstart] at h
          have hurl := ParseChannelStartElement_url Q f _ _ _ _ _ _ _ _ _ hstart hu
          rw [ih r1 c1 ret1 r2 clock2 ret2 h (by rw [hurl]; exact hu), hurl]
      · rw [ParseChannel_next_end Q f r clock ret h1 (by rw [hc]; rfl)] at h
        cases h
        rfl
      · rw [ParseChannel_next_other Q f r clock ret h1 hs he] at h
        exact ih _ _ _ _ _ _ h hu

theorem channelElement_url (Q : Env) (clock : Nat) (ret : Podcast) (n ns : String)
    (attrs : List (String × String)) (cs : Forest) :
    (channelElement Q clock ret n ns attrs cs).2.url
      = if isSelfLink n ns attrs ∧ Q.urlIsEmpty ret.url = true then Q.fromEncoded cs.text
        else ret.url := by
  unfold channelElement isSelfLink
  split_ifs with h1 h2 h3 h4 h5 h6 h7 h8 h9 h10 h11 h12 h13 h14 h15 h16 h17 <;>
    first
    | rfl
    | (simp only; rw [ownerOf_fields]; done)
    | (simp only; rw [imageOf_fields]; done)
    | (rw [(ParseItemEndElement_fields Q clock _ ret).2]; done)
    | (exfalso; simp_all [kAtomNamespace_not_empty] <;> tauto)

theorem channelOf_url_kept (Q : Env) (cs : Forest) :
    ∀ (clock : Nat) (ret : Podcast), Q.urlIsEmpty ret.url = false →
      (channelOf Q cs clock ret).2.url = ret.url := by
  induction cs with
  | nil => intro clock ret _; rfl
  | element n ns attrs children siblings _ ih2 =>
    intro clock ret hu
    simp only [channelOf]
    have hs := channelElement_url Q clock ret n ns attrs children
    rw [if_neg (by simp [hu])] at hs
    rw [ih2 _ _ (by rw [hs]; exact hu), hs]
  | leaf l siblings ih => intro clock ret hu; exact ih clock ret hu

theorem channelOf_url_first (Q : Env) (cs : Forest) :
    ∀ (clock : Nat) (ret : Podcast), Q.urlIsEmpty ret.url = true →
      match firstSelfLink Q cs with
      | some u => (channelOf Q cs clock ret).2.url = u
      | none => Q.urlIsEmpty (channelOf Q cs clock ret).2.url = true := by
  induction cs with
  | nil => intro clock ret hu; exact hu
  | element n ns attrs children siblings _ ih2 =>
    intro clock ret hu
    simp only [channelOf, firstSelfLink]
    have hs := channelElement_url Q clock ret n ns attrs children
    by_cases hl : isSelfLink n ns attrs
    · rw [if_pos ⟨hl, hu⟩] at hs
      cases hv : Q.urlIsEmpty (Q.fromEncoded children.text) with
      | false =>
        rw [if_pos ⟨hl, rfl⟩]
        simp only
        rw [channelOf_url_kept Q siblings _ _ (by rw [hs]; exact hv), hs]
      | true =>
        rw [if_neg (by simp)]
        exact ih2 _ _ (by rw [hs]; exact hv)
    · rw [if_neg (fun h => hl h.1)] at hs
      rw [if_neg (fun h => hl h.1)]
      exact ih2 _ _ (by rw [hs]; exact hu)
  | leaf l siblings ih => intro clock ret hu; exact ih clock ret hu

/-- C23 as amended: called on a podcast whose URL is not empty, `ParseChannel`
returns with the URL unchanged, on every token stream, and a self link met
then is skipped with its subtree. Called on a podcast whose URL is empty, on
the content of a channel in which the elements read as text hold no child
element, it leaves the value of the first direct child that is a self link
whose value is a URL that is not empty; when there is no such child the URL is
still empty. -/
theorem self_link_url (Q : Env) :
    (∀ (fuel : Nat) (r : Reader) (clock : Nat) (ret : Podcast),
        Q.urlIsEmpty ret.url = false → r.remaining < fuel →
        ∃ r2 clock2 ret2, ParseChannel Q fuel r clock ret = some (r2, clock2, ret2)
          ∧ ret2.url = ret.url)
      ∧ (∀ (fuel : Nat) (r : Reader) (clock : Nat) (ret : Podcast) (n ns : String)
          (attrs : List (String × String)),
          isSelfLink n ns attrs → Q.urlIsEmpty ret.url = false →
          ParseChannelStartElement Q fuel r clock ret n ns attrs
            = some (ConsumeCurrentElement r, clock, ret))
      ∧ (∀ (cs : Forest) (fuel : Nat) (cur : Token) (endName : String) (rest : List Token)
          (clock : Nat) (ret : Podcast),
          cur.atEnd = false → cs.tokens.length < fuel → channelOk cs = true →
          Q.urlIsEmpty ret.url = true →
          ∃ clock2 ret2,
            ParseChannel Q fuel
                { cur := cur, rest := cs.tokens ++ Token.EndElement endName :: rest }
                clock ret
              = some ({ cur := Token.EndElement endName, rest := rest }, clock2, ret2)
            ∧ match firstSelfLink Q cs with
              | some u => ret2.url = u
              | none => Q.urlIsEmpty ret2.url = true) := by
  refine ⟨?_, ?_, ?_⟩
  · intro fuel r clock ret hu hf
    obtain ⟨r2, c2, ret2, h, _⟩ := ParseChannel_total Q fuel r clock ret hf
    exact ⟨r2, c2, ret2, h, ParseChannel_url Q fuel r clock ret r2 c2 ret2 h hu⟩
  · intro fuel r clock ret n ns attrs hl hu
    exact ParseChannelStartElement_selfLink_skipped Q fuel r clock ret n ns attrs hl hu
  · intro cs fuel cur endName rest clock ret hc hf hok hu
    exact ⟨_, _, ParseChannel_forest Q cs fuel cur endName rest clock ret hc hf hok,
      channelOf_url_first Q cs clock ret hu⟩

/-- Witness for C23 as amended: the channel with the two self links, entered
with the empty URL and with a URL. -/
theorem self_link_url_witness :
    (∃ r2 clock2 ret2,
        ParseChannel testEnv 9
            { cur := Token.StartElement "channel" "" [],
              rest := sampleTwoSelfLinks.tokens ++ [Token.EndElement "channel"] } 0
            { url := { encoded := "http://given" } }
          = some (r2, clock2, ret2)
        ∧ ret2.url = ({ url := { encoded := "http://given" } } : Podcast).url)
      ∧ (∃ clock2 ret2,
          ParseChannel testEnv 9
              { cur := Token.StartElement "channel" "" [],
                rest := sampleTwoSelfLinks.tokens ++ Token.EndElement "channel" :: [] } 0 {}
            = some ({ cur := Token.EndElement "channel", rest := [] }, clock2, ret2)
          ∧ match firstSelfLink testEnv sampleTwoSelfLinks with
            | some u => ret2.url = u
            | none => testEnv.urlIsEmpty ret2.url = true) :=
  ⟨(self_link_url testEnv).1 9
      { cur := Token.StartElement "channel" "" [],
        rest := sampleTwoSelfLinks.tokens ++ [Token.EndElement "channel"] } 0
      { url := { encoded := "http://given" } } rfl (by decide),
    (self_link_url testEnv).2.2 sampleTwoSelfLinks 9 (Token.StartElement "channel" "" [])
      "channel" [] 0 {} rfl (by decide) rfl rfl⟩

/-! ### Feeds of an OPML document -/

theorem outlineFeeds_pruneFeedOutlines (Q : Env) (cs : Forest) :
    outlineFeeds Q cs.pruneFeedOutlines = outlineFeeds Q cs := by
  induction cs with
  | nil => rfl
  | leaf l s ih => simp only [Forest.pruneFeedOutlines, outlineFeeds, ih]
  | element n ns attrs ch sib _ ihs =>
    simp only [Forest.pruneFeedOutlines]
    split_ifs with h
    · simp only [outlineFeeds, if_pos h, ihs]
    · simp only [outlineFeeds, if_neg h, ihs]

theorem outlineContainers_pruneFeedOutlines (Q : Env) (cs : Forest) :
    outlineContainers Q cs.pruneFeedOutlines = outlineContainers Q cs := by
  induction cs with
  | nil => rfl
  | leaf l s ih => simp only [Forest.pruneFeedOutlines, outlineContainers, ih]
  | element n ns attrs ch sib ihc ihs =>
    simp only [Forest.pruneFeedOutlines]
    split_ifs with h
    · have h2 : ¬(n = "outline" ∧ attributeValue attrs "type" ≠ "rss") := fun h3 => h3.2 h.2
      simp only [outlineContainers, if_neg h2, ihs]
    · simp only [outlineContainers, ihs, ihc, outlineFeeds_pruneFeedOutlines]

theorem allFeedsOf_nil : allFeedsOf [] = [] := by
  rw [allFeedsOf]

theorem allFeedsOf_cons (c : OpmlContainer) (cs : List OpmlContainer) :
    allFeedsOf (c :: cs) = c.allFeeds ++ allFeedsOf cs := by
  rw [allFeedsOf]

theorem allFeeds_mk (n : String) (u : QUrl) (f : List Podcast) (cs : List OpmlContainer) :
    (OpmlContainer.mk n u f cs).allFeeds = f ++ allFeedsOf cs := by
  rw [OpmlContainer.allFeeds]

theorem allFeeds_setUrl (c : OpmlContainer) (u : QUrl) : (c.setUrl u).allFeeds = c.allFeeds := by
  obtain ⟨n, u2, f, cs⟩ := c
  simp only [OpmlContainer.setUrl, allFeeds_mk]

theorem allFeeds_collapseTop :
    ∀ (size : Nat) (root : OpmlContainer), sizeOf root ≤ size →
      (collapseTop root).allFeeds = root.allFeeds := by
  intro size
  induction size with
  | zero =>
    intro root h
    obtain ⟨n, u, f, cs⟩ := root
    simp at h
  | succ m ih =>
    intro root h
    cases hw : root.isWrapper with
    | false => rw [collapseTop_other root hw]
    | true =>
      obtain ⟨n, u, f, cs⟩ := root
      obtain ⟨rfl, child, rfl⟩ := (isWrapper_iff n u f cs).1 hw
      have hsize : sizeOf child ≤ m := by
        simp at h
        omega
      rw [collapseTop_wrapper, ih child hsize, allFeeds_mk, allFeedsOf_cons, allFeedsOf_nil]
      simp

theorem allFeeds_length_forest (Q : Env) (cs : Forest) :
    (outlineFeeds Q cs).length + (allFeedsOf (outlineContainers Q cs)).length
      = reachedFeedOutlineCount cs := by
  induction cs with
  | nil => simp [outlineFeeds, outlineContainers, allFeedsOf_nil, reachedFeedOutlineCount]
  | leaf l s ih => simp only [outlineFeeds, outlineContainers, reachedFeedOutlineCount, ih]
  | element n ns attrs ch sib ihc ihs =>
    by_cases hn : n = "outline"
    · by_cases ht : attributeValue attrs "type" = "rss"
      · simp only [outlineFeeds, outlineContainers, reachedFeedOutlineCount, hn, ht, true_and,
          if_true, ne_eq, not_true_eq_false, if_false, List.length_cons]
        omega
      · simp only [outlineFeeds, outlineContainers, reachedFeedOutlineCount, hn, ht, true_and,
          if_true, ne_eq, not_false_eq_true, if_false, allFeedsOf_cons, allFeeds_mk,
          List.length_append]
        omega
    · simp only [outlineFeeds, outlineContainers, reachedFeedOutlineCount, hn, false_and,
        if_false]
      exact ihs

/-- C24: in a well-formed OPML document, removing the children of every
`outline` element of type `rss`, whatever those children are, leaves what
`Load` returns unchanged, and `Load` returns a container. -/
theorem Load_ignores_feed_outline_children (Q : Env) (url : QUrl) (prolog : List Token)
    (rootNs : String) (rootAttrs : List (String × String)) (beforeBody : List Token)
    (bodyNs : String) (bodyAttrs : List (String × String)) (body : Forest)
    (epilog : List Token)
    (hpro : plainTokens prolog) (hbefore : tokensBefore "body" beforeBody) :
    Load Q (opmlDocument prolog rootNs rootAttrs beforeBody bodyNs bodyAttrs
        body.pruneFeedOutlines epilog) url
      = Load Q (opmlDocument prolog rootNs rootAttrs beforeBody bodyNs bodyAttrs body epilog) url
      ∧ ∃ c, Load Q (opmlDocument prolog rootNs rootAttrs beforeBody bodyNs bodyAttrs body
          epilog) url = some (.opml c) := by
  rw [Load_opmlDocument Q url prolog rootNs rootAttrs beforeBody bodyNs bodyAttrs _ epilog
      hpro hbefore,
    Load_opmlDocument Q url prolog rootNs rootAttrs beforeBody bodyNs bodyAttrs body epilog
      hpro hbefore, outlineFeeds_pruneFeedOutlines, outlineContainers_pruneFeedOutlines]
  exact ⟨rfl, _, rfl⟩

/-- Witness for C24: the sample body, whose feed outline `Two` holds another
feed outline. -/
theorem Load_ignores_feed_outline_children_witness :
    Load testEnv (opmlDocument [Token.StartDocument] "" [("version", "1.0")]
        [Token.StartElement "head" "" [], Token.EndElement "head"] "" []
        sampleOpmlBody.pruneFeedOutlines [Token.EndElement "opml", Token.EndDocument])
        { encoded := "u" }
      = Load testEnv (opmlDocument [Token.StartDocument] "" [("version", "1.0")]
        [Token.StartElement "head" "" [], Token.EndElement "head"] "" []
        sampleOpmlBody [Token.EndElement "opml", Token.EndDocument]) { encoded := "u" }
      ∧ ∃ c, Load testEnv (opmlDocument [Token.StartDocument] "" [("version", "1.0")]
        [Token.StartElement "head" "" [], Token.EndElement "head"] "" []
        sampleOpmlBody [Token.EndElement "opml", Token.EndDocument]) { encoded := "u" }
          = some (.opml c) :=
  Load_ignores_feed_outline_children testEnv { encoded := "u" } [Token.StartDocument] ""
    [("version", "1.0")] [Token.StartElement "head" "" [], Token.EndElement "head"] "" []
    sampleOpmlBody [Token.EndElement "opml", Token.EndDocument]
    (by intro t ht; simp at ht; subst ht; exact ⟨rfl, rfl⟩)
    (by
      intro t ht
      simp at ht
      rcases ht with rfl | rfl
      · exact ⟨rfl, rfl⟩
      · exact ⟨rfl, rfl⟩)

/-- C27, counterexample: the body of `sampleGroupedDocument` holds one
`outline` of type `rss`, nested within no other `outline` of type `rss` but
within an element named `group`; the container `Load` returns holds no feed
stub at any level. -/
theorem feed_count_counterexample :
    Load testEnv sampleGroupedDocument { encoded := "u" }
        = some (.opml (.mk "" { encoded := "u" } [] []))
      ∧ (OpmlContainer.mk "" { encoded := "u" } [] []).allFeeds.length = 0
      ∧ feedOutlineCount sampleGroupedBody = 1 :=
  ⟨rfl, rfl, rfl⟩

/-- C27, amended: for a well-formed OPML document `ParseOutline` returns a
root container for the content of `body`, and `Load` returns a container `c`
such that the number of feed stubs of `c` over all nesting levels equals the
number of `outline` elements of type `rss` inside `body` that are nested
neither within another `outline` of type `rss` nor within an element that is
not an `outline`; the stubs of `c` are those of the root before collapsing, in
the same order; and `c` is, up to the stamped URL, the container reached from
the root through `k` first child containers, each container passed on the way
having zero feeds and exactly one child container. -/
theorem Load_opml_keeps_feeds (Q : Env) (url : QUrl) (prolog : List Token)
    (rootNs : String) (rootAttrs : List (String × String)) (beforeBody : List Token)
    (bodyNs : String) (bodyAttrs : List (String × String)) (body : Forest)
    (epilog : List Token)
    (hpro : plainTokens prolog) (hbefore : tokensBefore "body" beforeBody) :
    ∃ root c k,
      ParseOutline Q (body.tokens.length + 1)
          { cur := Token.StartElement "body" bodyNs bodyAttrs,
            rest := body.tokens ++ Token.EndElement "body" :: epilog } OpmlContainer.empty
        = some ({ cur := Token.EndElement "body", rest := epilog }, root)
      ∧ Load Q (opmlDocument prolog rootNs rootAttrs beforeBody bodyNs bodyAttrs body epilog)
          url = some (.opml c)
      ∧ c.allFeeds.length = reachedFeedOutlineCount body
      ∧ c.allFeeds = root.allFeeds
      ∧ c = (root.descend k).setUrl url
      ∧ ∀ j, j < k → (root.descend j).isWrapper = true := by
  obtain ⟨k, h1, h2, _⟩ := collapseTop_chain
    (sizeOf (OpmlContainer.mk "" { encoded := "" } (outlineFeeds Q body)
      (outlineContainers Q body))) _ (le_refl _)
  have hall : ((collapseTop (.mk "" { encoded := "" } (outlineFeeds Q body)
      (outlineContainers Q body))).setUrl url).allFeeds
      = (OpmlContainer.mk "" { encoded := "" } (outlineFeeds Q body)
          (outlineContainers Q body)).allFeeds := by
    rw [allFeeds_setUrl, allFeeds_collapseTop _ _ (le_refl _)]
  refine ⟨.mk "" { encoded := "" } (outlineFeeds Q body) (outlineContainers Q body),
    (collapseTop (.mk "" { encoded := "" } (outlineFeeds Q body)
      (outlineContainers Q body))).setUrl url, k, ?_, ?_, ?_, hall, ?_, h2⟩
  · have := ParseOutline_forest Q body (body.tokens.length + 1)
      (Token.StartElement "body" bodyNs bodyAttrs) "body" epilog "" { encoded := "" } [] []
      rfl (by omega)
    simp only [List.nil_append] at this
    unfold OpmlContainer.empty
    rw [this]
  · exact Load_opmlDocument Q url prolog rootNs rootAttrs beforeBody bodyNs bodyAttrs body epilog
      hpro hbefore
  · rw [hall, allFeeds_mk, List.length_append]
    exact allFeeds_length_forest Q body
  · rw [h1]

/-- Witness for C27: the sample document, whose root is a wrapper around the
folder `News`. -/
theorem Load_opml_keeps_feeds_witness :
    ∃ root c k,
      ParseOutline testEnv (sampleOpmlBody.tokens.length + 1)
          { cur := Token.StartElement "body" "" [],
            rest := sampleOpmlBody.tokens ++ Token.EndElement "body"
              :: [Token.EndElement "opml", Token.EndDocument] } OpmlContainer.empty
        = some ({ cur := Token.EndElement "body",
                  rest := [Token.EndElement "opml", Token.EndDocument] }, root)
      ∧ Load testEnv (opmlDocument [Token.StartDocument] "" [("version", "1.0")]
          [Token.StartElement "head" "" [], Token.EndElement "head"] "" [] sampleOpmlBody
          [Token.EndElement "opml", Token.EndDocument]) { encoded := "u" } = some (.opml c)
      ∧ c.allFeeds.length = reachedFeedOutlineCount sampleOpmlBody
      ∧ c.allFeeds = root.allFeeds
      ∧ c = (root.descend k).setUrl { encoded := "u" }
      ∧ ∀ j, j < k → (root.descend j).isWrapper = true :=
  Load_opml_keeps_feeds testEnv { encoded := "u" } [Token.StartDocument] ""
    [("version", "1.0")] [Token.StartElement "head" "" [], Token.EndElement "head"] "" []
    sampleOpmlBody [Token.EndElement "opml", Token.EndDocument]
    (by intro t ht; simp at ht; subst ht; exact ⟨rfl, rfl⟩)
    (by
      intro t ht
      simp at ht
      rcases ht with rfl | rfl
      · exact ⟨rfl, rfl⟩
      · exact ⟨rfl, rfl⟩)

/-! ### Durations within the `int` range -/

theorem FitsInt3_of_bounds (h m sec : Int) (h0 : 0 ≤ h) (h1 : h ≤ 596522) (m0 : 0 ≤ m)
    (m1 : m ≤ 59) (s0 : 0 ≤ sec) (s1 : sec ≤ 59) : FitsInt3 h m sec := by
  unfold FitsInt3 InIntRange
  omega

theorem FitsInt2_of_bounds (m sec : Int) (m0 : 0 ≤ m) (m1 : m ≤ 35791393) (s0 : 0 ≤ sec)
    (s1 : sec ≤ 59) : FitsInt2 m sec := by
  unfold FitsInt2 InIntRange
  omega

/-- C29: for a duration text of three decimal integers `H:M:S` with
`0 ≤ H ≤ 596522`, `0 ≤ M ≤ 59` and `0 ≤ S ≤ 59`, the duration the `int`
arithmetic of the duration branch sets is the exact value `H*60*60 + M*60 + S`,
every value the arithmetic passes through is a value of the 32-bit `int` type,
and the result is at least 0 and at most `2^31 - 1 = 2147483647`; likewise for
a text of two decimal integers `M:S` with `0 ≤ M ≤ 35791393` and `0 ≤ S ≤ 59`
and the value `M*60 + S`. -/
theorem duration_no_wrap (episode : PodcastEpisode) :
    (∀ (a b c : List Char) (h m sec : Int), IsDecimalInteger a h → IsDecimalInteger b m →
        IsDecimalInteger c sec → 0 ≤ h → h ≤ 596522 → 0 ≤ m → m ≤ 59 → 0 ≤ sec → sec ≤ 59 →
        setDuration episode ⟨a ++ ':' :: (b ++ ':' :: c)⟩
            = { episode with duration_secs := some (h * 60 * 60 + m * 60 + sec) }
          ∧ wrapInt (wrapInt (wrapInt (wrapInt (toInt a * 60) * 60) + wrapInt (toInt b * 60))
              + toInt c) = h * 60 * 60 + m * 60 + sec
          ∧ FitsInt3 h m sec
          ∧ 0 ≤ h * 60 * 60 + m * 60 + sec ∧ h * 60 * 60 + m * 60 + sec ≤ 2147483647)
      ∧ (∀ (a b : List Char) (m sec : Int), IsDecimalInteger a m → IsDecimalInteger b sec →
        0 ≤ m → m ≤ 35791393 → 0 ≤ sec → sec ≤ 59 →
        setDuration episode ⟨a ++ ':' :: b⟩
            = { episode with duration_secs := some (m * 60 + sec) }
          ∧ wrapInt (wrapInt (toInt a * 60) + toInt b) = m * 60 + sec
          ∧ FitsInt2 m sec
          ∧ 0 ≤ m * 60 + sec ∧ m * 60 + sec ≤ 2147483647) := by
  constructor
  · intro a b c h m sec ha hb hc h0 h1 m0 m1 s0 s1
    have hfit := FitsInt3_of_bounds h m sec h0 h1 m0 m1 s0 s1
    have hset := setDuration_three episode a b c [] h m sec ha hb hc (Or.inl rfl) hfit
    rw [List.append_nil] at hset
    refine ⟨hset, ?_, hfit, by omega, by omega⟩
    obtain ⟨f1, f2, f3, f4, f5, f6, f7, f8⟩ := hfit
    rw [toInt_decimal a h ha f1, toInt_decimal b m hb f2, toInt_decimal c sec hc f3,
      wrapInt_of_inRange _ f4, wrapInt_of_inRange _ f5, wrapInt_of_inRange _ f6,
      wrapInt_of_inRange _ f7, wrapInt_of_inRange _ f8]
  · intro a b m sec ha hb m0 m1 s0 s1
    have hfit := FitsInt2_of_bounds m sec m0 m1 s0 s1
    refine ⟨setDuration_two episode a b m sec ha hb hfit, ?_, hfit, by omega, by omega⟩
    obtain ⟨f1, f2, f3, f4⟩ := hfit
    rw [toInt_decimal a m ha f1, toInt_decimal b sec hb f2, wrapInt_of_inRange _ f3,
      wrapInt_of_inRange _ f4]

/-- Witness for C29: the largest durations of the two ranges, `596522:59:59`
and `35791393:59`. -/
theorem duration_no_wrap_witness :
    (setDuration {} ⟨"596522".data ++ ':' :: ("59".data ++ ':' :: "59".data)⟩
          = { duration_secs := some (596522 * 60 * 60 + 59 * 60 + 59) }
        ∧ wrapInt (wrapInt (wrapInt (wrapInt (toInt "596522".data * 60) * 60)
            + wrapInt (toInt "59".data * 60)) + toInt "59".data)
          = 596522 * 60 * 60 + 59 * 60 + 59
        ∧ FitsInt3 596522 59 59
        ∧ (0 : Int) ≤ 596522 * 60 * 60 + 59 * 60 + 59
        ∧ (596522 * 60 * 60 + 59 * 60 + 59 : Int) ≤ 2147483647)
      ∧ (setDuration {} ⟨"35791393".data ++ ':' :: "59".data⟩
          = { duration_secs := some (35791393 * 60 + 59) }
        ∧ wrapInt (wrapInt (toInt "35791393".data * 60) + toInt "59".data) = 35791393 * 60 + 59
        ∧ FitsInt2 35791393 59
        ∧ (0 : Int) ≤ 35791393 * 60 + 59 ∧ (35791393 * 60 + 59 : Int) ≤ 2147483647) :=
  ⟨(duration_no_wrap {}).1 "596522".data "59".data "59".data 596522 59 59
      ⟨"596522".data, by decide, by decide, Or.inl ⟨rfl, by decide⟩⟩
      ⟨"59".data, by decide, by decide, Or.inl ⟨rfl, by decide⟩⟩
      ⟨"59".data, by decide, by decide, Or.inl ⟨rfl, by decide⟩⟩
      (by decide) (by decide) (by decide) (by decide) (by decide) (by decide),
    (duration_no_wrap {}).2 "35791393".data "59".data 35791393 59
      ⟨"35791393".data, by decide, by decide, Or.inl ⟨rfl, by decide⟩⟩
      ⟨"59".data, by decide, by decide, Or.inl ⟨rfl, by decide⟩⟩
      (by decide) (by decide) (by decide) (by decide)⟩

/-! ### The lyrics URL template -/

theorem replaceFrom_skip (b a : List Char) :
    ∀ (xs ys : List Char) (n : Nat), xs.length = n →
      replaceFrom b a n (xs ++ ys) = replaceFrom b a 0 ys := by
  intro xs
  induction xs with
  | nil => intro ys n h; simp at h; subst h; rfl
  | cons x xs ih =>
    intro ys n h
    cases n with
    | zero => simp at h
    | succ m =>
      simp only [List.cons_append, replaceFrom]
      exact ih ys m (by simpa using h)

theorem replaceFrom_cons (b a : List Char) (c : Char) (cs : List Char) :
    replaceFrom b a 0 (c :: cs)
      = if b.isPrefixOf (c :: cs) then a ++ replaceFrom b a (b.length - 1) cs
        else c :: replaceFrom b a 0 cs := by
  rw [replaceFrom]

theorem replaceFrom_match (b a rest : List Char) (hb : b ≠ []) :
    replaceFrom b a 0 (b ++ rest) = a ++ replaceFrom b a 0 rest := by
  obtain ⟨c, bt, rfl⟩ := List.exists_cons_of_ne_nil hb
  have hp : (c :: bt).isPrefixOf (c :: (bt ++ rest)) = true :=
    List.isPrefixOf_iff_prefix.2 ⟨rest, rfl⟩
  rw [List.cons_append, replaceFrom_cons, if_pos hp]
  simp only [List.length_cons, Nat.add_sub_cancel]
  rw [replaceFrom_skip (c :: bt) a bt rest bt.length rfl]

theorem replaceFrom_other (b a : List Char) (c : Char) (cs : List Char)
    (h : b.isPrefixOf (c :: cs) = false) :
    replaceFrom b a 0 (c :: cs) = c :: replaceFrom b a 0 cs := by
  rw [replaceFrom_cons, h]
  rfl

theorem isPrefixOf_dollar (bt : List Char) (c : Char) (cs : List Char) (hc : c ≠ '$') :
    ('$' :: bt).isPrefixOf (c :: cs) = false := by
  simp [List.isPrefixOf, Ne.symm hc]

theorem replaceFrom_plain (bt a : List Char) :
    ∀ (t rest : List Char), (∀ c ∈ t, c ≠ '$') →
      replaceFrom ('$' :: bt) a 0 (t ++ rest) = t ++ replaceFrom ('$' :: bt) a 0 rest := by
  intro t
  induction t with
  | nil => intro rest _; rfl
  | cons c cs ih =>
    intro rest h
    rw [List.cons_append, replaceFrom_other _ _ _ _
      (isPrefixOf_dollar bt c _ (h c (List.mem_cons_self _ _))),
      ih rest (fun d hd => h d (List.mem_cons_of_mem _ hd))]
    rfl

theorem isPrefixOf_differ (b p rest : List Char) (i : Nat) (x y : Char)
    (hb : b[i]? = some x) (hp : p[i]? = some y) (hxy : x ≠ y) :
    b.isPrefixOf (p ++ rest) = false := by
  rw [Bool.eq_false_iff]
  intro h
  obtain ⟨r, hr⟩ := List.isPrefixOf_iff_prefix.1 h
  have h1 : (b ++ r)[i]? = some x := by
    rw [List.getElem?_append_left (by
      rcases Nat.lt_or_ge i b.length with h2 | h2
      · exact h2
      · rw [List.getElem?_eq_none h2] at hb; cases hb)]
    exact hb
  have h2 : (p ++ rest)[i]? = some y := by
    rw [List.getElem?_append_left (by
      rcases Nat.lt_or_ge i p.length with h2 | h2
      · exact h2
      · rw [List.getElem?_eq_none h2] at hp; cases hp)]
    exact hp
  rw [hr, h2] at h1
  exact hxy (Option.some.inj h1).symm

theorem replaceFrom_placeholder (bt pt a rest : List Char) (hpt : ∀ c ∈ pt, c ≠ '$')
    (h : ('$' :: bt).isPrefixOf ('$' :: pt ++ rest) = false) :
    replaceFrom ('$' :: bt) a 0 ('$' :: pt ++ rest)
      = '$' :: pt ++ replaceFrom ('$' :: bt) a 0 rest := by
  rw [List.cons_append] at h ⊢
  rw [replaceFrom_other _ _ _ _ h, replaceFrom_plain bt a pt rest hpt]
  rfl

theorem replaceFrom_absent (b a : List Char) :
    ∀ s : List Char, containsChars b s = false → replaceFrom b a 0 s = s := by
  intro s
  induction s with
  | nil => intro _; rfl
  | cons c cs ih =>
    intro h
    simp only [containsChars, Bool.or_eq_false_iff] at h
    rw [replaceFrom_other b a c cs h.1, ih h.2]

theorem substituteFrom_skip (subs : List (List Char × List Char)) :
    ∀ (xs ys : List Char) (n : Nat), xs.length = n →
      substituteFrom subs n (xs ++ ys) = substituteFrom subs 0 ys := by
  intro xs
  induction xs with
  | nil => intro ys n h; simp at h; subst h; rfl
  | cons x xs ih =>
    intro ys n h
    cases n with
    | zero => simp at h
    | succ m =>
      simp only [List.cons_append, substituteFrom]
      exact ih ys m (by simpa using h)

theorem substituteFrom_match (subs : List (List Char × List Char)) (c : Char)
    (pt v rest : List Char)
    (h : subs.find? (fun p => p.1.isPrefixOf (c :: pt ++ rest)) = some (c :: pt, v)) :
    substituteFrom subs 0 (c :: pt ++ rest) = v ++ substituteFrom subs 0 rest := by
  rw [List.cons_append] at h ⊢
  simp only [substituteFrom, h, List.length_cons, Nat.add_sub_cancel]
  rw [substituteFrom_skip subs pt rest pt.length rfl]

theorem substituteFrom_other (subs : List (List Char × List Char)) (c : Char)
    (cs : List Char) (h : subs.find? (fun p => p.1.isPrefixOf (c :: cs)) = none) :
    substituteFrom subs 0 (c :: cs) = c :: substituteFrom subs 0 cs := by
  simp only [substituteFrom, h]

theorem dollarsOpenPlaceholders_append :
    ∀ (xs ys : List Char), dollarsOpenPlaceholders (xs ++ ys) = true →
      dollarsOpenPlaceholders ys = true := by
  intro xs
  induction xs with
  | nil => intro ys h; exact h
  | cons x xs ih =>
    intro ys h
    simp only [List.cons_append, dollarsOpenPlaceholders, Bool.and_eq_true] at h
    exact ih ys h.2

theorem artist_tail : artistPlaceholder.data = '$' :: "\x7bartist\x7d".data := rfl

theorem album_tail : albumPlaceholder.data = '$' :: "\x7balbum\x7d".data := rfl

theorem title_tail : titlePlaceholder.data = '$' :: "\x7btitle\x7d".data := rfl

theorem track_tail : trackPlaceholder.data = '$' :: "\x7btrack\x7d".data := rfl

theorem artist_plain : ∀ c ∈ "\x7bartist\x7d".data, c ≠ '$' := by decide

theorem album_plain : ∀ c ∈ "\x7balbum\x7d".data, c ≠ '$' := by decide

theorem title_plain : ∀ c ∈ "\x7btitle\x7d".data, c ≠ '$' := by decide

theorem track_plain : ∀ c ∈ "\x7btrack\x7d".data, c ≠ '$' := by decide

theorem GetUrl_path_data (url_ : QUrlParts) (artist album title : String) :
    (HtmlLyricsProvider.GetUrl url_ artist album title).path.data
      = replacePlaceholders artist.data album.data title.data url_.path.data := rfl

theorem replacePlaceholders_plain (artist album title : List Char) (c : Char)
    (cs : List Char) (hc : c ≠ '$') :
    replacePlaceholders artist album title (c :: cs)
      = c :: replacePlaceholders artist album title cs := by
  unfold replacePlaceholders
  rw [artist_tail, album_tail, title_tail, track_tail,
    replaceFrom_other _ _ _ _ (isPrefixOf_dollar _ c _ hc),
    replaceFrom_other _ _ _ _ (isPrefixOf_dollar _ c _ hc),
    replaceFrom_other _ _ _ _ (isPrefixOf_dollar _ c _ hc),
    replaceFrom_other _ _ _ _ (isPrefixOf_dollar _ c _ hc)]

theorem replacePlaceholders_artist (artist album title rest : List Char)
    (ha : ∀ c ∈ artist, c ≠ '$') :
    replacePlaceholders artist album title (artistPlaceholder.data ++ rest)
      = artist ++ replacePlaceholders artist album title rest := by
  unfold replacePlaceholders
  rw [replaceFrom_match _ _ _ (by decide)]
  rw [album_tail, title_tail, track_tail, replaceFrom_plain _ _ _ _ ha,
    replaceFrom_plain _ _ _ _ ha, replaceFrom_plain _ _ _ _ ha]

theorem replacePlaceholders_album (artist album title rest : List Char)
    (hb : ∀ c ∈ album, c ≠ '$') :
    replacePlaceholders artist album title (albumPlaceholder.data ++ rest)
      = album ++ replacePlaceholders artist album title rest := by
  unfold replacePlaceholders
  have h1 : replaceFrom artistPlaceholder.data artist 0 (albumPlaceholder.data ++ rest)
      = albumPlaceholder.data ++ replaceFrom artistPlaceholder.data artist 0 rest :=
    replaceFrom_placeholder _ _ artist rest album_plain
      (isPrefixOf_differ _ _ rest 3 'r' 'l' rfl rfl (by decide))
  rw [h1, replaceFrom_match _ _ _ (by decide)]
  rw [title_tail, track_tail, replaceFrom_plain _ _ _ _ hb, replaceFrom_plain _ _ _ _ hb]

theorem replacePlaceholders_title (artist album title rest : List Char)
    (ht : ∀ c ∈ title, c ≠ '$') :
    replacePlaceholders artist album title (titlePlaceholder.data ++ rest)
      = title ++ replacePlaceholders artist album title rest := by
  unfold replacePlaceholders
  have h1 : replaceFrom artistPlaceholder.data artist 0 (titlePlaceholder.data ++ rest)
      = titlePlaceholder.data ++ replaceFrom artistPlaceholder.data artist 0 rest :=
    replaceFrom_placeholder _ _ artist rest title_plain
      (isPrefixOf_differ _ _ rest 2 'a' 't' rfl rfl (by decide))
  have h2 : ∀ x, replaceFrom albumPlaceholder.data album 0 (titlePlaceholder.data ++ x)
      = titlePlaceholder.data ++ replaceFrom albumPlaceholder.data album 0 x :=
    fun x => replaceFrom_placeholder _ _ album x title_plain
      (isPrefixOf_differ _ _ x 2 'a' 't' rfl rfl (by decide))
  rw [h1, h2, replaceFrom_match _ _ _ (by decide)]
  rw [track_tail, replaceFrom_plain _ _ _ _ ht]

theorem replacePlaceholders_track (artist album title rest : List Char) :
    replacePlaceholders artist album title (trackPlaceholder.data ++ rest)
      = title ++ replacePlaceholders artist album title rest := by
  unfold replacePlaceholders
  have h1 : replaceFrom artistPlaceholder.data artist 0 (trackPlaceholder.data ++ rest)
      = trackPlaceholder.data ++ replaceFrom artistPlaceholder.data artist 0 rest :=
    replaceFrom_placeholder _ _ artist rest track_plain
      (isPrefixOf_differ _ _ rest 2 'a' 't' rfl rfl (by decide))
  have h2 : ∀ x, replaceFrom albumPlaceholder.data album 0 (trackPlaceholder.data ++ x)
      = trackPlaceholder.data ++ replaceFrom albumPlaceholder.data album 0 x :=
    fun x => replaceFrom_placeholder _ _ album x track_plain
      (isPrefixOf_differ _ _ x 2 'a' 't' rfl rfl (by decide))
  have h3 : ∀ x, replaceFrom titlePlaceholder.data title 0 (trackPlaceholder.data ++ x)
      = trackPlaceholder.data ++ replaceFrom titlePlaceholder.data title 0 x :=
    fun x => replaceFrom_placeholder _ _ title x track_plain
      (isPrefixOf_differ _ _ x 3 'i' 'r' rfl rfl (by decide))
  rw [h1, h2, h3, replaceFrom_match _ _ _ (by decide)]

theorem isPrefixOf_self_append (p rest : List Char) : p.isPrefixOf (p ++ rest) = true :=
  List.isPrefixOf_iff_prefix.2 ⟨rest, rfl⟩

theorem substituteFrom_plain (artist album title : String) (c : Char) (cs : List Char)
    (h : startsWithPlaceholder (c :: cs) = false) :
    substituteFrom (substitutions artist album title) 0 (c :: cs)
      = c :: substituteFrom (substitutions artist album title) 0 cs := by
  simp only [startsWithPlaceholder, Bool.or_eq_false_iff] at h
  apply substituteFrom_other
  simp only [substitutions, List.find?, h.1.1.1, h.1.1.2, h.1.2, h.2]

theorem substituteFrom_artist (artist album title : String) (rest : List Char) :
    substituteFrom (substitutions artist album title) 0 (artistPlaceholder.data ++ rest)
      = artist.data ++ substituteFrom (substitutions artist album title) 0 rest := by
  apply substituteFrom_match (substitutions artist album title) '$' _ artist.data rest
  simp only [substitutions, List.find?]
  rw [show ('$' :: "\x7bartist\x7d".data ++ rest) = artistPlaceholder.data ++ rest from rfl,
    isPrefixOf_self_append]
  rfl

theorem substituteFrom_album (artist album title : String) (rest : List Char) :
    substituteFrom (substitutions artist album title) 0 (albumPlaceholder.data ++ rest)
      = album.data ++ substituteFrom (substitutions artist album title) 0 rest := by
  apply substituteFrom_match (substitutions artist album title) '$' _ album.data rest
  simp only [substitutions, List.find?]
  rw [show ('$' :: "\x7balbum\x7d".data ++ rest) = albumPlaceholder.data ++ rest from rfl,
    isPrefixOf_differ artistPlaceholder.data albumPlaceholder.data rest 3 'r' 'l' rfl rfl
      (by decide),
    isPrefixOf_self_append]
  rfl

theorem substituteFrom_title (artist album title : String) (rest : List Char) :
    substituteFrom (substitutions artist album title) 0 (titlePlaceholder.data ++ rest)
      = title.data ++ substituteFrom (substitutions artist album title) 0 rest := by
  apply substituteFrom_match (substitutions artist album title) '$' _ title.data rest
  simp only [substitutions, List.find?]
  rw [show ('$' :: "\x7btitle\x7d".data ++ rest) = titlePlaceholder.data ++ rest from rfl,
    isPrefixOf_differ artistPlaceholder.data titlePlaceholder.data rest 2 'a' 't' rfl rfl
      (by decide),
    isPrefixOf_differ albumPlaceholder.data titlePlaceholder.data rest 2 'a' 't' rfl rfl
      (by decide),
    isPrefixOf_self_append]
  rfl

theorem substituteFrom_track (artist album title : String) (rest : List Char) :
    substituteFrom (substitutions artist album title) 0 (trackPlaceholder.data ++ rest)
      = title.data ++ substituteFrom (substitutions artist album title) 0 rest := by
  apply substituteFrom_match (substitutions artist album title) '$' _ title.data rest
  simp only [substitutions, List.find?]
  rw [show ('$' :: "\x7btrack\x7d".data ++ rest) = trackPlaceholder.data ++ rest from rfl,
    isPrefixOf_differ artistPlaceholder.data trackPlaceholder.data rest 2 'a' 't' rfl rfl
      (by decide),
    isPrefixOf_differ albumPlaceholder.data trackPlaceholder.data rest 2 'a' 't' rfl rfl
      (by decide),
    isPrefixOf_differ titlePlaceholder.data trackPlaceholder.data rest 3 'i' 'r' rfl rfl
      (by decide),
    isPrefixOf_self_append]
  rfl

theorem replacePlaceholders_eq_substituteFrom (artist album title : String)
    (ha : ∀ c ∈ artist.data, c ≠ '$') (hb : ∀ c ∈ album.data, c ≠ '$')
    (ht : ∀ c ∈ title.data, c ≠ '$') :
    ∀ (n : Nat) (s : List Char), s.length ≤ n → dollarsOpenPlaceholders s = true →
      replacePlaceholders artist.data album.data title.data s
        = substituteFrom (substitutions artist album title) 0 s := by
  intro n
  induction n with
  | zero =>
    intro s hlen _
    have : s = [] := List.length_eq_zero.1 (Nat.le_zero.1 hlen)
    subst this
    rfl
  | succ m ih =>
    intro s hlen hpred
    cases s with
    | nil => rfl
    | cons c cs =>
      have hcs : dollarsOpenPlaceholders cs = true := dollarsOpenPlaceholders_append [c] cs hpred
      have hl1 : artistPlaceholder.data.length = 9 := rfl
      have hl2 : albumPlaceholder.data.length = 8 := rfl
      have hl3 : titlePlaceholder.data.length = 8 := rfl
      have hl4 : trackPlaceholder.data.length = 8 := rfl
      cases hstart : startsWithPlaceholder (c :: cs) with
      | false =>
        have hc : c ≠ '$' := by
          simp only [dollarsOpenPlaceholders, hstart, Bool.or_false, Bool.and_eq_true,
            bne_iff_ne, ne_eq] at hpred
          exact hpred.1
        rw [replacePlaceholders_plain _ _ _ c cs hc, substituteFrom_plain _ _ _ c cs hstart,
          ih cs (by simpa using hlen) hcs]
      | true =>
        simp only [startsWithPlaceholder, Bool.or_eq_true] at hstart
        rcases hstart with ((h | h) | h) | h
        · obtain ⟨rest, hrest⟩ := List.isPrefixOf_iff_prefix.1 h
          rw [← hrest] at hpred hlen ⊢
          rw [replacePlaceholders_artist _ _ _ rest ha, substituteFrom_artist,
            ih rest (by simp only [List.length_append, hl1] at hlen; omega)
              (dollarsOpenPlaceholders_append _ rest hpred)]
        · obtain ⟨rest, hrest⟩ := List.isPrefixOf_iff_prefix.1 h
          rw [← hrest] at hpred hlen ⊢
          rw [replacePlaceholders_album _ _ _ rest hb, substituteFrom_album,
            ih rest (by simp only [List.length_append, hl2] at hlen; omega)
              (dollarsOpenPlaceholders_append _ rest hpred)]
        · obtain ⟨rest, hrest⟩ := List.isPrefixOf_iff_prefix.1 h
          rw [← hrest] at hpred hlen ⊢
          rw [replacePlaceholders_title _ _ _ rest ht, substituteFrom_title,
            ih rest (by simp only [List.length_append, hl3] at hlen; omega)
              (dollarsOpenPlaceholders_append _ rest hpred)]
        · obtain ⟨rest, hrest⟩ := List.isPrefixOf_iff_prefix.1 h
          rw [← hrest] at hpred hlen ⊢
          rw [replacePlaceholders_track _ _ _ rest, substituteFrom_track,
            ih rest (by simp only [List.length_append, hl4] at hlen; omega)
              (dollarsOpenPlaceholders_append _ rest hpred)]

theorem replacePlaceholders_absent (artist album title : List Char) (path : String)
    (h : withoutPlaceholder path = true) :
    replacePlaceholders artist album title path.data = path.data := by
  simp only [withoutPlaceholder, Bool.not_eq_true', Bool.or_eq_false_iff] at h
  unfold replacePlaceholders
  rw [replaceFrom_absent _ _ _ h.1.1.1, replaceFrom_absent _ _ _ h.1.1.2,
    replaceFrom_absent _ _ _ h.1.2, replaceFrom_absent _ _ _ h.2]

/-- C30, counterexample: with the template path `/${artist}{title}`, the artist
`a$` and the title `t`, none of the three texts holding `${`, `GetUrl` gives
the path `/at` while the simultaneous substitution gives `/a${title}`; and with
the template path `/${al${artist}bum}`, an empty artist and the album `x`,
texts without any `$`, `GetUrl` gives `/x` while the simultaneous substitution
gives `/${album}`. -/
theorem GetUrl_sequential_counterexample :
    (HtmlLyricsProvider.GetUrl { path := "/$\x7bartist\x7d\x7btitle\x7d" } "a$" "b" "t").path
        = "/at"
      ∧ substituteAll "/$\x7bartist\x7d\x7btitle\x7d" "a$" "b" "t" = "/a$\x7btitle\x7d"
      ∧ containsChars "$\x7b".data "a$".data = false
      ∧ containsChars "$\x7b".data "b".data = false
      ∧ containsChars "$\x7b".data "t".data = false
      ∧ (HtmlLyricsProvider.GetUrl { path := "/$\x7bal$\x7bartist\x7dbum\x7d" } "" "x" "t").path
        = "/x"
      ∧ substituteAll "/$\x7bal$\x7bartist\x7dbum\x7d" "" "x" "t" = "/$\x7balbum\x7d"
      ∧ containsChars "$\x7b".data "".data = false
      ∧ containsChars "$\x7b".data "x".data = false := by
  refine ⟨?_, ?_, ?_, ?_, ?_, ?_, ?_, ?_, ?_⟩ <;> decide

/-- C30, amended: `GetUrl` returns the configured URL with the path in which
`${artist}`, `${album}`, `${title}` and `${track}` have been replaced one after
another, in that order, by the artist, the album, the title and again the
title, every other component of the URL unchanged. For a template path in
which every `$` is the first character of one of the four placeholders, and
artist, album and title texts that contain no `$`, the resulting path equals
the simultaneous substitution of the four placeholders. A URL whose path holds
none of the four placeholders is returned unchanged. -/
theorem GetUrl_simultaneous (url_ : QUrlParts) (artist album title : String) :
    (HtmlLyricsProvider.GetUrl url_ artist album title).path
        = replaceString (replaceString (replaceString (replaceString url_.path
            artistPlaceholder artist) albumPlaceholder album) titlePlaceholder title)
            trackPlaceholder title
      ∧ (HtmlLyricsProvider.GetUrl url_ artist album title).scheme = url_.scheme
      ∧ (HtmlLyricsProvider.GetUrl url_ artist album title).userName = url_.userName
      ∧ (HtmlLyricsProvider.GetUrl url_ artist album title).password = url_.password
      ∧ (HtmlLyricsProvider.GetUrl url_ artist album title).host = url_.host
      ∧ (HtmlLyricsProvider.GetUrl url_ artist album title).port = url_.port
      ∧ (HtmlLyricsProvider.GetUrl url_ artist album title).query = url_.query
      ∧ (HtmlLyricsProvider.GetUrl url_ artist album title).fragment = url_.fragment
      ∧ (dollarsOpenPlaceholders url_.path.data = true → '$' ∉ artist.data →
          '$' ∉ album.data → '$' ∉ title.data →
          (HtmlLyricsProvider.GetUrl url_ artist album title).path
            = substituteAll url_.path artist album title)
      ∧ (withoutPlaceholder url_.path = true →
          HtmlLyricsProvider.GetUrl url_ artist album title = url_) := by
  refine ⟨rfl, rfl, rfl, rfl, rfl, rfl, rfl, rfl, ?_, ?_⟩
  · intro hpred ha hb ht
    apply String.ext
    rw [GetUrl_path_data]
    exact replacePlaceholders_eq_substituteFrom artist album title
      (fun c hc e => ha (e ▸ hc)) (fun c hc e => hb (e ▸ hc)) (fun c hc e => ht (e ▸ hc))
      _ _ (le_refl _) hpred
  · intro h
    have hp : (HtmlLyricsProvider.GetUrl url_ artist album title).path = url_.path := by
      apply String.ext
      rw [GetUrl_path_data]
      exact replacePlaceholders_absent _ _ _ _ h
    obtain ⟨a1, a2, a3, a4, a5, a6, a7, a8⟩ := url_
    simp only [HtmlLyricsProvider.GetUrl, QUrlParts.setPath] at hp ⊢
    rw [hp]

/-- Witness for C30: the sample URL with an artist, an album and a title, and
the URL without placeholder. -/
theorem GetUrl_simultaneous_witness :
    (HtmlLyricsProvider.GetUrl sampleLyricsUrl "Queen" "Jazz" "Bicycle Race").path
        = substituteAll sampleLyricsUrl.path "Queen" "Jazz" "Bicycle Race"
      ∧ HtmlLyricsProvider.GetUrl sampleFixedLyricsUrl "Queen" "Jazz" "Bicycle Race"
        = sampleFixedLyricsUrl :=
  ⟨(GetUrl_simultaneous sampleLyricsUrl "Queen" "Jazz" "Bicycle Race").2.2.2.2.2.2.2.2.1
      (by decide) (by decide) (by decide) (by decide),
    (GetUrl_simultaneous sampleFixedLyricsUrl "Queen" "Jazz" "Bicycle Race").2.2.2.2.2.2.2.2.2
      (by decide)⟩

/-! ### The accepted enclosures of an item given as an element tree -/

theorem childStarts_forest_inner (cs : Forest) :
    ∀ (d : Nat) (e : String) (more : List Token),
      childStarts (d + 1) (cs.tokens ++ Token.EndElement e :: more) = childStarts d more := by
  induction cs with
  | nil =>
    intro d e more
    simp [Forest.tokens, childStarts]
  | leaf l s ih =>
    intro d e more
    rw [Forest.tokens, List.cons_append,
      childStarts_other _ _ _ (Leaf.token_isStartElement l) (Leaf.token_isEndElement l)]
    exact ih d e more
  | element n ns attrs ch sib ihc ihs =>
    intro d e more
    rw [Forest.tokens, List.cons_append, List.append_assoc, List.cons_append]
    have h1 : childStarts (d + 1) (Token.StartElement n ns attrs
        :: (ch.tokens ++ Token.EndElement n :: (sib.tokens ++ Token.EndElement e :: more)))
        = childStarts (d + 1 + 1)
            (ch.tokens ++ Token.EndElement n :: (sib.tokens ++ Token.EndElement e :: more)) := by
      simp [childStarts]
    rw [h1, ihc (d + 1) n, ihs d e more]

theorem childStarts_forest_element (n ns : String) (attrs : List (String × String))
    (ch sib : Forest) (e : String) (more : List Token) :
    childStarts 0 ((Forest.element n ns attrs ch sib).tokens ++ Token.EndElement e :: more)
      = Token.StartElement n ns attrs
          :: childStarts 0 (sib.tokens ++ Token.EndElement e :: more) := by
  rw [Forest.tokens, List.cons_append, List.append_assoc, List.cons_append]
  have h1 : childStarts 0 (Token.StartElement n ns attrs
      :: (ch.tokens ++ Token.EndElement n :: (sib.tokens ++ Token.EndElement e :: more)))
      = Token.StartElement n ns attrs :: childStarts (0 + 1)
          (ch.tokens ++ Token.EndElement n :: (sib.tokens ++ Token.EndElement e :: more)) := by
    simp [childStarts]
  rw [h1, childStarts_forest_inner ch 0 n]

theorem resolvedUrl_foldl (Q : Env) (cs : Forest) :
    ∀ (u : QUrl) (e : String) (more : List Token),
      resolvedUrl Q cs u
        = (childStarts 0 (cs.tokens ++ Token.EndElement e :: more)).foldl
            (enclosureUrlStep Q) u := by
  induction cs with
  | nil =>
    intro u e more
    simp [Forest.tokens, childStarts, resolvedUrl]
  | leaf l s ih =>
    intro u e more
    rw [Forest.tokens, List.cons_append,
      childStarts_other _ _ _ (Leaf.token_isStartElement l) (Leaf.token_isEndElement l),
      resolvedUrl]
    exact ih u e more
  | element n ns attrs ch sib _ ihs =>
    intro u e more
    rw [childStarts_forest_element, List.foldl_cons, resolvedUrl, ihs _ e more]
    congr 1
    simp only [enclosureUrlStep, acceptedEnclosure]
    split_ifs <;> rfl

theorem resolvedUrl_last_accepted (Q : Env) (item : Forest) (e : String) (more : List Token)
    (earlier : List (List (String × String))) (attrs : List (String × String))
    (h : acceptedEnclosures Q (item.tokens ++ Token.EndElement e :: more) = earlier ++ [attrs]) :
    resolvedUrl Q item { encoded := "" } = Q.fromEncoded (attributeValue attrs "url") := by
  rw [resolvedUrl_foldl Q item _ e more]
  rcases foldl_enclosureUrlStep Q { encoded := "" }
      (childStarts 0 (item.tokens ++ Token.EndElement e :: more))
    with ⟨h1, _⟩ | ⟨earlier2, attrs2, h1, h2⟩
  · unfold acceptedEnclosures at h
    rw [h1] at h
    exact absurd h (by simp)
  · unfold acceptedEnclosures at h
    rw [h1] at h
    have := List.append_inj_right' h rfl
    rw [h2]
    simp only [List.cons.injEq, and_true] at this
    rw [this]

/-- C8, amended: with fuel for every token of the item, `ParseItem` returns,
and when it has emitted an episode the item has at least one accepted
`enclosure` child and the episode URL is built from the `url` attribute of the
last accepted one in document order. For an item given as an element tree in
which the children read as text hold no child element, and whose accepted
`enclosure` children end with one of attributes `attrs`: when the URL built
from the `url` attribute of `attrs` is not empty, `ParseItem` returns on the
end element of the item with exactly one episode appended, whose URL is that
URL; when it is empty, `ParseItem` returns the podcast unchanged. -/
theorem ParseItem_last_enclosure (Q : Env) :
    (∀ (fuel : Nat) (cur : Token) (content : List Token) (clock : Nat) (ret : Podcast),
        content.length + 2 ≤ fuel →
        ∃ r2 clock2 ret2,
          ParseItem Q fuel { cur := cur, rest := content } clock ret = some (r2, clock2, ret2)
          ∧ (ret2 = ret
            ∨ ∃ earlier attrs e, acceptedEnclosures Q content = earlier ++ [attrs]
              ∧ ret2 = { ret with episodes := ret.episodes ++ [e] }
              ∧ e.url = Q.fromEncoded (attributeValue attrs "url")))
      ∧ (∀ (item : Forest) (fuel : Nat) (cur : Token) (endName : String) (rest : List Token)
          (clock : Nat) (ret : Podcast) (earlier : List (List (String × String)))
          (attrs : List (String × String)),
          cur.atEnd = false → item.tokens.length < fuel → itemOk item = true →
          acceptedEnclosures Q (item.tokens ++ Token.EndElement endName :: rest)
            = earlier ++ [attrs] →
          Q.urlIsEmpty (Q.fromEncoded (attributeValue attrs "url")) = false →
          ∃ clock2 e,
            ParseItem Q fuel
                { cur := cur, rest := item.tokens ++ Token.EndElement endName :: rest }
                clock ret
              = some ({ cur := Token.EndElement endName, rest := rest }, clock2,
                  { ret with episodes := ret.episodes ++ [e] })
            ∧ e.url = Q.fromEncoded (attributeValue attrs "url"))
      ∧ (∀ (item : Forest) (fuel : Nat) (cur : Token) (endName : String) (rest : List Token)
          (clock : Nat) (ret : Podcast) (earlier : List (List (String × String)))
          (attrs : List (String × String)),
          cur.atEnd = false → item.tokens.length < fuel → itemOk item = true →
          acceptedEnclosures Q (item.tokens ++ Token.EndElement endName :: rest)
            = earlier ++ [attrs] →
          Q.urlIsEmpty (Q.fromEncoded (attributeValue attrs "url")) = true →
          ∃ clock2,
            ParseItem Q fuel
                { cur := cur, rest := item.tokens ++ Token.EndElement endName :: rest }
                clock ret
              = some ({ cur := Token.EndElement endName, rest := rest }, clock2, ret)) := by
  refine ⟨?_, ?_, ?_⟩
  · intro fuel cur content clock ret hf
    obtain ⟨⟨r2, clock2, ret2⟩, h⟩ :=
      ParseItemLoop_total Q fuel { cur := cur, rest := content } clock {} ret hf
    refine ⟨r2, clock2, ret2, h, ?_⟩
    rcases ParseItemLoop_url Q _ _ _ _ _ _ _ _ h with h1 | ⟨e, h1, h2, h3⟩
    · exact Or.inl h1
    · rcases foldl_enclosureUrlStep Q ({} : PodcastEpisode).url (childStarts 0 content)
        with ⟨_, h5⟩ | ⟨earlier, attrs, h4, h5⟩
      · exfalso
        rw [show ({ cur := cur, rest := content } : Reader).rest = content from rfl, h5] at h3
        rw [h3] at h1
        exact absurd Q.urlIsEmpty_default (by rw [show ({} : PodcastEpisode).url
          = { encoded := "" } from rfl] at h1; simp [h1])
      · exact Or.inr ⟨earlier, attrs, e, h4, h2, by rw [h3]; exact h5⟩
  · intro item fuel cur endName rest clock ret earlier attrs hc hf hok hacc hurl
    have hres := resolvedUrl_last_accepted Q item endName rest earlier attrs hacc
    obtain ⟨c2, h⟩ := ParseItem_forest Q item fuel cur endName rest clock ret hc hf hok
    rw [hres, if_neg (by simp [hurl])] at h
    refine ⟨c2, itemEpisode Q item clock, h, ?_⟩
    show (itemOf Q item {}).url = _
    rw [itemOf_url]
    exact hres
  · intro item fuel cur endName rest clock ret earlier attrs hc hf hok hacc hurl
    have hres := resolvedUrl_last_accepted Q item endName rest earlier attrs hacc
    obtain ⟨c2, h⟩ := ParseItem_forest Q item fuel cur endName rest clock ret hc hf hok
    rw [hres, if_pos hurl] at h
    exact ⟨c2, h⟩

/-- Witness for C8, amended: the item with two audio enclosures yields one
episode, with the URL of the second enclosure. -/
theorem ParseItem_last_enclosure_witness :
    sampleTwoEnclosureForest.tokens ++ Token.EndElement "item" :: [] = sampleTwoEnclosureItem
      ∧ ∃ clock2 e,
        ParseItem testEnv 10
            { cur := Token.StartElement "item" "" [],
              rest := sampleTwoEnclosureForest.tokens ++ Token.EndElement "item" :: [] } 0 {}
          = some ({ cur := Token.EndElement "item", rest := [] }, clock2,
              { ({} : Podcast) with episodes := ({} : Podcast).episodes ++ [e] })
        ∧ e.url = testEnv.fromEncoded
            (attributeValue [("type", "audio/mpeg"), ("url", "http://x/second.mp3")] "url") :=
  ⟨rfl, (ParseItem_last_enclosure testEnv).2.1 sampleTwoEnclosureForest 10
    (Token.StartElement "item" "" []) "item" [] 0 {}
    [[("type", "audio/mpeg"), ("url", "http://x/first.mp3")]]
    [("type", "audio/mpeg"), ("url", "http://x/second.mp3")]
    rfl (by decide) rfl (by decide) rfl⟩

/-! ### The collapsed root, tied to the document -/

theorem Load_opml_root (Q : Env) (tokens : List Token) (url : QUrl) (c : OpmlContainer)
    (h : Load Q tokens url = some (.opml c)) :
    ∃ (pre : List Token) (ns : String) (attrs : List (String × String)) (mid : List Token)
      (ns2 : String) (attrs2 : List (String × String)) (post : List Token) (r2 : Reader)
      (root : OpmlContainer),
      tokens = pre ++ Token.StartElement "opml" ns attrs
          :: (mid ++ Token.StartElement "body" ns2 attrs2 :: post)
        ∧ plainTokens pre ∧ tokensBefore "body" mid
        ∧ ParseOutline Q (mid.length + post.length + 3)
            { cur := Token.StartElement "body" ns2 attrs2, rest := post } OpmlContainer.empty
          = some (r2, root)
        ∧ c = (collapseTop root).setUrl url := by
  obtain ⟨pre, ns, attrs, mid, ns2, attrs2, post, ht, hpre, hmid⟩ :=
    (Load_opml_iff Q url tokens).1 ⟨c, h⟩
  obtain ⟨r2, root, hparse, _⟩ := ParseOutline_total Q (mid.length + post.length + 3)
    { cur := Token.StartElement "body" ns2 attrs2, rest := post } OpmlContainer.empty
    (by
      rw [remaining_of_not_atEnd { cur := Token.StartElement "body" ns2 attrs2, rest := post }
        rfl]
      simp
      omega)
  have hload := Load_reaches_body Q url pre ns attrs mid ns2 attrs2 post hpre hmid r2 root hparse
  rw [← ht, h] at hload
  refine ⟨pre, ns, attrs, mid, ns2, attrs2, post, r2, root, ht, hpre, hmid, hparse, ?_⟩
  injection hload with h1
  injection h1

/-- C14: when `Load` returns a container `c` for a token stream, the stream is
a prolog, the `opml` start element, tokens without a `body` start element, the
`body` start element and the rest; `ParseOutline`, entered on that `body`
element with an empty container, returns a root; `c` is, up to the stamped
URL, the container number `k` on the chain from that root through the first
child containers; every container before it on the chain has zero feeds and
exactly one child container, and `c` has not. A body whose outlines give no
feed and one folder with exactly two feeds and no sub-folder yields a root
with those two feeds, in order, and no child container. -/
theorem Load_opml_collapsed (Q : Env) :
    (∀ (tokens : List Token) (url : QUrl) (c : OpmlContainer),
        Load Q tokens url = some (.opml c) →
        c.isWrapper = false
          ∧ ∃ (pre : List Token) (ns : String) (attrs : List (String × String))
              (mid : List Token) (ns2 : String) (attrs2 : List (String × String))
              (post : List Token) (r2 : Reader) (root : OpmlContainer) (k : Nat),
              tokens = pre ++ Token.StartElement "opml" ns attrs
                  :: (mid ++ Token.StartElement "body" ns2 attrs2 :: post)
              ∧ plainTokens pre ∧ tokensBefore "body" mid
              ∧ ParseOutline Q (mid.length + post.length + 3)
                  { cur := Token.StartElement "body" ns2 attrs2, rest := post }
                  OpmlContainer.empty
                = some (r2, root)
              ∧ c = (root.descend k).setUrl url
              ∧ (root.descend k).isWrapper = false
              ∧ ∀ j, j < k → (root.descend j).isWrapper = true)
      ∧ (∀ (url : QUrl) (prolog : List Token) (rootNs : String)
          (rootAttrs : List (String × String)) (beforeBody : List Token) (bodyNs : String)
          (bodyAttrs : List (String × String)) (body : Forest) (epilog : List Token)
          (folder : String) (folderUrl : QUrl) (f1 f2 : Podcast),
          plainTokens prolog → tokensBefore "body" beforeBody →
          outlineFeeds Q body = [] →
          outlineContainers Q body = [.mk folder folderUrl [f1, f2] []] →
          Load Q (opmlDocument prolog rootNs rootAttrs beforeBody bodyNs bodyAttrs body epilog)
              url
            = some (.opml (.mk folder url [f1, f2] []))) := by
  constructor
  · intro tokens url c h
    obtain ⟨pre, ns, attrs, mid, ns2, attrs2, post, r2, root, ht, hpre, hmid, hparse, hc⟩ :=
      Load_opml_root Q tokens url c h
    obtain ⟨k, h1, h2, h3⟩ := collapseTop_chain (sizeOf root) root (le_refl _)
    refine ⟨?_, pre, ns, attrs, mid, ns2, attrs2, post, r2, root, k, ht, hpre, hmid, hparse,
      ?_, ?_, h2⟩
    · rw [hc, setUrl_isWrapper]; exact h3
    · rw [hc, h1]
    · rw [← h1]; exact h3
  · intro url prolog rootNs rootAttrs beforeBody bodyNs bodyAttrs body epilog folder folderUrl
      f1 f2 hpro hbefore hfeeds hcont
    rw [Load_opmlDocument Q url prolog rootNs rootAttrs beforeBody bodyNs bodyAttrs body epilog
      hpro hbefore, hfeeds, hcont, collapseTop_wrapper,
      collapseTop_other _ (by simp [OpmlContainer.isWrapper, OpmlContainer.feeds,
        OpmlContainer.containers])]
    rfl

/-- Witness for C14: a body with one folder outline around two feed outlines. -/
theorem Load_opml_collapsed_witness :
    (sampleOpmlResult.isWrapper = false
        ∧ ∃ (pre : List Token) (ns : String) (attrs : List (String × String))
            (mid : List Token) (ns2 : String) (attrs2 : List (String × String))
            (post : List Token) (r2 : Reader) (root : OpmlContainer) (k : Nat),
            sampleOpmlDocument = pre ++ Token.StartElement "opml" ns attrs
                :: (mid ++ Token.StartElement "body" ns2 attrs2 :: post)
            ∧ plainTokens pre ∧ tokensBefore "body" mid
            ∧ ParseOutline testEnv (mid.length + post.length + 3)
                { cur := Token.StartElement "body" ns2 attrs2, rest := post }
                OpmlContainer.empty
              = some (r2, root)
            ∧ sampleOpmlResult = (root.descend k).setUrl { encoded := "u" }
            ∧ (root.descend k).isWrapper = false
            ∧ ∀ j, j < k → (root.descend j).isWrapper = true)
      ∧ Load testEnv sampleOpmlDocument { encoded := "u" } = some (.opml sampleOpmlResult) :=
  ⟨(Load_opml_collapsed testEnv).1 sampleOpmlDocument { encoded := "u" } sampleOpmlResult rfl,
    (Load_opml_collapsed testEnv).2 { encoded := "u" } [Token.StartDocument] ""
      [("version", "1.0")] [Token.StartElement "head" "" [], Token.EndElement "head"] "" []
      sampleOpmlBody [Token.EndElement "opml", Token.EndDocument] "News" { encoded := "" }
      { title := "One", url := { encoded := "http://x/one" } }
      { title := "Two", url := { encoded := "http://x/two" } }
      (by intro t ht; simp at ht; subst ht; exact ⟨rfl, rfl⟩)
      (by
        intro t ht
        simp at ht
        rcases ht with rfl | rfl
        · exact ⟨rfl, rfl⟩
        · exact ⟨rfl, rfl⟩)
      rfl rfl⟩

/-! ### Text elements that hold a child element -/

/-- Counterexample for C13, in two parts. First: the channel has a direct child
`title` with the text `A` and no nested element, and the title of the podcast
is `B`, the text of the later child of the same local name in the iTunes
namespace. Second: the channel has a direct child `title` with the text `Show`
and no nested element, and no later child of that local name, and the title of
the podcast is empty: the `description` in front of it holds a child element,
at which reading its text raises an error that ends the loop of
`ParseChannel`. -/
theorem channel_title_counterexample :
    (sampleTwoTitlesChannel
        = .element "title" "" [] (.leaf (.characters "A") .nil)
            (.element "title" kItunesNamespace [] (.leaf (.characters "B") .nil) .nil)
      ∧ channelOk sampleTwoTitlesChannel = true
      ∧ Load testEnv (rssDocument [] "" [] [] "" [] sampleTwoTitlesChannel [])
            { encoded := "u" }
          = some (.podcast { title := "B", url := { encoded := "u" } }))
      ∧ (sampleNestedThenTitle
          = .element "description" "" []
              (.leaf (.characters "Hello ")
                (.element "b" "" [] (.leaf (.characters "world") .nil) .nil))
              (.element "title" "" [] (.leaf (.characters "Show") .nil) .nil)
        ∧ lastText "title" sampleNestedThenTitle = some "Show"
        ∧ Load testEnv (rssDocument [] "" [] [] "" [] sampleNestedThenTitle [])
              { encoded := "u" }
            = some (.podcast { title := "", description := "Hello ",
                               url := { encoded := "u" } })) :=
  ⟨⟨rfl, rfl, rfl⟩, rfl, rfl, rfl⟩

/-- Counterexample for C17: the channel holds one item, with an audio
enclosure, so one item whose resolved URL is not empty; the podcast `Load`
returns has no episode, because the `description` in front of the item holds a
child element, at which reading its text raises an error that ends the loop of
`ParseChannel` before the item is reached. -/
theorem episodes_in_document_order_counterexample :
    sampleNestedThenItem
        = .element "description" "" []
            (.leaf (.characters "Hello ")
              (.element "b" "" [] (.leaf (.characters "world") .nil) .nil))
            (.element "item" "" []
              (.element "enclosure" "" [("type", "audio/mpeg"), ("url", "http://x/a.mp3")]
                .nil .nil)
              .nil)
      ∧ keptItems testEnv sampleNestedThenItem = [sampleItemHead]
      ∧ resolvedUrl testEnv sampleItemHead { encoded := "" } = { encoded := "http://x/a.mp3" }
      ∧ Load testEnv (rssDocument [] "" [] [] "" [] sampleNestedThenItem []) { encoded := "u" }
          = some (.podcast { description := "Hello ", url := { encoded := "u" },
                             episodes := [] }) :=
  ⟨rfl, rfl, rfl, rfl⟩

/-- Counterexample for C23, in two parts. First: a channel whose first self
link is the usual empty element and whose second self link holds an address as
text; called on a podcast with empty URL, `ParseChannel` leaves the URL of the
second link, not the value of the first. Second: a channel whose only self
link holds an address as text, behind a `description` that holds a child
element; called on a podcast with empty URL, `ParseChannel` stops at that child
element and leaves the URL empty. -/
theorem first_self_link_counterexample :
    (sampleTwoSelfLinks
        = .element "link" "http://www.w3.org/2005/Atom"
            [("rel", "self"), ("href", "http://x/feed")] .nil
            (.element "link" "http://www.w3.org/2005/Atom" [("rel", "self")]
              (.leaf (.characters "http://self/feed") .nil) .nil)
      ∧ isSelfLink "link" "http://www.w3.org/2005/Atom"
          [("rel", "self"), ("href", "http://x/feed")]
      ∧ testEnv.urlIsEmpty ({} : Podcast).url = true
      ∧ ParseChannel testEnv 9
          { cur := Token.StartElement "channel" "" [],
            rest := sampleTwoSelfLinks.tokens ++ [Token.EndElement "channel"] } 0 {}
        = some ({ cur := Token.EndElement "channel", rest := [] }, 0,
            { url := { encoded := "http://self/feed" } })
      ∧ ({ encoded := "http://self/feed" } : QUrl)
          ≠ testEnv.fromEncoded (Forest.nil).text)
      ∧ (sampleNestedThenSelfLink
          = .element "description" "" []
              (.leaf (.characters "Hello ")
                (.element "b" "" [] (.leaf (.characters "world") .nil) .nil))
              (.element "link" "http://www.w3.org/2005/Atom" [("rel", "self")]
                (.leaf (.characters "http://self/feed") .nil) .nil)
        ∧ firstSelfLink testEnv sampleNestedThenSelfLink = some { encoded := "http://self/feed" }
        ∧ ParseChannel testEnv 12
            { cur := Token.StartElement "channel" "" [],
              rest := sampleNestedThenSelfLink.tokens ++ [Token.EndElement "channel"] } 0 {}
          = some ({ cur := Token.Invalid,
                    rest := [Token.Characters "world", Token.EndElement "b",
                      Token.EndElement "description",
                      Token.StartElement "link" "http://www.w3.org/2005/Atom" [("rel", "self")],
                      Token.Characters "http://self/feed", Token.EndElement "link",
                      Token.EndElement "channel"] }, 0,
              { description := "Hello ", url := { encoded := "" } })) :=
  ⟨⟨rfl, by decide, rfl, rfl, by decide⟩, rfl, rfl, rfl⟩

/-- Counterexample for C26: the channel has two direct children with the local
name `title`, the last with the text `B`; between them a `copyright` holds a
child element, at which reading its text raises an error that ends the loop of
`ParseChannel`, and the title of the podcast is `A`, the text of the first. -/
theorem last_title_counterexample :
    sampleTitleNestedTitle
        = .element "title" "" [] (.leaf (.characters "A") .nil)
            (.element "copyright" "" []
              (.leaf (.characters "x") (.element "b" "" [] .nil .nil))
              (.element "title" kItunesNamespace [] (.leaf (.characters "B") .nil) .nil))
      ∧ lastText "title" sampleTitleNestedTitle = some "B"
      ∧ ParseChannel testEnv 12
          { cur := Token.StartElement "channel" "" [],
            rest := sampleTitleNestedTitle.tokens ++ [Token.EndElement "channel"] } 0 {}
        = some ({ cur := Token.Invalid,
                  rest := [Token.EndElement "b", Token.EndElement "copyright",
                    Token.StartElement "title" "http://www.itunes.com/dtds/podcast-1.0.dtd" [],
                    Token.Characters "B", Token.EndElement "title",
                    Token.EndElement "channel"] }, 0,
            { title := "A", copyright := "x" })
      ∧ Load testEnv (rssDocument [] "" [] [] "" [] sampleTitleNestedTitle []) { encoded := "u" }
          = some (.podcast { title := "A", copyright := "x", url := { encoded := "u" } }) :=
  ⟨rfl, rfl, rfl, rfl⟩

/-- C26, amended: the title and description branches look at the local name
only and assign at every such child. On the content of a channel in which the
elements read as text hold no child element, `ParseChannel` returns a podcast
whose title is the text of the last direct child with the local name `title`,
whatever its namespace, and the title it was given when there is none;
likewise for `description`. On the content of an item in which the elements
read as text hold no child element, `ParseItem` returns the podcast unchanged
when the item resolves to no URL, and otherwise with one episode appended,
whose title and description are the texts of the last direct children with
those local names. The last child of a name is the one no later child has the
name of, in any namespace. -/
theorem last_title_and_description (Q : Env) :
    (∀ (cs : Forest) (fuel : Nat) (cur : Token) (endName : String) (rest : List Token)
        (clock : Nat) (ret : Podcast),
        cur.atEnd = false → cs.tokens.length < fuel → channelOk cs = true →
        ∃ clock2 ret2,
          ParseChannel Q fuel
              { cur := cur, rest := cs.tokens ++ Token.EndElement endName :: rest } clock ret
            = some ({ cur := Token.EndElement endName, rest := rest }, clock2, ret2)
          ∧ ret2.title = (lastText "title" cs).getD ret.title
          ∧ ret2.description = (lastText "description" cs).getD ret.description)
      ∧ (∀ (item : Forest) (fuel : Nat) (cur : Token) (endName : String) (rest : List Token)
          (clock : Nat) (ret : Podcast),
          cur.atEnd = false → item.tokens.length < fuel → itemOk item = true →
          ∃ clock2 e,
            ParseItem Q fuel
                { cur := cur, rest := item.tokens ++ Token.EndElement endName :: rest }
                clock ret
              = some ({ cur := Token.EndElement endName, rest := rest }, clock2,
                  if Q.urlIsEmpty (resolvedUrl Q item { encoded := "" }) then ret
                  else { ret with episodes := ret.episodes ++ [e] })
            ∧ e.title = (lastText "title" item).getD ""
            ∧ e.description = (lastText "description" item).getD "")
      ∧ (∀ (name : String) (before after : Forest) (ns : String)
          (attrs : List (String × String)) (content : Forest),
          lastText name after = none →
          lastText name (before.append (.element name ns attrs content after))
            = some content.text) := by
  refine ⟨?_, ?_, lastText_last⟩
  · intro cs fuel cur endName rest clock ret hc hf hok
    exact ⟨_, _, ParseChannel_forest Q cs fuel cur endName rest clock ret hc hf hok,
      channelOf_title Q cs clock ret, channelOf_description Q cs clock ret⟩
  · intro item fuel cur endName rest clock ret hc hf hok
    obtain ⟨c2, h⟩ := ParseItem_forest Q item fuel cur endName rest clock ret hc hf hok
    exact ⟨c2, itemEpisode Q item clock, h, itemOf_title Q item {},
      itemOf_description Q item {}⟩

/-- Witness for C26: a channel whose `title` child is followed by a child of
the same local name in the iTunes namespace, and an item with a title and two
audio enclosures. -/
theorem last_title_and_description_witness :
    (∃ clock2 ret2,
        ParseChannel testEnv 9
            { cur := Token.StartElement "channel" "" [],
              rest := sampleTwoTitlesChannel.tokens ++ Token.EndElement "channel" :: [] } 0 {}
          = some ({ cur := Token.EndElement "channel", rest := [] }, clock2, ret2)
        ∧ ret2.title = (lastText "title" sampleTwoTitlesChannel).getD ({} : Podcast).title
        ∧ ret2.description
          = (lastText "description" sampleTwoTitlesChannel).getD ({} : Podcast).description)
      ∧ (∃ clock2 e,
          ParseItem testEnv 10
              { cur := Token.StartElement "item" "" [],
                rest := sampleTwoEnclosureForest.tokens ++ Token.EndElement "item" :: [] } 0 {}
            = some ({ cur := Token.EndElement "item", rest := [] }, clock2,
                if testEnv.urlIsEmpty (resolvedUrl testEnv sampleTwoEnclosureForest
                    { encoded := "" }) then {}
                else { ({} : Podcast) with episodes := ({} : Podcast).episodes ++ [e] })
          ∧ e.title = (lastText "title" sampleTwoEnclosureForest).getD ""
          ∧ e.description = (lastText "description" sampleTwoEnclosureForest).getD "")
      ∧ lastText "title" sampleTwoTitlesChannel = some "B" :=
  ⟨(last_title_and_description testEnv).1 sampleTwoTitlesChannel 9
      (Token.StartElement "channel" "" []) "channel" [] 0 {} rfl (by decide) rfl,
    (last_title_and_description testEnv).2.1 sampleTwoEnclosureForest 10
      (Token.StartElement "item" "" []) "item" [] 0 {} rfl (by decide) rfl,
    (last_title_and_description testEnv).2.2 "title"
      (.element "title" "" [] (.leaf (.characters "A") .nil) .nil) .nil
      "http://www.itunes.com/dtds/podcast-1.0.dtd" [] (.leaf (.characters "B") .nil) rfl⟩

end PodcastParser
